import Mathlib

/-!
# A shallow embedding of `mm.c` (segregated explicit free-list allocator)

The C program is a 32-bit program: block pointers are stored in 4-byte words
(`PUT(bp, (int)tempCurrent)`), so `size_t`, `unsigned int` and pointers are all
32 bits wide.  Machine integers are natural numbers reduced modulo `2^32`,
`int` values are integers, and the heap is a byte-addressed memory.

Loops whose trip count is not bounded by the code itself (the insertion scan of
`add_free_list`, the forward re-scan of `remove_free_list`) take an explicit
fuel argument; `none` means the fuel ran out before the loop ended.
-/

/-! ## Machine arithmetic -/

/-- Modulus of the 32-bit unsigned type. -/
def W32 : Nat := 4294967296

/-- Unsigned 32-bit addition. -/
def add32 (a b : Nat) : Nat := (a + b) % W32

/-- Unsigned 32-bit subtraction. -/
def sub32 (a b : Nat) : Nat := (a % W32 + W32 - b % W32) % W32

/-- Unsigned 32-bit multiplication. -/
def mul32 (a b : Nat) : Nat := (a * b) % W32

/-- Conversion of a 32-bit pattern to `int`. -/
def toInt32 (v : Nat) : Int :=
  if v % W32 < 2147483648 then ((v % W32 : Nat) : Int) else ((v % W32 : Nat) : Int) - 4294967296

/-- Address `p + i` for a pointer `p` and a signed byte offset `i`. -/
def ptrOff (p : Nat) (i : Int) : Nat := (((p : Int) + i) % 4294967296).toNat

/-! ## Constants of the source -/

def WSIZE : Nat := 4
def DSIZE : Nat := 8
def CHUNKSIZE : Nat := 4096

/-- `MAX(x, y)` on unsigned values. -/
def MAX (x y : Nat) : Nat := if x > y then x else y

/-- `PACK(size, alloc)`. -/
def PACK (size alloc : Nat) : Nat := size ||| alloc

/-! ## Memory and allocator state -/

/-- Byte-addressed memory. -/
abbrev Mem := Nat → Nat

/-- `GET(p)`: little-endian 32-bit load. -/
def GET (m : Mem) (p : Nat) : Nat :=
  m p % 256 + 256 * (m (p + 1) % 256) + 65536 * (m (p + 2) % 256) + 16777216 * (m (p + 3) % 256)

/-- `PUT(p, val)`: little-endian 32-bit store of `val` truncated to 32 bits. -/
def PUT (m : Mem) (p : Nat) (val : Nat) : Mem := fun a =>
  if a = p then val % 256
  else if a = p + 1 then val / 256 % 256
  else if a = p + 2 then val / 65536 % 256
  else if a = p + 3 then val / 16777216 % 256
  else m a

/-- `GET_SIZE(p)`, that is `GET(p) & ~0x7`. -/
def GET_SIZE (m : Mem) (p : Nat) : Nat := GET m p &&& 4294967288

/-- `GET_ALLOC(p)`, that is `GET(p) & 0x1`. -/
def GET_ALLOC (m : Mem) (p : Nat) : Nat := GET m p &&& 1

/-- `HDRP(bp)`. -/
def HDRP (bp : Nat) : Nat := sub32 bp WSIZE

/-- `FTRP(bp)`. -/
def FTRP (m : Mem) (bp : Nat) : Nat := sub32 (add32 bp (GET_SIZE m (HDRP bp))) DSIZE

/-- `NEXT_BLKP(bp)`. -/
def NEXT_BLKP (m : Mem) (bp : Nat) : Nat := add32 bp (GET_SIZE m (sub32 bp WSIZE))

/-- `PREV_BLKP(bp)`. -/
def PREV_BLKP (m : Mem) (bp : Nat) : Nat := sub32 bp (GET_SIZE m (sub32 bp DSIZE))

/-- `memcpy(dst, src, n)`: the `n` bytes at `src` (as they were before the call)
    appear at `dst`.  For `dst < src` this is what a forward byte copy gives. -/
def memcpy (m : Mem) (dst src n : Nat) : Mem := fun a =>
  if dst ≤ a ∧ a < dst + n then m (src + (a - dst)) else m a

/-- Allocator state: the arena (memory, its start `base`, the number `brk` of
    bytes handed out so far, its capacity `cap`) and the globals of `mm.c`. -/
structure Heap where
  mem : Mem
  base : Nat
  brk : Nat
  cap : Nat
  heap_listp : Nat
  minList : Int
  numFree : Int

/-- Modelled from the spec: the arena provider `mem_sbrk` (memlib is not part of
    the sources).  "Extend by N bytes, return new region start or failure": the
    new region starts at the previous end of the arena; the request fails, with
    the pointer `(void *)-1`, when the arena would exceed its capacity. -/
def mem_sbrk (h : Heap) (incr : Nat) : Nat × Heap :=
  if h.brk + incr ≤ h.cap then (h.base + h.brk, { h with brk := h.brk + incr })
  else (4294967295, h)

/-- Address of the head slot of bucket `i`: `heap_listp + (i * WSIZE)`. -/
def slot (h : Heap) (i : Int) : Nat := ptrOff h.heap_listp (i * 4)

/-- Bucket of a block size: `int size; size / 50`, clamped to 83. -/
def bucketOf (size : Nat) : Int :=
  let l := Int.tdiv (toInt32 size) 50
  if l > 83 then 83 else l

/-! ## Free-list index -/

/-- The forward re-scan of `remove_free_list`:
    `for (i = minListLocal; GET(heap_listp+(i * WSIZE)) == 0; i++) minList = i;` -/
def rescan (h : Heap) : Nat → Int → Int → Option Int
  | 0, _, _ => none
  | fuel + 1, i, ml =>
    if GET h.mem (slot h i) = 0 then rescan h fuel (i + 1) i else some ml

/-- `remove_free_list(bp)`. -/
def remove_free_list (fuel : Nat) (h : Heap) (bp : Nat) : Option Heap :=
  let h := { h with numFree := h.numFree - 1 }
  let size := GET_SIZE h.mem (HDRP bp)
  let minListLocal := bucketOf size
  let prev := GET h.mem bp
  let next := GET h.mem (add32 bp WSIZE)
  if prev = 0 ∧ next = 0 then
    let h := { h with mem := PUT h.mem (slot h minListLocal) 0 }
    if h.minList = minListLocal then
      if h.numFree > 0 then
        (rescan h fuel minListLocal h.minList).map (fun ml => { h with minList := ml })
      else some { h with minList := 100 }
    else some h
  else if prev = 0 ∧ next ≠ 0 then
    let h := { h with mem := PUT h.mem (slot h minListLocal) next }
    some { h with mem := PUT h.mem next 0 }
  else if prev ≠ 0 ∧ next = 0 then
    some { h with mem := PUT h.mem (add32 prev WSIZE) 0 }
  else
    let h := { h with mem := PUT h.mem (add32 prev WSIZE) next }
    some { h with mem := PUT h.mem next prev }

/-- The insertion scan of `add_free_list`; returns the final `tempPrev`. -/
def add_scan (m : Mem) (size : Nat) : Nat → Nat → Nat → Option Nat
  | 0, _, _ => none
  | fuel + 1, tempCurrent, tempPrev =>
    if tempCurrent ≠ 0 ∧ GET_SIZE m (HDRP tempCurrent) < size then
      add_scan m size fuel (GET m (add32 tempCurrent WSIZE)) tempCurrent
    else some tempPrev

/-- `add_free_list(bp)`. -/
def add_free_list (fuel : Nat) (h : Heap) (bp : Nat) : Option Heap :=
  let h := { h with numFree := h.numFree + 1 }
  let size := GET_SIZE h.mem (HDRP bp)
  let minListLocal := bucketOf size
  let h := if h.minList > minListLocal ∨ h.minList = 100 then
      { h with minList := minListLocal } else h
  let tempCurrent := GET h.mem (slot h minListLocal)
  if tempCurrent = 0 then
    let m := PUT h.mem (slot h minListLocal) bp
    let m := PUT m bp 0
    some { h with mem := PUT m (add32 bp WSIZE) 0 }
  else
    (add_scan h.mem size fuel tempCurrent tempCurrent).map (fun tempCurrent =>
      let tempNext := GET h.mem (add32 tempCurrent WSIZE)
      let m := PUT h.mem (add32 tempCurrent WSIZE) bp
      let m := if tempNext ≠ 0 then PUT m tempNext bp else m
      let m := PUT m bp tempCurrent
      { h with mem := PUT m (add32 bp WSIZE) tempNext })

/-- The inner loop of `find_fit` over one bucket list, at most `n` entries;
    `0` when no entry fits. -/
def fit_scan (m : Mem) (size : Nat) : Nat → Nat → Nat
  | 0, _ => 0
  | n + 1, bp =>
    if bp ≠ 0 ∧ GET_SIZE m (HDRP bp) > 0 then
      if GET_ALLOC m (HDRP bp) = 0 ∧ size ≤ GET_SIZE m (HDRP bp) then bp
      else fit_scan m size n (GET m (add32 bp WSIZE))
    else 0

/-- The outer loop of `find_fit`: buckets `minListLocal, ..., 83`. -/
def fit_buckets (h : Heap) (size : Nat) : Nat → Int → Nat
  | 0, _ => 0
  | n + 1, minListLocal =>
    let r := fit_scan h.mem size 250 (GET h.mem (slot h minListLocal))
    if r ≠ 0 then r else fit_buckets h size n (minListLocal + 1)

/-- `find_fit(size)`; `0` is `NULL`. -/
def find_fit (h : Heap) (size : Nat) : Nat :=
  if h.numFree = 0 then 0
  else
    let minListLocal := toInt32 (size / 50)
    let minListLocal :=
      if minListLocal < h.minList then h.minList
      else if minListLocal > 83 then 83 else minListLocal
    fit_buckets h size (84 - minListLocal).toNat minListLocal

/-! ## Coalescing, placement, arena growth -/

/-- `coalesce(bp)`; returns the address of the resulting free block. -/
def coalesce (fuel : Nat) (h : Heap) (bp : Nat) : Option (Nat × Heap) :=
  let prevAlloc := GET_ALLOC h.mem (FTRP h.mem (PREV_BLKP h.mem bp))
  let nextAlloc := GET_ALLOC h.mem (HDRP (NEXT_BLKP h.mem bp))
  let size := GET_SIZE h.mem (HDRP bp)
  if prevAlloc = 0 ∧ nextAlloc = 0 then
    (remove_free_list fuel h (PREV_BLKP h.mem bp)).bind fun h =>
    (remove_free_list fuel h (NEXT_BLKP h.mem bp)).bind fun h =>
    let size := add32 size (add32 (GET_SIZE h.mem (HDRP (PREV_BLKP h.mem bp)))
      (GET_SIZE h.mem (FTRP h.mem (NEXT_BLKP h.mem bp))))
    let h := { h with mem := PUT h.mem (HDRP (PREV_BLKP h.mem bp)) (PACK size 0) }
    let h := { h with mem := PUT h.mem (FTRP h.mem (PREV_BLKP h.mem bp)) (PACK size 0) }
    let bp := PREV_BLKP h.mem bp
    (add_free_list fuel h bp).map fun h => (bp, h)
  else if prevAlloc = 0 ∧ nextAlloc ≠ 0 then
    (remove_free_list fuel h (PREV_BLKP h.mem bp)).bind fun h =>
    let size := add32 size (GET_SIZE h.mem (HDRP (PREV_BLKP h.mem bp)))
    let h := { h with mem := PUT h.mem (HDRP (PREV_BLKP h.mem bp)) (PACK size 0) }
    let h := { h with mem := PUT h.mem (FTRP h.mem (PREV_BLKP h.mem bp)) (PACK size 0) }
    let bp := PREV_BLKP h.mem bp
    (add_free_list fuel h bp).map fun h => (bp, h)
  else if prevAlloc ≠ 0 ∧ nextAlloc = 0 then
    (remove_free_list fuel h (NEXT_BLKP h.mem bp)).bind fun h =>
    let size := add32 size (GET_SIZE h.mem (HDRP (NEXT_BLKP h.mem bp)))
    let h := { h with mem := PUT h.mem (HDRP bp) (PACK size 0) }
    let h := { h with mem := PUT h.mem (FTRP h.mem bp) (PACK size 0) }
    (add_free_list fuel h bp).map fun h => (bp, h)
  else
    (add_free_list fuel h bp).map fun h => (bp, h)

/-- `extend_heap(words)`; the pointer `0` is `NULL`. -/
def extend_heap (fuel : Nat) (h : Heap) (words : Nat) : Option (Nat × Heap) :=
  let size := if words % 2 ≠ 0 then mul32 (add32 words 1) WSIZE else mul32 words WSIZE
  let r := mem_sbrk h size
  let bp := r.1
  let h := r.2
  if bp = 4294967295 then some (0, h)
  else
    let h := { h with mem := PUT h.mem (HDRP bp) (PACK size 0) }
    let h := { h with mem := PUT h.mem (FTRP h.mem bp) (PACK size 0) }
    let h := { h with mem := PUT h.mem (HDRP (NEXT_BLKP h.mem bp)) (PACK 0 1) }
    coalesce fuel h bp

/-- `place(bp, size)`. -/
def place (fuel : Nat) (h : Heap) (bp size : Nat) : Option Heap :=
  let currentSize := GET_SIZE h.mem (HDRP bp)
  if sub32 currentSize size ≥ 2 * DSIZE then
    (remove_free_list fuel h bp).bind fun h =>
    let h := { h with mem := PUT h.mem (HDRP bp) (PACK size 1) }
    let h := { h with mem := PUT h.mem (FTRP h.mem bp) (PACK size 1) }
    let nextBP := NEXT_BLKP h.mem bp
    let h := { h with mem := PUT h.mem (HDRP nextBP) (PACK (sub32 currentSize size) 0) }
    let h := { h with mem := PUT h.mem (FTRP h.mem nextBP) (PACK (sub32 currentSize size) 0) }
    add_free_list fuel h nextBP
  else
    let h := { h with mem := PUT h.mem (HDRP bp) (PACK currentSize 1) }
    let h := { h with mem := PUT h.mem (FTRP h.mem bp) (PACK currentSize 1) }
    remove_free_list fuel h bp

/-! ## The public operations -/

/-- The loop `for(i = 2; i < 86; i++) PUT(heap_listp + (i*WSIZE), 0);` of `mm_init`,
    `n` iterations starting at `i`. -/
def init_slots (m : Mem) (p : Nat) : Nat → Nat → Mem
  | 0, _ => m
  | n + 1, i => init_slots (PUT m (add32 p (i * WSIZE)) 0) p n (i + 1)

/-- `mm_init()`; the result is the return code (`0` or `-1`) and the new state. -/
def mm_init (fuel : Nat) (h : Heap) : Option (Int × Heap) :=
  let r := mem_sbrk h (88 * WSIZE)
  let h := { r.2 with heap_listp := r.1 }
  if h.heap_listp = 4294967295 then some (-1, h)
  else
    let h := { h with minList := 100, numFree := 0 }
    let p := h.heap_listp
    let m := PUT h.mem p 0
    let m := PUT m (add32 p (1 * WSIZE)) (PACK (43 * DSIZE) 1)
    let m := init_slots m p 84 2
    let m := PUT m (add32 p (87 * WSIZE)) (PACK 0 1)
    let m := PUT m (add32 p (86 * WSIZE)) (PACK (43 * DSIZE) 1)
    let h := { h with mem := m, heap_listp := add32 p (2 * WSIZE) }
    (extend_heap fuel h (CHUNKSIZE / WSIZE)).map fun r =>
      if r.1 = 0 then (-1, r.2) else (0, r.2)

/-- The adjusted block size computed by `mm_malloc` and `mm_realloc`. -/
def adjust (size : Nat) : Nat :=
  if size ≤ DSIZE then 2 * DSIZE
  else mul32 DSIZE (add32 (add32 size DSIZE) (DSIZE - 1) / DSIZE)

/-- `mm_malloc(size)`; the pointer `0` is `NULL`. -/
def mm_malloc (fuel : Nat) (h : Heap) (size : Nat) : Option (Nat × Heap) :=
  if size = 0 then some (0, h)
  else
    let adjSize := adjust size
    let bp := find_fit h adjSize
    if bp ≠ 0 then
      (place fuel h bp adjSize).map fun h => (bp, h)
    else
      let extendsize := MAX adjSize CHUNKSIZE
      (extend_heap fuel h (extendsize / WSIZE)).bind fun r =>
        if r.1 = 0 then some (0, r.2)
        else (place fuel r.2 r.1 adjSize).map fun h => (r.1, h)

/-- `mm_free(bp)`. -/
def mm_free (fuel : Nat) (h : Heap) (bp : Nat) : Option Heap :=
  let size := GET_SIZE h.mem (HDRP bp)
  let h := { h with mem := PUT h.mem (HDRP bp) (PACK size 0) }
  let h := { h with mem := PUT h.mem (FTRP h.mem bp) (PACK size 0) }
  (coalesce fuel h bp).map fun r => r.2

/-- The tail shared by the three in-place growth branches of `mm_realloc`, after
    the new header (and payload copy) is in place: write the footer of the block
    at `newptr`, and when `tempSize + oldSize >= size + 2*DSIZE` carve the rest
    into a free block and link it. -/
def realloc_finish (fuel : Nat) (h : Heap) (newptr size tempSize oldSize : Nat) :
    Option (Nat × Heap) :=
  let h := { h with mem := PUT h.mem (FTRP h.mem newptr) (PACK size 1) }
  if add32 tempSize oldSize ≥ add32 size (2 * DSIZE) then
    let temp := NEXT_BLKP h.mem newptr
    let h := { h with mem := PUT h.mem (HDRP temp) (PACK (sub32 (add32 tempSize oldSize) size) 0) }
    let h := { h with mem := PUT h.mem (FTRP h.mem temp) (PACK (sub32 (add32 tempSize oldSize) size) 0) }
    (add_free_list fuel h temp).map fun h => (newptr, h)
  else some (newptr, h)

/-- The size an in-place growth branch of `mm_realloc` commits: the adjusted
    size, or all of `tempSize + oldSize` when the rest could not host a block. -/
def realloc_size (size tempSize oldSize : Nat) : Nat :=
  if add32 tempSize oldSize < add32 (adjust size) (2 * DSIZE) then add32 tempSize oldSize
  else adjust size

/-- `mm_realloc(ptr, size)`; the pointer `0` is `NULL`.

    The memory of this embedding is total.  The reads through `ptr` with which
    the function starts (`PREV_BLKP`, `FTRP`, `NEXT_BLKP`, `HDRP` applied to
    `oldptr`, before `size` and `ptr` are tested) and the `memcpy` to the result
    of the inner `mm_malloc` are therefore ordinary reads and writes here also
    when `ptr`, or that result, is `NULL`: the addresses `2^32 - 8`, `2^32 - 4`
    and `0` they touch lie outside the arena, where the C program faults.  A
    statement about `mm_realloc(NULL, size)`, or about a run in which the inner
    `mm_malloc` returned `NULL`, describes the embedding only. -/
def mm_realloc (fuel : Nat) (h : Heap) (ptr size : Nat) : Option (Nat × Heap) :=
  let oldptr := ptr
  let prevAlloc := GET_ALLOC h.mem (FTRP h.mem (PREV_BLKP h.mem oldptr))
  let nextAlloc := GET_ALLOC h.mem (HDRP (NEXT_BLKP h.mem oldptr))
  let oldSize := GET_SIZE h.mem (HDRP oldptr)
  let change : Nat := if oldSize < add32 size DSIZE then 1 else 0
  if size = 0 then (mm_free fuel h ptr).map fun h => (0, h)
  else if oldptr = 0 then mm_malloc fuel h size
  else if change = 0 ∧ sub32 (sub32 oldSize size) DSIZE > 2 * DSIZE
      ∧ sub32 oldSize (adjust size) > 2 * DSIZE then
    let size := adjust size
    let h := { h with mem := PUT h.mem (HDRP oldptr) (PACK size 1) }
    let h := { h with mem := PUT h.mem (FTRP h.mem oldptr) (PACK size 1) }
    let newptr := oldptr
    let oldptr := NEXT_BLKP h.mem newptr
    let h := { h with mem := PUT h.mem (HDRP oldptr) (PACK (sub32 oldSize size) 0) }
    let h := { h with mem := PUT h.mem (FTRP h.mem oldptr) (PACK (sub32 oldSize size) 0) }
    (coalesce fuel h oldptr).map fun r => (newptr, r.2)
  else if change = 0 then some (ptr, h)
  else
    let tempPrev := GET_SIZE h.mem (HDRP (PREV_BLKP h.mem oldptr))
    let tempNext := GET_SIZE h.mem (HDRP (NEXT_BLKP h.mem oldptr))
    if nextAlloc = 0 ∧ prevAlloc = 0
        ∧ add32 (add32 tempPrev tempNext) oldSize ≥ add32 size DSIZE then
      let newptr := PREV_BLKP h.mem oldptr
      let temp := NEXT_BLKP h.mem oldptr
      let tempSize := add32 (GET_SIZE h.mem (FTRP h.mem newptr)) (GET_SIZE h.mem (FTRP h.mem temp))
      (remove_free_list fuel h (PREV_BLKP h.mem oldptr)).bind fun h =>
      (remove_free_list fuel h (NEXT_BLKP h.mem oldptr)).bind fun h =>
      let size := realloc_size size tempSize oldSize
      let h := { h with mem := PUT h.mem (HDRP newptr) (PACK size 1) }
      let copySize := GET_SIZE h.mem (HDRP oldptr)
      let h := { h with mem := memcpy h.mem newptr oldptr copySize }
      realloc_finish fuel h newptr size tempSize oldSize
    else if prevAlloc = 0 ∧ add32 tempPrev oldSize ≥ add32 size DSIZE then
      let newptr := PREV_BLKP h.mem oldptr
      let tempSize := GET_SIZE h.mem (FTRP h.mem newptr)
      (remove_free_list fuel h (PREV_BLKP h.mem oldptr)).bind fun h =>
      let size := realloc_size size tempSize oldSize
      let h := { h with mem := PUT h.mem (HDRP newptr) (PACK size 1) }
      let copySize := GET_SIZE h.mem (HDRP oldptr)
      let h := { h with mem := memcpy h.mem newptr oldptr copySize }
      realloc_finish fuel h newptr size tempSize oldSize
    else if nextAlloc = 0 ∧ add32 tempNext oldSize ≥ add32 size DSIZE then
      let temp := NEXT_BLKP h.mem oldptr
      let tempSize := GET_SIZE h.mem (FTRP h.mem temp)
      (remove_free_list fuel h (NEXT_BLKP h.mem ptr)).bind fun h =>
      let size := realloc_size size tempSize oldSize
      let h := { h with mem := PUT h.mem (HDRP oldptr) (PACK size 1) }
      realloc_finish fuel h oldptr size tempSize oldSize
    else
      (mm_malloc fuel h size).bind fun r =>
      let newptr := r.1
      let h := r.2
      let copySize := GET_SIZE h.mem (HDRP oldptr)
      let copySize := if size < copySize then size else copySize
      let h := { h with mem := memcpy h.mem newptr oldptr copySize }
      (mm_free fuel h oldptr).map fun h => (newptr, h)

/-! ## Client calls and runs -/

/-- A call of the public interface. -/
inductive Call where
  | malloc (size : Nat)
  | free (p : Nat)
  | realloc (p size : Nat)

/-- A run of the allocator: its state, the pointers handed out and not yet
    given back, and the pointer returned by the last call. -/
structure Run where
  heap : Heap
  live : List Nat
  ret : Nat

/-- One call on live pointers.  `none` when the pointer passed to `mm_free` or
    `mm_realloc` is not live, or when a loop of the allocator ran out of fuel. -/
def step (fuel : Nat) (r : Run) : Call → Option Run
  | .malloc size =>
    (mm_malloc fuel r.heap size).map fun q =>
      { heap := q.2, live := if q.1 = 0 then r.live else q.1 :: r.live, ret := q.1 }
  | .free p =>
    if p ∈ r.live then
      (mm_free fuel r.heap p).map fun h => { heap := h, live := r.live.erase p, ret := 0 }
    else none
  | .realloc p size =>
    if p ∈ r.live then
      (mm_realloc fuel r.heap p size).map fun q =>
        { heap := q.2,
          live := if size = 0 then r.live.erase p
                  else if q.1 = 0 then r.live else q.1 :: r.live.erase p,
          ret := q.1 }
    else none

/-- A sequence of calls. -/
def steps (fuel : Nat) (r : Run) : List Call → Option Run
  | [] => some r
  | c :: cs => (step fuel r c).bind fun r => steps fuel r cs

/-- The state of the program before `mm_init`: an empty arena at `base` that can
    grow to `cap` bytes, memory contents `m`, and the globals as initialised in
    the source (`heap_listp = NULL`, `minList = 0`, `numFree = 0`). -/
def boot (m : Mem) (base cap : Nat) : Heap :=
  { mem := m, base := base, brk := 0, cap := cap, heap_listp := 0, minList := 0, numFree := 0 }

/-- A successful `mm_init` on `h0` followed by the calls `cs`. -/
def exec (fuel : Nat) (h0 : Heap) (cs : List Call) : Option Run :=
  (mm_init fuel h0).bind fun r =>
    if r.1 = 0 then steps fuel { heap := r.2, live := [], ret := 0 } cs else none

/-- The payload address of the first block after the prologue. -/
def first_block (h : Heap) : Nat := NEXT_BLKP h.mem h.heap_listp

/-- The blocks met walking the arena by header sizes from `bp`, at most `n` of
    them, as triples (payload address, size, allocated bit); the walk stops at a
    header of size zero, which it lists. -/
def blocks (m : Mem) : Nat → Nat → List (Nat × Nat × Nat)
  | 0, _ => []
  | n + 1, bp =>
    (bp, GET_SIZE m (HDRP bp), GET_ALLOC m (HDRP bp)) ::
      (if GET_SIZE m (HDRP bp) = 0 then [] else blocks m n (NEXT_BLKP m bp))

/-- The entries of a bucket list read from `p` along the next links, at most `n`. -/
def entries (m : Mem) : Nat → Nat → List Nat
  | 0, _ => []
  | n + 1, p => if p = 0 then [] else p :: entries m n (GET m (add32 p WSIZE))

/-- A zero-filled arena of one megabyte at address 4096, before `mm_init`. -/
def demo : Heap := boot (fun _ => 0) 4096 1048576

/-- The state after `mm_init` and `mm_malloc(8)` on `demo`: the block at 4448 is
    allocated and 16 bytes long. -/
def demo_small : Heap := ((exec 100 demo [.malloc 8]).map fun r => r.heap).getD demo

/-! ## The heap invariant -/

/-- A block of the arena: payload address, size, allocated bit. -/
abbrev Blk := Nat × Nat × Nat

/-- The blocks `bs` tile the addresses from `p` to `e`: each starts where the one
    before it ends, and each size is a multiple of 8 and at least 16. -/
def Chain : Nat → List Blk → Nat → Prop
  | p, [], e => p = e
  | p, b :: bs, e => b.1 = p ∧ 16 ≤ b.2.1 ∧ b.2.1 % 8 = 0 ∧ b.2.2 ≤ 1 ∧ Chain (p + b.2.1) bs e

/-- The header and the footer of every block of `bs` hold its size and allocated bit. -/
def Tagged (m : Mem) (bs : List Blk) : Prop :=
  ∀ b ∈ bs, GET m (b.1 - 4) = b.2.1 + b.2.2 ∧ GET m (b.1 + b.2.1 - 8) = b.2.1 + b.2.2

/-- The first entry of a list of nodes, or `d` for the empty list. -/
def firstD : List Nat → Nat → Nat
  | [], d => d
  | x :: _, _ => x

/-- The last entry of a list of nodes, or `d` for the empty list. -/
def lastD : List Nat → Nat → Nat
  | [], d => d
  | x :: xs, _ => lastD xs x

/-- The nodes `xs` are doubly linked in this order: the prev field of the first
    one holds `prev`, the next field of the last one holds `nxt`. -/
def Linked (m : Mem) : Nat → List Nat → Nat → Prop
  | _, [], _ => True
  | prev, x :: xs, nxt => GET m x = prev ∧ GET m (x + 4) = firstD xs nxt ∧ Linked m x xs nxt

/-- A computation with fuel that yields `r` whenever the fuel is at least `n`,
    and that yields nothing else for any fuel. -/
structure Fueled {α : Type} (f : Nat → Option α) (n : Nat) (r : α) : Prop where
  enough : ∀ fuel, n ≤ fuel → f fuel = some r
  only : ∀ fuel, f fuel = some r ∨ f fuel = none

/-- The two states share the arena parameters and the bucket table pointer. -/
def SameArena (h h1 : Heap) : Prop :=
  h1.base = h.base ∧ h1.brk = h.brk ∧ h1.cap = h.cap ∧ h1.heap_listp = h.heap_listp

/-- The bucket of a block size, `min(size / 50, 83)`. -/
def bucket (s : Nat) : Nat := min (s / 50) 83

/-- The number of entries of the buckets `0, ..., n - 1`. -/
def total (bk : Nat → List Nat) : Nat → Nat
  | 0 => 0
  | n + 1 => total bk n + (bk n).length

/-- The prologue block followed by the blocks `bs`. -/
def withPrologue (h : Heap) (bs : List Blk) : List Blk := (h.base + 8, 344, 1) :: bs

/-- No two neighbouring blocks are both free. -/
def NoAdjFree (bs : List Blk) : Prop :=
  List.Chain' (fun b c : Blk => ¬ (b.2.2 = 0 ∧ c.2.2 = 0)) bs

/-- The address `y` is an entry of one of the 84 bucket lists. -/
def Listed (bk : Nat → List Nat) (y : Nat) : Prop := ∃ i, i < 84 ∧ y ∈ bk i

/-- The structural invariant of the allocator state `h`, for the blocks `bs`
    between prologue and epilogue and the bucket lists `bk`: the arena is tiled
    by the prologue, the blocks and the epilogue header, boundary tags agree with
    the blocks, every bucket is a well-formed doubly linked list of blocks of its
    size class, `numFree` counts the entries and no bucket below `minList` has
    entries.  It does not say which blocks are linked. -/
structure Core (h : Heap) (bs : List Blk) (bk : Nat → List Nat) : Prop where
  listp : h.heap_listp = h.base + 8
  base_al : h.base % 8 = 0
  range : h.base + h.cap < 4294967296
  cap_lt : h.cap < 2147483648
  brk_le : h.brk ≤ h.cap
  chain : Chain (h.base + 8) (withPrologue h bs) (h.base + h.brk)
  tagged : Tagged h.mem (withPrologue h bs)
  epilogue : GET h.mem (h.base + h.brk - 4) = 1
  slots : ∀ i : Nat, i < 84 → GET h.mem (h.base + 8 + 4 * i) = firstD (bk i) 0
  linked : ∀ i : Nat, i < 84 → Linked h.mem 0 (bk i) 0
  nodup : ∀ i : Nat, i < 84 → (bk i).Nodup
  nodes : ∀ i : Nat, i < 84 → ∀ x ∈ bk i, ∃ s a, (x, s, a) ∈ bs ∧ bucket s = i
  count : h.numFree = (total bk 84 : Nat)
  minl : 0 ≤ h.minList ∧ ∀ i : Nat, i < 84 → (i : Int) < h.minList → bk i = []

/-- The invariant between calls: the structural invariant, no two neighbouring
    free blocks, and the bucket lists hold exactly the free blocks. -/
structure HeapInv (h : Heap) (bs : List Blk) (bk : Nat → List Nat) : Prop where
  core : Core h bs bk
  noadj : NoAdjFree (withPrologue h bs)
  listed : ∀ y, Listed bk y ↔ ∃ s, (y, s, 0) ∈ bs

/-- The memory after the link rewiring of `remove_free_list`, for a node whose
    bucket slot is at `slot` and whose prev and next fields hold `prev` and `next`. -/
def unlink_mem (m : Mem) (slot prev next : Nat) : Mem :=
  if prev = 0 ∧ next = 0 then PUT m slot 0
  else if prev = 0 ∧ next ≠ 0 then PUT (PUT m slot next) next 0
  else if prev ≠ 0 ∧ next = 0 then PUT m (add32 prev WSIZE) 0
  else PUT (PUT m (add32 prev WSIZE) next) next prev

/-- The memory after the link writes of `add_free_list` for a non-empty bucket:
    the block `x` goes between the node `tP` and its successor `tN`. -/
def link_mem (m : Mem) (tP tN x : Nat) : Mem :=
  let m1 := PUT m (add32 tP WSIZE) x
  let m2 := if tN ≠ 0 then PUT m1 tN x else m1
  let m3 := PUT m2 x tP
  PUT m3 (add32 x WSIZE) tN

/-- The memory after writing the header and the footer of a block of size `s`
    and allocated bit `a` at payload address `x`. -/
def tag_mem (m : Mem) (x s a : Nat) : Mem := PUT (PUT m (x - 4) (s + a)) (x + s - 8) (s + a)

/-- The state `h` with memory `m`. -/
def withMem (h : Heap) (m : Mem) : Heap := { h with mem := m }


/-- The address `a` lies in the bucket table, or in the two link fields (the
    first eight payload bytes) of an entry of a bucket list. -/
def LinkArea (base : Nat) (bk : Nat → List Nat) (a : Nat) : Prop :=
  (base + 8 ≤ a ∧ a < base + 344) ∨ ∃ y, Listed bk y ∧ y ≤ a ∧ a < y + 8

/-- The memory `m1` differs from `m` at most in the link area of the bucket
    lists `bk` and at the addresses from `lo` up to `hi`. -/
def Frame (base : Nat) (bk : Nat → List Nat) (lo hi : Nat) (m m1 : Mem) : Prop :=
  ∀ a, ¬ LinkArea base bk a → (a < lo ∨ hi ≤ a) → m1 a = m a
/-! ## Runs within the contract of the allocator -/

/-- The request of a call is within the contract: the size rounding
    `size + DSIZE + (DSIZE-1)` of `mm_malloc` and `mm_realloc` does not wrap. -/
def Call.inContract : Call → Prop
  | .malloc size => size + 15 < W32
  | .free _ => True
  | .realloc _ size => size + 15 < W32

/-- The call ended in `memcpy(NULL, ...)`: `mm_realloc` with a non-zero size
    returned `NULL`, which it does only after copying to the `NULL` result of
    its inner `mm_malloc`. -/
def Call.copiedToNull : Call → Nat → Prop
  | .realloc _ size, ret => size ≠ 0 ∧ ret = 0
  | _, _ => False

/-- The runs of the allocator: a successful `mm_init` on an empty arena whose
    base is 8-byte aligned and whose addresses fit 31 bits of size and 32 bits
    of address, followed by calls on live pointers that are within the contract.
    A run ends at a call that copies to `NULL`. -/
inductive Reach : Run → Prop
  | init (fuel : Nat) (m : Mem) (base cap : Nat) (h : Heap) :
      base % 8 = 0 → base + cap < W32 → cap < 2147483648 →
      mm_init fuel (boot m base cap) = some (0, h) →
      Reach { heap := h, live := [], ret := 0 }
  | call (fuel : Nat) (r r1 : Run) (c : Call) :
      Reach r → c.inContract → step fuel r c = some r1 → ¬ c.copiedToNull r1.ret →
      Reach r1

/-- The invariant of a run: the heap invariant holds for some list of blocks
    and bucket lists, and the live pointers are distinct allocated blocks. -/
def RunInv (r : Run) : Prop :=
  ∃ bs bk, HeapInv r.heap bs bk ∧ r.live.Nodup ∧ ∀ p ∈ r.live, ∃ s, (p, s, 1) ∈ bs
/-! ## Descriptions used by the statements about freeing and the index -/

/-- The free block that results when the block of size `s` at `x` is merged
    with the neighbours whose boundary tags say free: its payload address and
    its size.  The footer before `x` is the word at `x - 8`, the header after
    `x` the word at `x + s - 4`. -/
def mergedAt (m : Mem) (x s : Nat) : Nat × Nat :=
  (if GET_ALLOC m (x - 8) = 0 then x - GET_SIZE m (x - 8) else x,
   s + (if GET_ALLOC m (x - 8) = 0 then GET_SIZE m (x - 8) else 0)
     + (if GET_ALLOC m (x + s - 4) = 0 then GET_SIZE m (x + s - 4) else 0))

/-- The entries of the 84 bucket lists, each read from its slot along the next
    links (at most `n` entries per bucket), bucket 0 first. -/
def index_entries (h : Heap) (n : Nat) : List Nat :=
  (List.range 84).flatMap fun i => entries h.mem n (GET h.mem (slot h (i : Int)))

/-- A zero-filled arena at address 4096 that can hold exactly the 4448 bytes
    `mm_init` asks for, before `mm_init`. -/
def demo_full : Heap := boot (fun _ => 0) 4096 4448

/-- The run that consists of `mm_init` on `demo`. -/
def demo_run : Run :=
  { heap := ((mm_init 0 demo).map fun r => r.2).getD demo, live := [], ret := 0 }

/-- The run `mm_init`, `mm_malloc(24)` on `demo`. -/
def demo_run1 : Run := (step 100 demo_run (.malloc 24)).getD demo_run

/-- The run `mm_init`, `mm_malloc(24)`, `mm_malloc(24)`, `mm_free` of the first
    block, on `demo`. -/
def demo_run3 : Run :=
  ((steps 100 demo_run [.malloc 24, .malloc 24, .free 4448])).getD demo_run

/-- The run that consists of `mm_init` on `demo_full`. -/
def demo_full_run : Run :=
  { heap := ((mm_init 0 demo_full).map fun r => r.2).getD demo_full, live := [], ret := 0 }
/-- The arena of `demo_full` with one marked byte: the byte at 4456, in the
    payload of the first block, is 7. -/
def demo_marked : Heap := boot (fun a => if a = 4456 then 7 else 0) 4096 4448

/-- No bucket below `minList` has an entry: every bucket whose slot is not
    empty has an index that is at least `minList` (which is not negative). -/
def MinListSound (h : Heap) : Prop :=
  ∀ i : Nat, i < 84 → GET h.mem (slot h (i : Int)) ≠ 0 → 0 ≤ h.minList ∧ h.minList ≤ (i : Int)

/-- The run `mm_init`, `mm_malloc(4294967289)`, `mm_malloc(4294967289)`,
    `mm_realloc(4448, 4294967281)` on `demo`; every pointer passed is live. -/
def demo_loop_run : Run :=
  (exec 100 demo [.malloc 4294967289, .malloc 4294967289, .realloc 4448 4294967281]).getD
    demo_run

/-- The state in which `place(x, adj)` calls `add_free_list` for the rest of a
    block of size `cur` that it splits, when `remove_free_list(x)` did not run
    its re-scan: the block is unlinked, and header and footer of both parts are
    written. -/
def split_state (h : Heap) (x adj cur : Nat) : Heap :=
  withMem { h with numFree := h.numFree - 1 }
    (tag_mem (tag_mem (unlink_mem h.mem (slot h (bucketOf (GET_SIZE h.mem (HDRP x))))
      (GET h.mem x) (GET h.mem (add32 x WSIZE))) x adj 1) (x + adj) (cur - adj) 0)
/-! ## Basic facts -/

theorem GET_lt (m : Mem) (p : Nat) : GET m p < 4294967296 := by
  unfold GET; omega

theorem GET_SIZE_lt (m : Mem) (p : Nat) : GET_SIZE m p < 4294967296 :=
  Nat.lt_of_le_of_lt Nat.and_le_left (GET_lt m p)

theorem adjust_small {size : Nat} (h : size ≤ 8) : adjust size = 16 := by
  simp [adjust, DSIZE, h]

theorem adjust_large {size : Nat} (h : ¬ size ≤ 8) :
    adjust size = 8 * (((size + 8) % 4294967296 + 7) % 4294967296 / 8) % 4294967296 := by
  simp [adjust, DSIZE, h, mul32, add32, W32]


/-! ## Words, bits and 32-bit arithmetic -/

theorem land_size_mask (s a : Nat) (hs : s % 8 = 0) (ha : a < 8) (hlt : s + a < 4294967296) :
    (s + a) &&& 4294967288 = s := by
  obtain ⟨k, rfl⟩ : ∃ k, s = 2 ^ 3 * k := ⟨s / 8, by omega⟩
  have hk : k < 2 ^ 29 := by omega
  apply Nat.eq_of_testBit_eq
  intro i
  rw [Nat.testBit_and, Nat.testBit_mul_pow_two_add k (by omega : a < 2 ^ 3)]
  have hc : (4294967288 : Nat) = 2 ^ 3 * (2 ^ 29 - 1) + 0 := by norm_num
  rw [hc, Nat.testBit_mul_pow_two_add (2 ^ 29 - 1) (by norm_num : 0 < 2 ^ 3)]
  have hz : (2 ^ 3 * k).testBit i = if i < 3 then Nat.testBit 0 i else k.testBit (i - 3) := by
    have := Nat.testBit_mul_pow_two_add k (by norm_num : 0 < 2 ^ 3) i
    simpa using this
  rw [hz]
  by_cases h3 : i < 3
  · simp [h3]
  · simp only [h3, if_false]
    have : k.testBit (i - 3) = (k &&& (2 ^ 29 - 1)).testBit (i - 3) := by
      rw [Nat.and_pow_two_sub_one_eq_mod, Nat.mod_eq_of_lt hk]
    rw [this, Nat.testBit_and]
    simp

theorem land_alloc_bit (s a : Nat) (hs : s % 8 = 0) (ha : a ≤ 1) : (s + a) &&& 1 = a := by
  rw [Nat.and_one_is_mod]; omega

theorem PACK_eq (s a : Nat) (hs : s % 8 = 0) (ha : a ≤ 1) : PACK s a = s + a := by
  unfold PACK
  obtain ⟨k, rfl⟩ : ∃ k, s = 2 ^ 3 * k := ⟨s / 8, by omega⟩
  apply Nat.eq_of_testBit_eq
  intro i
  rw [Nat.testBit_or, Nat.testBit_mul_pow_two_add k (by omega : a < 2 ^ 3)]
  have hz : (2 ^ 3 * k).testBit i = if i < 3 then Nat.testBit 0 i else k.testBit (i - 3) := by
    have := Nat.testBit_mul_pow_two_add k (by norm_num : 0 < 2 ^ 3) i
    simpa using this
  rw [hz]
  by_cases h3 : i < 3
  · simp [h3]
  · simp only [h3, if_false]
    have : a.testBit i = false := by
      apply Nat.testBit_lt_two_pow
      calc a < 2 ^ 3 := by omega
        _ ≤ 2 ^ i := Nat.pow_le_pow_right (by norm_num) (by omega)
    simp [this]

theorem GET_PUT_same (m : Mem) (p v : Nat) : GET (PUT m p v) p = v % 4294967296 := by
  unfold GET PUT
  have a1 : ¬ p + 1 = p := by omega
  have a2 : ¬ p + 2 = p := by omega
  have a3 : ¬ p + 3 = p := by omega
  have b2 : ¬ p + 2 = p + 1 := by omega
  have b3 : ¬ p + 3 = p + 1 := by omega
  have c3 : ¬ p + 3 = p + 2 := by omega
  simp only [a1, a2, a3, b2, b3, c3, if_true, if_false]
  omega

theorem GET_PUT_other (m : Mem) (p q v : Nat) (h : q + 4 ≤ p ∨ p + 4 ≤ q) :
    GET (PUT m p v) q = GET m q := by
  unfold GET PUT
  have e0 : ¬ q = p := by omega
  have e1 : ¬ q = p + 1 := by omega
  have e2 : ¬ q = p + 2 := by omega
  have e3 : ¬ q = p + 3 := by omega
  have f0 : ¬ q + 1 = p := by omega
  have f1 : ¬ q + 1 = p + 1 := by omega
  have f2 : ¬ q + 1 = p + 2 := by omega
  have f3 : ¬ q + 1 = p + 3 := by omega
  have g0 : ¬ q + 2 = p := by omega
  have g1 : ¬ q + 2 = p + 1 := by omega
  have g2 : ¬ q + 2 = p + 2 := by omega
  have g3 : ¬ q + 2 = p + 3 := by omega
  have k0 : ¬ q + 3 = p := by omega
  have k1 : ¬ q + 3 = p + 1 := by omega
  have k2 : ¬ q + 3 = p + 2 := by omega
  have k3 : ¬ q + 3 = p + 3 := by omega
  simp only [e0, e1, e2, e3, f0, f1, f2, f3, g0, g1, g2, g3, k0, k1, k2, k3, if_false]

theorem GET_memcpy_other (m : Mem) (d s n q : Nat) (h : q + 4 ≤ d ∨ d + n ≤ q) :
    GET (memcpy m d s n) q = GET m q := by
  unfold GET memcpy
  have e0 : ¬ (d ≤ q ∧ q < d + n) := by omega
  have e1 : ¬ (d ≤ q + 1 ∧ q + 1 < d + n) := by omega
  have e2 : ¬ (d ≤ q + 2 ∧ q + 2 < d + n) := by omega
  have e3 : ¬ (d ≤ q + 3 ∧ q + 3 < d + n) := by omega
  simp only [e0, e1, e2, e3, if_false]

theorem add32_eq {a b : Nat} (h : a + b < 4294967296) : add32 a b = a + b := by
  unfold add32 W32; omega

theorem sub32_eq {a b : Nat} (h : b ≤ a) (ha : a < 4294967296) : sub32 a b = a - b := by
  unfold sub32 W32; omega

theorem mul32_eq {a b : Nat} (h : a * b < 4294967296) : mul32 a b = a * b := by
  unfold mul32 W32; omega

/-! ## Geometry of a chain of blocks -/

theorem Chain.le : ∀ {l : List Blk} {p e : Nat}, Chain p l e → p ≤ e
  | [], p, e, h => by simp [Chain] at h; omega
  | b :: l, p, e, h => by
    obtain ⟨_, _, _, _, h5⟩ := h
    have := Chain.le h5
    omega

theorem Chain.append : ∀ {γ δ : List Blk} {p e : Nat},
    Chain p (γ ++ δ) e ↔ ∃ mid, Chain p γ mid ∧ Chain mid δ e
  | [], δ, p, e => by simp [Chain]
  | b :: γ, δ, p, e => by
    have ih := Chain.append (γ := γ) (δ := δ) (p := p + b.2.1) (e := e)
    show (b.1 = p ∧ 16 ≤ b.2.1 ∧ b.2.1 % 8 = 0 ∧ b.2.2 ≤ 1 ∧ Chain (p + b.2.1) (γ ++ δ) e) ↔
      ∃ mid, (b.1 = p ∧ 16 ≤ b.2.1 ∧ b.2.1 % 8 = 0 ∧ b.2.2 ≤ 1 ∧ Chain (p + b.2.1) γ mid)
        ∧ Chain mid δ e
    rw [ih]
    constructor
    · rintro ⟨h1, h2, h3, h4, mid, h5, h6⟩
      exact ⟨mid, ⟨h1, h2, h3, h4, h5⟩, h6⟩
    · rintro ⟨mid, ⟨h1, h2, h3, h4, h5⟩, h6⟩
      exact ⟨h1, h2, h3, h4, mid, h5, h6⟩

theorem Chain.mem : ∀ {l : List Blk} {p e : Nat}, Chain p l e → ∀ b ∈ l,
    p ≤ b.1 ∧ b.1 + b.2.1 ≤ e ∧ 16 ≤ b.2.1 ∧ b.2.1 % 8 = 0 ∧ b.2.2 ≤ 1 ∧ (b.1 - p) % 8 = 0
  | [], _, _, _, b, hb => by simp at hb
  | c :: l, p, e, h, b, hb => by
    obtain ⟨h1, h2, h3, h4, h5⟩ := h
    rcases List.mem_cons.mp hb with rfl | hb
    · have := Chain.le h5
      refine ⟨by omega, by omega, h2, h3, h4, by omega⟩
    · have := Chain.mem h5 b hb
      refine ⟨by omega, by omega, by omega, by omega, by omega, by omega⟩

theorem Chain.split {l : List Blk} {p e : Nat} (h : Chain p l e) {b : Blk} (hb : b ∈ l) :
    ∃ pre post, l = pre ++ b :: post ∧ Chain p pre b.1 ∧ Chain (b.1 + b.2.1) post e := by
  obtain ⟨pre, post, rfl⟩ := List.append_of_mem hb
  obtain ⟨mid, h1, h2⟩ := Chain.append.mp h
  obtain ⟨h3, _, _, _, h4⟩ := h2
  subst h3
  exact ⟨pre, post, rfl, h1, h4⟩

theorem Chain.sep : ∀ {l : List Blk} {p e : Nat}, Chain p l e → ∀ b ∈ l, ∀ c ∈ l,
    b = c ∨ b.1 + b.2.1 ≤ c.1 ∨ c.1 + c.2.1 ≤ b.1
  | [], _, _, _, b, hb, _, _ => by simp at hb
  | d :: l, p, e, h, b, hb, c, hc => by
    obtain ⟨h1, h2, h3, h4, h5⟩ := h
    rcases List.mem_cons.mp hb with hbd | hb <;> rcases List.mem_cons.mp hc with hcd | hc
    · exact Or.inl (hbd.trans hcd.symm)
    · have := Chain.mem h5 c hc
      subst hbd
      right; left; omega
    · have := Chain.mem h5 b hb
      subst hcd
      right; right; omega
    · exact Chain.sep h5 b hb c hc

theorem Chain.unique {l : List Blk} {p e : Nat} (h : Chain p l e) {x s a s1 a1 : Nat}
    (h1 : (x, s, a) ∈ l) (h2 : (x, s1, a1) ∈ l) : s = s1 ∧ a = a1 := by
  have b1 := Chain.mem h _ h1
  have b2 := Chain.mem h _ h2
  rcases Chain.sep h _ h1 _ h2 with e | e | e
  · simp only [Prod.mk.injEq, true_and] at e; exact e
  · simp only at e b1 b2; omega
  · simp only at e b1 b2; omega

theorem total_update (bk : Nat → List Nat) (i : Nat) (L : List Nat) :
    ∀ n, i < n → total (Function.update bk i L) n + (bk i).length = total bk n + L.length
  | 0, h => by omega
  | n + 1, h => by
    simp only [total]
    by_cases hi : i = n
    · subst hi
      have : total (Function.update bk i L) i = total bk i := by
        clear h
        have key : ∀ k, k ≤ i → total (Function.update bk i L) k = total bk k := by
          intro k
          induction k with
          | zero => intro _; rfl
          | succ k ih =>
            intro hk
            simp only [total, ih (by omega)]
            rw [Function.update_noteq (by omega)]
        exact key i (le_refl i)
      rw [this, Function.update_same]; omega
    · have := total_update bk i L n (by omega)
      rw [Function.update_noteq (Ne.symm hi)]
      omega

theorem total_pos {bk : Nat → List Nat} : ∀ {n : Nat}, 0 < total bk n → ∃ i, i < n ∧ bk i ≠ []
  | 0, h => by simp [total] at h
  | n + 1, h => by
    simp only [total] at h
    by_cases hn : bk n = []
    · rw [hn] at h
      obtain ⟨i, hi, hne⟩ := total_pos (n := n) (by simpa using h)
      exact ⟨i, by omega, hne⟩
    · exact ⟨n, by omega, hn⟩

/-! ## Reading the heap under the structural invariant -/

theorem GET_PUT_ne (m : Mem) (p q v : Nat) (hp : p % 4 = 0) (hq : q % 4 = 0) (h : q ≠ p) :
    GET (PUT m p v) q = GET m q :=
  GET_PUT_other m p q v (by omega)

theorem GET_SIZE_eq {m : Mem} {q s a : Nat} (h : GET m q = s + a) (hs : s % 8 = 0) (ha : a ≤ 1) :
    GET_SIZE m q = s := by
  unfold GET_SIZE
  have := GET_lt m q
  rw [h] at this ⊢
  exact land_size_mask s a hs (by omega) this

theorem GET_ALLOC_eq {m : Mem} {q s a : Nat} (h : GET m q = s + a) (hs : s % 8 = 0) (ha : a ≤ 1) :
    GET_ALLOC m q = a := by
  unfold GET_ALLOC
  rw [h]
  exact land_alloc_bit s a hs ha

theorem HDRP_eq {p : Nat} (h4 : 4 ≤ p) (hp : p < 4294967296) : HDRP p = p - 4 := by
  unfold HDRP WSIZE; exact sub32_eq h4 hp

theorem FTRP_eq {m : Mem} {p s a : Nat} (h : GET m (p - 4) = s + a) (hs : s % 8 = 0) (ha : a ≤ 1)
    (h4 : 4 ≤ p) (h8 : 8 ≤ p + s) (hp : p + s < 4294967296) : FTRP m p = p + s - 8 := by
  unfold FTRP
  rw [HDRP_eq h4 (by omega), GET_SIZE_eq h hs ha, add32_eq hp]
  unfold DSIZE; exact sub32_eq h8 hp

theorem NEXT_BLKP_eq {m : Mem} {p s a : Nat} (h : GET m (p - 4) = s + a) (hs : s % 8 = 0)
    (ha : a ≤ 1) (h4 : 4 ≤ p) (hp : p + s < 4294967296) : NEXT_BLKP m p = p + s := by
  unfold NEXT_BLKP WSIZE
  rw [sub32_eq h4 (by omega), GET_SIZE_eq h hs ha, add32_eq hp]

theorem PREV_BLKP_eq {m : Mem} {p s a : Nat} (h : GET m (p - 8) = s + a) (hs : s % 8 = 0)
    (ha : a ≤ 1) (h8 : 8 ≤ p) (hsp : s ≤ p) (hp : p < 4294967296) : PREV_BLKP m p = p - s := by
  unfold PREV_BLKP DSIZE
  rw [sub32_eq h8 hp, GET_SIZE_eq h hs ha, sub32_eq hsp hp]

theorem toInt32_eq {v : Nat} (h : v < 2147483648) : toInt32 v = (v : Int) := by
  unfold toInt32 W32
  rw [Nat.mod_eq_of_lt (by omega), if_pos h]

theorem bucketOf_eq {s : Nat} (h : s < 2147483648) : bucketOf s = (bucket s : Int) := by
  unfold bucketOf bucket
  rw [toInt32_eq h]
  have e : Int.tdiv (s : Int) 50 = ((s / 50 : Nat) : Int) := by
    rw [Int.tdiv_eq_ediv (by omega) (by norm_num)]; rfl
  simp only [e]
  split <;> omega

theorem bucket_lt (s : Nat) : bucket s < 84 := by unfold bucket; omega

theorem ptrOff_eq {p : Nat} {i : Nat} (h : p + i < 4294967296) : ptrOff p (i : Int) = p + i := by
  unfold ptrOff
  have : ((p : Int) + (i : Int)) % 4294967296 = ((p + i : Nat) : Int) := by
    rw [Int.emod_eq_of_lt (by omega) (by omega)]; push_cast; rfl
  rw [this, Int.toNat_ofNat]

theorem firstD_append (γ δ : List Nat) (n : Nat) :
    firstD (γ ++ δ) n = firstD γ (firstD δ n) := by
  cases γ <;> rfl

theorem lastD_append (γ δ : List Nat) (p : Nat) :
    lastD (γ ++ δ) p = lastD δ (lastD γ p) := by
  induction γ generalizing p with
  | nil => rfl
  | cons x γ ih => exact ih x

theorem Linked.append_iff {m : Mem} : ∀ {γ δ : List Nat} {p n : Nat},
    Linked m p (γ ++ δ) n ↔ Linked m p γ (firstD δ n) ∧ Linked m (lastD γ p) δ n
  | [], δ, p, n => by simp [Linked, lastD]
  | x :: γ, δ, p, n => by
    have ih := Linked.append_iff (m := m) (γ := γ) (δ := δ) (p := x) (n := n)
    show (GET m x = p ∧ GET m (x + 4) = firstD (γ ++ δ) n ∧ Linked m x (γ ++ δ) n) ↔
      (GET m x = p ∧ GET m (x + 4) = firstD γ (firstD δ n) ∧ Linked m x γ (firstD δ n))
        ∧ Linked m (lastD γ x) δ n
    rw [ih, firstD_append]
    tauto

theorem Linked.frame {m μ : Mem} : ∀ {l : List Nat} {p n : Nat},
    (∀ y ∈ l, GET μ y = GET m y ∧ GET μ (y + 4) = GET m (y + 4)) →
    Linked m p l n → Linked μ p l n
  | [], _, _, _, _ => trivial
  | x :: l, p, n, hf, h => by
    obtain ⟨h1, h2, h3⟩ := h
    have hx := hf x (List.mem_cons_self _ _)
    exact ⟨hx.1.trans h1, hx.2.trans h2,
      Linked.frame (fun y hy => hf y (List.mem_cons_of_mem _ hy)) h3⟩

/-! ## Facts about blocks and nodes under the structural invariant -/

theorem Core.blk {h : Heap} {bs : List Blk} {bk : Nat → List Nat} (c : Core h bs bk)
    {b : Blk} (hb : b ∈ withPrologue h bs) :
    h.base + 8 ≤ b.1 ∧ b.1 + b.2.1 ≤ h.base + h.brk ∧ 16 ≤ b.2.1 ∧ b.2.1 % 8 = 0 ∧ b.2.2 ≤ 1
    ∧ b.1 % 8 = 0 ∧ GET h.mem (b.1 - 4) = b.2.1 + b.2.2
    ∧ GET h.mem (b.1 + b.2.1 - 8) = b.2.1 + b.2.2 := by
  have h1 := Chain.mem c.chain b hb
  have h2 := c.tagged b hb
  have h3 := c.base_al
  refine ⟨h1.1, h1.2.1, h1.2.2.1, h1.2.2.2.1, h1.2.2.2.2.1, by omega, h2.1, h2.2⟩

theorem Core.blk_ge {h : Heap} {bs : List Blk} {bk : Nat → List Nat} (c : Core h bs bk)
    {b : Blk} (hb : b ∈ bs) : h.base + 352 ≤ b.1 := by
  have hc := c.chain
  unfold withPrologue at hc
  obtain ⟨_, _, _, _, h5⟩ := hc
  have := Chain.mem h5 b hb
  simp only at this
  omega

theorem Core.brk_ge {h : Heap} {bs : List Blk} {bk : Nat → List Nat} (c : Core h bs bk) :
    352 ≤ h.brk ∧ h.brk % 8 = 0 := by
  have hc := c.chain
  have hb := c.base_al
  unfold withPrologue at hc
  obtain ⟨_, _, _, _, h5⟩ := hc
  have h6 := Chain.le h5
  simp only at h6
  refine ⟨by omega, ?_⟩
  have key : ∀ (l : List Blk) (p e : Nat), Chain p l e → p % 8 = 0 → e % 8 = 0 := by
    intro l
    induction l with
    | nil => intro p e hc hp; simp [Chain] at hc; omega
    | cons b l ih =>
      intro p e hc hp
      obtain ⟨_, _, h3, _, h5⟩ := hc
      exact ih _ _ h5 (by omega)
  have := key _ _ _ h5 (by simp only; omega)
  omega

theorem Core.mem_with {h : Heap} {bs : List Blk} {b : Blk} (hb : b ∈ bs) :
    b ∈ withPrologue h bs := List.mem_cons_of_mem _ hb

theorem Core.node {h : Heap} {bs : List Blk} {bk : Nat → List Nat} (c : Core h bs bk)
    {i x : Nat} (hi : i < 84) (hx : x ∈ bk i) :
    ∃ s a, (x, s, a) ∈ bs ∧ bucket s = i ∧ h.base + 352 ≤ x ∧ x + s ≤ h.base + h.brk ∧ 16 ≤ s
      ∧ s % 8 = 0 ∧ a ≤ 1 ∧ x % 8 = 0 ∧ GET h.mem (x - 4) = s + a := by
  obtain ⟨s, a, hm, hb⟩ := c.nodes i hi x hx
  have h1 := c.blk (Core.mem_with hm)
  have h2 := c.blk_ge hm
  exact ⟨s, a, hm, hb, h2, h1.2.1, h1.2.2.1, h1.2.2.2.1, h1.2.2.2.2.1, h1.2.2.2.2.2.1,
    h1.2.2.2.2.2.2.1⟩

theorem Core.node_bucket {h : Heap} {bs : List Blk} {bk : Nat → List Nat} (c : Core h bs bk)
    {i j x : Nat} (hi : i < 84) (hj : j < 84) (hx : x ∈ bk i) (hy : x ∈ bk j) : i = j := by
  obtain ⟨s, a, hm, hb⟩ := c.nodes i hi x hx
  obtain ⟨s1, a1, hm1, hb1⟩ := c.nodes j hj x hy
  have := Chain.unique c.chain (Core.mem_with (h := h) hm) (Core.mem_with hm1)
  rw [← hb, ← hb1, this.1]

theorem Core.slot_eq {h : Heap} {bs : List Blk} {bk : Nat → List Nat} (c : Core h bs bk)
    {i : Nat} (hi : i ≤ 84) : slot h (i : Int) = h.base + 8 + 4 * i := by
  unfold slot
  rw [c.listp]
  have hr := c.range
  have hb := c.brk_ge
  have hl := c.brk_le
  have : ((i : Int) * 4) = ((4 * i : Nat) : Int) := by push_cast; ring
  rw [this, ptrOff_eq (by omega)]

theorem Core.size_lt {h : Heap} {bs : List Blk} {bk : Nat → List Nat} (c : Core h bs bk)
    {b : Blk} (hb : b ∈ withPrologue h bs) : b.2.1 < 2147483648 ∧ b.1 + b.2.1 < 4294967296 := by
  have := c.blk hb
  have := c.range
  have := c.cap_lt
  have := c.brk_le
  omega

/-- The re-scan of `remove_free_list`: when the slots `i, ..., i + d - 1` are
    empty and slot `i + d` is not, the scan ends after `d + 1` tests with the
    last empty index (or the old `minList` when `d = 0`). -/
theorem rescan_spec (h : Heap) (ml : Int) : ∀ (d : Nat) (i : Int) (ml0 : Int),
    (∀ k : Nat, k < d → GET h.mem (slot h (i + k)) = 0) →
    GET h.mem (slot h (i + d)) ≠ 0 →
    ml = (if d = 0 then ml0 else i + d - 1) →
    ∀ fuel, rescan h fuel i ml0 = if d < fuel then some ml else none
  | 0, i, ml0, _, hne, hml, fuel => by
    cases fuel with
    | zero => rfl
    | succ f =>
      simp only [rescan]
      have : GET h.mem (slot h i) ≠ 0 := by simpa using hne
      rw [if_neg this]
      simp [hml]
  | d + 1, i, ml0, hz, hne, hml, fuel => by
    cases fuel with
    | zero => rfl
    | succ f =>
      simp only [rescan]
      have h0 : GET h.mem (slot h i) = 0 := by simpa using hz 0 (by omega)
      rw [if_pos h0]
      have ih := rescan_spec h ml d (i + 1) i
        (fun k hk => by
          have := hz (k + 1) (by omega)
          have e : i + 1 + (k : Int) = i + ((k + 1 : Nat) : Int) := by push_cast; ring
          rw [e]; exact this)
        (by
          have e : i + 1 + (d : Int) = i + ((d + 1 : Nat) : Int) := by push_cast; ring
          rw [e]; exact hne)
        (by
          rw [hml]
          simp only [Nat.succ_ne_zero, if_false]
          split
          · next hd => subst hd; push_cast; ring
          · push_cast; ring)
        f
      rw [ih]
      simp only [Nat.add_lt_add_iff_right]

/-! ## Surgery on a doubly linked bucket list -/

theorem Linked.frame_put {m : Mem} {w v : Nat} (hw : w % 4 = 0) {l : List Nat} {p n : Nat}
    (hl : ∀ y ∈ l, y % 4 = 0 ∧ y ≠ w ∧ y + 4 ≠ w) (h : Linked m p l n) :
    Linked (PUT m w v) p l n := by
  refine Linked.frame (fun y hy => ?_) h
  obtain ⟨h1, h2, h3⟩ := hl y hy
  exact ⟨GET_PUT_ne m w y v hw h1 h2, GET_PUT_ne m w (y + 4) v hw (by omega) h3⟩

theorem firstD_mem {l : List Nat} (hl : l ≠ []) (d : Nat) : firstD l d ∈ l := by
  cases l with
  | nil => exact absurd rfl hl
  | cons x l => exact List.mem_cons_self _ _

theorem lastD_mem {l : List Nat} (hl : l ≠ []) (d : Nat) : lastD l d ∈ l := by
  induction l generalizing d with
  | nil => exact absurd rfl hl
  | cons x l ih =>
    show lastD l x ∈ x :: l
    by_cases h : l = []
    · subst h; exact List.mem_cons_self _ _
    · exact List.mem_cons_of_mem _ (ih h x)

theorem lastD_concat (l : List Nat) (y d : Nat) : lastD (l ++ [y]) d = y := by
  rw [lastD_append]; rfl

/-- Rewriting the next field of the last node. -/
theorem Linked.set_next {m : Mem} {l : List Nat} {y p n n1 : Nat}
    (hal : ∀ z ∈ l ++ [y], z % 8 = 0) (hy : y ∉ l) (hn1 : n1 < 4294967296)
    (h : Linked m p (l ++ [y]) n) :
    Linked (PUT m (y + 4) n1) p (l ++ [y]) n1 := by
  have hy8 := hal y (by simp)
  rw [Linked.append_iff] at h ⊢
  obtain ⟨h1, h2, _, _⟩ := h
  refine ⟨Linked.frame_put (by omega) (fun z hz => ?_) h1, ?_, ?_, trivial⟩
  · have := hal z (by simp [hz])
    have : z ≠ y := fun e => hy (e ▸ hz)
    omega
  · rw [GET_PUT_ne m (y + 4) y n1 (by omega) (by omega) (by omega)]; exact h2
  · rw [GET_PUT_same]
    exact Nat.mod_eq_of_lt hn1

/-- Rewriting the prev field of the first node. -/
theorem Linked.set_prev {m : Mem} {l : List Nat} {z p p1 n : Nat}
    (hal : ∀ y ∈ z :: l, y % 8 = 0) (hz : z ∉ l) (hp1 : p1 < 4294967296)
    (h : Linked m p (z :: l) n) :
    Linked (PUT m z p1) p1 (z :: l) n := by
  have hz8 := hal z (by simp)
  obtain ⟨_, h2, h3⟩ := h
  refine ⟨?_, ?_, Linked.frame_put (by omega) (fun y hy => ?_) h3⟩
  · rw [GET_PUT_same]; exact Nat.mod_eq_of_lt hp1
  · rw [GET_PUT_ne m z (z + 4) p1 (by omega) (by omega) (by omega)]; exact h2
  · have := hal y (by simp [hy])
    have : y ≠ z := fun e => hz (e ▸ hy)
    omega

/-- The link rewiring of `remove_free_list` takes the node `x` out of its list
    and touches no word other than the slot and the fields of the other nodes. -/
theorem unlink_linked {m : Mem} {N x : Nat} {γ δ : List Nat}
    (hal : ∀ y ∈ γ ++ x :: δ, y % 8 = 0 ∧ y ≠ 0 ∧ y + 4 < 4294967296 ∧ y ≠ N ∧ y + 4 ≠ N)
    (hs4 : N % 4 = 0) (hnd : (γ ++ x :: δ).Nodup)
    (hslot : GET m N = firstD (γ ++ x :: δ) 0)
    (hl : Linked m 0 (γ ++ x :: δ) 0) :
    GET (unlink_mem m N (GET m x) (GET m (x + 4))) N = firstD (γ ++ δ) 0
    ∧ Linked (unlink_mem m N (GET m x) (GET m (x + 4))) 0 (γ ++ δ) 0
    ∧ ∀ q, q % 4 = 0 → q ≠ N → (∀ y ∈ γ ++ δ, q ≠ y ∧ q ≠ y + 4) →
        GET (unlink_mem m N (GET m x) (GET m (x + 4))) q = GET m q := by
  obtain ⟨hl1, hx, hx4, hl2⟩ : Linked m 0 γ x ∧ GET m x = lastD γ 0
      ∧ GET m (x + 4) = firstD δ 0 ∧ Linked m x δ 0 := by
    rw [Linked.append_iff] at hl
    exact ⟨hl.1, hl.2.1, hl.2.2.1, hl.2.2.2⟩
  rw [hx, hx4]
  have hnd1 := (List.nodup_append.mp hnd)
  have hnd2 := List.nodup_cons.mp hnd1.2.1
  have hdisj : ∀ y ∈ γ, y ∉ δ := fun y hy hy2 =>
    hnd1.2.2 hy (List.mem_cons_of_mem _ hy2)
  rcases List.eq_nil_or_concat γ with e1 | ⟨l1a, y, e1⟩ <;>
    rcases δ with _ | ⟨z, l2a⟩
  · -- both neighbours empty
    subst e1
    simp only [unlink_mem, lastD, firstD, and_self, if_true, List.nil_append]
    refine ⟨by rw [GET_PUT_same], trivial, fun q hq hqs _ => GET_PUT_ne m N q 0 hs4 hq hqs⟩
  · -- only a successor
    subst e1
    have hz := hal z (by simp)
    have hz0 : z ≠ 0 := hz.2.1
    simp only [unlink_mem, lastD, firstD, hz0, and_false, if_false, true_and, ne_eq,
      not_false_eq_true, and_self, if_true, List.nil_append]
    have hznd : z ∉ l2a := (List.nodup_cons.mp hnd2.2).1
    refine ⟨?_, ?_, ?_⟩
    · rw [GET_PUT_ne _ z N 0 (by omega) hs4 (Ne.symm hz.2.2.2.1), GET_PUT_same]
      exact Nat.mod_eq_of_lt (by omega)
    · refine Linked.set_prev (p := x) (fun y hy => (hal y (by simp at hy ⊢; tauto)).1) hznd
        (by omega) ?_
      refine Linked.frame_put hs4 (fun y hy => ?_) hl2
      have := hal y (by simp at hy ⊢; tauto)
      omega
    · intro q hq hqs hqn
      have := hqn z (by simp)
      rw [GET_PUT_ne _ z q 0 (by omega) hq this.1, GET_PUT_ne _ N q z hs4 hq hqs]
  · -- only a predecessor
    rw [List.concat_eq_append] at e1
    subst e1
    have hy := hal y (by simp)
    have hy0 : y ≠ 0 := hy.2.1
    have hynd : y ∉ l1a := by
      have h9 : (l1a ++ [y]).Nodup := hnd1.1
      intro hh
      exact (List.nodup_append.mp h9).2.2 hh (List.mem_singleton_self y)
    simp only [unlink_mem, lastD_concat, firstD, hy0, false_and, if_false, ne_eq,
      not_false_eq_true, not_true_eq_false, and_false, and_self, if_true, List.append_nil]
    have e4 : add32 y WSIZE = y + 4 := by unfold WSIZE; exact add32_eq (by omega)
    rw [e4]
    refine ⟨?_, ?_, ?_⟩
    · rw [GET_PUT_ne _ (y + 4) N 0 (by omega) hs4 (Ne.symm hy.2.2.2.2), hslot]
      simp only [List.append_assoc, firstD_append]
      rcases l1a with _ | ⟨u, l1b⟩ <;> rfl
    · exact Linked.set_next (fun u hu => (hal u (by simp at hu ⊢; tauto)).1) hynd (by omega) hl1
    · intro q hq hqs hqn
      have := hqn y (by simp)
      exact GET_PUT_ne _ (y + 4) q 0 (by omega) hq this.2
  · -- both neighbours
    rw [List.concat_eq_append] at e1
    subst e1
    have hy := hal y (by simp)
    have hz := hal z (by simp)
    have hy0 : y ≠ 0 := hy.2.1
    have hz0 : z ≠ 0 := hz.2.1
    have hynd : y ∉ l1a := by
      have h9 : (l1a ++ [y]).Nodup := hnd1.1
      intro hh
      exact (List.nodup_append.mp h9).2.2 hh (List.mem_singleton_self y)
    have hznd : z ∉ l2a := (List.nodup_cons.mp hnd2.2).1
    have hyz : y ≠ z := fun e => hdisj y (by simp) (e ▸ List.mem_cons_self _ _)
    simp only [unlink_mem, lastD_concat, firstD, hy0, hz0, false_and, and_false, if_false]
    have e4 : add32 y WSIZE = y + 4 := by unfold WSIZE; exact add32_eq (by omega)
    rw [e4]
    refine ⟨?_, ?_, ?_⟩
    · rw [GET_PUT_ne _ z N y (by omega) hs4 (Ne.symm hz.2.2.2.1),
        GET_PUT_ne _ (y + 4) N z (by omega) hs4 (Ne.symm hy.2.2.2.2), hslot]
      simp only [List.append_assoc, firstD_append]
      rcases l1a with _ | ⟨u, l1b⟩ <;> rfl
    · rw [Linked.append_iff]
      refine ⟨?_, ?_⟩
      · refine Linked.frame_put (by omega) (fun u hu => ?_) ?_
        · have hu8 := hal u (by simp at hu ⊢; tauto)
          have : u ≠ z := fun e => hdisj u hu (e ▸ List.mem_cons_self _ _)
          omega
        · exact Linked.set_next (fun u hu => (hal u (by simp at hu ⊢; tauto)).1) hynd
            (by omega) hl1
      · rw [lastD_concat]
        refine Linked.set_prev (p := x) (fun u hu => (hal u (by simp at hu ⊢; tauto)).1) hznd
          (by omega) ?_
        refine Linked.frame_put (by omega) (fun u hu => ?_) hl2
        have hu8 := hal u (by simp at hu ⊢; tauto)
        have : u ≠ y := fun e => hdisj y (by simp) (e ▸ hu)
        omega
    · intro q hq hqs hqn
      have h1 := hqn y (by simp)
      have h2 := hqn z (by simp)
      rw [GET_PUT_ne _ z q y (by omega) hq h2.1, GET_PUT_ne _ (y + 4) q z (by omega) hq h1.2]

/-! ## `remove_free_list` under the structural invariant -/

theorem slot_eq_of {h : Heap} {b : Nat} (hl : h.heap_listp = b + 8) {i : Nat}
    (hr : b + 8 + 4 * i < 4294967296) : slot h (i : Int) = b + 8 + 4 * i := by
  unfold slot
  rw [hl]
  have : ((i : Int) * 4) = ((4 * i : Nat) : Int) := by push_cast; ring
  rw [this, ptrOff_eq (by omega)]

theorem total_zero {bk : Nat → List Nat} : ∀ {n : Nat}, total bk n = 0 → ∀ i, i < n → bk i = []
  | 0, _, i, hi => by omega
  | n + 1, h, i, hi => by
    simp only [total] at h
    have h1 : total bk n = 0 := by omega
    have h2 : (bk n).length = 0 := by omega
    by_cases e : i = n
    · subst e; exact List.length_eq_zero.mp h2
    · exact total_zero h1 i (by omega)

/-- A header or footer word is never a link field of another block's node. -/
theorem Chain.tag_ne_field {l : List Blk} {p e : Nat} (hc : Chain p l e) {b c : Blk}
    (hb : b ∈ l) (hcm : c ∈ l) (hp : 8 ≤ p) :
    b.1 - 4 ≠ c.1 ∧ b.1 - 4 ≠ c.1 + 4 ∧ b.1 + b.2.1 - 8 ≠ c.1 ∧ b.1 + b.2.1 - 8 ≠ c.1 + 4 := by
  have h1 := Chain.mem hc b hb
  have h2 := Chain.mem hc c hcm
  rcases Chain.sep hc b hb c hcm with e | e | e
  · subst e; omega
  · omega
  · omega

theorem remove_free_list_eval (fuel : Nat) (h : Heap) (x : Nat) :
    remove_free_list fuel h x =
      if GET h.mem x = 0 ∧ GET h.mem (add32 x WSIZE) = 0
          ∧ h.minList = bucketOf (GET_SIZE h.mem (HDRP x)) then
        if h.numFree - 1 > 0 then
          (rescan { h with numFree := h.numFree - 1,
                           mem := unlink_mem h.mem (slot h (bucketOf (GET_SIZE h.mem (HDRP x))))
                             (GET h.mem x) (GET h.mem (add32 x WSIZE)) }
              fuel (bucketOf (GET_SIZE h.mem (HDRP x))) h.minList).map
            fun ml => { h with numFree := h.numFree - 1, minList := ml,
                               mem := unlink_mem h.mem (slot h (bucketOf (GET_SIZE h.mem (HDRP x))))
                                 (GET h.mem x) (GET h.mem (add32 x WSIZE)) }
        else some { h with numFree := h.numFree - 1, minList := 100,
                           mem := unlink_mem h.mem (slot h (bucketOf (GET_SIZE h.mem (HDRP x))))
                             (GET h.mem x) (GET h.mem (add32 x WSIZE)) }
      else some { h with numFree := h.numFree - 1,
                         mem := unlink_mem h.mem (slot h (bucketOf (GET_SIZE h.mem (HDRP x))))
                           (GET h.mem x) (GET h.mem (add32 x WSIZE)) } := by
  unfold remove_free_list unlink_mem
  by_cases hp : GET h.mem x = 0 <;> by_cases hn : GET h.mem (add32 x WSIZE) = 0
  · by_cases hm : h.minList = bucketOf (GET_SIZE h.mem (HDRP x))
    · simp only [hp, hn, hm, and_self, if_true, slot]
    · simp only [hp, hn, hm, and_self, if_true, and_false, if_false, slot]
  · simp only [hp, hn, and_false, false_and, if_false, true_and, ne_eq, not_false_eq_true,
      if_true, slot]
  · simp only [hp, hn, and_false, false_and, if_false, and_true, ne_eq, not_false_eq_true,
      if_true, slot, not_true_eq_false]
  · simp only [hp, hn, and_false, false_and, if_false, and_self, ne_eq, not_false_eq_true,
      slot, not_true_eq_false]

theorem Fueled.const {α : Type} (r : α) (n : Nat) : Fueled (fun _ => some r) n r :=
  ⟨fun _ _ => rfl, fun _ => Or.inl rfl⟩

theorem Fueled.eq_of_some {α : Type} {f : Nat → Option α} {n : Nat} {r r1 : α}
    (hf : Fueled f n r) {fuel : Nat} (h : f fuel = some r1) : r1 = r := by
  rcases hf.only fuel with e | e
  · rw [e] at h; exact (Option.some.inj h).symm
  · rw [e] at h; exact absurd h (by simp)

theorem least_nonempty {bk : Nat → List Nat} : ∀ {n : Nat}, (∃ j, j < n ∧ bk j ≠ []) →
    ∃ j0, j0 < n ∧ bk j0 ≠ [] ∧ ∀ k, k < j0 → bk k = []
  | 0, ⟨j, hj, _⟩ => by omega
  | n + 1, ⟨j, hj, hne⟩ => by
    by_cases hex : ∃ j, j < n ∧ bk j ≠ []
    · obtain ⟨j0, h1, h2, h3⟩ := least_nonempty hex
      exact ⟨j0, by omega, h2, h3⟩
    · have hall : ∀ k, k < n → bk k = [] := by
        intro k hk
        by_contra hk1
        exact hex ⟨k, hk, hk1⟩
      have : j = n := by
        by_contra hjn
        exact hne (hall j (by omega))
      subst this
      exact ⟨j, by omega, hne, hall⟩

theorem lastD_eq_zero {l : List Nat} (hl : ∀ y ∈ l, y ≠ 0) (h : lastD l 0 = 0) : l = [] := by
  by_contra hne
  exact hl _ (lastD_mem hne 0) h

theorem firstD_eq_zero {l : List Nat} (hl : ∀ y ∈ l, y ≠ 0) (h : firstD l 0 = 0) : l = [] := by
  by_contra hne
  exact hl _ (firstD_mem hne 0) h

/-- Taking the node `x` out of bucket `i` keeps the structural invariant, for the
    same blocks and the bucket lists without `x`. -/
theorem remove_free_list_spec {h : Heap} {bs : List Blk} {bk : Nat → List Nat}
    (c : Core h bs bk) {i x : Nat} {γ δ : List Nat} (hi : i < 84)
    (hL : bk i = γ ++ x :: δ) :
    ∃ h1, Fueled (fun fuel => remove_free_list fuel h x) 85 h1 ∧ SameArena h h1
      ∧ Core h1 bs (Function.update bk i (γ ++ δ)) ∧ h1.numFree = h.numFree - 1 := by
  have hx : x ∈ bk i := by rw [hL]; simp
  obtain ⟨s, a, hmem, hbk, hge, hle, hs16, hs8, ha, hx8, hhdr⟩ := c.node hi hx
  have hrange := c.range
  have hbrkle := c.brk_le
  have hcap := c.cap_lt
  have hbase := c.base_al
  have hbrk := c.brk_ge
  -- the values read by the code
  have e1 : HDRP x = x - 4 := HDRP_eq (by omega) (by omega)
  have e2 : GET_SIZE h.mem (x - 4) = s := GET_SIZE_eq hhdr hs8 ha
  have e3 : bucketOf s = (i : Int) := by rw [bucketOf_eq (by omega), hbk]
  have e4 : slot h (i : Int) = h.base + 8 + 4 * i := c.slot_eq (by omega)
  have e5 : add32 x WSIZE = x + 4 := by unfold WSIZE; exact add32_eq (by omega)
  -- facts about the nodes of bucket `i`
  have hal : ∀ y ∈ γ ++ x :: δ, y % 8 = 0 ∧ y ≠ 0 ∧ y + 4 < 4294967296
      ∧ y ≠ h.base + 8 + 4 * i ∧ y + 4 ≠ h.base + 8 + 4 * i := by
    intro y hy
    obtain ⟨sy, ay, _, _, hyge, hyle, _, _, _, hy8, _⟩ := c.node hi (hL ▸ hy)
    refine ⟨hy8, by omega, by omega, by omega, by omega⟩
  have hnd : (γ ++ x :: δ).Nodup := hL ▸ c.nodup i hi
  obtain ⟨u1, u2, u3⟩ := unlink_linked (m := h.mem) (N := h.base + 8 + 4 * i) hal (by omega)
    hnd (hL ▸ c.slots i hi) (hL ▸ c.linked i hi)
  have hsub : ∀ y ∈ γ ++ δ, y ∈ bk i := by
    intro y hy; rw [hL]
    rcases List.mem_append.mp hy with e | e
    · exact List.mem_append_left _ e
    · exact List.mem_append_right _ (List.mem_cons_of_mem _ e)
  have hlen : (bk i).length = (γ ++ δ).length + 1 := by
    rw [hL]; simp only [List.length_append, List.length_cons]; omega
  have htot := total_update bk i (γ ++ δ) 84 hi
  -- the frame, for words that are not link fields
  have frame : ∀ q, q % 4 = 0 → q ≠ h.base + 8 + 4 * i →
      (∀ j, j < 84 → ∀ y ∈ bk j, q ≠ y ∧ q ≠ y + 4) →
      GET (unlink_mem h.mem (h.base + 8 + 4 * i) (GET h.mem x) (GET h.mem (x + 4))) q
        = GET h.mem q :=
    fun q hq hqs hqn => u3 q hq hqs (fun y hy => hqn i hi y (hsub y hy))
  -- the part of the invariant that does not depend on `minList`
  have build : ∀ ml : Int, (0 ≤ ml ∧ ∀ k : Nat, k < 84 → (k : Int) < ml →
        Function.update bk i (γ ++ δ) k = []) →
      Core { h with numFree := h.numFree - 1, minList := ml,
                    mem := unlink_mem h.mem (h.base + 8 + 4 * i) (GET h.mem x)
                      (GET h.mem (x + 4)) } bs (Function.update bk i (γ ++ δ)) := by
    intro ml hml
    refine { listp := c.listp, base_al := c.base_al, range := c.range, cap_lt := c.cap_lt,
             brk_le := c.brk_le, chain := c.chain, tagged := ?_, epilogue := ?_, slots := ?_,
             linked := ?_, nodup := ?_, nodes := ?_, count := ?_, minl := hml }
    · intro b hb
      have hb1 := c.blk hb
      have key : ∀ j, j < 84 → ∀ y ∈ bk j, b.1 - 4 ≠ y ∧ b.1 - 4 ≠ y + 4
          ∧ b.1 + b.2.1 - 8 ≠ y ∧ b.1 + b.2.1 - 8 ≠ y + 4 := by
        intro j hj y hy
        obtain ⟨sy, ay, hym, _⟩ := c.nodes j hj y hy
        exact Chain.tag_ne_field c.chain hb (Core.mem_with hym) (by omega)
      have hq1 : b.1 - 4 ≠ h.base + 8 + 4 * i := by
        rcases List.mem_cons.mp hb with e | e
        · subst e; simp only; omega
        · have := c.blk_ge e; omega
      have hq2 : b.1 + b.2.1 - 8 ≠ h.base + 8 + 4 * i := by
        rcases List.mem_cons.mp hb with e | e
        · subst e; simp only; omega
        · have := c.blk_ge e; omega
      show GET (unlink_mem _ _ _ _) _ = _ ∧ GET (unlink_mem _ _ _ _) _ = _
      rw [frame _ (by omega) hq1 (fun j hj y hy => ⟨(key j hj y hy).1, (key j hj y hy).2.1⟩),
        frame _ (by omega) hq2 (fun j hj y hy => ⟨(key j hj y hy).2.2.1, (key j hj y hy).2.2.2⟩)]
      exact ⟨hb1.2.2.2.2.2.2.1, hb1.2.2.2.2.2.2.2⟩
    · show GET (unlink_mem _ _ _ _) (h.base + h.brk - 4) = 1
      rw [frame _ (by omega) (by omega) (fun j hj y hy => by
        obtain ⟨sy, ay, _, _, hyge, hyle, hy16, _, _, hy8, _⟩ := c.node hj hy
        omega)]
      exact c.epilogue
    · intro j hj
      show GET (unlink_mem _ _ _ _) (h.base + 8 + 4 * j) = _
      by_cases e : j = i
      · subst e; rw [Function.update_same]; exact u1
      · rw [Function.update_noteq e, frame _ (by omega) (by omega) (fun k hk y hy => by
          obtain ⟨sy, ay, _, _, hyge, hyle, hy16, _, _, hy8, _⟩ := c.node hk hy
          omega)]
        exact c.slots j hj
    · intro j hj
      show Linked (unlink_mem _ _ _ _) _ _ _
      by_cases e : j = i
      · subst e; rw [Function.update_same]; exact u2
      · rw [Function.update_noteq e]
        refine Linked.frame (fun y hy => ?_) (c.linked j hj)
        obtain ⟨sy, ay, _, _, hyge, hyle, hy16, _, _, hy8, _⟩ := c.node hj hy
        have hne : ∀ z ∈ γ ++ δ, y ≠ z ∧ y ≠ z + 4 ∧ y + 4 ≠ z ∧ y + 4 ≠ z + 4 := by
          intro z hz
          obtain ⟨ζ, az, _, _, hzge, hzle, hz16, _, _, hz8, _⟩ := c.node hi (hsub z hz)
          have : y ≠ z := fun e1 => e (c.node_bucket hj hi hy (e1 ▸ hsub z hz))
          omega
        exact ⟨u3 y (by omega) (by omega) (fun z hz => ⟨(hne z hz).1, (hne z hz).2.1⟩),
          u3 (y + 4) (by omega) (by omega) (fun z hz => ⟨(hne z hz).2.2.1, (hne z hz).2.2.2⟩)⟩
    · intro j hj
      by_cases e : j = i
      · subst e; rw [Function.update_same]
        exact List.Nodup.sublist (by simp) hnd
      · rw [Function.update_noteq e]; exact c.nodup j hj
    · intro j hj y hy
      by_cases e : j = i
      · subst e; rw [Function.update_same] at hy; exact c.nodes j hj y (hsub y hy)
      · rw [Function.update_noteq e] at hy; exact c.nodes j hj y hy
    · show h.numFree - 1 = _
      rw [c.count]
      have : total (Function.update bk i (γ ++ δ)) 84 + 1 = total bk 84 := by omega
      omega
  have keep : 0 ≤ h.minList ∧ ∀ k : Nat, k < 84 → (k : Int) < h.minList →
      Function.update bk i (γ ++ δ) k = [] := by
    refine ⟨c.minl.1, fun k hk hlt => ?_⟩
    by_cases e : k = i
    · subst e
      have := c.minl.2 k hk hlt
      rw [this] at hx; simp at hx
    · rw [Function.update_noteq e]; exact c.minl.2 k hk hlt
  -- the prev and next fields of `x`
  obtain ⟨hpv, hnx⟩ : GET h.mem x = lastD γ 0 ∧ GET h.mem (x + 4) = firstD δ 0 := by
    have := c.linked i hi
    rw [hL, Linked.append_iff] at this
    exact ⟨this.2.1, this.2.2.1⟩
  simp only [remove_free_list_eval, e1, e2, e3, e4, e5]
  by_cases hcond : GET h.mem x = 0 ∧ GET h.mem (x + 4) = 0 ∧ h.minList = (i : Int)
  · simp only [if_pos hcond]
    obtain ⟨hp0, hn0, hml⟩ := hcond
    have hl1 : γ = [] := lastD_eq_zero (fun y hy => (hal y (by simp [hy])).2.1) (hpv ▸ hp0)
    have hl2 : δ = [] := firstD_eq_zero (fun y hy => (hal y (by simp [hy])).2.1) (hnx ▸ hn0)
    have hnew : γ ++ δ = [] := by rw [hl1, hl2]; rfl
    by_cases hpos : h.numFree - 1 > 0
    · simp only [if_pos hpos]
      -- a bucket above `i` is not empty
      have c0 := build 0 ⟨le_refl 0, fun k _ hk => absurd hk (by omega)⟩
      have hex : ∃ j, j < 84 ∧ Function.update bk i (γ ++ δ) j ≠ [] := by
        apply total_pos
        have := c0.count
        have e : (h.numFree - 1 : Int) = (total (Function.update bk i (γ ++ δ)) 84 : Nat) :=
          this
        omega
      obtain ⟨j0, hj0, hne, hbelow⟩ := least_nonempty hex
      have hij : i < j0 := by
        by_contra hle0
        have hle1 : j0 ≤ i := by omega
        by_cases e : j0 = i
        · subst e; rw [Function.update_same] at hne; exact hne hnew
        · rw [Function.update_noteq e] at hne
          exact hne (c.minl.2 j0 hj0 (by omega))
      have hsl : ∀ k : Nat, i + k < 84 →
          ptrOff h.heap_listp (((i : Int) + (k : Int)) * 4) = h.base + 8 + 4 * (i + k) := by
        intro k hk
        have e : (((i : Int) + (k : Int)) * 4) = ((4 * (i + k) : Nat) : Int) := by
          push_cast; ring
        rw [e, c.listp]
        exact ptrOff_eq (by omega)
      have hres := rescan_spec
          (⟨unlink_mem h.mem (h.base + 8 + 4 * i) (GET h.mem x) (GET h.mem (x + 4)), h.base, h.brk,
          h.cap, h.heap_listp, h.minList, h.numFree - 1⟩ : Heap)
          ((j0 : Int) - 1) (j0 - i) (i : Int) h.minList
          (fun k hk => by
            simp only [slot]
            rw [hsl k (by omega)]
            have := c0.slots (i + k) (by omega)
            rw [hbelow (i + k) (by omega)] at this
            exact this)
          (by
            have e8 : ((j0 - i : Nat) : Int) = ((j0 - i : Nat) : Int) := rfl
            simp only [slot]
            rw [hsl (j0 - i) (by omega)]
            have := c0.slots (i + (j0 - i)) (by omega)
            have e9 : i + (j0 - i) = j0 := by omega
            rw [e9] at this ⊢
            intro h0
            rw [this] at h0
            have hin := firstD_mem hne 0
            rw [h0] at hin
            obtain ⟨sy, ay, _, _, hyge, _⟩ := c0.node hj0 hin
            omega)
          (by
            have : ¬ (j0 - i = 0) := by omega
            rw [if_neg this]
            omega)
      refine ⟨(⟨unlink_mem h.mem (h.base + 8 + 4 * i) (GET h.mem x) (GET h.mem (x + 4)), h.base,
          h.brk, h.cap, h.heap_listp, (j0 : Int) - 1, h.numFree - 1⟩ : Heap),
        ⟨fun fuel hf => ?_, fun fuel => ?_⟩, ⟨rfl, rfl, rfl, rfl⟩,
        build ((j0 : Int) - 1) ⟨by omega, fun k hk hlt => hbelow k (by omega)⟩, rfl⟩
      · show Option.map _ (rescan _ fuel _ _) = _
        rw [hres fuel, if_pos (by omega)]; rfl
      · show Option.map _ (rescan _ fuel _ _) = _ ∨ Option.map _ (rescan _ fuel _ _) = _
        rw [hres fuel]
        by_cases hf : j0 - i < fuel
        · left; rw [if_pos hf]; rfl
        · right; rw [if_neg hf]; rfl
    · simp only [if_neg hpos]
      refine ⟨_, Fueled.const _ _, ⟨rfl, rfl, rfl, rfl⟩, build 100 ⟨by omega, fun k hk _ => ?_⟩,
        rfl⟩
      apply total_zero (n := 84) _ k hk
      have := c.count
      omega
  · simp only [if_neg hcond]
    exact ⟨_, Fueled.const _ _, ⟨rfl, rfl, rfl, rfl⟩, build h.minList keep, rfl⟩

/-! ## `add_free_list` under the structural invariant -/

theorem firstD_cons (x : Nat) (l : List Nat) (d : Nat) : firstD (x :: l) d = x := rfl

theorem firstD_nil (d : Nat) : firstD [] d = d := rfl

theorem lastD_cons (x : Nat) (l : List Nat) (d : Nat) : lastD (x :: l) d = lastD l x := rfl

theorem lastD_nil (d : Nat) : lastD [] d = d := rfl

/-- The insertion scan walks a prefix `la` of the list and stops; it returns the
    last node of `la` (or the initial `tempPrev` when `la` is empty). -/
theorem add_scan_spec {m : Mem} {N : Nat} : ∀ (l : List Nat) (q prev : Nat),
    (∀ y ∈ l, y ≠ 0 ∧ y + 4 < 4294967296) → Linked m q l 0 →
    ∃ la lb, l = la ++ lb ∧ ∀ fuel, add_scan m N fuel (firstD l 0) prev
      = if la.length < fuel then some (lastD la prev) else none
  | [], q, prev, _, _ => by
    refine ⟨[], [], rfl, fun fuel => ?_⟩
    cases fuel with
    | zero => rfl
    | succ f => simp [add_scan, firstD_nil, lastD_nil]
  | y :: l, q, prev, hne, hl => by
    obtain ⟨_, h2, h3⟩ := hl
    have hy := hne y (List.mem_cons_self _ _)
    have hy0 : y ≠ 0 := hy.1
    by_cases hsz : GET_SIZE m (HDRP y) < N
    · obtain ⟨la, lb, e, ih⟩ := add_scan_spec (m := m) (N := N) l y y
        (fun z hz => hne z (List.mem_cons_of_mem _ hz)) h3
      refine ⟨y :: la, lb, by rw [e]; rfl, fun fuel => ?_⟩
      cases fuel with
      | zero => rfl
      | succ f =>
        have e4 : add32 y WSIZE = y + 4 := by unfold WSIZE; exact add32_eq (by omega)
        rw [firstD_cons, lastD_cons]
        simp only [add_scan, hy0, ne_eq, not_false_eq_true, hsz, and_self, if_true, e4, h2,
          ih f, List.length_cons, Nat.add_lt_add_iff_right]
    · refine ⟨[], y :: l, rfl, fun fuel => ?_⟩
      cases fuel with
      | zero => rfl
      | succ f => simp [add_scan, firstD_cons, lastD_nil, hsz]

/-- The link writes of `add_free_list` put the block `x` after the last node of
    the non-empty prefix `γ`, and touch no other word than the next field of
    that node, the prev field of its successor, and the two fields of `x`. -/
theorem link_linked {m : Mem} {x : Nat} {γ δ : List Nat} (hne : γ ≠ [])
    (hal : ∀ y ∈ x :: (γ ++ δ), y % 8 = 0 ∧ y ≠ 0 ∧ y + 4 < 4294967296)
    (hnd : (x :: (γ ++ δ)).Nodup)
    (hl : Linked m 0 (γ ++ δ) 0) :
    Linked (link_mem m (lastD γ 0) (firstD δ 0) x) 0 (γ ++ x :: δ) 0
    ∧ ∀ q, q % 4 = 0 → q ≠ x → q ≠ x + 4 → (∀ y ∈ γ ++ δ, q ≠ y ∧ q ≠ y + 4) →
        GET (link_mem m (lastD γ 0) (firstD δ 0) x) q = GET m q := by
  obtain ⟨hxn, hnd0⟩ := List.nodup_cons.mp hnd
  have hnd1 := List.nodup_append.mp hnd0
  have hx := hal x (List.mem_cons_self _ _)
  rcases List.eq_nil_or_concat γ with e1 | ⟨l1a, y, e1⟩
  · exact absurd e1 hne
  rw [List.concat_eq_append] at e1
  subst e1
  have hy := hal y (by simp)
  have hynd : y ∉ l1a := by
    have h9 : (l1a ++ [y]).Nodup := hnd1.1
    intro hh
    exact (List.nodup_append.mp h9).2.2 hh (List.mem_singleton_self y)
  have hxy : x ≠ y := fun e => hxn (e ▸ by simp)
  obtain ⟨hl1, hl2⟩ := Linked.append_iff.mp hl
  rw [lastD_concat] at hl2 ⊢
  have e4 : add32 y WSIZE = y + 4 := by unfold WSIZE; exact add32_eq (by omega)
  have e5 : add32 x WSIZE = x + 4 := by unfold WSIZE; exact add32_eq (by omega)
  have hal1 : ∀ u ∈ l1a ++ [y], u % 8 = 0 := fun u hu => (hal u (by simp at hu ⊢; tauto)).1
  have hx1 : ∀ u ∈ l1a ++ [y], u ≠ x := fun u hu e => hxn (e ▸ by simp at hu ⊢; tauto)
  have hx2 : ∀ u ∈ δ, u ≠ x ∧ u ≠ y ∧ u % 8 = 0 := by
    intro u hu
    refine ⟨fun e => hxn (e ▸ by simp [hu]), fun e => ?_, (hal u (by simp [hu])).1⟩
    exact hnd1.2.2 (by simp : y ∈ l1a ++ [y]) (e ▸ hu)
  -- first write
  have s1 : Linked (PUT m (y + 4) x) 0 (l1a ++ [y]) x := Linked.set_next hal1 hynd (by omega) hl1
  have s2 : Linked (PUT m (y + 4) x) y δ 0 :=
    Linked.frame_put (by omega) (fun u hu => by have := hx2 u hu; omega) hl2
  unfold link_mem
  simp only [e4, e5]
  rcases δ with _ | ⟨z, l2a⟩
  · simp only [firstD_nil, ne_eq, not_true_eq_false, if_false]
    refine ⟨?_, ?_⟩
    · rw [Linked.append_iff, lastD_concat, firstD_cons]
      refine ⟨?_, ?_, ?_, trivial⟩
      · refine Linked.frame_put (by omega) (fun u hu => ?_) (Linked.frame_put (by omega)
          (fun u hu => ?_) s1)
        · have := hal1 u hu; have := hx1 u hu; omega
        · have := hal1 u hu; have := hx1 u hu; omega
      · rw [GET_PUT_ne _ (x + 4) x 0 (by omega) (by omega) (by omega), GET_PUT_same]
        exact Nat.mod_eq_of_lt (by omega)
      · rw [GET_PUT_same]; rfl
    · intro q hq hq1 hq2 hqn
      have := hqn y (by simp)
      rw [GET_PUT_ne _ (x + 4) q 0 (by omega) hq hq2, GET_PUT_ne _ x q y (by omega) hq hq1,
        GET_PUT_ne _ (y + 4) q x (by omega) hq this.2]
  · have hz := hal z (by simp)
    have hz0 : z ≠ 0 := hz.2.1
    have hzx := hx2 z (List.mem_cons_self _ _)
    have hznd : z ∉ l2a := (List.nodup_cons.mp hnd1.2.1).1
    simp only [firstD_cons, ne_eq, hz0, not_false_eq_true, if_true]
    have s3 : Linked (PUT (PUT m (y + 4) x) z x) x (z :: l2a) 0 :=
      Linked.set_prev (fun u hu => (hx2 u hu).2.2) hznd (by omega) s2
    have s4 : Linked (PUT (PUT m (y + 4) x) z x) 0 (l1a ++ [y]) x :=
      Linked.frame_put (by omega) (fun u hu => by
        have := hal1 u hu
        have : u ≠ z := fun e => hnd1.2.2 hu (e ▸ List.mem_cons_self _ _)
        omega) s1
    refine ⟨?_, ?_⟩
    · rw [Linked.append_iff, lastD_concat, firstD_cons]
      refine ⟨?_, ?_, ?_, ?_⟩
      · refine Linked.frame_put (by omega) (fun u hu => ?_) (Linked.frame_put (by omega)
          (fun u hu => ?_) s4)
        · have := hal1 u hu; have := hx1 u hu; omega
        · have := hal1 u hu; have := hx1 u hu; omega
      · rw [GET_PUT_ne _ (x + 4) x z (by omega) (by omega) (by omega), GET_PUT_same]
        exact Nat.mod_eq_of_lt (by omega)
      · rw [GET_PUT_same, firstD_cons]; exact Nat.mod_eq_of_lt (by omega)
      · refine Linked.frame_put (by omega) (fun u hu => ?_) (Linked.frame_put (by omega)
          (fun u hu => ?_) s3)
        · have := hx2 u hu; omega
        · have := hx2 u hu; omega
    · intro q hq hq1 hq2 hqn
      have h1 := hqn y (by simp)
      have h2 := hqn z (by simp)
      rw [GET_PUT_ne _ (x + 4) q z (by omega) hq hq2, GET_PUT_ne _ x q y (by omega) hq hq1,
        GET_PUT_ne _ z q x (by omega) hq h2.1, GET_PUT_ne _ (y + 4) q x (by omega) hq h1.2]

theorem lastD_of_ne_nil {l : List Nat} (hl : l ≠ []) (d d1 : Nat) : lastD l d = lastD l d1 := by
  cases l with
  | nil => exact absurd rfl hl
  | cons x l => rfl

theorem Linked.last_next {m : Mem} {l : List Nat} {y p n : Nat} (h : Linked m p (l ++ [y]) n) :
    GET m (y + 4) = n := by
  rw [Linked.append_iff] at h
  exact h.2.2.1

theorem add_free_list_eval (fuel : Nat) (h : Heap) (x : Nat) :
    add_free_list fuel h x =
      if GET h.mem (slot h (bucketOf (GET_SIZE h.mem (HDRP x)))) = 0 then
        some { h with numFree := h.numFree + 1,
                      minList := if h.minList > bucketOf (GET_SIZE h.mem (HDRP x))
                          ∨ h.minList = 100 then bucketOf (GET_SIZE h.mem (HDRP x))
                        else h.minList,
                      mem := PUT (PUT (PUT h.mem (slot h (bucketOf (GET_SIZE h.mem (HDRP x)))) x)
                        x 0) (add32 x WSIZE) 0 }
      else
        (add_scan h.mem (GET_SIZE h.mem (HDRP x)) fuel
            (GET h.mem (slot h (bucketOf (GET_SIZE h.mem (HDRP x)))))
            (GET h.mem (slot h (bucketOf (GET_SIZE h.mem (HDRP x)))))).map fun tP =>
          { h with numFree := h.numFree + 1,
                   minList := if h.minList > bucketOf (GET_SIZE h.mem (HDRP x))
                       ∨ h.minList = 100 then bucketOf (GET_SIZE h.mem (HDRP x))
                     else h.minList,
                   mem := link_mem h.mem tP (GET h.mem (add32 tP WSIZE)) x } := by
  unfold add_free_list link_mem
  by_cases hm : h.minList > bucketOf (GET_SIZE h.mem (HDRP x)) ∨ h.minList = 100
  · simp only [hm, if_true, slot]
  · simp only [hm, if_false, slot]

/-- Rebuilding the structural invariant after the list of bucket `i` has been
    rewritten to `L1`, when no word other than the slot of the bucket and the
    link fields of its old and new nodes has changed. -/
theorem Core.relink {h : Heap} {bs : List Blk} {bk : Nat → List Nat} (c : Core h bs bk)
    {i : Nat} (hi : i < 84) {L1 : List Nat} {μ : Mem} {ml nf : Int}
    (hslot : GET μ (h.base + 8 + 4 * i) = firstD L1 0)
    (hlink : Linked μ 0 L1 0) (hnd : L1.Nodup)
    (hnodes : ∀ y ∈ L1, ∃ s a, (y, s, a) ∈ bs ∧ bucket s = i)
    (hnew : ∀ y ∈ L1, ∀ j, j < 84 → j ≠ i → y ∉ bk j)
    (frame : ∀ q, q % 4 = 0 → q ≠ h.base + 8 + 4 * i →
      (∀ y, y ∈ L1 ∨ y ∈ bk i → q ≠ y ∧ q ≠ y + 4) → GET μ q = GET h.mem q)
    (hcount : nf = (total (Function.update bk i L1) 84 : Nat))
    (hml : 0 ≤ ml ∧ ∀ k : Nat, k < 84 → (k : Int) < ml → Function.update bk i L1 k = []) :
    Core ⟨μ, h.base, h.brk, h.cap, h.heap_listp, ml, nf⟩ bs (Function.update bk i L1) := by
  have hrange := c.range
  have hbrkle := c.brk_le
  have hcap := c.cap_lt
  have hbase := c.base_al
  have hbrk := c.brk_ge
  -- every old or new node of bucket `i` is a block
  have hblk : ∀ y, y ∈ L1 ∨ y ∈ bk i → ∃ s a, (y, s, a) ∈ bs := by
    rintro y (hy | hy)
    · obtain ⟨s, a, h1, _⟩ := hnodes y hy; exact ⟨s, a, h1⟩
    · obtain ⟨s, a, h1, _⟩ := c.nodes i hi y hy; exact ⟨s, a, h1⟩
  have hgeo : ∀ y, y ∈ L1 ∨ y ∈ bk i → h.base + 352 ≤ y ∧ y + 16 ≤ h.base + h.brk ∧ y % 8 = 0 := by
    intro y hy
    obtain ⟨s, a, h1⟩ := hblk y hy
    have h2 := c.blk (Core.mem_with h1)
    have h3 := c.blk_ge h1
    simp only at h2
    omega
  refine { listp := c.listp, base_al := c.base_al, range := c.range, cap_lt := c.cap_lt,
           brk_le := c.brk_le, chain := c.chain, tagged := ?_, epilogue := ?_, slots := ?_,
           linked := ?_, nodup := ?_, nodes := ?_, count := hcount, minl := hml }
  · intro b hb
    have hb1 := c.blk hb
    have key : ∀ y, y ∈ L1 ∨ y ∈ bk i → b.1 - 4 ≠ y ∧ b.1 - 4 ≠ y + 4
        ∧ b.1 + b.2.1 - 8 ≠ y ∧ b.1 + b.2.1 - 8 ≠ y + 4 := by
      intro y hy
      obtain ⟨sy, ay, hym⟩ := hblk y hy
      exact Chain.tag_ne_field c.chain hb (Core.mem_with hym) (by omega)
    have hq1 : b.1 - 4 ≠ h.base + 8 + 4 * i := by
      rcases List.mem_cons.mp hb with e | e
      · subst e; simp only; omega
      · have := c.blk_ge e; omega
    have hq2 : b.1 + b.2.1 - 8 ≠ h.base + 8 + 4 * i := by
      rcases List.mem_cons.mp hb with e | e
      · subst e; simp only; omega
      · have := c.blk_ge e; omega
    show GET μ _ = _ ∧ GET μ _ = _
    rw [frame _ (by omega) hq1 (fun y hy => ⟨(key y hy).1, (key y hy).2.1⟩),
      frame _ (by omega) hq2 (fun y hy => ⟨(key y hy).2.2.1, (key y hy).2.2.2⟩)]
    exact ⟨hb1.2.2.2.2.2.2.1, hb1.2.2.2.2.2.2.2⟩
  · show GET μ (h.base + h.brk - 4) = 1
    rw [frame _ (by omega) (by omega) (fun y hy => by have := hgeo y hy; omega)]
    exact c.epilogue
  · intro j hj
    show GET μ (h.base + 8 + 4 * j) = _
    by_cases e : j = i
    · subst e; rw [Function.update_same]; exact hslot
    · rw [Function.update_noteq e, frame _ (by omega) (by omega)
        (fun y hy => by have := hgeo y hy; omega)]
      exact c.slots j hj
  · intro j hj
    show Linked μ _ _ _
    by_cases e : j = i
    · subst e; rw [Function.update_same]; exact hlink
    · rw [Function.update_noteq e]
      refine Linked.frame (fun u hu => ?_) (c.linked j hj)
      obtain ⟨su, au, _, _, huge, hule, hu16, _, _, hu8, _⟩ := c.node hj hu
      have hne : ∀ y, y ∈ L1 ∨ y ∈ bk i → u ≠ y ∧ u ≠ y + 4 ∧ u + 4 ≠ y ∧ u + 4 ≠ y + 4 := by
        intro y hy
        have hg := hgeo y hy
        have : u ≠ y := by
          rintro rfl
          rcases hy with hy | hy
          · exact hnew u hy j hj e hu
          · exact e (c.node_bucket hj hi hu hy)
        omega
      exact ⟨frame u (by omega) (by omega) (fun y hy => ⟨(hne y hy).1, (hne y hy).2.1⟩),
        frame (u + 4) (by omega) (by omega) (fun y hy => ⟨(hne y hy).2.2.1, (hne y hy).2.2.2⟩)⟩
  · intro j hj
    by_cases e : j = i
    · subst e; rw [Function.update_same]; exact hnd
    · rw [Function.update_noteq e]; exact c.nodup j hj
  · intro j hj y hy
    by_cases e : j = i
    · subst e; rw [Function.update_same] at hy; exact hnodes y hy
    · rw [Function.update_noteq e] at hy; exact c.nodes j hj y hy

/-- Linking the block `x`, which is in no bucket list, keeps the structural
    invariant: `x` enters the list of its bucket (after a non-empty prefix `γ`
    when the list was not empty). -/
theorem add_free_list_spec {h : Heap} {bs : List Blk} {bk : Nat → List Nat}
    (c : Core h bs bk) {x s a : Nat} (hm : (x, s, a) ∈ bs)
    (hnot : ∀ j, j < 84 → x ∉ bk j) :
    ∃ h1 γ δ, bk (bucket s) = γ ++ δ ∧ (bk (bucket s) ≠ [] → γ ≠ [])
      ∧ Fueled (fun fuel => add_free_list fuel h x) ((bk (bucket s)).length + 1) h1
      ∧ SameArena h h1
      ∧ Core h1 bs (Function.update bk (bucket s) (γ ++ x :: δ))
      ∧ h1.numFree = h.numFree + 1 := by
  have hi : bucket s < 84 := bucket_lt s
  have hb := c.blk (Core.mem_with hm)
  have hge := c.blk_ge hm
  simp only at hb hge
  obtain ⟨_, hle, hs16, hs8, ha, hx8, hhdr, _⟩ := hb
  have hrange := c.range
  have hbrkle := c.brk_le
  have hcap := c.cap_lt
  have hbase := c.base_al
  have hbrk := c.brk_ge
  have e1 : HDRP x = x - 4 := HDRP_eq (by omega) (by omega)
  have e2 : GET_SIZE h.mem (x - 4) = s := GET_SIZE_eq hhdr hs8 ha
  have e3 : bucketOf s = (bucket s : Int) := bucketOf_eq (by omega)
  have e4 : slot h (bucket s : Int) = h.base + 8 + 4 * bucket s := c.slot_eq (by omega)
  have e5 : add32 x WSIZE = x + 4 := by unfold WSIZE; exact add32_eq (by omega)
  have hgeo : ∀ y ∈ bk (bucket s), y % 8 = 0 ∧ y ≠ 0 ∧ y + 4 < 4294967296 := by
    intro y hy
    obtain ⟨sy, ay, _, _, hyge, hyle, _, _, _, hy8, _⟩ := c.node hi hy
    refine ⟨hy8, by omega, by omega⟩
  have hxn : x ∉ bk (bucket s) := hnot _ hi
  -- the new `minList`
  have hml : ∀ L1 : List Nat,
      0 ≤ (if h.minList > (bucket s : Int) ∨ h.minList = 100 then (bucket s : Int) else h.minList)
      ∧ ∀ k : Nat, k < 84 →
        (k : Int) < (if h.minList > (bucket s : Int) ∨ h.minList = 100 then (bucket s : Int)
          else h.minList) → Function.update bk (bucket s) L1 k = [] := by
    intro L1
    have h0 := c.minl
    by_cases hc : h.minList > (bucket s : Int) ∨ h.minList = 100
    · rw [if_pos hc]
      refine ⟨by omega, fun k hk hlt => ?_⟩
      rw [Function.update_noteq (by omega)]
      exact h0.2 k hk (by omega)
    · rw [if_neg hc]
      refine ⟨h0.1, fun k hk hlt => ?_⟩
      rw [Function.update_noteq (by omega)]
      exact h0.2 k hk hlt
  have hcount : ∀ γ δ : List Nat, bk (bucket s) = γ ++ δ →
      h.numFree + 1 = (total (Function.update bk (bucket s) (γ ++ x :: δ)) 84 : Nat) := by
    intro γ δ e
    have htot := total_update bk (bucket s) (γ ++ x :: δ) 84 hi
    rw [e] at htot
    simp only [List.length_append, List.length_cons] at htot
    have := c.count
    omega
  simp only [add_free_list_eval, e1, e2, e3, e4, e5]
  by_cases hemp : bk (bucket s) = []
  · -- empty bucket
    have h0 : GET h.mem (h.base + 8 + 4 * bucket s) = 0 := by
      rw [c.slots _ hi, hemp]; rfl
    simp only [if_pos h0]
    refine ⟨_, [], [], by rw [hemp]; rfl, fun hne => absurd hemp hne, Fueled.const _ _,
      ⟨rfl, rfl, rfl, rfl⟩, ?_, rfl⟩
    refine c.relink hi ?_ ?_ ?_ ?_ ?_ ?_ (hcount [] [] (by rw [hemp]; rfl)) (hml _)
    · show GET (PUT (PUT (PUT h.mem _ x) x 0) (x + 4) 0) _ = x
      rw [GET_PUT_ne _ (x + 4) _ 0 (by omega) (by omega) (by omega),
        GET_PUT_ne _ x _ 0 (by omega) (by omega) (by omega), GET_PUT_same]
      exact Nat.mod_eq_of_lt (by omega)
    · refine ⟨?_, ?_, trivial⟩
      · rw [GET_PUT_ne _ (x + 4) x 0 (by omega) (by omega) (by omega), GET_PUT_same]
      · rw [GET_PUT_same]; rfl
    · simp
    · intro y hy
      simp only [List.nil_append, List.mem_singleton] at hy
      subst hy
      exact ⟨s, a, hm, rfl⟩
    · intro y hy j hj _
      simp only [List.nil_append, List.mem_singleton] at hy
      subst hy
      exact hnot j hj
    · intro q hq hqs hqn
      have := hqn x (Or.inl (by simp))
      rw [GET_PUT_ne _ (x + 4) q 0 (by omega) hq this.2, GET_PUT_ne _ x q 0 (by omega) hq this.1,
        GET_PUT_ne _ _ q x (by omega) hq hqs]
  · -- non-empty bucket
    have hhead := firstD_mem hemp 0
    have h0 : GET h.mem (h.base + 8 + 4 * bucket s) ≠ 0 := by
      rw [c.slots _ hi]; exact (hgeo _ hhead).2.1
    simp only [if_neg h0]
    rw [c.slots _ hi]
    obtain ⟨la, lb, hab, hscan⟩ := add_scan_spec (m := h.mem) (N := s) (bk (bucket s)) 0
      (firstD (bk (bucket s)) 0) (fun y hy => (hgeo y hy).2) (c.linked _ hi)
    -- the prefix after which `x` goes
    obtain ⟨γ, δ, hsplit, hl1, hlast, hlen⟩ : ∃ γ δ, bk (bucket s) = γ ++ δ ∧ γ ≠ []
        ∧ lastD la (firstD (bk (bucket s)) 0) = lastD γ 0
        ∧ la.length ≤ (bk (bucket s)).length := by
      have hlen : la.length ≤ (bk (bucket s)).length := by
        rw [hab]; simp only [List.length_append]; omega
      rcases la with _ | ⟨u, la1⟩
      · obtain ⟨y0, tl, e⟩ : ∃ y0 tl, bk (bucket s) = y0 :: tl := by
          cases hbk : bk (bucket s) with
          | nil => exact absurd hbk hemp
          | cons y0 tl => exact ⟨y0, tl, rfl⟩
        exact ⟨[y0], tl, e, by simp, by rw [e]; rfl, hlen⟩
      · exact ⟨u :: la1, lb, hab, by simp, rfl, hlen⟩
    have hnext : GET h.mem (add32 (lastD γ 0) WSIZE) = firstD δ 0 := by
      rcases List.eq_nil_or_concat γ with e | ⟨l1a, y, e⟩
      · exact absurd e hl1
      rw [List.concat_eq_append] at e
      subst e
      have hy := hgeo y (by rw [hsplit]; simp)
      have hl := c.linked _ hi
      rw [hsplit, Linked.append_iff] at hl
      rw [lastD_concat]
      have e4 : add32 y WSIZE = y + 4 := by unfold WSIZE; exact add32_eq (by omega)
      rw [e4]
      exact hl.1.last_next
    have hal : ∀ y ∈ x :: (γ ++ δ), y % 8 = 0 ∧ y ≠ 0 ∧ y + 4 < 4294967296 := by
      intro y hy
      rcases List.mem_cons.mp hy with e | e
      · subst e; exact ⟨hx8, by omega, by omega⟩
      · exact hgeo y (hsplit ▸ e)
    have hnd : (x :: (γ ++ δ)).Nodup :=
      List.nodup_cons.mpr ⟨hsplit ▸ hxn, hsplit ▸ c.nodup _ hi⟩
    obtain ⟨k1, k2⟩ := link_linked hl1 hal hnd (hsplit ▸ c.linked _ hi)
    refine ⟨⟨link_mem h.mem (lastD γ 0) (firstD δ 0) x, h.base, h.brk, h.cap, h.heap_listp,
        if h.minList > (bucket s : Int) ∨ h.minList = 100 then (bucket s : Int) else h.minList,
        h.numFree + 1⟩, γ, δ, hsplit, fun _ => hl1,
      ⟨fun fuel hf => ?_, fun fuel => ?_⟩, ⟨rfl, rfl, rfl, rfl⟩, ?_, rfl⟩
    · rw [hscan fuel, if_pos (show la.length < fuel by omega), hlast]
      simp only [Option.map_some', hnext]
    · rw [hscan fuel]
      by_cases hf : la.length < fuel
      · left
        rw [if_pos hf, hlast]
        simp only [Option.map_some', hnext]
      · right; rw [if_neg hf]; rfl
    · refine c.relink hi ?_ k1 ?_ ?_ ?_ ?_ (hcount γ δ hsplit) (hml _)
      · have q1 : (h.base + 8 + 4 * bucket s) % 4 = 0 := by omega
        have q2 : h.base + 8 + 4 * bucket s ≠ x := by omega
        have q3 : h.base + 8 + 4 * bucket s ≠ x + 4 := by omega
        have q4 : ∀ y ∈ γ ++ δ, h.base + 8 + 4 * bucket s ≠ y
            ∧ h.base + 8 + 4 * bucket s ≠ y + 4 := by
          intro y hy
          obtain ⟨sy, ay, _, _, hyge, _⟩ := c.node hi (hsplit ▸ hy)
          omega
        rw [k2 _ q1 q2 q3 q4, c.slots _ hi, hsplit, firstD_append, firstD_append]
        cases γ with
        | nil => exact absurd rfl hl1
        | cons u γ => rfl
      · have := hnd
        rw [List.nodup_cons] at this
        obtain ⟨hx1, hx2⟩ := this
        rw [List.nodup_append] at hx2 ⊢
        refine ⟨hx2.1, List.nodup_cons.mpr ⟨fun e => hx1 (List.mem_append_right _ e), hx2.2.1⟩,
          ?_⟩
        intro u hu1 hu2
        rcases List.mem_cons.mp hu2 with e | e
        · exact hx1 (e ▸ List.mem_append_left _ hu1)
        · exact hx2.2.2 hu1 e
      · intro y hy
        rcases List.mem_append.mp hy with e | e
        · exact c.nodes _ hi y (hsplit ▸ List.mem_append_left _ e)
        · rcases List.mem_cons.mp e with e | e
          · subst e; exact ⟨s, a, hm, rfl⟩
          · exact c.nodes _ hi y (hsplit ▸ List.mem_append_right _ e)
      · intro y hy j hj hji hyj
        rcases List.mem_append.mp hy with e | e
        · exact hji (c.node_bucket hj hi hyj (hsplit ▸ List.mem_append_left _ e))
        · rcases List.mem_cons.mp e with e | e
          · subst e; exact hnot j hj hyj
          · exact hji (c.node_bucket hj hi hyj (hsplit ▸ List.mem_append_right _ e))
      · intro q hq hqs hqn
        have hx0 := hqn x (Or.inl (by simp))
        exact k2 q hq hx0.1 hx0.2 (fun y hy => hqn y (Or.inr (hsplit ▸ hy)))

/-! ## Rewriting the boundary tags of a stretch of blocks -/

theorem Chain.end_unique : ∀ {l : List Blk} {p e e1 : Nat}, Chain p l e → Chain p l e1 → e = e1
  | [], p, e, e1, h, h1 => by simp [Chain] at h h1; omega
  | b :: l, p, e, e1, h, h1 => Chain.end_unique h.2.2.2.2 h1.2.2.2.2

theorem Chain.start_unique {l : List Blk} (hl : l ≠ []) {p p1 e e1 : Nat} (h : Chain p l e)
    (h1 : Chain p1 l e1) : p = p1 := by
  cases l with
  | nil => exact absurd rfl hl
  | cons b l => exact h.1.symm.trans h1.1

theorem Chain.end_aligned : ∀ {l : List Blk} {p e : Nat}, Chain p l e → p % 8 = 0 → e % 8 = 0
  | [], p, e, h, hp => by simp [Chain] at h; omega
  | b :: l, p, e, h, hp => Chain.end_aligned h.2.2.2.2 (by have := h.2.2.1; omega)

/-- Replacing the blocks `σ`, which tile the addresses from `a` to `b`, by
    blocks `τ` tiling the same addresses keeps the structural invariant, when
    the new memory carries the tags of `τ`, agrees with the old one outside
    the boundary tags of that stretch, and every bucket entry is still a block
    of its size class whose link fields are unchanged. -/
theorem Core.retag {h : Heap} {pre σ τ post : List Blk} {bk : Nat → List Nat}
    (c : Core h (pre ++ σ ++ post) bk) (hne : σ ≠ []) {a b : Nat} (hseg : Chain a σ b)
    (hseg1 : Chain a τ b) {μ : Mem}
    (frame : ∀ q, q % 4 = 0 → (q + 8 ≤ a ∨ b ≤ q + 4) → GET μ q = GET h.mem q)
    (htag : Tagged μ τ)
    (hnodes : ∀ i, i < 84 → ∀ y ∈ bk i,
      (∃ s t, (y, s, t) ∈ pre ++ post ∧ bucket s = i)
      ∨ ((∃ s t, (y, s, t) ∈ τ ∧ bucket s = i)
          ∧ GET μ y = GET h.mem y ∧ GET μ (y + 4) = GET h.mem (y + 4))) :
    Core ⟨μ, h.base, h.brk, h.cap, h.heap_listp, h.minList, h.numFree⟩
      (pre ++ τ ++ post) bk := by
  have hrange := c.range
  have hbrkle := c.brk_le
  have hbase := c.base_al
  -- the three parts of the old chain
  have hch := c.chain
  unfold withPrologue at hch
  rw [show (h.base + 8, 344, 1) :: (pre ++ σ ++ post)
      = ((h.base + 8, 344, 1) :: pre) ++ (σ ++ post) by simp] at hch
  obtain ⟨a1, hc1, hc2⟩ := Chain.append.mp hch
  obtain ⟨b1, hc3, hc4⟩ := Chain.append.mp hc2
  have ea : a1 = a := Chain.start_unique hne hc3 hseg
  subst ea
  have eb : b1 = b := Chain.end_unique hc3 hseg
  subst eb
  have hab := Chain.le hseg
  have ha352 : h.base + 352 ≤ a1 := by
    obtain ⟨_, _, _, _, h5⟩ := hc1
    have := Chain.le h5
    simp only at this
    omega
  have hbE := Chain.le hc4
  have ha8 : a1 % 8 = 0 := Chain.end_aligned hc1 (by omega)
  have hb8 : b1 % 8 = 0 := Chain.end_aligned hseg ha8
  have hnew : Chain (h.base + 8) (withPrologue h (pre ++ τ ++ post)) (h.base + h.brk) := by
    unfold withPrologue
    rw [show (h.base + 8, 344, 1) :: (pre ++ τ ++ post)
      = ((h.base + 8, 344, 1) :: pre) ++ (τ ++ post) by simp]
    exact Chain.append.mpr ⟨a1, hc1, Chain.append.mpr ⟨b1, hseg1, hc4⟩⟩
  -- blocks before and after the stretch keep their tags and link fields
  have hpre : ∀ d ∈ (h.base + 8, 344, 1) :: pre, GET μ (d.1 - 4) = GET h.mem (d.1 - 4)
      ∧ GET μ (d.1 + d.2.1 - 8) = GET h.mem (d.1 + d.2.1 - 8)
      ∧ GET μ d.1 = GET h.mem d.1 ∧ GET μ (d.1 + 4) = GET h.mem (d.1 + 4) := by
    intro d hd
    have := Chain.mem hc1 d hd
    exact ⟨frame _ (by omega) (by omega), frame _ (by omega) (by omega),
      frame _ (by omega) (by omega), frame _ (by omega) (by omega)⟩
  have hpost : ∀ d ∈ post, GET μ (d.1 - 4) = GET h.mem (d.1 - 4)
      ∧ GET μ (d.1 + d.2.1 - 8) = GET h.mem (d.1 + d.2.1 - 8)
      ∧ GET μ d.1 = GET h.mem d.1 ∧ GET μ (d.1 + 4) = GET h.mem (d.1 + 4) := by
    intro d hd
    have := Chain.mem hc4 d hd
    exact ⟨frame _ (by omega) (by omega), frame _ (by omega) (by omega),
      frame _ (by omega) (by omega), frame _ (by omega) (by omega)⟩
  have hmemold : ∀ d, d ∈ withPrologue h (pre ++ τ ++ post) →
      d ∈ (h.base + 8, 344, 1) :: pre ∨ d ∈ τ ∨ d ∈ post := by
    intro d hd
    unfold withPrologue at hd
    simp only [List.mem_cons, List.mem_append] at hd ⊢
    tauto
  have hold : ∀ d, d ∈ (h.base + 8, 344, 1) :: pre ∨ d ∈ post →
      d ∈ withPrologue h (pre ++ σ ++ post) := by
    intro d hd
    unfold withPrologue
    simp only [List.mem_cons, List.mem_append] at hd ⊢
    tauto
  refine { listp := c.listp, base_al := c.base_al, range := c.range, cap_lt := c.cap_lt,
           brk_le := c.brk_le, chain := hnew, tagged := ?_, epilogue := ?_, slots := ?_,
           linked := ?_, nodup := c.nodup, nodes := ?_, count := c.count, minl := c.minl }
  · intro d hd
    rcases hmemold d hd with e | e | e
    · have := c.tagged d (hold d (Or.inl e))
      have h2 := hpre d e
      exact ⟨h2.1.trans this.1, h2.2.1.trans this.2⟩
    · exact htag d e
    · have := c.tagged d (hold d (Or.inr e))
      have h2 := hpost d e
      exact ⟨h2.1.trans this.1, h2.2.1.trans this.2⟩
  · show GET μ (h.base + h.brk - 4) = 1
    rw [frame _ (by have := Chain.end_aligned hc4 hb8; omega) (by omega)]
    exact c.epilogue
  · intro j hj
    show GET μ (h.base + 8 + 4 * j) = _
    rw [frame _ (by omega) (by omega)]
    exact c.slots j hj
  · intro j hj
    show Linked μ _ _ _
    refine Linked.frame (fun y hy => ?_) (c.linked j hj)
    rcases hnodes j hj y hy with ⟨s, t, hm, _⟩ | ⟨_, h1, h2⟩
    · rcases List.mem_append.mp hm with e | e
      · have := hpre (y, s, t) (List.mem_cons_of_mem _ e)
        exact ⟨this.2.2.1, this.2.2.2⟩
      · have := hpost (y, s, t) e
        exact ⟨this.2.2.1, this.2.2.2⟩
    · exact ⟨h1, h2⟩
  · intro j hj y hy
    rcases hnodes j hj y hy with ⟨s, t, hm, hb⟩ | ⟨⟨s, t, hm, hb⟩, _⟩
    · refine ⟨s, t, ?_, hb⟩
      simp only [List.mem_append] at hm ⊢
      tauto
    · refine ⟨s, t, ?_, hb⟩
      simp only [List.mem_append]
      tauto

/-! ## Unlinking and linking a block, in terms of the set of listed blocks -/

theorem Fueled.mono {α : Type} {f : Nat → Option α} {n n1 : Nat} {r : α} (hf : Fueled f n r)
    (h : n ≤ n1) : Fueled f n1 r :=
  ⟨fun fuel hfu => hf.enough fuel (by omega), hf.only⟩

theorem Fueled.bind {α β : Type} {f : Nat → Option α} {g : α → Nat → Option β} {n : Nat}
    {r : α} {r1 : β} (hf : Fueled f n r) (hg : Fueled (g r) n r1) :
    Fueled (fun fuel => (f fuel).bind fun a => g a fuel) n r1 := by
  refine ⟨fun fuel hfu => ?_, fun fuel => ?_⟩
  · show (f fuel).bind _ = _
    rw [hf.enough fuel hfu]; exact hg.enough fuel hfu
  · show (f fuel).bind _ = _ ∨ (f fuel).bind _ = _
    rcases hf.only fuel with e | e
    · rw [e]; exact hg.only fuel
    · rw [e]; exact Or.inr rfl

theorem Fueled.map {α β : Type} {f : Nat → Option α} {g : α → β} {n : Nat} {r : α}
    (hf : Fueled f n r) : Fueled (fun fuel => (f fuel).map g) n (g r) := by
  refine ⟨fun fuel hfu => ?_, fun fuel => ?_⟩
  · show (f fuel).map g = _
    rw [hf.enough fuel hfu]; rfl
  · show (f fuel).map g = _ ∨ (f fuel).map g = _
    rcases hf.only fuel with e | e
    · rw [e]; exact Or.inl rfl
    · rw [e]; exact Or.inr rfl

theorem total_ge (bk : Nat → List Nat) {i : Nat} : ∀ {n : Nat}, i < n → (bk i).length ≤ total bk n
  | 0, h => by omega
  | n + 1, h => by
    simp only [total]
    by_cases e : i = n
    · subst e; omega
    · have := total_ge bk (i := i) (n := n) (by omega); omega

theorem Core.listed_blk {h : Heap} {bs : List Blk} {bk : Nat → List Nat} (c : Core h bs bk)
    {y : Nat} (hy : Listed bk y) : ∃ s a, (y, s, a) ∈ bs ∧ y ∈ bk (bucket s) := by
  obtain ⟨i, hi, hm⟩ := hy
  obtain ⟨s, a, h1, h2⟩ := c.nodes i hi y hm
  exact ⟨s, a, h1, h2 ▸ hm⟩

/-- Unlinking a listed block. -/
theorem remove_node {h : Heap} {bs : List Blk} {bk : Nat → List Nat} (c : Core h bs bk)
    {x : Nat} (hx : Listed bk x) :
    ∃ h1 bk1, Fueled (fun fuel => remove_free_list fuel h x) 85 h1 ∧ SameArena h h1
      ∧ Core h1 bs bk1 ∧ h1.numFree = h.numFree - 1
      ∧ ∀ y, Listed bk1 y ↔ Listed bk y ∧ y ≠ x := by
  obtain ⟨i, hi, hm⟩ := hx
  obtain ⟨γ, δ, hL⟩ := List.append_of_mem hm
  obtain ⟨h1, hf, hs, c1, hn⟩ := remove_free_list_spec c hi hL
  refine ⟨h1, _, hf, hs, c1, hn, fun y => ?_⟩
  have hnd := c.nodup i hi
  rw [hL] at hnd
  have hnd1 := List.nodup_append.mp hnd
  have hnd2 := List.nodup_cons.mp hnd1.2.1
  constructor
  · rintro ⟨j, hj, hy⟩
    by_cases e : j = i
    · subst e
      rw [Function.update_same] at hy
      refine ⟨⟨j, hj, ?_⟩, ?_⟩
      · rw [hL]
        rcases List.mem_append.mp hy with e | e
        · exact List.mem_append_left _ e
        · exact List.mem_append_right _ (List.mem_cons_of_mem _ e)
      · rintro rfl
        rcases List.mem_append.mp hy with e | e
        · exact hnd1.2.2 e (List.mem_cons_self _ _)
        · exact hnd2.1 e
    · rw [Function.update_noteq e] at hy
      refine ⟨⟨j, hj, hy⟩, ?_⟩
      rintro rfl
      exact e (c.node_bucket hj hi hy hm)
  · rintro ⟨⟨j, hj, hy⟩, hne⟩
    refine ⟨j, hj, ?_⟩
    by_cases e : j = i
    · subst e
      rw [Function.update_same]
      rw [hL] at hy
      rcases List.mem_append.mp hy with e | e
      · exact List.mem_append_left _ e
      · rcases List.mem_cons.mp e with e | e
        · exact absurd e hne
        · exact List.mem_append_right _ e
    · rw [Function.update_noteq e]; exact hy

/-- Linking a block that is not listed. -/
theorem add_node {h : Heap} {bs : List Blk} {bk : Nat → List Nat} (c : Core h bs bk)
    {x s a : Nat} (hm : (x, s, a) ∈ bs) (hx : ¬ Listed bk x) :
    ∃ h1 bk1, Fueled (fun fuel => add_free_list fuel h x) (h.numFree.toNat + 1) h1
      ∧ SameArena h h1 ∧ Core h1 bs bk1 ∧ h1.numFree = h.numFree + 1
      ∧ ∀ y, Listed bk1 y ↔ Listed bk y ∨ y = x := by
  obtain ⟨h1, γ, δ, hL, _, hf, hs, c1, hn⟩ :=
    add_free_list_spec c hm (fun j hj hxj => hx ⟨j, hj, hxj⟩)
  have hi := bucket_lt s
  refine ⟨h1, _, hf.mono ?_, hs, c1, hn, fun y => ?_⟩
  · have := total_ge bk (i := bucket s) (n := 84) hi
    have := c.count
    omega
  constructor
  · rintro ⟨j, hj, hy⟩
    by_cases e : j = bucket s
    · subst e
      rw [Function.update_same] at hy
      rcases List.mem_append.mp hy with e | e
      · exact Or.inl ⟨_, hj, hL ▸ List.mem_append_left _ e⟩
      · rcases List.mem_cons.mp e with e | e
        · exact Or.inr e
        · exact Or.inl ⟨_, hj, hL ▸ List.mem_append_right _ e⟩
    · rw [Function.update_noteq e] at hy
      exact Or.inl ⟨j, hj, hy⟩
  · rintro (⟨j, hj, hy⟩ | rfl)
    · refine ⟨j, hj, ?_⟩
      by_cases e : j = bucket s
      · subst e
        rw [Function.update_same]
        rw [hL] at hy
        rcases List.mem_append.mp hy with e | e
        · exact List.mem_append_left _ e
        · exact List.mem_append_right _ (List.mem_cons_of_mem _ e)
      · rw [Function.update_noteq e]; exact hy
    · exact ⟨bucket s, hi, by rw [Function.update_same]; simp⟩

/-! ## Writing the boundary tags of one block -/

theorem tag_hdr {m : Mem} {x s a : Nat} (hx : x % 4 = 0) (h4 : 4 ≤ x) (hs : s % 8 = 0)
    (h8 : 8 ≤ s) (hlt : s + a < 4294967296) : GET (tag_mem m x s a) (x - 4) = s + a := by
  unfold tag_mem
  rw [GET_PUT_ne _ _ _ _ (by omega) (by omega) (by omega), GET_PUT_same]
  exact Nat.mod_eq_of_lt hlt

theorem tag_ftr {m : Mem} {x s a : Nat} (hlt : s + a < 4294967296) :
    GET (tag_mem m x s a) (x + s - 8) = s + a := by
  unfold tag_mem
  rw [GET_PUT_same]
  exact Nat.mod_eq_of_lt hlt

theorem tag_frame {m : Mem} {x s a q : Nat} (hx : x % 4 = 0) (hs : s % 8 = 0) (hq : q % 4 = 0)
    (h1 : q ≠ x - 4) (h2 : q ≠ x + s - 8) : GET (tag_mem m x s a) q = GET m q := by
  unfold tag_mem
  rw [GET_PUT_ne _ _ _ _ (by omega) hq h2, GET_PUT_ne _ _ _ _ (by omega) hq h1]

/-- The two stores `PUT(HDRP(bp), PACK(s, a)); PUT(FTRP(bp), PACK(s, a))`. -/
theorem tag_eval (m : Mem) {x s a : Nat} (hx : x % 4 = 0) (h4 : 4 ≤ x) (hs : s % 8 = 0)
    (h8 : 8 ≤ s) (ha : a ≤ 1) (hlt : x + s < 4294967296) :
    PUT (PUT m (HDRP x) (PACK s a)) (FTRP (PUT m (HDRP x) (PACK s a)) x) (PACK s a)
      = tag_mem m x s a := by
  have e1 : HDRP x = x - 4 := HDRP_eq h4 (by omega)
  have e2 : PACK s a = s + a := PACK_eq s a hs ha
  rw [e1, e2]
  have e3 : GET (PUT m (x - 4) (s + a)) (x - 4) = s + a := by
    rw [GET_PUT_same]; exact Nat.mod_eq_of_lt (by omega)
  rw [FTRP_eq e3 hs ha h4 (by omega) hlt]
  rfl

theorem tag_next {m : Mem} {x s a : Nat} (hx : x % 4 = 0) (h4 : 4 ≤ x) (hs : s % 8 = 0)
    (h8 : 8 ≤ s) (ha : a ≤ 1) (hlt : x + s < 4294967296) :
    NEXT_BLKP (tag_mem m x s a) x = x + s :=
  NEXT_BLKP_eq (tag_hdr hx h4 hs h8 (by omega)) hs ha h4 hlt

theorem place_eval_split (fuel : Nat) (h : Heap) {x cur adj : Nat}
    (hdr : GET h.mem (x - 4) = cur + 0) (hx : x % 8 = 0) (h4 : 4 ≤ x) (hc8 : cur % 8 = 0)
    (ha8 : adj % 8 = 0) (ha : 8 ≤ adj) (hsp : adj + 16 ≤ cur) (hlt : x + cur < 4294967296) :
    place fuel h x adj = (remove_free_list fuel h x).bind fun h1 =>
      add_free_list fuel (withMem h1 (tag_mem (tag_mem h1.mem x adj 1) (x + adj) (cur - adj) 0))
        (x + adj) := by
  unfold place
  have e1 : HDRP x = x - 4 := HDRP_eq h4 (by omega)
  have e2 : GET_SIZE h.mem (x - 4) = cur := GET_SIZE_eq hdr hc8 (by omega)
  have e3 : sub32 cur adj = cur - adj := sub32_eq (by omega) (by omega)
  simp only [e1, e2, e3]
  rw [if_pos (by unfold DSIZE; omega)]
  apply congrArg
  funext h1
  have θ := tag_eval h1.mem (x := x) (s := adj) (a := 1) (by omega) h4 ha8 ha (by omega)
    (by omega)
  rw [e1] at θ
  simp only [θ]
  have φ : NEXT_BLKP (tag_mem h1.mem x adj 1) x = x + adj :=
    tag_next (by omega) h4 ha8 ha (by omega) (by omega)
  simp only [φ]
  have t3 := tag_eval (tag_mem h1.mem x adj 1) (x := x + adj) (s := cur - adj) (a := 0)
    (by omega) (by omega) (by omega) (by omega) (by omega) (by omega)
  simp only [t3]
  rfl

theorem place_eval_whole (fuel : Nat) (h : Heap) {x cur adj : Nat}
    (hdr : GET h.mem (x - 4) = cur + 0) (hx : x % 8 = 0) (h4 : 4 ≤ x) (hc8 : cur % 8 = 0)
    (hc : 8 ≤ cur) (hle : adj ≤ cur) (hsp : cur < adj + 16) (hlt : x + cur < 4294967296) :
    place fuel h x adj = remove_free_list fuel (withMem h (tag_mem h.mem x cur 1)) x := by
  unfold place
  have e1 : HDRP x = x - 4 := HDRP_eq h4 (by omega)
  have e2 : GET_SIZE h.mem (x - 4) = cur := GET_SIZE_eq hdr hc8 (by omega)
  have e3 : sub32 cur adj = cur - adj := sub32_eq (by omega) (by omega)
  simp only [e1, e2, e3]
  rw [if_neg (by unfold DSIZE; omega)]
  have θ := tag_eval h.mem (x := x) (s := cur) (a := 1) (by omega) h4 hc8 hc (by omega)
    (by omega)
  rw [e1] at θ
  simp only [θ]
  rfl

/-! ## Which bytes the list operations change -/

theorem PUT_byte (m : Mem) (p v : Nat) {a : Nat} (h : a < p ∨ p + 4 ≤ a) : PUT m p v a = m a := by
  unfold PUT
  rw [if_neg (by omega), if_neg (by omega), if_neg (by omega), if_neg (by omega)]

theorem tag_mem_byte (m : Mem) (x s t : Nat) {a : Nat} (h1 : a < x - 4 ∨ x - 4 + 4 ≤ a)
    (h2 : a < x + s - 8 ∨ x + s - 8 + 4 ≤ a) : tag_mem m x s t a = m a := by
  unfold tag_mem
  rw [PUT_byte _ _ _ h2, PUT_byte _ _ _ h1]

theorem unlink_mem_byte (m : Mem) (sl p n : Nat) {a : Nat} (h1 : a < sl ∨ sl + 4 ≤ a)
    (h2 : p ≠ 0 → a < add32 p WSIZE ∨ add32 p WSIZE + 4 ≤ a)
    (h3 : n ≠ 0 → a < n ∨ n + 4 ≤ a) : unlink_mem m sl p n a = m a := by
  unfold unlink_mem
  by_cases hp : p = 0
  · by_cases hn : n = 0
    · rw [if_pos ⟨hp, hn⟩, PUT_byte _ _ _ h1]
    · rw [if_neg (fun hh => hn hh.2), if_pos ⟨hp, hn⟩, PUT_byte _ _ _ (h3 hn),
        PUT_byte _ _ _ h1]
  · by_cases hn : n = 0
    · rw [if_neg (fun hh => hp hh.1), if_neg (fun hh => hp hh.1), if_pos ⟨hp, hn⟩,
        PUT_byte _ _ _ (h2 hp)]
    · rw [if_neg (fun hh => hp hh.1), if_neg (fun hh => hp hh.1), if_neg (fun hh => hn hh.2),
        PUT_byte _ _ _ (h3 hn), PUT_byte _ _ _ (h2 hp)]

theorem link_mem_byte (m : Mem) (tP tN x : Nat) {a : Nat}
    (h1 : a < add32 tP WSIZE ∨ add32 tP WSIZE + 4 ≤ a) (h2 : tN ≠ 0 → a < tN ∨ tN + 4 ≤ a)
    (h3 : a < x ∨ x + 4 ≤ a) (h4 : a < add32 x WSIZE ∨ add32 x WSIZE + 4 ≤ a) :
    link_mem m tP tN x a = m a := by
  unfold link_mem
  rw [PUT_byte _ _ _ h4, PUT_byte _ _ _ h3]
  by_cases hn : tN ≠ 0
  · rw [if_pos hn, PUT_byte _ _ _ (h2 hn), PUT_byte _ _ _ h1]
  · rw [if_neg hn, PUT_byte _ _ _ h1]

theorem memcpy_inside (m : Mem) (dst src n : Nat) {a : Nat} (h1 : dst ≤ a) (h2 : a < dst + n) :
    memcpy m dst src n a = m (src + (a - dst)) := by
  unfold memcpy
  rw [if_pos ⟨h1, h2⟩]

theorem memcpy_outside (m : Mem) (dst src n : Nat) {a : Nat} (h : a < dst ∨ dst + n ≤ a) :
    memcpy m dst src n a = m a := by
  unfold memcpy
  rw [if_neg (by omega)]

theorem not_linkArea {base : Nat} {bk : Nat → List Nat} {L U a : Nat} (hb : base + 344 ≤ L)
    (hz : ∀ z, Listed bk z → z + 8 ≤ L ∨ U ≤ z) (h1 : L ≤ a) (h2 : a < U) :
    ¬ LinkArea base bk a := by
  rintro (e | ⟨y, hy, e⟩)
  · omega
  · have := hz y hy
    omega

/-- No byte of a block that is not listed, from its header to its footer, lies
    in the link area. -/
theorem Core.off_links {h : Heap} {bs : List Blk} {bk : Nat → List Nat} (c : Core h bs bk)
    {y t u : Nat} (hm : (y, t, u) ∈ bs) (hnl : ¬ Listed bk y) {a : Nat} (h1 : y - 4 ≤ a)
    (h2 : a < y + t - 4) : ¬ LinkArea h.base bk a := by
  have hge := c.blk_ge hm
  have hb := c.blk (Core.mem_with hm)
  dsimp only at hge hb
  refine not_linkArea (L := y - 4) (U := y + t - 4) (by omega) (fun z hz => ?_) h1 h2
  obtain ⟨sz, az, hzm, _⟩ := c.listed_blk hz
  have hzb := c.blk (Core.mem_with hzm)
  dsimp only at hzb
  rcases Chain.sep c.chain _ (Core.mem_with (h := h) hm) _ (Core.mem_with (h := h) hzm)
    with e | e | e
  · simp only [Prod.mk.injEq] at e
    exact absurd (e.1 ▸ hz) hnl
  · dsimp only at e; omega
  · dsimp only at e; omega

theorem Linked.next_mem {m : Mem} : ∀ {l : List Nat} {p n : Nat}, Linked m p l n →
    ∀ y ∈ l, GET m (y + 4) = n ∨ GET m (y + 4) ∈ l
  | [], _, _, _, y, hy => by simp at hy
  | x :: xs, p, n, h, y, hy => by
    obtain ⟨_, h2, h3⟩ := h
    rcases List.mem_cons.mp hy with e | e
    · subst e
      rw [h2]
      cases xs with
      | nil => exact Or.inl rfl
      | cons z zs => exact Or.inr (List.mem_cons_of_mem _ (List.mem_cons_self _ _))
    · rcases Linked.next_mem h3 y e with k | k
      · exact Or.inl k
      · exact Or.inr (List.mem_cons_of_mem _ k)

/-- The memory after `remove_free_list`, whatever the state. -/
theorem remove_free_list_mem {fuel : Nat} {h h1 : Heap} {x : Nat}
    (e : remove_free_list fuel h x = some h1) :
    h1.mem = unlink_mem h.mem (slot h (bucketOf (GET_SIZE h.mem (HDRP x)))) (GET h.mem x)
      (GET h.mem (add32 x WSIZE)) := by
  rw [remove_free_list_eval] at e
  split at e
  · split at e
    · obtain ⟨ml, _, e1⟩ := Option.map_eq_some'.mp e
      rw [← e1]
    · rw [← Option.some.inj e]
  · rw [← Option.some.inj e]

/-- `remove_free_list` changes bytes of the link area only. -/
theorem remove_frame {h : Heap} {bs : List Blk} {bk : Nat → List Nat} (c : Core h bs bk)
    {x : Nat} (hx : Listed bk x) {fuel : Nat} {h1 : Heap}
    (e : remove_free_list fuel h x = some h1) : Frame h.base bk 0 0 h.mem h1.mem := by
  intro a hla _
  rw [remove_free_list_mem e]
  obtain ⟨i, hi, hm⟩ := hx
  obtain ⟨γ, δ, hL⟩ := List.append_of_mem hm
  obtain ⟨s, t, hmem, hbk, hge, hle, hs16, hs8, ht, hx8, hhdr⟩ := c.node hi hm
  have hrange := c.range
  have hbrkle := c.brk_le
  have hcap := c.cap_lt
  have e1 : HDRP x = x - 4 := HDRP_eq (by omega) (by omega)
  have e2 : GET_SIZE h.mem (x - 4) = s := GET_SIZE_eq hhdr hs8 ht
  have e3 : bucketOf s = (i : Int) := by rw [bucketOf_eq (by omega), hbk]
  have e4 : slot h (i : Int) = h.base + 8 + 4 * i := c.slot_eq (by omega)
  have e5 : add32 x WSIZE = x + 4 := by unfold WSIZE; exact add32_eq (by omega)
  obtain ⟨hpv, hnx⟩ : GET h.mem x = lastD γ 0 ∧ GET h.mem (x + 4) = firstD δ 0 := by
    have := c.linked i hi
    rw [hL, Linked.append_iff] at this
    exact ⟨this.2.1, this.2.2.1⟩
  rw [e1, e2, e3, e4, e5, hpv, hnx]
  have hnode : ∀ y ∈ bk i, y + 4 < 4294967296 ∧ (a < y ∨ y + 8 ≤ a) := by
    intro y hy
    obtain ⟨sy, ay, _, _, hyge, hyle, _, _, _, _, _⟩ := c.node hi hy
    refine ⟨by omega, ?_⟩
    by_contra hh
    exact hla (Or.inr ⟨y, ⟨i, hi, hy⟩, by omega, by omega⟩)
  refine unlink_mem_byte _ _ _ _ ?_ (fun hp => ?_) (fun hn => ?_)
  · by_contra hh
    exact hla (Or.inl ⟨by omega, by omega⟩)
  · have hne : γ ≠ [] := by
      rintro rfl
      exact hp rfl
    have := hnode _ (hL ▸ List.mem_append_left _ (lastD_mem hne 0))
    rw [show add32 (lastD γ 0) WSIZE = lastD γ 0 + 4 by
      unfold WSIZE; exact add32_eq (by omega)]
    omega
  · have hne : δ ≠ [] := by
      rintro rfl
      exact hn rfl
    have := hnode _ (hL ▸ List.mem_append_right _ (List.mem_cons_of_mem _ (firstD_mem hne 0)))
    omega

/-- `add_free_list(bp)` changes bytes of the link area and of the link fields
    of the block `bp` only. -/
theorem add_frame {h : Heap} {bs : List Blk} {bk : Nat → List Nat} (c : Core h bs bk)
    {x s t : Nat} (hm : (x, s, t) ∈ bs) {fuel : Nat} {h1 : Heap}
    (e : add_free_list fuel h x = some h1) : Frame h.base bk x (x + 8) h.mem h1.mem := by
  intro a hla hout
  have hi : bucket s < 84 := bucket_lt s
  have hb := c.blk (Core.mem_with hm)
  have hge := c.blk_ge hm
  simp only at hb hge
  obtain ⟨_, hle, hs16, hs8, ht, hx8, hhdr, _⟩ := hb
  have hrange := c.range
  have hbrkle := c.brk_le
  have hcap := c.cap_lt
  have e1 : HDRP x = x - 4 := HDRP_eq (by omega) (by omega)
  have e2 : GET_SIZE h.mem (x - 4) = s := GET_SIZE_eq hhdr hs8 ht
  have e3 : bucketOf s = (bucket s : Int) := bucketOf_eq (by omega)
  have e4 : slot h (bucket s : Int) = h.base + 8 + 4 * bucket s := c.slot_eq (by omega)
  have e5 : add32 x WSIZE = x + 4 := by unfold WSIZE; exact add32_eq (by omega)
  have hslot : a < h.base + 8 + 4 * bucket s ∨ h.base + 8 + 4 * bucket s + 4 ≤ a := by
    by_contra hh
    exact hla (Or.inl ⟨by omega, by omega⟩)
  have hnode : ∀ y ∈ bk (bucket s), y ≠ 0 ∧ y + 4 < 4294967296 ∧ (a < y ∨ y + 8 ≤ a) := by
    intro y hy
    obtain ⟨sy, ay, _, _, hyge, hyle, _, _, _, _, _⟩ := c.node hi hy
    refine ⟨by omega, by omega, ?_⟩
    by_contra hh
    exact hla (Or.inr ⟨y, ⟨_, hi, hy⟩, by omega, by omega⟩)
  rw [add_free_list_eval] at e
  simp only [e1, e2, e3, e4, e5] at e
  rw [c.slots _ hi] at e
  by_cases hemp : bk (bucket s) = []
  · rw [hemp] at e
    simp only [firstD_nil, if_true] at e
    rw [← Option.some.inj e]
    show PUT (PUT (PUT h.mem _ x) x 0) (x + 4) 0 a = h.mem a
    rw [PUT_byte _ _ _ (by omega), PUT_byte _ _ _ (by omega), PUT_byte _ _ _ hslot]
  · have hhead := firstD_mem hemp 0
    rw [if_neg (hnode _ hhead).1] at e
    obtain ⟨tP, hscan, e6⟩ := Option.map_eq_some'.mp e
    obtain ⟨la, lb, hab, hsp⟩ := add_scan_spec (m := h.mem) (N := s) (bk (bucket s)) 0
      (firstD (bk (bucket s)) 0) (fun y hy => ⟨(hnode y hy).1, (hnode y hy).2.1⟩)
      (c.linked _ hi)
    rw [hsp fuel] at hscan
    have htP : tP ∈ bk (bucket s) := by
      split at hscan
      · rw [← Option.some.inj hscan]
        rcases la with _ | ⟨u, la1⟩
        · exact hhead
        · rw [hab]
          exact List.mem_append_left _ (lastD_mem (by simp) _)
      · exact absurd hscan (by simp)
    have h4 : add32 tP WSIZE = tP + 4 := by
      unfold WSIZE; exact add32_eq (by have := (hnode tP htP).2.1; omega)
    rw [← e6]
    show link_mem h.mem tP (GET h.mem (add32 tP WSIZE)) x a = h.mem a
    refine link_mem_byte _ _ _ _ ?_ (fun hn => ?_) (by omega) (by omega)
    · rw [h4]; have := (hnode tP htP).2.2; omega
    · rw [h4] at hn ⊢
      rcases Linked.next_mem (c.linked _ hi) tP htP with k | k
      · exact absurd k hn
      · have := (hnode _ k).2.2; omega

theorem LinkArea.of_sub {base base1 : Nat} {bk bk1 : Nat → List Nat} {a : Nat} (hb : base1 = base)
    (hbk : ∀ y, Listed bk1 y → Listed bk y) (h : LinkArea base1 bk1 a) : LinkArea base bk a := by
  subst hb
  rcases h with e | ⟨y, hy, e⟩
  · exact Or.inl e
  · exact Or.inr ⟨y, hbk y hy, e⟩

/-! ## `place` keeps the invariant -/

theorem NoAdjFree.replace {γ σ τ δ : List Blk} (h : NoAdjFree (γ ++ σ ++ δ))
    (hseg : NoAdjFree τ) (hne : τ ≠ [])
    (hl : ∀ u ∈ γ.getLast?, ∀ v ∈ τ.head?, ¬ (u.2.2 = 0 ∧ v.2.2 = 0))
    (hr : ∀ u ∈ τ.getLast?, ∀ v ∈ δ.head?, ¬ (u.2.2 = 0 ∧ v.2.2 = 0)) :
    NoAdjFree (γ ++ τ ++ δ) := by
  unfold NoAdjFree at *
  rw [List.append_assoc, List.chain'_append] at h
  obtain ⟨h1, h2, _⟩ := h
  rw [List.chain'_append] at h2
  rw [List.append_assoc, List.chain'_append]
  refine ⟨h1, ?_, ?_⟩
  · rw [List.chain'_append]
    exact ⟨hseg, h2.2.1, hr⟩
  · intro u hu v hv
    have : (τ ++ δ).head? = τ.head? := by
      cases τ with
      | nil => exact absurd rfl hne
      | cons b τ => rfl
    rw [this] at hv
    exact hl u hu v hv

/-- The neighbours of a free block are allocated. -/
theorem NoAdjFree.beside {γ δ : List Blk} {b : Blk} (h : NoAdjFree (γ ++ b :: δ))
    (hb : b.2.2 = 0) :
    (∀ u ∈ γ.getLast?, u.2.2 ≠ 0) ∧ (∀ v ∈ δ.head?, v.2.2 ≠ 0) := by
  unfold NoAdjFree at h
  rw [List.chain'_append] at h
  obtain ⟨_, h2, h3⟩ := h
  refine ⟨fun u hu e => h3 u hu b (by simp) ⟨e, hb⟩, fun v hv e => ?_⟩
  cases δ with
  | nil => simp at hv
  | cons c δ =>
    simp only [List.head?_cons, Option.mem_def, Option.some.injEq] at hv
    subst hv
    rw [List.chain'_cons] at h2
    exact h2.1 ⟨hb, e⟩

/-- Geometry of the three parts of the block list. -/
theorem Core.parts {h : Heap} {pre σ post : List Blk} {bk : Nat → List Nat}
    (c : Core h (pre ++ σ ++ post) bk) (hne : σ ≠ []) {a b : Nat} (hseg : Chain a σ b) :
    (∀ d ∈ pre, d.1 + d.2.1 ≤ a) ∧ (∀ d ∈ post, b ≤ d.1) ∧ h.base + 352 ≤ a
      ∧ b ≤ h.base + h.brk ∧ a % 8 = 0 := by
  have hch := c.chain
  have hbase := c.base_al
  unfold withPrologue at hch
  rw [show (h.base + 8, 344, 1) :: (pre ++ σ ++ post)
      = ((h.base + 8, 344, 1) :: pre) ++ (σ ++ post) by simp] at hch
  obtain ⟨a1, hc1, hc2⟩ := Chain.append.mp hch
  obtain ⟨b1, hc3, hc4⟩ := Chain.append.mp hc2
  have ea : a1 = a := Chain.start_unique hne hc3 hseg
  subst ea
  have eb : b1 = b := Chain.end_unique hc3 hseg
  subst eb
  refine ⟨fun d hd => (Chain.mem hc1 d (List.mem_cons_of_mem _ hd)).2.1,
    fun d hd => (Chain.mem hc4 d hd).1, ?_, Chain.le hc4, Chain.end_aligned hc1 (by omega)⟩
  obtain ⟨_, _, _, _, h5⟩ := hc1
  have := Chain.le h5
  simp only at this
  omega

theorem mem_mid {pre post : List Blk} {b d : Blk} :
    d ∈ pre ++ b :: post ↔ d ∈ pre ∨ d = b ∨ d ∈ post := by
  simp only [List.mem_append, List.mem_cons]

theorem mem_mid2 {pre post : List Blk} {b c d : Blk} :
    d ∈ pre ++ [b, c] ++ post ↔ d ∈ pre ∨ d = b ∨ d = c ∨ d ∈ post := by
  simp only [List.mem_append, List.mem_cons, List.mem_singleton, List.not_mem_nil, or_false]
  tauto

theorem mem_mid1 {pre post : List Blk} {b d : Blk} :
    d ∈ pre ++ [b] ++ post ↔ d ∈ pre ∨ d = b ∨ d ∈ post := by
  simp only [List.mem_append, List.mem_cons, List.mem_singleton, List.not_mem_nil, or_false]
  tauto

/-- Facts about one block `(x, cur, t)` of the list and the blocks around it. -/
theorem Core.around {h : Heap} {pre post : List Blk} {bk : Nat → List Nat} {x cur t : Nat}
    (c : Core h (pre ++ (x, cur, t) :: post) bk) :
    (∀ d ∈ pre, d.1 + d.2.1 ≤ x ∧ 16 ≤ d.2.1) ∧ (∀ d ∈ post, x + cur ≤ d.1)
      ∧ h.base + 352 ≤ x ∧ x + cur ≤ h.base + h.brk ∧ x % 8 = 0 ∧ 16 ≤ cur ∧ cur % 8 = 0
      ∧ t ≤ 1 ∧ GET h.mem (x - 4) = cur + t ∧ GET h.mem (x + cur - 8) = cur + t
      ∧ x + cur < 4294967296 := by
  have e : pre ++ (x, cur, t) :: post = pre ++ [(x, cur, t)] ++ post := by simp
  have hb := c.blk (b := (x, cur, t)) (Core.mem_with (by simp))
  simp only at hb
  obtain ⟨_, h2, h3, h4, h5, h6, h7, h8⟩ := hb
  have hseg : Chain x [(x, cur, t)] (x + cur) := ⟨rfl, h3, h4, h5, rfl⟩
  have hp := (e ▸ c).parts (by simp) hseg
  have hr := c.range
  have hl := c.brk_le
  refine ⟨fun d hd => ⟨hp.1 d hd, ?_⟩, hp.2.1, hp.2.2.1, h2, h6, h3, h4, h5, h7, h8, by omega⟩
  exact (c.blk (b := d) (Core.mem_with (by simp [hd]))).2.2.1

theorem Chain.single {x s t : Nat} (h16 : 16 ≤ s) (h8 : s % 8 = 0) (ht : t ≤ 1) :
    Chain x [(x, s, t)] (x + s) := ⟨rfl, h16, h8, ht, rfl⟩

theorem Chain.pair {x s t N θ : Nat} (h16 : 16 ≤ s) (h8 : s % 8 = 0) (ht : t ≤ 1)
    (k16 : 16 ≤ N) (k8 : N % 8 = 0) (kt : θ ≤ 1) :
    Chain x [(x, s, t), (x + s, N, θ)] (x + s + N) :=
  ⟨rfl, h16, h8, ht, rfl, k16, k8, kt, rfl⟩

/-- The words of memory after tagging a block of size `s` at `x` and then a
    block of size `r` right after it. -/
theorem tag2_facts (m : Mem) {x s a r b : Nat} (hx : x % 8 = 0) (h4 : 4 ≤ x) (hs : s % 8 = 0)
    (h16 : 16 ≤ s) (hr : r % 8 = 0) (hr16 : 16 ≤ r) (ha : a ≤ 1) (hb : b ≤ 1)
    (hlt : x + s + r < 4294967296) :
    GET (tag_mem (tag_mem m x s a) (x + s) r b) (x - 4) = s + a
    ∧ GET (tag_mem (tag_mem m x s a) (x + s) r b) (x + s - 8) = s + a
    ∧ GET (tag_mem (tag_mem m x s a) (x + s) r b) (x + s - 4) = r + b
    ∧ GET (tag_mem (tag_mem m x s a) (x + s) r b) (x + s + r - 8) = r + b
    ∧ ∀ q, q % 4 = 0 → q ≠ x - 4 → q ≠ x + s - 8 → q ≠ x + s - 4 → q ≠ x + s + r - 8 →
        GET (tag_mem (tag_mem m x s a) (x + s) r b) q = GET m q := by
  have f1 : ∀ q, q % 4 = 0 → q ≠ x + s - 4 → q ≠ x + s + r - 8 →
      GET (tag_mem (tag_mem m x s a) (x + s) r b) q = GET (tag_mem m x s a) q :=
    fun q hq h1 h2 => tag_frame (x := x + s) (s := r) (by omega) hr hq h1 h2
  have f2 : ∀ q, q % 4 = 0 → q ≠ x - 4 → q ≠ x + s - 8 → GET (tag_mem m x s a) q = GET m q :=
    fun q hq h1 h2 => tag_frame (by omega) hs hq h1 h2
  refine ⟨?_, ?_, ?_, ?_, ?_⟩
  · rw [f1 _ (by omega) (by omega) (by omega)]
    exact tag_hdr (by omega) h4 hs (by omega) (by omega)
  · rw [f1 _ (by omega) (by omega) (by omega)]
    exact tag_ftr (by omega)
  · have := tag_hdr (m := tag_mem m x s a) (x := x + s) (s := r) (a := b) (by omega) (by omega)
      hr (by omega) (by omega)
    rwa [show x + s - 4 = x + s - 4 from rfl] at this
  · exact tag_ftr (by omega)
  · intro q hq h1 h2 h3 h4
    rw [f1 q hq h3 h4, f2 q hq h1 h2]

/-- The words of memory after tagging one block. -/
theorem tag1_facts (m : Mem) {x s a : Nat} (hx : x % 8 = 0) (h4 : 4 ≤ x) (hs : s % 8 = 0)
    (h16 : 16 ≤ s) (ha : a ≤ 1) (hlt : x + s < 4294967296) :
    GET (tag_mem m x s a) (x - 4) = s + a ∧ GET (tag_mem m x s a) (x + s - 8) = s + a
    ∧ ∀ q, q % 4 = 0 → q ≠ x - 4 → q ≠ x + s - 8 → GET (tag_mem m x s a) q = GET m q :=
  ⟨tag_hdr (by omega) h4 hs (by omega) (by omega), tag_ftr (by omega),
    fun _ hq h1 h2 => tag_frame (by omega) hs hq h1 h2⟩

/-- `place(bp, adj)` on a listed free block of size `cur >= adj`: the block
    becomes allocated, split when the rest is at least 16 bytes, the
    invariant holds for the new list of blocks, and outside the link area only
    bytes of the block change. -/
theorem place_full {h : Heap} {pre post : List Blk} {bk : Nat → List Nat} {x cur adj : Nat}
    (inv : HeapInv h (pre ++ (x, cur, 0) :: post) bk) (ha8 : adj % 8 = 0) (ha : 16 ≤ adj)
    (hle : adj ≤ cur) :
    ∃ h1 bk1, Fueled (fun fuel => place fuel h x adj) (h.numFree.toNat + 90) h1
      ∧ SameArena h h1
      ∧ HeapInv h1 (pre ++ (if adj + 16 ≤ cur then [(x, adj, 1), (x + adj, cur - adj, 0)]
          else [(x, cur, 1)]) ++ post) bk1
      ∧ Frame h.base bk (x - 4) (x + cur - 4) h.mem h1.mem := by
  have c := inv.core
  obtain ⟨hpre, hpost, hge, hxle, hx8, hc16, hc8, _, hhdr, hftr, hlt⟩ := c.around
  have hlx : Listed bk x := (inv.listed x).mpr ⟨cur, by simp⟩
  have e : pre ++ (x, cur, 0) :: post = pre ++ [(x, cur, 0)] ++ post := by simp
  have hseg : Chain x [(x, cur, 0)] (x + cur) := Chain.single hc16 hc8 (by omega)
  obtain ⟨na1, na2⟩ := NoAdjFree.beside (γ := (h.base + 8, 344, 1) :: pre) inv.noadj rfl
  have hno : NoAdjFree (((h.base + 8, 344, 1) :: pre) ++ [(x, cur, 0)] ++ post) := by
    have := inv.noadj
    unfold withPrologue at this
    simpa using this
  -- blocks other than `x` lie in `pre` or `post`
  have hother : ∀ y s t, (y, s, t) ∈ pre ++ (x, cur, 0) :: post → y ≠ x →
      (y, s, t) ∈ pre ++ post := by
    intro y s t hm hne
    rcases mem_mid.mp hm with e1 | e1 | e1
    · exact List.mem_append_left _ e1
    · simp only [Prod.mk.injEq] at e1; exact absurd e1.1 hne
    · exact List.mem_append_right _ e1
  have hnex : ∀ y s t, (y, s, t) ∈ pre ++ post → y ≠ x ∧ (adj + 16 ≤ cur → y ≠ x + adj) := by
    intro y s t hm
    rcases List.mem_append.mp hm with e1 | e1
    · have := hpre _ e1; dsimp only at this; exact ⟨by omega, fun _ => by omega⟩
    · have := hpost _ e1; dsimp only at this; exact ⟨by omega, fun _ => by omega⟩
  by_cases hsp : adj + 16 ≤ cur
  · -- split
    rw [if_pos hsp]
    obtain ⟨h1, bk1, f1, sa1, c1, n1, γ⟩ := remove_node c hlx
    obtain ⟨sb, sk, sc, sl⟩ := sa1
    have c5 : Core (withMem h1 (tag_mem (tag_mem h1.mem x adj 1) (x + adj) (cur - adj) 0))
        (pre ++ [(x, adj, 1), (x + adj, cur - adj, 0)] ++ post) bk1 := by
      have hseg1 : Chain x [(x, adj, 1), (x + adj, cur - adj, 0)] (x + cur) := by
        have := Chain.pair (x := x) (t := 1) (θ := 0) ha ha8 (le_refl 1)
          (show 16 ≤ cur - adj by omega) (show (cur - adj) % 8 = 0 by omega) (by omega)
        rwa [show x + adj + (cur - adj) = x + cur by omega] at this
      obtain ⟨g1, g2, g3, g4, g5⟩ := tag2_facts h1.mem (x := x) (s := adj) (a := 1)
        (r := cur - adj) (b := 0) hx8 (by omega) ha8 ha (by omega) (by omega) (le_refl 1)
        (by omega) (by omega)
      rw [show x + adj + (cur - adj) = x + cur by omega] at g4 g5
      refine Core.retag (e ▸ c1) (by simp) hseg hseg1 ?_ ?_ ?_
      · intro q hq hqr
        exact g5 q hq (by omega) (by omega) (by omega) (by omega)
      · intro b hb
        simp only [List.mem_cons, List.mem_singleton, List.not_mem_nil, or_false] at hb
        rcases hb with rfl | rfl
        · exact ⟨g1, g2⟩
        · dsimp only
          rw [show x + adj + (cur - adj) = x + cur by omega]
          exact ⟨g3, g4⟩
      · intro i hi y hy
        left
        have hy1 := (γ y).mp ⟨i, hi, hy⟩
        obtain ⟨s, t, hm, hb⟩ := c1.nodes i hi y hy
        exact ⟨s, t, hother y s t hm hy1.2, hb⟩
    have hm5 : (x + adj, cur - adj, 0) ∈ pre ++ [(x, adj, 1), (x + adj, cur - adj, 0)] ++ post :=
      mem_mid2.mpr (Or.inr (Or.inr (Or.inl rfl)))
    have hnl : ¬ Listed bk1 (x + adj) := by
      intro hl
      obtain ⟨s, t, hm, _⟩ := c.listed_blk ((γ _).mp hl).1
      exact (hnex _ s t (hother _ s t hm (by omega))).2 hsp rfl
    obtain ⟨h6, bk6, f6, sa6, c6, n6, l6⟩ := add_node c5 hm5 hnl
    have fr : Frame h.base bk (x - 4) (x + cur - 4) h.mem h6.mem := by
      intro a hla hout
      have k1 := remove_frame c hlx (f1.enough 85 (le_refl _)) a hla (Or.inr (Nat.zero_le _))
      have k2 : tag_mem (tag_mem h1.mem x adj 1) (x + adj) (cur - adj) 0 a = h1.mem a := by
        rw [tag_mem_byte _ _ _ _ (by omega) (by omega), tag_mem_byte _ _ _ _ (by omega) (by omega)]
      have k3 := add_frame c5 hm5 (f6.enough _ (le_refl _)) a
        (fun hh => hla (LinkArea.of_sub sb (fun y hy => ((γ y).mp hy).1) hh)) (by omega)
      exact k3.trans (k2.trans k1)
    refine ⟨h6, bk6, ?_, ?_, ⟨c6, ?_, ?_⟩, fr⟩
    · have hev : ∀ fuel, place fuel h x adj = (remove_free_list fuel h x).bind fun h1 =>
          add_free_list fuel
            (withMem h1 (tag_mem (tag_mem h1.mem x adj 1) (x + adj) (cur - adj) 0)) (x + adj) :=
        fun fuel => place_eval_split fuel h hhdr hx8 (by omega) hc8 ha8 (by omega) hsp hlt
      simp only [hev]
      refine Fueled.bind (f1.mono (by omega)) (f6.mono ?_)
      show (withMem h1 _).numFree.toNat + 1 ≤ _
      show h1.numFree.toNat + 1 ≤ _
      omega
    · obtain ⟨θ, φ, t3, t4⟩ := sa6
      exact ⟨θ.trans sb, φ.trans sk, t3.trans sc, t4.trans sl⟩
    · have : withPrologue h6 (pre ++ [(x, adj, 1), (x + adj, cur - adj, 0)] ++ post)
          = ((h.base + 8, 344, 1) :: pre) ++ [(x, adj, 1), (x + adj, cur - adj, 0)] ++ post := by
        unfold withPrologue
        rw [sa6.1]
        show (h1.base + 8, 344, 1) :: _ = _
        rw [sb]; simp
      rw [this]
      refine NoAdjFree.replace hno ?_ (by simp) ?_ ?_
      · unfold NoAdjFree
        rw [List.chain'_cons]
        exact ⟨fun hh => by simp at hh, List.chain'_singleton _⟩
      · intro u _ v hv hh
        simp only [List.head?_cons, Option.mem_def, Option.some.injEq] at hv
        subst hv
        simp at hh
      · intro u hu v hv hh
        exact na2 v hv hh.2
    · intro y
      rw [l6 y, γ y, inv.listed y]
      constructor
      · rintro (⟨⟨s, hm⟩, hne⟩ | rfl)
        · refine ⟨s, ?_⟩
          have := hother y s 0 hm hne
          rw [mem_mid2]
          rcases List.mem_append.mp this with e1 | e1
          · exact Or.inl e1
          · exact Or.inr (Or.inr (Or.inr e1))
        · exact ⟨cur - adj, hm5⟩
      · rintro ⟨s, hm⟩
        rcases mem_mid2.mp hm with e1 | e1 | e1 | e1
        · exact Or.inl ⟨⟨s, mem_mid.mpr (Or.inl e1)⟩,
            (hnex y s 0 (List.mem_append_left _ e1)).1⟩
        · simp at e1
        · simp only [Prod.mk.injEq] at e1; exact Or.inr e1.1
        · exact Or.inl ⟨⟨s, mem_mid.mpr (Or.inr (Or.inr e1))⟩,
            (hnex y s 0 (List.mem_append_right _ e1)).1⟩
  · -- the whole block
    rw [if_neg hsp]
    have c2 : Core (withMem h (tag_mem h.mem x cur 1)) (pre ++ [(x, cur, 1)] ++ post) bk := by
      obtain ⟨g1, g2, g3⟩ := tag1_facts h.mem (x := x) (s := cur) (a := 1) hx8 (by omega) hc8
        hc16 (le_refl 1) hlt
      refine Core.retag (e ▸ c) (by simp) hseg (Chain.single hc16 hc8 (le_refl 1)) ?_ ?_ ?_
      · intro q hq hqr
        exact g3 q hq (by omega) (by omega)
      · intro b hb
        simp only [List.mem_singleton] at hb
        subst hb
        exact ⟨g1, g2⟩
      · intro i hi y hy
        obtain ⟨s, t, hm, hb⟩ := c.nodes i hi y hy
        by_cases hyx : y = x
        · subst hyx
          right
          have := Chain.unique c.chain (Core.mem_with (h := h) hm)
            (Core.mem_with (h := h) (b := (y, cur, 0)) (by simp))
          exact ⟨⟨cur, 1, by simp, this.1 ▸ hb⟩, g3 y (by omega) (by omega) (by omega),
            g3 (y + 4) (by omega) (by omega) (by omega)⟩
        · left
          exact ⟨s, t, hother y s t hm hyx, hb⟩
    obtain ⟨h1, bk1, f1, sa1, c1, n1, γ⟩ := remove_node c2 hlx
    have fr : Frame h.base bk (x - 4) (x + cur - 4) h.mem h1.mem := by
      intro a hla hout
      have k1 := remove_frame c2 hlx (f1.enough 85 (le_refl _)) a hla (Or.inr (Nat.zero_le _))
      have k2 : tag_mem h.mem x cur 1 a = h.mem a :=
        tag_mem_byte _ _ _ _ (by omega) (by omega)
      exact k1.trans k2
    refine ⟨h1, bk1, ?_, sa1, ⟨c1, ?_, ?_⟩, fr⟩
    · have hev : ∀ fuel, place fuel h x adj
          = remove_free_list fuel (withMem h (tag_mem h.mem x cur 1)) x :=
        fun fuel => place_eval_whole fuel h hhdr hx8 (by omega) hc8 (by omega) hle (by omega) hlt
      simp only [hev]
      exact f1.mono (by omega)
    · have : withPrologue h1 (pre ++ [(x, cur, 1)] ++ post)
          = ((h.base + 8, 344, 1) :: pre) ++ [(x, cur, 1)] ++ post := by
        unfold withPrologue
        rw [sa1.1]
        show (h.base + 8, 344, 1) :: _ = _
        simp
      rw [this]
      refine NoAdjFree.replace hno (List.chain'_singleton _) (by simp) ?_ ?_
      · intro u _ v hv hh
        simp only [List.head?_cons, Option.mem_def, Option.some.injEq] at hv
        subst hv
        simp at hh
      · intro u hu v _ hh
        simp only [List.getLast?_singleton, Option.mem_def, Option.some.injEq] at hu
        subst hu
        simp at hh
    · intro y
      rw [γ y, inv.listed y]
      constructor
      · rintro ⟨⟨s, hm⟩, hne⟩
        refine ⟨s, ?_⟩
        have := hother y s 0 hm hne
        rw [mem_mid1]
        rcases List.mem_append.mp this with e1 | e1
        · exact Or.inl e1
        · exact Or.inr (Or.inr e1)
      · rintro ⟨s, hm⟩
        rcases mem_mid1.mp hm with e1 | e1 | e1
        · exact ⟨⟨s, mem_mid.mpr (Or.inl e1)⟩, (hnex y s 0 (List.mem_append_left _ e1)).1⟩
        · simp at e1
        · exact ⟨⟨s, mem_mid.mpr (Or.inr (Or.inr e1))⟩,
            (hnex y s 0 (List.mem_append_right _ e1)).1⟩

/-- `place(bp, adj)` on a listed free block of size `cur >= adj`: the block
    becomes allocated, split when the rest is at least 16 bytes, and the
    invariant holds for the new list of blocks. -/
theorem place_spec {h : Heap} {pre post : List Blk} {bk : Nat → List Nat} {x cur adj : Nat}
    (inv : HeapInv h (pre ++ (x, cur, 0) :: post) bk) (ha8 : adj % 8 = 0) (ha : 16 ≤ adj)
    (hle : adj ≤ cur) :
    ∃ h1 bk1, Fueled (fun fuel => place fuel h x adj) (h.numFree.toNat + 90) h1
      ∧ SameArena h h1
      ∧ HeapInv h1 (pre ++ (if adj + 16 ≤ cur then [(x, adj, 1), (x + adj, cur - adj, 0)]
          else [(x, cur, 1)]) ++ post) bk1 := by
  obtain ⟨h1, bk1, f1, sa1, inv1, _⟩ := place_full inv ha8 ha hle
  exact ⟨h1, bk1, f1, sa1, inv1⟩

/-! ## Retagging a stretch of blocks and linking its free block -/

/-- After the blocks `σ` have been replaced by allocated blocks `ρ` followed
    by one free block at `A`, linking that block restores the invariant, when the
    listed blocks were exactly the free blocks outside the stretch; outside the
    link area only the link fields of the block at `A` change. -/
theorem retag_add_full {h : Heap} {pre σ ρ post : List Blk} {bk : Nat → List Nat}
    (c : Core h (pre ++ σ ++ post) bk) (hne : σ ≠ []) {a b A ζ : Nat}
    (hseg : Chain a σ b) (hseg1 : Chain a (ρ ++ [(A, ζ, 0)]) b)
    (hA : ∀ d ∈ ρ, d.2.2 = 1) {μ : Mem}
    (frame : ∀ q, q % 4 = 0 → (q + 8 ≤ a ∨ b ≤ q + 4) → GET μ q = GET h.mem q)
    (htag : Tagged μ (ρ ++ [(A, ζ, 0)]))
    (hl : ∀ y, Listed bk y ↔ ∃ t, (y, t, 0) ∈ pre ++ post)
    (hno : NoAdjFree (withPrologue h (pre ++ (ρ ++ [(A, ζ, 0)]) ++ post))) :
    ∃ h1 bk1, Fueled (fun fuel => add_free_list fuel (withMem h μ) A) (h.numFree.toNat + 1) h1
      ∧ SameArena h h1 ∧ HeapInv h1 (pre ++ (ρ ++ [(A, ζ, 0)]) ++ post) bk1
      ∧ Frame h.base bk A (A + 8) μ h1.mem := by
  obtain ⟨hpre, hpost, _, _, _⟩ := c.parts hne hseg
  -- listed blocks lie outside the stretch
  have hout : ∀ i, i < 84 → ∀ y ∈ bk i, ∃ s t, (y, s, t) ∈ pre ++ post ∧ bucket s = i := by
    intro i hi y hy
    obtain ⟨t, ht⟩ := (hl y).mp ⟨i, hi, hy⟩
    obtain ⟨s1, θ, hm, hb⟩ := c.nodes i hi y hy
    have hin : (y, t, 0) ∈ pre ++ σ ++ post := by
      simp only [List.mem_append] at ht ⊢; tauto
    have := Chain.unique c.chain (Core.mem_with (h := h) hm) (Core.mem_with (h := h) hin)
    exact ⟨t, 0, ht, this.1 ▸ hb⟩
  have c1 : Core (withMem h μ) (pre ++ (ρ ++ [(A, ζ, 0)]) ++ post) bk :=
    Core.retag c hne hseg hseg1 frame htag (fun i hi y hy => Or.inl (hout i hi y hy))
  have hmA : (A, ζ, 0) ∈ pre ++ (ρ ++ [(A, ζ, 0)]) ++ post := by simp
  have hAgeo : a ≤ A ∧ A + 16 ≤ b := by
    obtain ⟨mid, _, h2⟩ := Chain.append.mp hseg1
    have := Chain.mem hseg1 (A, ζ, 0) (by simp)
    dsimp only at this
    omega
  have hnl : ¬ Listed bk A := by
    intro hh
    obtain ⟨t, ht⟩ := (hl A).mp hh
    rcases List.mem_append.mp ht with e | e
    · have := hpre _ e
      have h16 := (c.blk (b := (A, t, 0)) (Core.mem_with (by simp [e]))).2.2.1
      dsimp only at this h16
      omega
    · have := hpost _ e
      dsimp only at this
      omega
  obtain ⟨h2, bk2, f2, sa2, c2, n2, δ⟩ := add_node c1 hmA hnl
  refine ⟨h2, bk2, f2, sa2, ⟨c2, ?_, ?_⟩, add_frame c1 hmA (f2.enough _ (le_refl _))⟩
  · have : withPrologue h2 (pre ++ (ρ ++ [(A, ζ, 0)]) ++ post)
        = withPrologue h (pre ++ (ρ ++ [(A, ζ, 0)]) ++ post) := by
      unfold withPrologue
      rw [sa2.1]
      rfl
    rw [this]; exact hno
  · intro y
    rw [δ y, hl y]
    constructor
    · rintro (⟨t, ht⟩ | rfl)
      · refine ⟨t, ?_⟩
        simp only [List.mem_append] at ht ⊢; tauto
      · exact ⟨ζ, hmA⟩
    · rintro ⟨t, ht⟩
      simp only [List.mem_append, List.mem_singleton] at ht
      rcases ht with (e | e | e) | e
      · exact Or.inl ⟨t, List.mem_append_left _ e⟩
      · have := hA _ e; simp at this
      · simp only [Prod.mk.injEq] at e; exact Or.inr e.1
      · exact Or.inl ⟨t, List.mem_append_right _ e⟩

/-- After the blocks `σ` have been replaced by allocated blocks `ρ` followed
    by one free block at `A`, linking that block restores the invariant, when the
    listed blocks were exactly the free blocks outside the stretch. -/
theorem retag_add {h : Heap} {pre σ ρ post : List Blk} {bk : Nat → List Nat}
    (c : Core h (pre ++ σ ++ post) bk) (hne : σ ≠ []) {a b A ζ : Nat}
    (hseg : Chain a σ b) (hseg1 : Chain a (ρ ++ [(A, ζ, 0)]) b)
    (hA : ∀ d ∈ ρ, d.2.2 = 1) {μ : Mem}
    (frame : ∀ q, q % 4 = 0 → (q + 8 ≤ a ∨ b ≤ q + 4) → GET μ q = GET h.mem q)
    (htag : Tagged μ (ρ ++ [(A, ζ, 0)]))
    (hl : ∀ y, Listed bk y ↔ ∃ t, (y, t, 0) ∈ pre ++ post)
    (hno : NoAdjFree (withPrologue h (pre ++ (ρ ++ [(A, ζ, 0)]) ++ post))) :
    ∃ h1 bk1, Fueled (fun fuel => add_free_list fuel (withMem h μ) A) (h.numFree.toNat + 1) h1
      ∧ SameArena h h1 ∧ HeapInv h1 (pre ++ (ρ ++ [(A, ζ, 0)]) ++ post) bk1 := by
  obtain ⟨h1, bk1, f1, sa1, inv1, _⟩ := retag_add_full c hne hseg hseg1 hA frame htag hl hno
  exact ⟨h1, bk1, f1, sa1, inv1⟩

/-! ## `coalesce` -/

/-- The stores of `coalesce` when the block at `x` is merged into its free
    predecessor at `p = x - ps`. -/
theorem merge_prev_eval (m : Mem) {x p N ζ : Nat} (hftr : GET m (x - 8) = N + 0)
    (hp : p + N = x) (hp8 : p % 8 = 0) (h4 : 4 ≤ p) (hps8 : N % 8 = 0) (hps : 16 ≤ N)
    (hsz8 : ζ % 8 = 0) (hsz : N < ζ) (hlt : p + ζ < 4294967296) :
    PREV_BLKP m x = p
    ∧ PUT (PUT m (HDRP p) (PACK ζ 0)) (FTRP (PUT m (HDRP p) (PACK ζ 0)) p) (PACK ζ 0)
        = tag_mem m p ζ 0
    ∧ PREV_BLKP (PUT m (HDRP p) (PACK ζ 0)) x = p
    ∧ PREV_BLKP (tag_mem m p ζ 0) x = p := by
  have e0 : p = x - N := by omega
  have e1 : HDRP p = p - 4 := HDRP_eq h4 (by omega)
  refine ⟨?_, tag_eval m (by omega) h4 hsz8 (by omega) (by omega) hlt, ?_, ?_⟩
  · rw [e0]; exact PREV_BLKP_eq hftr hps8 (by omega) (by omega) (by omega) (by omega)
  · rw [e1, e0]
    refine PREV_BLKP_eq (s := N) (a := 0) ?_ hps8 (by omega) (by omega) (by omega) (by omega)
    rw [GET_PUT_ne _ _ _ _ (by omega) (by omega) (by omega)]
    exact hftr
  · rw [e0]
    refine PREV_BLKP_eq (s := N) (a := 0) ?_ hps8 (by omega) (by omega) (by omega) (by omega)
    rw [tag_frame (by omega) hsz8 (by omega) (by omega) (by omega)]
    exact hftr

theorem Chain.triple {x s t s1 θ s2 φ : Nat} (h16 : 16 ≤ s) (h8 : s % 8 = 0) (ht : t ≤ 1)
    (k16 : 16 ≤ s1) (k8 : s1 % 8 = 0) (kt : θ ≤ 1) (j16 : 16 ≤ s2) (j8 : s2 % 8 = 0)
    (jt : φ ≤ 1) :
    Chain x [(x, s, t), (x + s, s1, θ), (x + s + s1, s2, φ)] (x + s + s1 + s2) :=
  ⟨rfl, h16, h8, ht, rfl, k16, k8, kt, rfl, j16, j8, jt, rfl⟩

theorem Core.same_withMem {h : Heap} : withMem h h.mem = h := rfl

/-- The predecessor of a block in the list (the prologue for the first one). -/
theorem pred_cases (P : Blk) (pre : List Blk) :
    ∃ pre0 pb, P :: pre = pre0 ++ [pb] ∧ (pre = [] → pb = P) ∧
      (pre ≠ [] → ∃ pre1, pre = pre1 ++ [pb] ∧ pre0 = P :: pre1) := by
  rcases List.eq_nil_or_concat pre with e | ⟨pre1, pb, e⟩
  · subst e
    exact ⟨[], P, rfl, fun _ => rfl, fun hh => absurd rfl hh⟩
  · rw [List.concat_eq_append] at e
    subst e
    refine ⟨P :: pre1, pb, rfl, fun hh => ?_, fun _ => ⟨pre1, rfl, rfl⟩⟩
    simp at hh

/-- The block before `x` in the arena, with the words `coalesce` reads from it. -/
theorem Core.pred {h : Heap} {pre post : List Blk} {bk : Nat → List Nat} {x s t : Nat}
    (c : Core h (pre ++ (x, s, t) :: post) bk) :
    ∃ pre0 p ps pa, (h.base + 8, 344, 1) :: pre = pre0 ++ [(p, ps, pa)] ∧ p + ps = x
      ∧ (pre = [] → pa = 1)
      ∧ (pre ≠ [] → ∃ pre1, pre = pre1 ++ [(p, ps, pa)] ∧ pre0 = (h.base + 8, 344, 1) :: pre1)
      ∧ GET h.mem (x - 8) = ps + pa ∧ GET h.mem (p - 4) = ps + pa ∧ p % 8 = 0 ∧ 16 ≤ ps
      ∧ ps % 8 = 0 ∧ pa ≤ 1 ∧ h.base + 8 ≤ p := by
  obtain ⟨pre0, ⟨p, ps, pa⟩, e1, e2, e3⟩ := pred_cases (h.base + 8, 344, 1) pre
  have hch := c.chain
  unfold withPrologue at hch
  rw [show (h.base + 8, 344, 1) :: (pre ++ (x, s, t) :: post)
      = ((h.base + 8, 344, 1) :: pre) ++ ((x, s, t) :: post) by simp, e1] at hch
  obtain ⟨mid, hc1, hc2⟩ := Chain.append.mp hch
  obtain ⟨mid1, hc3, hc4⟩ := Chain.append.mp hc1
  have hmid : mid = x := hc2.1.symm
  obtain ⟨h1, _, _, _, h5⟩ := hc4
  dsimp only at h1 h5
  have hx : p + ps = x := by
    have : mid1 + ps = mid := h5
    omega
  have hmem : (p, ps, pa) ∈ withPrologue h (pre ++ (x, s, t) :: post) := by
    unfold withPrologue
    rw [show (h.base + 8, 344, 1) :: (pre ++ (x, s, t) :: post)
      = ((h.base + 8, 344, 1) :: pre) ++ ((x, s, t) :: post) by simp, e1]
    simp
  have hb := c.blk hmem
  dsimp only at hb
  obtain ⟨b1, b2, b3, b4, b5, b6, b7, b8⟩ := hb
  refine ⟨pre0, p, ps, pa, e1, hx, fun hh => ?_, e3, ?_, b7, b6, b3, b4, b5, b1⟩
  · have := e2 hh
    simp only [Prod.mk.injEq] at this
    exact this.2.2
  · rw [← hx]; exact b8

/-- The header word after the block at `x`: the header of the next block, or the
    epilogue header. -/
theorem Core.succ {h : Heap} {pre post : List Blk} {bk : Nat → List Nat} {x s t : Nat}
    (c : Core h (pre ++ (x, s, t) :: post) bk) :
    (post = [] ∧ GET h.mem (x + s - 4) = 0 + 1 ∧ x + s = h.base + h.brk)
    ∨ ∃ ns na post0, post = (x + s, ns, na) :: post0 ∧ GET h.mem (x + s - 4) = ns + na
        ∧ 16 ≤ ns ∧ ns % 8 = 0 ∧ na ≤ 1 ∧ GET h.mem (x + s + ns - 8) = ns + na
        ∧ x + s + ns ≤ h.base + h.brk := by
  have hch := c.chain
  unfold withPrologue at hch
  rw [show (h.base + 8, 344, 1) :: (pre ++ (x, s, t) :: post)
      = ((h.base + 8, 344, 1) :: pre) ++ ((x, s, t) :: post) by simp] at hch
  obtain ⟨mid, hc1, hc2⟩ := Chain.append.mp hch
  obtain ⟨h1, _, _, _, h5⟩ := hc2
  dsimp only at h1 h5
  subst h1
  cases post with
  | nil =>
    left
    have : x + s = h.base + h.brk := h5
    refine ⟨rfl, ?_, this⟩
    rw [this]; exact c.epilogue
  | cons nb post0 =>
    right
    obtain ⟨n, ns, na⟩ := nb
    obtain ⟨k1, _, _, _, _⟩ := h5
    dsimp only at k1
    subst k1
    have hb := c.blk (b := (x + s, ns, na)) (Core.mem_with (by simp))
    dsimp only at hb
    obtain ⟨b1, b2, b3, b4, b5, b6, b7, b8⟩ := hb
    exact ⟨ns, na, post0, rfl, b7, b3, b4, b5, b8, b2⟩

theorem getLast?_concat_blk (l : List Blk) (b : Blk) : (l ++ [b]).getLast? = some b := by
  simp

/-- Tagging the addresses of the blocks `σ` as one free block and linking it;
    outside the link area only bytes of the stretch change. -/
theorem merge_finish {h : Heap} {pre σ post : List Blk} {bk : Nat → List Nat}
    (c : Core h (pre ++ σ ++ post) bk) (hne : σ ≠ []) {A ζ : Nat}
    (hseg : Chain A σ (A + ζ)) (hsz : 16 ≤ ζ)
    (hl : ∀ y, Listed bk y ↔ ∃ t, (y, t, 0) ∈ pre ++ post)
    (hno : NoAdjFree (((h.base + 8, 344, 1) :: pre) ++ [(A, ζ, 0)] ++ post)) :
    ∃ h1 bk1, Fueled (fun fuel => add_free_list fuel (withMem h (tag_mem h.mem A ζ 0)) A)
        (h.numFree.toNat + 1) h1
      ∧ SameArena h h1 ∧ HeapInv h1 (pre ++ [(A, ζ, 0)] ++ post) bk1
      ∧ Frame h.base bk (A - 4) (A + ζ - 4) h.mem h1.mem := by
  obtain ⟨_, _, hA, hB, hA8⟩ := c.parts hne hseg
  have hrange := c.range
  have hbrkle := c.brk_le
  have hsz8 : ζ % 8 = 0 := by
    have := Chain.end_aligned hseg hA8
    omega
  obtain ⟨g1, g2, g3⟩ := tag1_facts h.mem (x := A) (s := ζ) (a := 0) hA8 (by omega) hsz8 hsz
    (by omega) (by omega)
  obtain ⟨h1, bk1, f1, sa1, inv1, fr1⟩ := retag_add_full (ρ := []) (A := A) (ζ := ζ) c hne hseg
    (by simpa using Chain.single (x := A) hsz hsz8 (by omega : (0 : Nat) ≤ 1))
    (by simp) (μ := tag_mem h.mem A ζ 0)
    (fun q hq hqr => g3 q hq (by omega) (by omega))
    (by
      intro b hb
      simp only [List.nil_append, List.mem_singleton] at hb
      subst hb
      exact ⟨g1, g2⟩)
    hl
    (by
      unfold withPrologue
      simpa using hno)
  refine ⟨h1, bk1, f1, sa1, by simpa using inv1, fun a hla hout => ?_⟩
  exact (fr1 a hla (by omega)).trans (tag_mem_byte _ _ _ _ (by omega) (by omega))

/-- `coalesce(bp)` on a block that is marked free but not listed, in a heap that
    otherwise satisfies the invariant: the block is merged with its free
    neighbours, the result is listed, the invariant holds, and outside the link
    area only bytes of the merged block change. -/
theorem coalesce_full {h : Heap} {N M : List Blk} {bk : Nat → List Nat} {x s : Nat}
    (c : Core h (N ++ (x, s, 0) :: M) bk)
    (hno : NoAdjFree (withPrologue h (N ++ (x, s, 1) :: M)))
    (hl : ∀ y, Listed bk y ↔ ∃ t, (y, t, 0) ∈ N ++ M) :
    ∃ h1 bs1 bk1 r ζ, Fueled (fun fuel => coalesce fuel h x) (h.numFree.toNat + 90) (r, h1)
      ∧ SameArena h h1 ∧ HeapInv h1 bs1 bk1 ∧ (r, ζ, 0) ∈ bs1 ∧ r ≤ x ∧ x + s ≤ r + ζ
      ∧ (∀ d : Blk, d.2.2 = 1 → (d ∈ bs1 ↔ d ∈ N ++ M))
      ∧ (r, ζ) = mergedAt h.mem x s
      ∧ Frame h.base bk (r - 4) (r + ζ - 4) h.mem h1.mem
      ∧ (∀ d ∈ bs1, d = (r, ζ, 0) ∨ d ∈ N ++ M) := by
  obtain ⟨hpre, hpost, hge, hxle, hx8, hs16, hs8, _, hhdr, hftr, hlt⟩ := c.around
  obtain ⟨pre0, p, ps, pa, ep, hpx, hpnil, hpcons, pf, ph, hp8, hps16, hps8, hpa, hpge⟩ := c.pred
  have hrange := c.range
  have hbrkle := c.brk_le
  have hcap := c.cap_lt
  -- the values read at entry
  have ePrev : PREV_BLKP h.mem x = p := by
    have := PREV_BLKP_eq pf hps8 hpa (by omega) (by omega) (by omega)
    rw [this]; omega
  have eFtrPrev : FTRP h.mem p = x - 8 := by
    rw [FTRP_eq ph hps8 hpa (by omega) (by omega) (by omega)]; omega
  have ePA : GET_ALLOC h.mem (x - 8) = pa := GET_ALLOC_eq pf hps8 hpa
  have eNext : NEXT_BLKP h.mem x = x + s := NEXT_BLKP_eq hhdr hs8 (by omega) (by omega) hlt
  have eHdrNext : HDRP (x + s) = x + s - 4 := HDRP_eq (by omega) hlt
  have eHdr : HDRP x = x - 4 := HDRP_eq (by omega) (by omega)
  have eSize : GET_SIZE h.mem (x - 4) = s := GET_SIZE_eq hhdr hs8 (by omega)
  have hnoF : NoAdjFree (((h.base + 8, 344, 1) :: N) ++ [(x, s, 1)] ++ M) := by
    have := hno
    unfold withPrologue at this
    simpa using this
  have e : N ++ (x, s, 0) :: M = N ++ [(x, s, 0)] ++ M := by simp
  have hsegx : Chain x [(x, s, 0)] (x + s) := Chain.single hs16 hs8 (by omega)
  -- the allocated bit read from the next header
  obtain ⟨na, hNA, hfree, halloc⟩ : ∃ na, GET_ALLOC h.mem (x + s - 4) = na
      ∧ (na = 0 → ∃ ns post0, M = (x + s, ns, 0) :: post0 ∧ 16 ≤ ns ∧ ns % 8 = 0
          ∧ x + s + ns ≤ h.base + h.brk ∧ GET_SIZE h.mem (x + s - 4) = ns)
      ∧ (na ≠ 0 → ∀ v ∈ M.head?, v.2.2 ≠ 0) := by
    rcases c.succ with ⟨hp0, hep, _⟩ | ⟨ns, na, post0, hp0, hnh, hns16, hns8, hna, _, hnle⟩
    · refine ⟨1, GET_ALLOC_eq hep (by omega) (by omega), fun hh => by omega, fun _ v hv => ?_⟩
      rw [hp0] at hv; simp at hv
    · refine ⟨na, GET_ALLOC_eq hnh hns8 hna, fun hh => ⟨ns, post0, hh ▸ hp0, hns16, hns8, hnle,
        GET_SIZE_eq hnh hns8 hna⟩,
        fun hh v hv => ?_⟩
      rw [hp0] at hv
      simp only [List.head?_cons, Option.mem_def, Option.some.injEq] at hv
      subst hv
      exact hh
  have hlastP : ((h.base + 8, 344, 1) :: N).getLast? = some (p, ps, pa) := by
    rw [ep]; exact getLast?_concat_blk _ _
  have ePS : GET_SIZE h.mem (x - 8) = ps := GET_SIZE_eq pf hps8 hpa
  have hshape : ∀ r z : Nat, (r, z) = (if pa = 0 then x - ps else x,
      s + (if pa = 0 then ps else 0) + (if na = 0 then GET_SIZE h.mem (x + s - 4) else 0)) →
      (r, z) = mergedAt h.mem x s := by
    intro r z hh
    rw [hh]
    unfold mergedAt
    rw [ePA, hNA, ePS]
  unfold coalesce
  simp only [ePrev, eFtrPrev, ePA, eNext, eHdrNext, hNA, eHdr, eSize]
  by_cases hpa0 : pa = 0
  · -- the predecessor is free
    subst hpa0
    obtain ⟨pre1, hpre1, hpre0⟩ := hpcons (fun hh => by have := hpnil hh; omega)
    subst hpre1
    subst hpre0
    have hlp : Listed bk p := (hl p).mpr ⟨ps, by simp⟩
    obtain ⟨hq1, hq2, _⟩ := (show Core h (pre1 ++ (p, ps, 0) :: ((x, s, 0) :: M)) bk by
      simpa using c).around
    obtain ⟨ua, _⟩ := NoAdjFree.beside (γ := (h.base + 8, 344, 1) :: pre1) (b := (p, ps, 0))
      (δ := (x, s, 1) :: M) (by simpa using hnoF) rfl
    obtain ⟨h1, bk1, f1, sa1, c1, n1, γ⟩ := remove_node c hlp
    have hl1 : ∀ y, Listed bk1 y ↔ ∃ t, (y, t, 0) ∈ pre1 ++ M := by
      intro y
      rw [γ y, hl y]
      constructor
      · rintro ⟨⟨t, ht⟩, hne⟩
        refine ⟨t, ?_⟩
        simp only [List.mem_append, List.mem_singleton, Prod.mk.injEq] at ht ⊢
        rcases ht with (e1 | e1) | e1
        · exact Or.inl e1
        · exact absurd e1.1 hne
        · exact Or.inr e1
      · rintro ⟨t, ht⟩
        rcases List.mem_append.mp ht with e1 | e1
        · refine ⟨⟨t, by simp [e1]⟩, ?_⟩
          have := hq1 _ e1; dsimp only at this; omega
        · refine ⟨⟨t, by simp [e1]⟩, ?_⟩
          have := hpost _ e1; dsimp only at this; omega
    by_cases hna0 : na = 0
    · -- both neighbours are free
      obtain ⟨ns, post0, hpost0, hns16, hns8, hnle, eNS⟩ := hfree hna0
      subst hpost0
      subst hna0
      simp only [and_self, if_true]
      obtain ⟨_, hr2, _⟩ := (show Core h ((pre1 ++ [(p, ps, 0), (x, s, 0)])
          ++ (x + s, ns, 0) :: post0) bk by simpa using c).around
      obtain ⟨_, ub⟩ := NoAdjFree.beside
        (γ := ((h.base + 8, 344, 1) :: pre1) ++ [(p, ps, 0), (x, s, 1)]) (b := (x + s, ns, 0))
        (δ := post0) (by simpa using hnoF) rfl
      have hln : Listed bk1 (x + s) := (hl1 _).mpr ⟨ns, by simp⟩
      obtain ⟨h2, bk2, f2, sa2, c2, n2, δ⟩ := remove_node c1 hln
      have hl2 : ∀ y, Listed bk2 y ↔ ∃ t, (y, t, 0) ∈ pre1 ++ post0 := by
        intro y
        rw [δ y, hl1 y]
        constructor
        · rintro ⟨⟨t, ht⟩, hne⟩
          refine ⟨t, ?_⟩
          simp only [List.mem_append, List.mem_cons, Prod.mk.injEq] at ht ⊢
          rcases ht with e1 | e1 | e1
          · exact Or.inl e1
          · exact absurd e1.1 hne
          · exact Or.inr e1
        · rintro ⟨t, ht⟩
          rcases List.mem_append.mp ht with e1 | e1
          · refine ⟨⟨t, by simp [e1]⟩, ?_⟩
            have := hq1 _ e1; dsimp only at this; omega
          · refine ⟨⟨t, by simp [e1]⟩, ?_⟩
            have := hr2 _ e1; dsimp only at this; omega
      have c2a : Core h2 (pre1 ++ [(p, ps, 0), (x, s, 0), (x + s, ns, 0)] ++ post0) bk2 := by
        simpa using c2
      -- the words read after the first removal
      have t1x := c1.tagged (x, s, 0) (Core.mem_with (by simp))
      dsimp only at t1x
      have eN1 : NEXT_BLKP h1.mem x = x + s :=
        NEXT_BLKP_eq t1x.1 hs8 (by omega) (by omega) hlt
      -- the words read after the second removal
      have t2p := c2.tagged (p, ps, 0) (Core.mem_with (by simp))
      have t2x := c2.tagged (x, s, 0) (Core.mem_with (by simp))
      have t2n := c2.tagged (x + s, ns, 0) (Core.mem_with (by simp))
      dsimp only at t2p t2x t2n
      obtain ⟨μ, m2, m3, m4⟩ := merge_prev_eval h2.mem (x := x) (p := p) (N := ps)
        (ζ := s + (ps + ns)) (by rw [← hpx]; simpa using t2p.2) hpx hp8 (by omega) hps8 hps16
        (by omega) (by omega) (by omega)
      have eS : GET_SIZE h2.mem (HDRP p) = ps := by
        rw [HDRP_eq (by omega) (by omega)]
        exact GET_SIZE_eq t2p.1 hps8 (by omega)
      have eN2 : NEXT_BLKP h2.mem x = x + s :=
        NEXT_BLKP_eq t2x.1 hs8 (by omega) (by omega) hlt
      have eF2 : FTRP h2.mem (x + s) = x + s + ns - 8 :=
        FTRP_eq t2n.1 hns8 (by omega) (by omega) (by omega) (by omega)
      have eS2 : GET_SIZE h2.mem (x + s + ns - 8) = ns := GET_SIZE_eq t2n.2 hns8 (by omega)
      have eA1 : add32 ps ns = ps + ns := add32_eq (by omega)
      have eA2 : add32 s (ps + ns) = s + (ps + ns) := add32_eq (by omega)
      obtain ⟨h3, bk3, f3, sa3, inv3, fr3⟩ := merge_finish c2a (by simp) (A := p)
        (ζ := s + (ps + ns))
        (by
          have := Chain.triple (x := p) (t := 0) (θ := 0) (φ := 0) hps16 hps8 (by omega)
            hs16 hs8 (by omega) hns16 hns8 (by omega)
          rw [hpx] at this
          rwa [show x + s + ns = p + (s + (ps + ns)) by omega] at this)
        (by omega) hl2
        (by
          rw [sa2.1, sa1.1]
          have := NoAdjFree.replace (γ := (h.base + 8, 344, 1) :: pre1)
            (σ := [(p, ps, 0), (x, s, 1), (x + s, ns, 0)]) (τ := [(p, s + (ps + ns), 0)])
            (δ := post0)
            (by simpa using hnoF) (List.chain'_singleton _) (by simp)
            (fun u hu v hv hh => ua u hu hh.1)
            (fun u hu v hv hh => ub v hv hh.2)
          exact this)
      simp only [withMem] at f3
      have fr : Frame h.base bk (p - 4) (p + (s + (ps + ns)) - 4) h.mem h3.mem := by
        intro a hla hout
        have k1 := remove_frame c hlp (f1.enough 85 (le_refl _)) a hla (Or.inr (Nat.zero_le _))
        have k2 := remove_frame c1 hln (f2.enough 85 (le_refl _)) a
          (fun hh => hla (LinkArea.of_sub sa1.1 (fun y hy => ((γ y).mp hy).1) hh))
          (Or.inr (Nat.zero_le _))
        have k3 := fr3 a (fun hh => hla (LinkArea.of_sub (sa2.1.trans sa1.1)
          (fun y hy => ((γ y).mp ((δ y).mp hy).1).1) hh)) hout
        exact k3.trans (k2.trans k1)
      have hsub : ∀ d ∈ pre1 ++ [(p, s + (ps + ns), 0)] ++ post0,
          d = (p, s + (ps + ns), 0) ∨ d ∈ pre1 ++ [(p, ps, 0)] ++ (x + s, ns, 0) :: post0 := by
        intro d hd
        clear * - hd
        simp only [List.mem_append, List.mem_singleton, List.mem_cons] at hd ⊢
        tauto
      refine ⟨h3, _, bk3, p, s + (ps + ns), ?_, ?_, inv3, by simp, by omega, by omega, ?_,
        hshape _ _ (by
          simp only [eq_self_iff_true, if_true, eNS, Prod.mk.injEq]
          omega), fr, hsub⟩
      · refine Fueled.bind (f1.mono (by omega)) ?_
        simp only [eN1]
        refine Fueled.bind (f2.mono (by omega)) ?_
        simp only [μ, eS, eN2, eF2, eS2, eA1, eA2, m3, m2, m4]
        exact (f3.mono (by omega)).map
      · obtain ⟨a1, a2, a3, a4⟩ := sa1
        obtain ⟨b1, b2, b3, b4⟩ := sa2
        obtain ⟨d1, d2, d3, d4⟩ := sa3
        exact ⟨d1.trans (b1.trans a1), d2.trans (b2.trans a2), d3.trans (b3.trans a3),
          d4.trans (b4.trans a4)⟩
      · intro d hd
        obtain ⟨d1, d2, d3⟩ := d
        dsimp only at hd
        subst hd
        simp only [List.mem_append, List.mem_singleton, List.mem_cons, Prod.mk.injEq,
          List.not_mem_nil, or_false]
        constructor
        · rintro ((e1 | e1) | e1)
          · exact Or.inl (Or.inl e1)
          · exact absurd e1.2.2 (by omega)
          · exact Or.inr (Or.inr e1)
        · rintro ((e1 | e1) | e1 | e1)
          · exact Or.inl (Or.inl e1)
          · exact absurd e1.2.2 (by omega)
          · exact absurd e1.2.2 (by omega)
          · exact Or.inr e1
    · -- only the predecessor is free
      simp only [hna0, and_false, if_false, ne_eq, not_false_eq_true, and_self, if_true]
      have c1a : Core h1 (pre1 ++ [(p, ps, 0), (x, s, 0)] ++ M) bk1 := by simpa using c1
      have θ := c1.tagged (p, ps, 0) (Core.mem_with (by simp))
      dsimp only at θ
      obtain ⟨μ, m2, m3, m4⟩ := merge_prev_eval h1.mem (x := x) (p := p) (N := ps)
        (ζ := s + ps) (by rw [← hpx]; simpa using θ.2) hpx hp8 (by omega) hps8 hps16
        (by omega) (by omega) (by omega)
      have eS : GET_SIZE h1.mem (HDRP p) = ps := by
        rw [HDRP_eq (by omega) (by omega)]
        exact GET_SIZE_eq θ.1 hps8 (by omega)
      have eA : add32 s ps = s + ps := add32_eq (by omega)
      obtain ⟨h2, bk2, f2, sa2, inv2, fr2⟩ := merge_finish c1a (by simp) (A := p) (ζ := s + ps)
        (by
          have := Chain.pair (x := p) (t := 0) (θ := 0) hps16 hps8 (by omega) hs16 hs8
            (by omega)
          rw [hpx] at this
          rwa [show x + s = p + (s + ps) by omega] at this)
        (by omega) hl1
        (by
          rw [sa1.1]
          have := NoAdjFree.replace (γ := (h.base + 8, 344, 1) :: pre1)
            (σ := [(p, ps, 0), (x, s, 1)]) (τ := [(p, s + ps, 0)]) (δ := M)
            (by simpa using hnoF) (List.chain'_singleton _) (by simp)
            (fun u hu v hv hh => ua u hu hh.1)
            (fun u hu v hv hh => halloc hna0 v hv hh.2)
          exact this)
      simp only [withMem] at f2
      have fr : Frame h.base bk (p - 4) (p + (s + ps) - 4) h.mem h2.mem := by
        intro a hla hout
        have k1 := remove_frame c hlp (f1.enough 85 (le_refl _)) a hla (Or.inr (Nat.zero_le _))
        have k2 := fr2 a (fun hh => hla (LinkArea.of_sub sa1.1
          (fun y hy => ((γ y).mp hy).1) hh)) hout
        exact k2.trans k1
      have hsub : ∀ d ∈ pre1 ++ [(p, s + ps, 0)] ++ M,
          d = (p, s + ps, 0) ∨ d ∈ pre1 ++ [(p, ps, 0)] ++ M := by
        intro d hd
        clear * - hd
        simp only [List.mem_append, List.mem_singleton] at hd ⊢
        tauto
      refine ⟨h2, _, bk2, p, s + ps, ?_, ?_, inv2, by simp, by omega, by omega, ?_,
        hshape _ _ (by
          simp only [eq_self_iff_true, if_true, hna0, if_false, Prod.mk.injEq]
          omega), fr, hsub⟩
      · refine Fueled.bind (f1.mono (by omega)) ?_
        simp only [μ, eS, eA, m3, m2, m4]
        exact (f2.mono (by omega)).map
      · obtain ⟨a1, a2, a3, a4⟩ := sa1
        obtain ⟨b1, b2, b3, b4⟩ := sa2
        exact ⟨b1.trans a1, b2.trans a2, b3.trans a3, b4.trans a4⟩
      · intro d hd
        obtain ⟨d1, d2, d3⟩ := d
        dsimp only at hd
        subst hd
        simp only [List.mem_append, List.mem_singleton, Prod.mk.injEq]
        constructor
        · rintro ((e1 | e1) | e1)
          · exact Or.inl (Or.inl e1)
          · omega
          · exact Or.inr e1
        · rintro ((e1 | e1) | e1)
          · exact Or.inl (Or.inl e1)
          · omega
          · exact Or.inr e1
  · -- the predecessor is allocated
    have ua : ∀ u ∈ ((h.base + 8, 344, 1) :: N).getLast?, u.2.2 ≠ 0 := by
      intro u hu
      rw [hlastP] at hu
      simp only [Option.mem_def, Option.some.injEq] at hu
      subst hu
      exact hpa0
    by_cases hna0 : na = 0
    · -- only the successor is free
      obtain ⟨ns, post0, hpost0, hns16, hns8, hnle, eNS⟩ := hfree hna0
      subst hpost0
      subst hna0
      simp only [hpa0, false_and, if_false, ne_eq, not_false_eq_true, and_self, if_true]
      obtain ⟨_, hr2, _⟩ := (show Core h ((N ++ [(x, s, 0)])
          ++ (x + s, ns, 0) :: post0) bk by simpa using c).around
      obtain ⟨_, ub⟩ := NoAdjFree.beside
        (γ := ((h.base + 8, 344, 1) :: N) ++ [(x, s, 1)]) (b := (x + s, ns, 0))
        (δ := post0) (by simpa using hnoF) rfl
      have hln : Listed bk (x + s) := (hl _).mpr ⟨ns, by simp⟩
      obtain ⟨h1, bk1, f1, sa1, c1, n1, γ⟩ := remove_node c hln
      have hl1 : ∀ y, Listed bk1 y ↔ ∃ t, (y, t, 0) ∈ N ++ post0 := by
        intro y
        rw [γ y, hl y]
        constructor
        · rintro ⟨⟨t, ht⟩, hne⟩
          refine ⟨t, ?_⟩
          simp only [List.mem_append, List.mem_cons, Prod.mk.injEq] at ht ⊢
          rcases ht with e1 | e1 | e1
          · exact Or.inl e1
          · exact absurd e1.1 hne
          · exact Or.inr e1
        · rintro ⟨t, ht⟩
          rcases List.mem_append.mp ht with e1 | e1
          · refine ⟨⟨t, by simp [e1]⟩, ?_⟩
            have := hpre _ e1; dsimp only at this; omega
          · refine ⟨⟨t, by simp [e1]⟩, ?_⟩
            have := hr2 _ e1; dsimp only at this; omega
      have c1a : Core h1 (N ++ [(x, s, 0), (x + s, ns, 0)] ++ post0) bk1 := by
        simpa using c1
      have t1x := c1.tagged (x, s, 0) (Core.mem_with (by simp))
      have t1n := c1.tagged (x + s, ns, 0) (Core.mem_with (by simp))
      dsimp only at t1x t1n
      have eN1 : NEXT_BLKP h1.mem x = x + s :=
        NEXT_BLKP_eq t1x.1 hs8 (by omega) (by omega) hlt
      have eS : GET_SIZE h1.mem (x + s - 4) = ns := GET_SIZE_eq t1n.1 hns8 (by omega)
      have eA : add32 s ns = s + ns := add32_eq (by omega)
      have eT := tag_eval h1.mem (x := x) (s := s + ns) (a := 0) (by omega) (by omega)
        (by omega) (by omega) (by omega) (by omega)
      rw [eHdr] at eT
      obtain ⟨h2, bk2, f2, sa2, inv2, fr2⟩ := merge_finish c1a (by simp) (A := x) (ζ := s + ns)
        (by
          have := Chain.pair (x := x) (t := 0) (θ := 0) hs16 hs8 (by omega) hns16 hns8
            (by omega)
          rwa [Nat.add_assoc] at this)
        (by omega) hl1
        (by
          rw [sa1.1]
          have := NoAdjFree.replace (γ := (h.base + 8, 344, 1) :: N)
            (σ := [(x, s, 1), (x + s, ns, 0)]) (τ := [(x, s + ns, 0)]) (δ := post0)
            (by simpa using hnoF) (List.chain'_singleton _) (by simp)
            (fun u hu v hv hh => ua u hu hh.1)
            (fun u hu v hv hh => ub v hv hh.2)
          exact this)
      simp only [withMem] at f2
      have fr : Frame h.base bk (x - 4) (x + (s + ns) - 4) h.mem h2.mem := by
        intro a hla hout
        have k1 := remove_frame c hln (f1.enough 85 (le_refl _)) a hla (Or.inr (Nat.zero_le _))
        have k2 := fr2 a (fun hh => hla (LinkArea.of_sub sa1.1
          (fun y hy => ((γ y).mp hy).1) hh)) hout
        exact k2.trans k1
      have hsub : ∀ d ∈ N ++ [(x, s + ns, 0)] ++ post0,
          d = (x, s + ns, 0) ∨ d ∈ N ++ (x + s, ns, 0) :: post0 := by
        intro d hd
        clear * - hd
        simp only [List.mem_append, List.mem_singleton, List.mem_cons] at hd ⊢
        tauto
      refine ⟨h2, _, bk2, x, s + ns, ?_, ?_, inv2, by simp, by omega, by omega, ?_,
        hshape _ _ (by
          simp only [eq_self_iff_true, if_true, hpa0, if_false, eNS, Prod.mk.injEq, true_and]
          omega), fr, hsub⟩
      · refine Fueled.bind (f1.mono (by omega)) ?_
        simp only [eN1, eHdrNext, eS, eA, eT]
        exact (f2.mono (by omega)).map
      · obtain ⟨a1, a2, a3, a4⟩ := sa1
        obtain ⟨b1, b2, b3, b4⟩ := sa2
        exact ⟨b1.trans a1, b2.trans a2, b3.trans a3, b4.trans a4⟩
      · intro d hd
        obtain ⟨d1, d2, d3⟩ := d
        dsimp only at hd
        subst hd
        simp only [List.mem_append, List.mem_singleton, List.mem_cons, Prod.mk.injEq,
          List.not_mem_nil, or_false]
        constructor
        · rintro ((e1 | e1) | e1)
          · exact Or.inl e1
          · exact absurd e1.2.2 (by omega)
          · exact Or.inr (Or.inr e1)
        · rintro (e1 | e1 | e1)
          · exact Or.inl (Or.inl e1)
          · exact absurd e1.2.2 (by omega)
          · exact Or.inr e1
    · -- both neighbours are allocated
      simp only [hpa0, hna0, false_and, and_false, if_false]
      have c0 : Core h (N ++ [(x, s, 0)] ++ M) bk := by simpa using c
      obtain ⟨h2, bk2, f2, sa2, inv2, fr2⟩ := retag_add_full (ρ := []) (A := x) (ζ := s) c0
        (by simp) hsegx (by simpa using hsegx) (by simp) (μ := h.mem)
        (fun q hq hqr => rfl)
        (by
          intro b hb
          simp only [List.nil_append, List.mem_singleton] at hb
          subst hb
          exact ⟨hhdr, hftr⟩)
        hl
        (by
          unfold withPrologue
          have := NoAdjFree.replace (γ := (h.base + 8, 344, 1) :: N)
            (σ := [(x, s, 1)]) (τ := [(x, s, 0)]) (δ := M)
            (by simpa using hnoF) (List.chain'_singleton _) (by simp)
            (fun u hu v hv hh => ua u hu hh.1)
            (fun u hu v hv hh => halloc hna0 v hv hh.2)
          simpa using this)
      rw [Core.same_withMem] at f2
      have fr : Frame h.base bk (x - 4) (x + s - 4) h.mem h2.mem := by
        intro a hla hout
        refine fr2 a hla ?_
        clear * - hout hs16
        omega
      have hsub : ∀ d ∈ N ++ ([] ++ [(x, s, 0)]) ++ M, d = (x, s, 0) ∨ d ∈ N ++ M := by
        intro d hd
        clear * - hd
        simp only [List.mem_append, List.mem_singleton, List.nil_append] at hd ⊢
        tauto
      refine ⟨h2, _, bk2, x, s, f2.mono (by omega) |>.map, sa2, inv2, by simp, by omega,
        by omega, ?_, hshape _ _ (by
          simp only [hpa0, hna0, if_false, Prod.mk.injEq, true_and]
          omega), fr, hsub⟩
      intro d hd
      obtain ⟨d1, d2, d3⟩ := d
      dsimp only at hd
      subst hd
      simp only [List.mem_append, List.mem_singleton, List.mem_cons, Prod.mk.injEq,
        List.not_mem_nil, or_false, List.nil_append]
      constructor
      · rintro ((e1 | e1) | e1)
        · exact Or.inl e1
        · exact absurd e1.2.2 (by omega)
        · exact Or.inr e1
      · rintro (e1 | e1)
        · exact Or.inl (Or.inl e1)
        · exact Or.inr e1

/-- `coalesce(bp)` on a block that is marked free but not listed, in a heap that
    otherwise satisfies the invariant: the block is merged with its free
    neighbours, the result is listed, and the invariant holds. -/
theorem coalesce_spec {h : Heap} {N M : List Blk} {bk : Nat → List Nat} {x s : Nat}
    (c : Core h (N ++ (x, s, 0) :: M) bk)
    (hno : NoAdjFree (withPrologue h (N ++ (x, s, 1) :: M)))
    (hl : ∀ y, Listed bk y ↔ ∃ t, (y, t, 0) ∈ N ++ M) :
    ∃ h1 bs1 bk1 r ζ, Fueled (fun fuel => coalesce fuel h x) (h.numFree.toNat + 90) (r, h1)
      ∧ SameArena h h1 ∧ HeapInv h1 bs1 bk1 ∧ (r, ζ, 0) ∈ bs1 ∧ r ≤ x ∧ x + s ≤ r + ζ
      ∧ (∀ d : Blk, d.2.2 = 1 → (d ∈ bs1 ↔ d ∈ N ++ M))
      ∧ (r, ζ) = mergedAt h.mem x s := by
  obtain ⟨h1, bs1, bk1, r, ζ, f1, sa1, inv1, hm1, hr1, hr2, hd1, hsh, _, _⟩ :=
    coalesce_full c hno hl
  exact ⟨h1, bs1, bk1, r, ζ, f1, sa1, inv1, hm1, hr1, hr2, hd1, hsh⟩

/-! ## `extend_heap` -/

theorem HeapInv.not_listed {h : Heap} {bs : List Blk} {bk : Nat → List Nat}
    (inv : HeapInv h bs bk) {y t : Nat} (hm : (y, t, 1) ∈ bs) : ¬ Listed bk y := by
  intro hl
  obtain ⟨s, hs⟩ := (inv.listed y).mp hl
  have := Chain.unique inv.core.chain (Core.mem_with (h := h) hm) (Core.mem_with (h := h) hs)
  omega

/-- An allocated block and a free block do not overlap. -/
theorem HeapInv.apart {h : Heap} {bs : List Blk} {bk : Nat → List Nat}
    (inv : HeapInv h bs bk) {y t r rs : Nat} (hm : (y, t, 1) ∈ bs) (hf : (r, rs, 0) ∈ bs) :
    y + t ≤ r ∨ r + rs ≤ y := by
  rcases Chain.sep inv.core.chain _ (Core.mem_with (h := h) hm) _ (Core.mem_with (h := h) hf)
    with e | e | e
  · simp only [Prod.mk.injEq] at e
    omega
  · exact Or.inl e
  · exact Or.inr e

/-- A change confined to the link area and to the addresses from `lo` to `hi`
    keeps the payload of every allocated block outside that range. -/
theorem Frame.payload {h : Heap} {bs : List Blk} {bk : Nat → List Nat} {lo hi : Nat} {μ : Mem}
    (inv : HeapInv h bs bk) (fr : Frame h.base bk lo hi h.mem μ) {y t : Nat}
    (hm : (y, t, 1) ∈ bs) (hout : y + t ≤ lo + 8 ∨ hi ≤ y) {a : Nat} (h1 : y ≤ a)
    (h2 : a < y + t - 8) : μ a = h.mem a :=
  fr a (inv.core.off_links hm (inv.not_listed hm) (by omega) (by omega)) (by omega)

theorem Fueled.bind_max {α β : Type} {f : Nat → Option α} {g : α → Nat → Option β} {n n1 : Nat}
    {r : α} {r1 : β} (hf : Fueled f n r) (hg : Fueled (g r) n1 r1) :
    Fueled (fun fuel => (f fuel).bind fun a => g a fuel) (max n n1) r1 :=
  Fueled.bind (hf.mono (le_max_left _ _)) (hg.mono (le_max_right _ _))

/-- Appending a free block of `ζ` bytes where the epilogue header was, with a
    new epilogue header after it. -/
theorem Core.grow {h : Heap} {bs : List Blk} {bk : Nat → List Nat} (c : Core h bs bk)
    {ζ : Nat} {μ : Mem} (hsz16 : 16 ≤ ζ) (hsz8 : ζ % 8 = 0) (hcap : h.brk + ζ ≤ h.cap)
    (frame : ∀ q, q % 4 = 0 → q + 8 ≤ h.base + h.brk → GET μ q = GET h.mem q)
    (hhdr : GET μ (h.base + h.brk - 4) = ζ + 0)
    (hftr : GET μ (h.base + h.brk + ζ - 8) = ζ + 0)
    (hepi : GET μ (h.base + h.brk + ζ - 4) = 1) :
    Core ⟨μ, h.base, h.brk + ζ, h.cap, h.heap_listp, h.minList, h.numFree⟩
      (bs ++ [(h.base + h.brk, ζ, 0)]) bk := by
  have hbrk := c.brk_ge
  have hbase := c.base_al
  refine ⟨c.listp, c.base_al, c.range, c.cap_lt, hcap, ?_, ?_, ?_, ?_, ?_, c.nodup, ?_, c.count,
    c.minl⟩
  · show Chain (h.base + 8) ((h.base + 8, 344, 1) :: (bs ++ [(h.base + h.brk, ζ, 0)]))
      (h.base + (h.brk + ζ))
    rw [show (h.base + 8, 344, 1) :: (bs ++ [(h.base + h.brk, ζ, 0)])
      = ((h.base + 8, 344, 1) :: bs) ++ [(h.base + h.brk, ζ, 0)] by simp]
    refine Chain.append.mpr ⟨h.base + h.brk, c.chain, ?_⟩
    rw [← Nat.add_assoc]
    exact Chain.single hsz16 hsz8 (by omega)
  · intro b hb
    have hb1 : b ∈ withPrologue h bs ∨ b = (h.base + h.brk, ζ, 0) := by
      have : b ∈ (h.base + 8, 344, 1) :: (bs ++ [(h.base + h.brk, ζ, 0)]) := hb
      simp only [List.mem_cons, List.mem_append, List.mem_singleton, List.not_mem_nil,
        or_false] at this
      unfold withPrologue
      simp only [List.mem_cons]
      tauto
    rcases hb1 with e | e
    · obtain ⟨b1, b2, b3, b4, b5, b6, b7, b8⟩ := c.blk e
      show GET μ _ = _ ∧ GET μ _ = _
      rw [frame _ (by omega) (by omega), frame _ (by omega) (by omega)]
      exact ⟨b7, b8⟩
    · subst e
      exact ⟨hhdr, hftr⟩
  · show GET μ (h.base + (h.brk + ζ) - 4) = 1
    rw [← Nat.add_assoc]; exact hepi
  · intro i hi
    show GET μ (h.base + 8 + 4 * i) = firstD (bk i) 0
    rw [frame _ (by omega) (by omega)]
    exact c.slots i hi
  · intro i hi
    refine Linked.frame (fun y hy => ?_) (c.linked i hi)
    obtain ⟨s, a, _, _, h1, h2, h3, h4, _, h6, _⟩ := c.node hi hy
    exact ⟨frame _ (by omega) (by omega), frame _ (by omega) (by omega)⟩
  · intro i hi x hx
    obtain ⟨s, a, hm, hb⟩ := c.nodes i hi x hx
    exact ⟨s, a, List.mem_append_left _ hm, hb⟩

/-- The stores of `extend_heap` after a successful `mem_sbrk`. -/
theorem extend_heap_eval (fuel : Nat) (h : Heap) {words : Nat} (hw : words % 2 = 0)
    (hcap : h.brk + words * 4 ≤ h.cap) (hb : (h.base + h.brk) % 8 = 0) (h4 : 8 ≤ h.base + h.brk)
    (hr : h.base + h.cap < 4294967296) (h16 : 16 ≤ words * 4) :
    extend_heap fuel h words
      = coalesce fuel ⟨PUT (tag_mem h.mem (h.base + h.brk) (words * 4) 0)
          (h.base + h.brk + words * 4 - 4) 1, h.base, h.brk + words * 4, h.cap, h.heap_listp,
          h.minList, h.numFree⟩ (h.base + h.brk) := by
  have e1 : mul32 words WSIZE = words * 4 := mul32_eq (by unfold WSIZE; omega)
  have e2 : mem_sbrk h (words * 4) = (h.base + h.brk, { h with brk := h.brk + words * 4 }) := by
    unfold mem_sbrk
    rw [if_pos hcap]
  have e3 := tag_eval h.mem (x := h.base + h.brk) (s := words * 4) (a := 0) (by omega) (by omega)
    (by omega) (by omega) (by omega) (by omega)
  have e4 : NEXT_BLKP (tag_mem h.mem (h.base + h.brk) (words * 4) 0) (h.base + h.brk)
      = h.base + h.brk + words * 4 :=
    tag_next (by omega) (by omega) (by omega) (by omega) (by omega) (by omega)
  have e5 : HDRP (h.base + h.brk + words * 4) = h.base + h.brk + words * 4 - 4 :=
    HDRP_eq (by omega) (by omega)
  have e6 : PACK 0 1 = 1 := PACK_eq 0 1 (by norm_num) (by norm_num)
  unfold extend_heap
  simp only [hw, ne_eq, not_true_eq_false, if_false, e1, e2, e3, e4, e5, e6]
  rw [if_neg (by omega)]

/-- `extend_heap(words)` for an even number of words: when the arena cannot grow
    the state is unchanged and the result is `NULL`; otherwise the arena grows
    by `4 * words` bytes, the result is a free block of at least that size, the
    invariant holds, and the payload bytes of the allocated blocks are unchanged. -/
theorem extend_heap_full {h : Heap} {bs : List Blk} {bk : Nat → List Nat}
    (inv : HeapInv h bs bk) {N : Nat} (hw : N % 2 = 0) (h16 : 16 ≤ N * 4)
    (hlt : N * 4 < 4294967296) :
    (h.cap < h.brk + N * 4 → ∀ fuel, extend_heap fuel h N = some (0, h))
    ∧ (h.brk + N * 4 ≤ h.cap → ∃ h1 bs1 bk1 r rs,
        Fueled (fun fuel => extend_heap fuel h N) (h.numFree.toNat + 90) (r, h1)
        ∧ h1.base = h.base ∧ h1.brk = h.brk + N * 4 ∧ h1.cap = h.cap
        ∧ HeapInv h1 bs1 bk1 ∧ (r, rs, 0) ∈ bs1 ∧ N * 4 ≤ rs
        ∧ (∀ d : Blk, d.2.2 = 1 → (d ∈ bs1 ↔ d ∈ bs))
        ∧ (∀ y t, (y, t, 1) ∈ bs → ∀ a, y ≤ a → a < y + t - 8 → h1.mem a = h.mem a)
        ∧ (∀ d ∈ bs1, d = (r, rs, 0) ∨ d ∈ bs)) := by
  have c := inv.core
  have hbrk := c.brk_ge
  have hbase := c.base_al
  have hrange := c.range
  have hbrkle := c.brk_le
  have hcl := c.cap_lt
  constructor
  · intro hcap fuel
    have e1 : mul32 N WSIZE = N * 4 := mul32_eq (by unfold WSIZE; omega)
    have e2 : mem_sbrk h (N * 4) = (4294967295, h) := by
      unfold mem_sbrk
      rw [if_neg (by omega)]
    unfold extend_heap
    simp only [hw, ne_eq, not_true_eq_false, if_false, e1, e2, if_true]
  · intro hcap
    have hE8 : (h.base + h.brk) % 8 = 0 := by omega
    obtain ⟨g1, g2, g3⟩ := tag1_facts h.mem (x := h.base + h.brk) (s := N * 4) (a := 0) hE8
      (by omega) (by omega) h16 (by omega) (by omega)
    have c1 := c.grow (ζ := N * 4)
      (μ := PUT (tag_mem h.mem (h.base + h.brk) (N * 4) 0)
        (h.base + h.brk + N * 4 - 4) 1) h16 (by omega) hcap
      (fun q hq hqe => by
        rw [GET_PUT_ne _ _ _ _ (by omega) hq (by omega)]
        exact g3 q hq (by omega) (by omega))
      (by rw [GET_PUT_ne _ _ _ _ (by omega) (by omega) (by omega)]; exact g1)
      (by rw [GET_PUT_ne _ _ _ _ (by omega) (by omega) (by omega)]; exact g2)
      (by rw [GET_PUT_same])
    obtain ⟨h1, bs1, bk1, r, rs, f1, sa1, inv1, hm1, hr1, hr2, hd1, hsh1, fr1, hsub1⟩ :=
      coalesce_full (N := bs) (M := []) c1
        (by
          have := inv.noadj
          unfold withPrologue NoAdjFree at this ⊢
          rw [show (h.base + 8, 344, 1) :: (bs ++ [(h.base + h.brk, N * 4, 1)])
            = ((h.base + 8, 344, 1) :: bs) ++ [(h.base + h.brk, N * 4, 1)] by simp]
          rw [List.chain'_append]
          refine ⟨this, List.chain'_singleton _, ?_⟩
          intro u _ v hv hh
          simp only [List.head?_cons, Option.mem_def, Option.some.injEq] at hv
          subst hv
          exact absurd hh.2 (by simp))
        (by
          intro y
          rw [inv.listed y]
          simp)
    refine ⟨h1, bs1, bk1, r, rs, ?_, sa1.1, sa1.2.1, sa1.2.2.1, inv1, hm1, by omega, ?_, ?_,
      fun d hd => by simpa using hsub1 d hd⟩
    · rw [show (fun fuel => extend_heap fuel h N) = fun fuel => coalesce fuel _ _ from
        funext fun fuel => extend_heap_eval fuel h hw hcap hE8 (by omega) hrange h16]
      exact f1
    · intro d hd
      rw [hd1 d hd]
      simp
    · intro y t hm a ha1 ha2
      have hb := c.blk (Core.mem_with hm)
      dsimp only at hb
      have hm1a : (y, t, 1) ∈ bs1 := (hd1 (y, t, 1) rfl).mpr (by simp [hm])
      have hap := inv1.apart hm1a hm1
      have hla := c.off_links hm (inv.not_listed hm) (a := a) (by omega) (by omega)
      have k1 := fr1 a hla (by omega)
      have k2 : PUT (tag_mem h.mem (h.base + h.brk) (N * 4) 0) (h.base + h.brk + N * 4 - 4) 1 a
          = h.mem a := by
        rw [PUT_byte _ _ _ (by omega), tag_mem_byte _ _ _ _ (by omega) (by omega)]
      exact k1.trans k2

/-- `extend_heap(words)` for an even number of words: when the arena cannot grow
    the state is unchanged and the result is `NULL`; otherwise the arena grows
    by `4 * words` bytes, the result is a free block of at least that size, and
    the invariant holds. -/
theorem extend_heap_spec {h : Heap} {bs : List Blk} {bk : Nat → List Nat}
    (inv : HeapInv h bs bk) {N : Nat} (hw : N % 2 = 0) (h16 : 16 ≤ N * 4)
    (hlt : N * 4 < 4294967296) :
    (h.cap < h.brk + N * 4 → ∀ fuel, extend_heap fuel h N = some (0, h))
    ∧ (h.brk + N * 4 ≤ h.cap → ∃ h1 bs1 bk1 r rs,
        Fueled (fun fuel => extend_heap fuel h N) (h.numFree.toNat + 90) (r, h1)
        ∧ h1.base = h.base ∧ h1.brk = h.brk + N * 4 ∧ h1.cap = h.cap
        ∧ HeapInv h1 bs1 bk1 ∧ (r, rs, 0) ∈ bs1 ∧ N * 4 ≤ rs
        ∧ (∀ d : Blk, d.2.2 = 1 → (d ∈ bs1 ↔ d ∈ bs))) := by
  obtain ⟨hfail, hok⟩ := extend_heap_full inv hw h16 hlt
  refine ⟨hfail, fun hcap => ?_⟩
  obtain ⟨h1, bs1, bk1, r, rs, f1, e1, e2, e3, inv1, hm1, hrs, hd1, _, _⟩ := hok hcap
  exact ⟨h1, bs1, bk1, r, rs, f1, e1, e2, e3, inv1, hm1, hrs, hd1⟩

/-! ## `find_fit` -/

/-- The scan of one bucket list returns `NULL` or an entry of the list whose
    header says free and large enough. -/
theorem fit_scan_spec {m : Mem} {N : Nat} : ∀ (n : Nat) (l : List Nat) (q : Nat),
    (∀ y ∈ l, y ≠ 0 ∧ y + 4 < 4294967296) → Linked m q l 0 →
    fit_scan m N n (firstD l 0) = 0
    ∨ (fit_scan m N n (firstD l 0) ∈ l
        ∧ GET_ALLOC m (HDRP (fit_scan m N n (firstD l 0))) = 0
        ∧ N ≤ GET_SIZE m (HDRP (fit_scan m N n (firstD l 0))))
  | 0, _, _, _, _ => Or.inl rfl
  | n + 1, [], _, _, _ => by
    left
    simp [fit_scan, firstD_nil]
  | n + 1, y :: l, q, hne, hl => by
    obtain ⟨_, h2, h3⟩ := hl
    have hy := hne y (List.mem_cons_self _ _)
    have e1 : add32 y WSIZE = y + 4 := add32_eq (by unfold WSIZE; omega)
    rw [firstD_cons]
    unfold fit_scan
    by_cases c1 : y ≠ 0 ∧ GET_SIZE m (HDRP y) > 0
    · rw [if_pos c1]
      by_cases c2 : GET_ALLOC m (HDRP y) = 0 ∧ N ≤ GET_SIZE m (HDRP y)
      · rw [if_pos c2]
        exact Or.inr ⟨List.mem_cons_self _ _, c2.1, c2.2⟩
      · rw [if_neg c2, e1, h2]
        rcases fit_scan_spec n l y (fun z hz => hne z (List.mem_cons_of_mem _ hz)) h3 with e | e
        · exact Or.inl e
        · exact Or.inr ⟨List.mem_cons_of_mem _ e.1, e.2⟩
    · rw [if_neg c1]
      exact Or.inl rfl

theorem Core.node_ne {h : Heap} {bs : List Blk} {bk : Nat → List Nat} (c : Core h bs bk)
    {i : Nat} (hi : i < 84) : ∀ y ∈ bk i, y ≠ 0 ∧ y + 4 < 4294967296 := by
  intro y hy
  obtain ⟨s, a, _, _, h1, h2, h3, _⟩ := c.node hi hy
  have := c.range
  have := c.brk_le
  omega

/-- The search over the buckets `i, ..., i + n - 1`. -/
theorem fit_buckets_spec {h : Heap} {bs : List Blk} {bk : Nat → List Nat} (c : Core h bs bk)
    (size : Nat) : ∀ (n i : Nat), i + n ≤ 84 →
    fit_buckets h size n (i : Int) = 0
    ∨ ((∃ j, j < 84 ∧ fit_buckets h size n (i : Int) ∈ bk j)
        ∧ GET_ALLOC h.mem (HDRP (fit_buckets h size n (i : Int))) = 0
        ∧ size ≤ GET_SIZE h.mem (HDRP (fit_buckets h size n (i : Int))))
  | 0, _, _ => Or.inl rfl
  | n + 1, i, hin => by
    have hi : i < 84 := by omega
    unfold fit_buckets
    rw [c.slot_eq (by omega), c.slots i hi]
    simp only
    by_cases c1 : fit_scan h.mem size 250 (firstD (bk i) 0) ≠ 0
    · rw [if_pos c1]
      rcases fit_scan_spec (N := size) 250 (bk i) 0 (c.node_ne hi) (c.linked i hi) with e | e
      · exact absurd e c1
      · exact Or.inr ⟨⟨i, hi, e.1⟩, e.2⟩
    · rw [if_neg c1]
      have := fit_buckets_spec c size n (i + 1) (by omega)
      rw [show ((i : Int) + 1) = ((i + 1 : Nat) : Int) by push_cast; rfl]
      exact this

/-- `find_fit(size)` returns `NULL` or a free block of at least `size` bytes. -/
theorem find_fit_spec {h : Heap} {bs : List Blk} {bk : Nat → List Nat} (inv : HeapInv h bs bk)
    {size : Nat} (hs : size < 4294967296) :
    find_fit h size = 0 ∨ ∃ s, (find_fit h size, s, 0) ∈ bs ∧ size ≤ s := by
  have c := inv.core
  have key : ∀ (n i : Nat), i + n ≤ 84 → fit_buckets h size n (i : Int) = 0
      ∨ ∃ s, (fit_buckets h size n (i : Int), s, 0) ∈ bs ∧ size ≤ s := by
    intro n i hin
    rcases fit_buckets_spec c size n i hin with e | ⟨⟨j, hj, hm⟩, ha, hsz⟩
    · exact Or.inl e
    · right
      obtain ⟨s, a, hmem, _, h1, h2, h3, h4, h5, h6, h7⟩ := c.node hj hm
      have hr := c.range
      have hb := c.brk_le
      rw [HDRP_eq (by omega) (by omega)] at ha hsz
      rw [GET_ALLOC_eq h7 h4 h5] at ha
      rw [GET_SIZE_eq h7 h4 h5] at hsz
      subst ha
      exact ⟨s, hmem, hsz⟩
  unfold find_fit
  by_cases h0 : h.numFree = 0
  · rw [if_pos h0]; exact Or.inl rfl
  · rw [if_neg h0]
    have e1 : toInt32 (size / 50) = ((size / 50 : Nat) : Int) := toInt32_eq (by omega)
    simp only [e1]
    have hml := c.minl.1
    -- the first bucket searched, as a natural number
    obtain ⟨st, hst⟩ : ∃ st : Nat, (if ((size / 50 : Nat) : Int) < h.minList then h.minList
        else if ((size / 50 : Nat) : Int) > 83 then 83 else ((size / 50 : Nat) : Int))
          = (st : Int) := by
      refine ⟨(if ((size / 50 : Nat) : Int) < h.minList then h.minList
        else if ((size / 50 : Nat) : Int) > 83 then 83 else ((size / 50 : Nat) : Int)).toNat, ?_⟩
      rw [Int.toNat_of_nonneg]
      split
      · exact hml
      · split <;> omega
    rw [hst]
    by_cases hlt : st < 84
    · exact key _ st (by omega)
    · rw [show (84 - (st : Int)).toNat = 0 by omega]
      exact Or.inl rfl

/-! ## `mm_malloc` -/

theorem adjust_facts {size : Nat} (hs : size + 15 < 4294967296) :
    16 ≤ adjust size ∧ adjust size % 8 = 0 ∧ size + 8 ≤ adjust size
      ∧ adjust size < 4294967296 ∧ adjust size ≤ size + 16 := by
  by_cases h8 : size ≤ 8
  · rw [adjust_small h8]; omega
  · rw [adjust_large h8]; omega

/-- `place(x, adj)` on a free block of the heap, in terms of the blocks of the heap. -/
theorem place_found_full {h : Heap} {bs : List Blk} {bk : Nat → List Nat}
    (inv : HeapInv h bs bk)
    {x cur adj : Nat} (hm : (x, cur, 0) ∈ bs) (ha8 : adj % 8 = 0) (ha : 16 ≤ adj)
    (hle : adj ≤ cur) :
    ∃ h1 bs1 bk1 ζ, Fueled (fun fuel => place fuel h x adj) (h.numFree.toNat + 90) h1
      ∧ SameArena h h1 ∧ HeapInv h1 bs1 bk1 ∧ (x, ζ, 1) ∈ bs1 ∧ adj ≤ ζ
      ∧ (∀ t, (x, t, 1) ∉ bs)
      ∧ (∀ d : Blk, d.2.2 = 1 → (d ∈ bs1 ↔ d = (x, ζ, 1) ∨ d ∈ bs))
      ∧ (∀ y t, (y, t, 1) ∈ bs → ∀ a, y ≤ a → a < y + t - 8 → h1.mem a = h.mem a) := by
  have hkeep : ∀ h1 : Heap, Frame h.base bk (x - 4) (x + cur - 4) h.mem h1.mem →
      ∀ y t, (y, t, 1) ∈ bs → ∀ a, y ≤ a → a < y + t - 8 → h1.mem a = h.mem a := by
    intro h1 fr y t hy a ha1 ha2
    have hap := inv.apart hy hm
    have hge := inv.core.blk_ge hm
    dsimp only at hge
    exact Frame.payload inv fr hy (by omega) ha1 ha2
  obtain ⟨pre, post, e⟩ := List.append_of_mem hm
  subst e
  obtain ⟨h1, bk1, f1, sa1, inv1, fr1⟩ := place_full inv ha8 ha hle
  have hnot : ∀ t, (x, t, 1) ∉ pre ++ (x, cur, 0) :: post := by
    intro t ht
    have := Chain.unique inv.core.chain (Core.mem_with (h := h) ht) (Core.mem_with hm)
    omega
  by_cases hsp : adj + 16 ≤ cur
  · rw [if_pos hsp] at inv1
    refine ⟨h1, _, bk1, adj, f1, sa1, inv1, mem_mid2.mpr (Or.inr (Or.inl rfl)), le_refl _, hnot,
      ?_, hkeep h1 fr1⟩
    intro d hd
    obtain ⟨d1, d2, d3⟩ := d
    dsimp only at hd
    subst hd
    rw [mem_mid2, mem_mid]
    simp only [Prod.mk.injEq]
    constructor
    · rintro (e1 | e1 | e1 | e1)
      · exact Or.inr (Or.inl e1)
      · exact Or.inl ⟨e1.1, e1.2.1, trivial⟩
      · exact absurd e1.2.2 (by omega)
      · exact Or.inr (Or.inr (Or.inr e1))
    · rintro (e1 | e1 | e1 | e1)
      · exact Or.inr (Or.inl ⟨e1.1, e1.2.1, trivial⟩)
      · exact Or.inl e1
      · exact absurd e1.2.2 (by omega)
      · exact Or.inr (Or.inr (Or.inr e1))
  · rw [if_neg hsp] at inv1
    refine ⟨h1, _, bk1, cur, f1, sa1, inv1, mem_mid1.mpr (Or.inr (Or.inl rfl)), hle, hnot, ?_,
      hkeep h1 fr1⟩
    intro d hd
    obtain ⟨d1, d2, d3⟩ := d
    dsimp only at hd
    subst hd
    rw [mem_mid1, mem_mid]
    simp only [Prod.mk.injEq]
    constructor
    · rintro (e1 | e1 | e1)
      · exact Or.inr (Or.inl e1)
      · exact Or.inl ⟨e1.1, e1.2.1, trivial⟩
      · exact Or.inr (Or.inr (Or.inr e1))
    · rintro (e1 | e1 | e1 | e1)
      · exact Or.inr (Or.inl ⟨e1.1, e1.2.1, trivial⟩)
      · exact Or.inl e1
      · exact absurd e1.2.2 (by omega)
      · exact Or.inr (Or.inr e1)

/-- `mm_malloc(size)` for a request whose rounding does not wrap, in a heap that
    satisfies the invariant: the call returns; the result is `NULL` exactly
    when no free block fits and the arena cannot grow by
    `MAX(adjust size, CHUNKSIZE)` bytes, and then the state is unchanged;
    otherwise the result is a newly allocated block of at least `adjust size`
    bytes, every block that was allocated still is, the invariant holds, and
    the payload bytes of the blocks that were allocated are unchanged. -/
theorem mm_malloc_full {h : Heap} {bs : List Blk} {bk : Nat → List Nat} (inv : HeapInv h bs bk)
    {size : Nat} (h0 : size ≠ 0) (hs : size + 15 < 4294967296) :
    ∃ n q h1, Fueled (fun fuel => mm_malloc fuel h size) n (q, h1)
      ∧ (q = 0 ↔ find_fit h (adjust size) = 0
          ∧ (mem_sbrk h (MAX (adjust size) CHUNKSIZE)).1 = 4294967295)
      ∧ (q = 0 → h1 = h)
      ∧ (q ≠ 0 → ∃ bs1 bk1 ζ, HeapInv h1 bs1 bk1 ∧ (q, ζ, 1) ∈ bs1 ∧ adjust size ≤ ζ
          ∧ (∀ t, (q, t, 1) ∉ bs)
          ∧ (∀ d : Blk, d.2.2 = 1 → (d ∈ bs1 ↔ d = (q, ζ, 1) ∨ d ∈ bs))
          ∧ h1.base = h.base ∧ h1.cap = h.cap ∧ h.brk ≤ h1.brk
          ∧ (∀ y t, (y, t, 1) ∈ bs → ∀ a, y ≤ a → a < y + t - 8 → h1.mem a = h.mem a)) := by
  obtain ⟨ha16, ha8, hsz8, halt, _⟩ := adjust_facts hs
  have c := inv.core
  have hbrk := c.brk_ge
  have hbase := c.base_al
  have hrange := c.range
  have hbrkle := c.brk_le
  have hfun : (fun fuel => mm_malloc fuel h size) = fun fuel =>
      if find_fit h (adjust size) ≠ 0 then
        (place fuel h (find_fit h (adjust size)) (adjust size)).map fun h1 =>
          (find_fit h (adjust size), h1)
      else
        (extend_heap fuel h (MAX (adjust size) CHUNKSIZE / WSIZE)).bind fun r =>
          if r.1 = 0 then some (0, r.2)
          else (place fuel r.2 r.1 (adjust size)).map fun h1 => (r.1, h1) := by
    funext fuel
    unfold mm_malloc
    rw [if_neg h0]
  rw [hfun]
  by_cases hf : find_fit h (adjust size) = 0
  · -- no fit: the arena grows
    simp only [hf, ne_eq, not_true_eq_false, if_false, true_and]
    obtain ⟨w, hw4, hw2, hwge⟩ : ∃ w, MAX (adjust size) CHUNKSIZE = w * 4 ∧ w % 2 = 0
        ∧ adjust size ≤ w * 4 := by
      refine ⟨MAX (adjust size) CHUNKSIZE / 4, ?_, ?_, ?_⟩ <;>
        (unfold MAX CHUNKSIZE; split <;> omega)
    have hwlt : w * 4 < 4294967296 := by
      rw [← hw4]; unfold MAX CHUNKSIZE; split <;> omega
    have hwe : MAX (adjust size) CHUNKSIZE / WSIZE = w := by
      rw [hw4]; unfold WSIZE; omega
    rw [hwe, hw4]
    obtain ⟨hfail, hok⟩ := extend_heap_full inv hw2 (by omega) hwlt
    by_cases hcap : h.brk + w * 4 ≤ h.cap
    · obtain ⟨h1, bs1, bk1, r, rs, f1, e1, e2, e3, inv1, hm1, hrs, hd1, hk1, _⟩ := hok hcap
      have hr0 : r ≠ 0 := by
        have := inv1.core.blk_ge hm1
        dsimp only at this
        omega
      obtain ⟨h2, bs2, bk2, ζ, f2, sa2, inv2, hm2, hsz2, hn2, hd2, hk2⟩ :=
        place_found_full inv1 hm1 ha8 ha16 (by omega)
      refine ⟨max (h.numFree.toNat + 90) (h1.numFree.toNat + 90), r, h2,
        Fueled.bind_max f1 ?_, ?_, fun hh => absurd hh hr0, fun _ =>
        ⟨bs2, bk2, ζ, inv2, hm2, hsz2, ?_, ?_, sa2.1.trans e1, sa2.2.2.1.trans e3, ?_,
          fun y t hy a ha1 ha2 => (hk2 y t ((hd1 (y, t, 1) rfl).mpr hy) a ha1 ha2).trans
            (hk1 y t hy a ha1 ha2)⟩⟩
      · simp only [hr0, if_false]
        exact f2.map
      · constructor
        · intro hh; exact absurd hh hr0
        · intro hh
          unfold mem_sbrk at hh
          rw [if_pos hcap] at hh
          dsimp only at hh
          omega
      · intro t ht
        exact hn2 t ((hd1 (r, t, 1) rfl).mpr ht)
      · intro d hd
        rw [hd2 d hd, hd1 d hd]
      · rw [sa2.2.1, e2]; omega
    · have e := hfail (by omega)
      refine ⟨0, 0, h, ⟨fun fuel _ => ?_, fun fuel => Or.inl ?_⟩, ?_, fun _ => rfl,
        fun hh => absurd rfl hh⟩
      · show (extend_heap fuel h w).bind _ = _
        rw [e fuel]; rfl
      · show (extend_heap fuel h w).bind _ = _
        rw [e fuel]; rfl
      · refine ⟨fun _ => ?_, fun _ => rfl⟩
        unfold mem_sbrk
        rw [if_neg hcap]
  · -- a free block fits
    rw [show (fun fuel => if find_fit h (adjust size) ≠ 0 then
        (place fuel h (find_fit h (adjust size)) (adjust size)).map fun h1 =>
          (find_fit h (adjust size), h1)
      else
        (extend_heap fuel h (MAX (adjust size) CHUNKSIZE / WSIZE)).bind fun r =>
          if r.1 = 0 then some (0, r.2)
          else (place fuel r.2 r.1 (adjust size)).map fun h1 => (r.1, h1))
      = fun fuel => (place fuel h (find_fit h (adjust size)) (adjust size)).map fun h1 =>
          (find_fit h (adjust size), h1) from funext fun fuel => if_pos hf]
    rcases find_fit_spec inv halt with e | ⟨s, hm, hle⟩
    · exact absurd e hf
    obtain ⟨h2, bs2, bk2, ζ, f2, sa2, inv2, hm2, hsz2, hn2, hd2, hk2⟩ :=
      place_found_full inv hm ha8 ha16 hle
    refine ⟨_, find_fit h (adjust size), h2, f2.map, ?_, fun hh => absurd hh hf, fun _ =>
      ⟨bs2, bk2, ζ, inv2, hm2, hsz2, hn2, hd2, sa2.1, sa2.2.2.1, ?_, hk2⟩⟩
    · exact ⟨fun hh => absurd hh hf, fun hh => absurd hh.1 hf⟩
    · rw [sa2.2.1]

theorem place_found {h : Heap} {bs : List Blk} {bk : Nat → List Nat} (inv : HeapInv h bs bk)
    {x cur adj : Nat} (hm : (x, cur, 0) ∈ bs) (ha8 : adj % 8 = 0) (ha : 16 ≤ adj)
    (hle : adj ≤ cur) :
    ∃ h1 bs1 bk1 ζ, Fueled (fun fuel => place fuel h x adj) (h.numFree.toNat + 90) h1
      ∧ SameArena h h1 ∧ HeapInv h1 bs1 bk1 ∧ (x, ζ, 1) ∈ bs1 ∧ adj ≤ ζ
      ∧ (∀ t, (x, t, 1) ∉ bs)
      ∧ (∀ d : Blk, d.2.2 = 1 → (d ∈ bs1 ↔ d = (x, ζ, 1) ∨ d ∈ bs)) := by
  obtain ⟨h1, bs1, bk1, ζ, f1, sa1, inv1, hm1, hsz, hn, hd, _⟩ :=
    place_found_full inv hm ha8 ha hle
  exact ⟨h1, bs1, bk1, ζ, f1, sa1, inv1, hm1, hsz, hn, hd⟩

/-- `mm_malloc(size)` for a request whose rounding does not wrap, in a heap that
    satisfies the invariant: the call returns; the result is `NULL` exactly
    when no free block fits and the arena cannot grow by
    `MAX(adjust size, CHUNKSIZE)` bytes, and then the state is unchanged;
    otherwise the result is a newly allocated block of at least `adjust size`
    bytes, every block that was allocated still is, and the invariant holds. -/
theorem mm_malloc_spec {h : Heap} {bs : List Blk} {bk : Nat → List Nat} (inv : HeapInv h bs bk)
    {size : Nat} (h0 : size ≠ 0) (hs : size + 15 < 4294967296) :
    ∃ n q h1, Fueled (fun fuel => mm_malloc fuel h size) n (q, h1)
      ∧ (q = 0 ↔ find_fit h (adjust size) = 0
          ∧ (mem_sbrk h (MAX (adjust size) CHUNKSIZE)).1 = 4294967295)
      ∧ (q = 0 → h1 = h)
      ∧ (q ≠ 0 → ∃ bs1 bk1 ζ, HeapInv h1 bs1 bk1 ∧ (q, ζ, 1) ∈ bs1 ∧ adjust size ≤ ζ
          ∧ (∀ t, (q, t, 1) ∉ bs)
          ∧ (∀ d : Blk, d.2.2 = 1 → (d ∈ bs1 ↔ d = (q, ζ, 1) ∨ d ∈ bs))
          ∧ h1.base = h.base ∧ h1.cap = h.cap ∧ h.brk ≤ h1.brk) := by
  obtain ⟨n, q, h1, f1, hiff, hnull, hok⟩ := mm_malloc_full inv h0 hs
  refine ⟨n, q, h1, f1, hiff, hnull, fun hq => ?_⟩
  obtain ⟨bs1, bk1, ζ, inv1, hm1, hsz, hn, hd, e1, e2, e3, _⟩ := hok hq
  exact ⟨bs1, bk1, ζ, inv1, hm1, hsz, hn, hd, e1, e2, e3⟩

/-! ## `mm_free` -/

/-- The bucket entries of a heap that satisfies the invariant are blocks other
    than an allocated block `x`. -/
theorem HeapInv.nodes_out {h : Heap} {pre post : List Blk} {bk : Nat → List Nat} {x s : Nat}
    (inv : HeapInv h (pre ++ (x, s, 1) :: post) bk) :
    (∀ y, Listed bk y ↔ ∃ t, (y, t, 0) ∈ pre ++ post)
    ∧ ∀ i, i < 84 → ∀ y ∈ bk i, ∃ s1 θ, (y, s1, θ) ∈ pre ++ post ∧ bucket s1 = i := by
  have hl : ∀ y, Listed bk y ↔ ∃ t, (y, t, 0) ∈ pre ++ post := by
    intro y
    rw [inv.listed y]
    constructor
    · rintro ⟨t, ht⟩
      refine ⟨t, ?_⟩
      rcases mem_mid.mp ht with e1 | e1 | e1
      · exact List.mem_append_left _ e1
      · simp only [Prod.mk.injEq] at e1; exact absurd e1.2.2 (by omega)
      · exact List.mem_append_right _ e1
    · rintro ⟨t, ht⟩
      refine ⟨t, ?_⟩
      rcases List.mem_append.mp ht with e1 | e1
      · exact mem_mid.mpr (Or.inl e1)
      · exact mem_mid.mpr (Or.inr (Or.inr e1))
  refine ⟨hl, fun i hi y hy => ?_⟩
  obtain ⟨t, ht⟩ := (hl y).mp ⟨i, hi, hy⟩
  obtain ⟨s1, θ, hm, hb⟩ := inv.core.nodes i hi y hy
  have hin : (y, t, 0) ∈ pre ++ (x, s, 1) :: post := by
    rcases List.mem_append.mp ht with e1 | e1
    · exact mem_mid.mpr (Or.inl e1)
    · exact mem_mid.mpr (Or.inr (Or.inr e1))
  have := Chain.unique inv.core.chain (Core.mem_with (h := h) hm) (Core.mem_with (h := h) hin)
  exact ⟨t, 0, ht, this.1 ▸ hb⟩

/-- The stores of `mm_free` before it calls `coalesce`. -/
theorem mm_free_eval (fuel : Nat) (h : Heap) {x s a : Nat} (hhdr : GET h.mem (x - 4) = s + a)
    (hx : x % 4 = 0) (h4 : 4 ≤ x) (hs8 : s % 8 = 0) (ha : a ≤ 1) (h8 : 8 ≤ s)
    (hlt : x + s < 4294967296) :
    mm_free fuel h x = (coalesce fuel (withMem h (tag_mem h.mem x s 0)) x).map fun r => r.2 := by
  have e1 : GET_SIZE h.mem (HDRP x) = s := by
    rw [HDRP_eq h4 (by omega)]; exact GET_SIZE_eq hhdr hs8 ha
  have e2 := tag_eval h.mem (x := x) (s := s) (a := 0) hx h4 hs8 h8 (by omega) hlt
  unfold mm_free
  simp only [e1, e2]
  rfl

/-- `mm_free(x)` on an allocated block, in a heap that satisfies the invariant:
    the call returns, the invariant holds again, the allocated blocks are the
    former ones without `x`, their payload bytes are unchanged, and the bytes
    of `x` lie in the free block that `mergedAt` describes. -/
theorem mm_free_full {h : Heap} {bs : List Blk} {bk : Nat → List Nat} (inv : HeapInv h bs bk)
    {x s : Nat} (hm : (x, s, 1) ∈ bs) :
    ∃ h1 bs1 bk1, Fueled (fun fuel => mm_free fuel h x) (h.numFree.toNat + 90) h1
      ∧ SameArena h h1 ∧ HeapInv h1 bs1 bk1
      ∧ (∀ d : Blk, d.2.2 = 1 → (d ∈ bs1 ↔ d ∈ bs ∧ d.1 ≠ x))
      ∧ (∀ y t, (y, t, 1) ∈ bs → y ≠ x → ∀ a, y ≤ a → a < y + t - 8 → h1.mem a = h.mem a)
      ∧ ∃ q t, (q, t, 0) ∈ bs1 ∧ q ≤ x ∧ x + s ≤ q + t ∧ (q, t) = mergedAt h.mem x s := by
  have hnl := fun y t (hy : (y, t, 1) ∈ bs) => inv.not_listed hy
  have hsep := fun y t (hy : (y, t, 1) ∈ bs) => Chain.sep inv.core.chain _
    (Core.mem_with (h := h) hy) _ (Core.mem_with (h := h) hm)
  have hoff := fun y t (hy : (y, t, 1) ∈ bs) (a : Nat) (h1 : y - 4 ≤ a) (h2 : a < y + t - 4) =>
    inv.core.off_links hy (inv.not_listed hy) h1 h2
  obtain ⟨pre, post, e⟩ := List.append_of_mem hm
  subst e
  have c := inv.core
  obtain ⟨hpre, hpost, hge, hxle, hx8, hs16, hs8, _, hhdr, hftr, hlt⟩ := c.around
  have hrange := c.range
  have hbrkle := c.brk_le
  obtain ⟨hl, hout⟩ := inv.nodes_out
  obtain ⟨g1, g2, g3⟩ := tag1_facts h.mem (x := x) (s := s) (a := 0) hx8 (by omega) hs8 hs16
    (by omega) hlt
  have c0 : Core h (pre ++ [(x, s, 1)] ++ post) bk := by simpa using c
  have c1 : Core (withMem h (tag_mem h.mem x s 0)) (pre ++ (x, s, 0) :: post) bk := by
    have := Core.retag (τ := [(x, s, 0)]) (μ := tag_mem h.mem x s 0) c0 (by simp)
      (Chain.single (x := x) hs16 hs8 (by omega)) (Chain.single hs16 hs8 (by omega))
      (fun q hq hqr => g3 q hq (by omega) (by omega))
      (by
        intro b hb
        simp only [List.mem_singleton] at hb
        subst hb
        exact ⟨g1, g2⟩)
      (fun i hi y hy => Or.inl (hout i hi y hy))
    simpa [withMem] using this
  obtain ⟨h1, bs1, bk1, r, rs, f1, sa1, inv1, hm1, hr1, hr2, hd1, hsh1, fr1, _⟩ :=
    coalesce_full c1 inv.noadj hl
  refine ⟨h1, bs1, bk1, ?_, sa1, inv1, ?_, ?_, r, rs, hm1, hr1, hr2, ?_⟩
  · rw [show (fun fuel => mm_free fuel h x) = fun fuel =>
        (coalesce fuel (withMem h (tag_mem h.mem x s 0)) x).map fun r => r.2 from
      funext fun fuel => mm_free_eval fuel h hhdr (by omega) (by omega) hs8 (by omega) (by omega)
        hlt]
    exact f1.map
  · intro d hd
    rw [hd1 d hd]
    obtain ⟨d1, d2, d3⟩ := d
    dsimp only at hd ⊢
    subst hd
    constructor
    · intro hin
      rcases List.mem_append.mp hin with e1 | e1
      · refine ⟨mem_mid.mpr (Or.inl e1), ?_⟩
        have := (hpre _ e1).1
        have := (hpre _ e1).2
        dsimp only at *
        omega
      · refine ⟨mem_mid.mpr (Or.inr (Or.inr e1)), ?_⟩
        have := hpost _ e1
        dsimp only at this
        omega
    · rintro ⟨hin, hne⟩
      rcases mem_mid.mp hin with e1 | e1 | e1
      · exact List.mem_append_left _ e1
      · simp only [Prod.mk.injEq] at e1; exact absurd e1.1 hne
      · exact List.mem_append_right _ e1
  · intro y t hy hne a ha1 ha2
    have hin : (y, t, 1) ∈ pre ++ post := by
      rcases mem_mid.mp hy with e1 | e1 | e1
      · exact List.mem_append_left _ e1
      · simp only [Prod.mk.injEq] at e1; exact absurd e1.1 hne
      · exact List.mem_append_right _ e1
    have hap := inv1.apart ((hd1 (y, t, 1) rfl).mpr hin) hm1
    have hb := c.blk (Core.mem_with hy)
    dsimp only at hb
    have hxy : y + t ≤ x ∨ x + s ≤ y := by
      rcases hsep y t hy with e1 | e1 | e1
      · simp only [Prod.mk.injEq] at e1; exact absurd e1.1 hne
      · exact Or.inl e1
      · exact Or.inr e1
    have k1 := fr1 a (hoff y t hy a (by omega) (by omega)) (by omega)
    have k2 : tag_mem h.mem x s 0 a = h.mem a := tag_mem_byte _ _ _ _ (by omega) (by omega)
    exact k1.trans k2
  · rw [hsh1]
    unfold mergedAt withMem
    dsimp only
    have f1 : GET (tag_mem h.mem x s 0) (x - 8) = GET h.mem (x - 8) :=
      g3 (x - 8) (by omega) (by omega) (by omega)
    have f2 : GET (tag_mem h.mem x s 0) (x + s - 4) = GET h.mem (x + s - 4) :=
      g3 (x + s - 4) (by omega) (by omega) (by omega)
    unfold GET_ALLOC GET_SIZE
    rw [f1, f2]

/-- `mm_free(x)` on an allocated block, in a heap that satisfies the invariant:
    the call returns, the invariant holds again, the allocated blocks are the
    former ones without `x`, and the bytes of `x` lie in the free block that
    `mergedAt` describes. -/
theorem mm_free_shape {h : Heap} {bs : List Blk} {bk : Nat → List Nat} (inv : HeapInv h bs bk)
    {x s : Nat} (hm : (x, s, 1) ∈ bs) :
    ∃ h1 bs1 bk1, Fueled (fun fuel => mm_free fuel h x) (h.numFree.toNat + 90) h1
      ∧ SameArena h h1 ∧ HeapInv h1 bs1 bk1
      ∧ (∀ d : Blk, d.2.2 = 1 → (d ∈ bs1 ↔ d ∈ bs ∧ d.1 ≠ x))
      ∧ ∃ q t, (q, t, 0) ∈ bs1 ∧ q ≤ x ∧ x + s ≤ q + t ∧ (q, t) = mergedAt h.mem x s := by
  obtain ⟨h1, bs1, bk1, f1, sa1, inv1, hd1, _, hq⟩ := mm_free_full inv hm
  exact ⟨h1, bs1, bk1, f1, sa1, inv1, hd1, hq⟩

/-- `mm_free(x)` on an allocated block, in a heap that satisfies the invariant:
    the call returns, the invariant holds again, and the allocated blocks are
    the former ones without `x`. -/
theorem mm_free_spec {h : Heap} {bs : List Blk} {bk : Nat → List Nat} (inv : HeapInv h bs bk)
    {x s : Nat} (hm : (x, s, 1) ∈ bs) :
    ∃ h1 bs1 bk1, Fueled (fun fuel => mm_free fuel h x) (h.numFree.toNat + 90) h1
      ∧ SameArena h h1 ∧ HeapInv h1 bs1 bk1
      ∧ (∀ d : Blk, d.2.2 = 1 → (d ∈ bs1 ↔ d ∈ bs ∧ d.1 ≠ x)) := by
  obtain ⟨h1, bs1, bk1, f1, sa1, inv1, hd1, _⟩ := mm_free_shape inv hm
  exact ⟨h1, bs1, bk1, f1, sa1, inv1, hd1⟩

/-! ## `mm_init` -/

theorem init_slots_get (p : Nat) (hp : p % 4 = 0) : ∀ (n i : Nat) (m : Mem) (q : Nat),
    q % 4 = 0 → p + 4 * (i + n) < 4294967296 →
    GET (init_slots m p n i) q
      = if p + 4 * i ≤ q ∧ q < p + 4 * (i + n) then 0 else GET m q
  | 0, i, m, q, _, _ => by
    rw [if_neg (by omega)]
    rfl
  | n + 1, i, m, q, hq, hlt => by
    have e1 : add32 p (i * WSIZE) = p + 4 * i := by
      unfold WSIZE
      rw [add32_eq (by omega)]; omega
    show GET (init_slots (PUT m (add32 p (i * WSIZE)) 0) p n (i + 1)) q = _
    rw [init_slots_get p hp n (i + 1) _ q hq (by omega), e1]
    by_cases c1 : p + 4 * (i + 1) ≤ q ∧ q < p + 4 * (i + 1 + n)
    · rw [if_pos c1, if_pos (by omega)]
    · rw [if_neg c1]
      by_cases c2 : q = p + 4 * i
      · rw [if_pos (by omega), c2, GET_PUT_same]
      · rw [if_neg (by omega), GET_PUT_ne _ _ _ _ (by omega) hq c2]

theorem total_nil : ∀ n, total (fun _ => []) n = 0
  | 0 => rfl
  | n + 1 => by simp [total, total_nil n]

/-- The state in which `mm_init` calls `extend_heap` satisfies the invariant,
    with no block between prologue and epilogue. -/
theorem init_state_inv (m : Mem) {base cap : Nat} (hb : base % 8 = 0)
    (hr : base + cap < 4294967296) (hc : cap < 2147483648) (h352 : 352 ≤ cap) :
    HeapInv ⟨PUT (PUT (init_slots (PUT (PUT m base 0) (base + 4) 345) base 84 2)
        (base + 348) 1) (base + 344) 345, base, 352, cap, base + 8, 100, 0⟩ []
      (fun _ => []) := by
  have hget : ∀ q, q % 4 = 0 →
      GET (PUT (PUT (init_slots (PUT (PUT m base 0) (base + 4) 345) base 84 2)
        (base + 348) 1) (base + 344) 345) q
      = if q = base + 344 then 345 else if q = base + 348 then 1
        else if base + 8 ≤ q ∧ q < base + 344 then 0
        else if q = base + 4 then 345 else if q = base then 0 else GET m q := by
    intro q hq
    by_cases c1 : q = base + 344
    · rw [if_pos c1, c1, GET_PUT_same]
    rw [if_neg c1, GET_PUT_ne _ _ _ _ (by omega) hq c1]
    by_cases c2 : q = base + 348
    · rw [if_pos c2, c2, GET_PUT_same]
    rw [if_neg c2, GET_PUT_ne _ _ _ _ (by omega) hq c2,
      init_slots_get base (by omega) 84 2 _ q hq (by omega)]
    by_cases c3 : base + 8 ≤ q ∧ q < base + 344
    · rw [if_pos c3, if_pos (by omega)]
    rw [if_neg c3, if_neg (by omega)]
    by_cases c4 : q = base + 4
    · rw [if_pos c4, c4, GET_PUT_same]
    rw [if_neg c4, GET_PUT_ne _ _ _ _ (by omega) hq c4]
    by_cases c5 : q = base
    · rw [if_pos c5, c5, GET_PUT_same]
    rw [if_neg c5, GET_PUT_ne _ _ _ _ (by omega) hq c5]
  refine ⟨⟨rfl, hb, hr, hc, h352, ?_, ?_, ?_, ?_, fun _ _ => trivial, fun _ _ => List.nodup_nil,
    ?_, ?_, ⟨show (0 : Int) ≤ 100 by decide, fun _ _ _ => rfl⟩⟩, ?_, ?_⟩
  · exact Chain.single (x := base + 8) (s := 344) (t := 1) (by omega) (by omega) (by omega)
  · intro b hb1
    have : b = (base + 8, 344, 1) := by
      have : b ∈ [(base + 8, 344, 1)] := hb1
      simpa using this
    subst this
    show GET _ (base + 8 - 4) = 344 + 1 ∧ GET _ (base + 8 + 344 - 8) = 344 + 1
    rw [hget _ (by omega), hget _ (by omega)]
    rw [if_neg (by omega), if_neg (by omega), if_neg (by omega), if_pos (by omega),
      if_pos (by omega)]
    exact ⟨rfl, rfl⟩
  · show GET _ (base + 352 - 4) = 1
    rw [hget _ (by omega), if_neg (by omega), if_pos (by omega)]
  · intro i hi
    show GET _ (base + 8 + 4 * i) = 0
    rw [hget _ (by omega), if_neg (by omega), if_neg (by omega), if_pos (by omega)]
  · intro i _ x hx
    simp at hx
  · show ((0 : Int)) = ((total (fun _ => []) 84 : Nat) : Int)
    rw [total_nil]; rfl
  · exact List.chain'_singleton _
  · intro y
    constructor
    · rintro ⟨i, _, hy⟩
      simp at hy
    · rintro ⟨s, hs⟩
      simp at hs

/-- The stores of `mm_init` after a successful first `mem_sbrk`. -/
theorem mm_init_eval (fuel : Nat) (h0 : Heap) (hk : h0.brk = 0) (hb : h0.base % 8 = 0)
    (hr : h0.base + h0.cap < 4294967296) (h352 : 352 ≤ h0.cap) :
    mm_init fuel h0
      = (extend_heap fuel ⟨PUT (PUT (init_slots (PUT (PUT h0.mem h0.base 0) (h0.base + 4) 345)
            h0.base 84 2) (h0.base + 348) 1) (h0.base + 344) 345, h0.base, 352, h0.cap,
            h0.base + 8, 100, 0⟩ (CHUNKSIZE / WSIZE)).map
          fun r => if r.1 = 0 then (-1, r.2) else (0, r.2) := by
  have e2 : mem_sbrk h0 (88 * WSIZE) = (h0.base, { h0 with brk := 352 }) := by
    unfold mem_sbrk WSIZE
    rw [hk, if_pos (by omega)]
    rfl
  have p1 : PACK (43 * DSIZE) 1 = 345 := by decide
  have p2 : PACK 0 1 = 1 := by decide
  have a1 : add32 h0.base (1 * WSIZE) = h0.base + 4 := add32_eq (by unfold WSIZE; omega)
  have a2 : add32 h0.base (87 * WSIZE) = h0.base + 348 := add32_eq (by unfold WSIZE; omega)
  have a3 : add32 h0.base (86 * WSIZE) = h0.base + 344 := add32_eq (by unfold WSIZE; omega)
  have a4 : add32 h0.base (2 * WSIZE) = h0.base + 8 := add32_eq (by unfold WSIZE; omega)
  unfold mm_init
  simp only [e2, p1, p2, a1, a2, a3, a4]
  rw [if_neg (by omega)]

/-- A successful `mm_init` on an empty arena establishes the invariant. -/
theorem mm_init_spec {fuel : Nat} {M h : Heap} (hk : M.brk = 0) (hb : M.base % 8 = 0)
    (hr : M.base + M.cap < 4294967296) (hc : M.cap < 2147483648)
    (hi : mm_init fuel M = some (0, h)) :
    ∃ bs bk, HeapInv h bs bk ∧ (∀ d : Blk, d.2.2 = 1 → d ∉ bs) := by
  by_cases h352 : 352 ≤ M.cap
  · rw [mm_init_eval fuel M hk hb hr h352] at hi
    have inv0 := init_state_inv M.mem hb hr hc h352
    obtain ⟨hfail, hok⟩ := extend_heap_spec (N := CHUNKSIZE / WSIZE) inv0 (by decide)
      (by decide) (by decide)
    by_cases hcap : 352 + CHUNKSIZE / WSIZE * 4 ≤ M.cap
    · obtain ⟨h1, bs1, bk1, r, rs, f1, _, _, _, inv1, hm1, _, hd1⟩ := hok hcap
      rcases f1.only fuel with e | e
      · rw [e] at hi
        simp only [Option.map_some'] at hi
        split at hi
        · simp at hi
        · simp only [Option.some.injEq, Prod.mk.injEq, true_and] at hi
          subst hi
          refine ⟨bs1, bk1, inv1, fun d hd hin => ?_⟩
          have := (hd1 d hd).mp hin
          simp at this
      · rw [e] at hi
        simp at hi
    · rw [hfail (show M.cap < 352 + CHUNKSIZE / WSIZE * 4 by omega) fuel] at hi
      simp at hi
  · -- the first `mem_sbrk` fails
    exfalso
    have e2 : mem_sbrk M (88 * WSIZE) = (4294967295, M) := by
      unfold mem_sbrk WSIZE
      rw [hk, if_neg (by omega)]
    unfold mm_init at hi
    simp only [e2, if_true] at hi
    simp at hi

/-! ## The tail of the in-place growth branches of `mm_realloc` -/

theorem realloc_finish_eval_whole (fuel : Nat) (h : Heap) (m : Mem) {A T tS s : Nat}
    (hhdr : GET m (A - 4) = T + 1) (hT : tS + s = T) (hT8 : T % 8 = 0) (h16 : 16 ≤ T)
    (h4 : 4 ≤ A) (hlt : A + T < 4294967296) (hT31 : T < 2147483648) :
    realloc_finish fuel (withMem h m) A T tS s
      = some (A, withMem h (PUT m (A + T - 8) (T + 1))) := by
  have e1 : FTRP m A = A + T - 8 := FTRP_eq hhdr hT8 (by omega) h4 (by omega) (by omega)
  have e2 : PACK T 1 = T + 1 := PACK_eq T 1 hT8 (by omega)
  have e3 : add32 tS s = T := by rw [add32_eq (by omega)]; exact hT
  have e4 : add32 T (2 * DSIZE) = T + 16 := add32_eq (by unfold DSIZE; omega)
  unfold realloc_finish
  simp only [withMem, e1, e2, e3, e4]
  rw [if_neg (by omega)]

theorem realloc_finish_eval_split (fuel : Nat) (h : Heap) (m : Mem) {A T adj tS s : Nat}
    (hhdr : GET m (A - 4) = adj + 1) (hT : tS + s = T) (hT8 : T % 8 = 0) (ha8 : adj % 8 = 0)
    (ha16 : 16 ≤ adj) (hsp : adj + 16 ≤ T) (hA : A % 8 = 0) (h4 : 4 ≤ A)
    (hlt : A + T < 4294967296) (hT31 : T < 2147483648) :
    realloc_finish fuel (withMem h m) A adj tS s
      = (add_free_list fuel
          (withMem h (tag_mem (PUT m (A + adj - 8) (adj + 1)) (A + adj) (T - adj) 0))
          (A + adj)).map fun h1 => (A, h1) := by
  have e1 : FTRP m A = A + adj - 8 := FTRP_eq hhdr ha8 (by omega) h4 (by omega) (by omega)
  have e2 : PACK adj 1 = adj + 1 := PACK_eq adj 1 ha8 (by omega)
  have e3 : add32 tS s = T := by rw [add32_eq (by omega)]; exact hT
  have e4 : add32 adj (2 * DSIZE) = adj + 16 := add32_eq (by unfold DSIZE; omega)
  have e5 : NEXT_BLKP (PUT m (A + adj - 8) (adj + 1)) A = A + adj := by
    refine NEXT_BLKP_eq (a := 1) ?_ ha8 (by omega) h4 (by omega)
    rw [GET_PUT_ne _ _ _ _ (by omega) (by omega) (by omega)]
    exact hhdr
  have e6 : sub32 T adj = T - adj := sub32_eq (by omega) (by omega)
  have e7 := tag_eval (PUT m (A + adj - 8) (adj + 1)) (x := A + adj) (s := T - adj) (a := 0)
    (by omega) (by omega) (by omega) (by omega) (by omega) (by omega)
  unfold realloc_finish
  simp only [withMem, e1, e2, e3, e4]
  rw [if_pos (by omega)]
  simp only [e5, e6, e7]

/-- The tail of an in-place growth branch: the blocks `σ`, which tile `T`
    bytes from `A` and are not listed, become one allocated block at `A`,
    followed by a linked free block when at least 16 bytes remain after
    `adj` bytes; the payload bytes of the block at `A` are not changed. -/
theorem realloc_finish_full {h : Heap} {pre σ post : List Blk} {bk : Nat → List Nat}
    (c : Core h (pre ++ σ ++ post) bk) (hne : σ ≠ []) {A T M K s : Nat}
    (hseg : Chain A σ (A + T)) (hT : K + s = T) (ha16 : 16 ≤ M) (ha8 : M % 8 = 0)
    (hle : M ≤ T)
    (hl : ∀ y, Listed bk y ↔ ∃ t, (y, t, 0) ∈ pre ++ post)
    (hno : NoAdjFree (((h.base + 8, 344, 1) :: pre) ++ [(A, T, 1)] ++ post))
    (hpost : ∀ v ∈ post.head?, v.2.2 ≠ 0)
    {μ : Mem} (frame : ∀ q, q % 4 = 0 → (q + 8 ≤ A ∨ A + T ≤ q + 4) → GET μ q = GET h.mem q)
    (hhdr : GET μ (A - 4) = (if T < M + 16 then T else M) + 1) :
    ∃ h1 bk1, Fueled (fun fuel => realloc_finish fuel (withMem h μ) A
          (if T < M + 16 then T else M) K s) (h.numFree.toNat + 1) (A, h1)
      ∧ SameArena h h1
      ∧ HeapInv h1 (pre ++ (if M + 16 ≤ T then [(A, M, 1), (A + M, T - M, 0)]
          else [(A, T, 1)]) ++ post) bk1
      ∧ (∀ a, A ≤ a → a < A + (if T < M + 16 then T else M) - 8 → h1.mem a = μ a) := by
  obtain ⟨hpre, hpo, hA, hB, hA8⟩ := c.parts hne hseg
  have hzs : ∀ z, Listed bk z → z + 8 ≤ A ∨ A + T ≤ z := by
    intro z hz
    obtain ⟨t, ht⟩ := (hl z).mp hz
    rcases List.mem_append.mp ht with e | e
    · have := hpre _ e
      have h16 := (c.blk (b := (z, t, 0)) (Core.mem_with (by simp [e]))).2.2.1
      dsimp only at this h16
      omega
    · have := hpo _ e
      dsimp only at this
      omega
  have hrange := c.range
  have hbrkle := c.brk_le
  have hcap := c.cap_lt
  have hT8 : T % 8 = 0 := by
    have := Chain.end_aligned hseg hA8
    omega
  -- listed blocks lie outside the stretch
  have hout : ∀ i, i < 84 → ∀ y ∈ bk i, ∃ s t, (y, s, t) ∈ pre ++ post ∧ bucket s = i := by
    intro i hi y hy
    obtain ⟨t, ht⟩ := (hl y).mp ⟨i, hi, hy⟩
    obtain ⟨s1, θ, hm, hb⟩ := c.nodes i hi y hy
    have hin : (y, t, 0) ∈ pre ++ σ ++ post := by
      simp only [List.mem_append] at ht ⊢; tauto
    have := Chain.unique c.chain (Core.mem_with (h := h) hm) (Core.mem_with (h := h) hin)
    exact ⟨t, 0, ht, this.1 ▸ hb⟩
  by_cases hsp : M + 16 ≤ T
  · -- a free block is carved
    rw [if_pos hsp]
    rw [if_neg (by omega)] at hhdr
    have q1 : GET (tag_mem (PUT μ (A + M - 8) (M + 1)) (A + M) (T - M) 0) (A - 4)
        = M + 1 := by
      rw [tag_frame (by omega) (by omega) (by omega) (by omega) (by omega),
        GET_PUT_ne _ _ _ _ (by omega) (by omega) (by omega)]
      exact hhdr
    have q2 : GET (tag_mem (PUT μ (A + M - 8) (M + 1)) (A + M) (T - M) 0)
        (A + M - 8) = M + 1 := by
      rw [tag_frame (by omega) (by omega) (by omega) (by omega) (by omega), GET_PUT_same]
      exact Nat.mod_eq_of_lt (by omega)
    have q3 : GET (tag_mem (PUT μ (A + M - 8) (M + 1)) (A + M) (T - M) 0)
        (A + M - 4) = T - M + 0 :=
      tag_hdr (by omega) (by omega) (by omega) (by omega) (by omega)
    have q4 : GET (tag_mem (PUT μ (A + M - 8) (M + 1)) (A + M) (T - M) 0)
        (A + M + (T - M) - 8) = T - M + 0 :=
      tag_ftr (by omega)
    have hseg1 : Chain A ([(A, M, 1)] ++ [(A + M, T - M, 0)]) (A + T) := by
      have := Chain.pair (x := A) (s := M) (t := 1) (N := T - M) (θ := 0) ha16 ha8
        (by omega) (by omega) (by omega) (by omega)
      rwa [show A + M + (T - M) = A + T by omega] at this
    obtain ⟨h2, bk2, f2, sa2, inv2, fr2⟩ := retag_add_full (ρ := [(A, M, 1)]) (A := A + M)
      (ζ := T - M) c hne hseg hseg1 (by simp)
      (μ := tag_mem (PUT μ (A + M - 8) (M + 1)) (A + M) (T - M) 0)
      (fun q hq hqr => by
        rw [tag_frame (by omega) (by omega) hq (by omega) (by omega),
          GET_PUT_ne _ _ _ _ (by omega) hq (by omega)]
        exact frame q hq hqr)
      (by
        intro b hb
        simp only [List.singleton_append, List.mem_cons, List.mem_singleton,
          List.not_mem_nil, or_false] at hb
        rcases hb with e | e
        · subst e; exact ⟨q1, q2⟩
        · subst e; exact ⟨q3, q4⟩)
      hl
      (by
        unfold withPrologue
        have := NoAdjFree.replace (γ := (h.base + 8, 344, 1) :: pre)
          (σ := [(A, T, 1)]) (τ := [(A, M, 1), (A + M, T - M, 0)]) (δ := post)
          hno (by
            unfold NoAdjFree
            simp) (by simp)
          (fun u hu v hv hh => by
            simp only [List.head?_cons, Option.mem_def, Option.some.injEq] at hv
            subst hv
            exact absurd hh.2 (by simp))
          (fun u hu v hv hh => hpost v hv hh.2)
        simpa using this)
    refine ⟨h2, bk2, ?_, sa2, by simpa using inv2, ?_⟩
    swap
    · intro a ha1 ha2
      rw [if_neg (by omega)] at ha2
      have k1 := fr2 a (not_linkArea (L := A) (U := A + T) (by omega) hzs ha1 (by omega))
        (by omega)
      have k2 : tag_mem (PUT μ (A + M - 8) (M + 1)) (A + M) (T - M) 0 a = μ a := by
        rw [tag_mem_byte _ _ _ _ (by omega) (by omega), PUT_byte _ _ _ (by omega)]
      exact k1.trans k2
    rw [show (fun fuel => realloc_finish fuel (withMem h μ) A (if T < M + 16 then T else M)
          K s) = fun fuel => (add_free_list fuel
          (withMem h (tag_mem (PUT μ (A + M - 8) (M + 1)) (A + M) (T - M) 0))
          (A + M)).map fun h1 => (A, h1) from funext fun fuel => by
        rw [if_neg (by omega)]
        exact realloc_finish_eval_split fuel h μ hhdr hT hT8 ha8 ha16 hsp hA8 (by omega)
          (by omega) (by omega)]
    exact f2.map
  · -- the whole stretch is used
    rw [if_neg hsp]
    rw [if_pos (by omega)] at hhdr
    have c1 := Core.retag (τ := [(A, T, 1)]) (μ := PUT μ (A + T - 8) (T + 1)) c hne hseg
      (Chain.single (by omega) hT8 (by omega))
      (fun q hq hqr => by
        rw [GET_PUT_ne _ _ _ _ (by omega) hq (by omega)]
        exact frame q hq hqr)
      (by
        intro b hb
        simp only [List.mem_singleton] at hb
        subst hb
        refine ⟨?_, ?_⟩
        · show GET _ (A - 4) = T + 1
          rw [GET_PUT_ne _ _ _ _ (by omega) (by omega) (by omega)]
          exact hhdr
        · show GET _ (A + T - 8) = T + 1
          rw [GET_PUT_same]
          exact Nat.mod_eq_of_lt (by omega))
      (fun i hi y hy => Or.inl (hout i hi y hy))
    refine ⟨withMem h (PUT μ (A + T - 8) (T + 1)), bk, ?_, ⟨rfl, rfl, rfl, rfl⟩, ⟨c1, ?_, ?_⟩,
      ?_⟩
    rotate_right
    · intro a ha1 ha2
      rw [if_pos (by omega)] at ha2
      exact PUT_byte _ _ _ (by omega)
    · rw [show (fun fuel => realloc_finish fuel (withMem h μ) A
            (if T < M + 16 then T else M) K s)
          = fun _ => some (A, withMem h (PUT μ (A + T - 8) (T + 1))) from funext fun fuel => by
          rw [if_pos (by omega)]
          exact realloc_finish_eval_whole fuel h μ hhdr hT hT8 (by omega) (by omega)
            (by omega) (by omega)]
      exact Fueled.const _ _
    · exact hno
    · intro y
      rw [hl y]
      constructor
      · rintro ⟨t, ht⟩
        refine ⟨t, ?_⟩
        simp only [List.mem_append] at ht ⊢; tauto
      · rintro ⟨t, ht⟩
        refine ⟨t, ?_⟩
        simp only [List.mem_append, List.mem_singleton, Prod.mk.injEq] at ht ⊢
        rcases ht with (e | e) | e
        · exact Or.inl e
        · exact absurd e.2.2 (by omega)
        · exact Or.inr e

/-- The tail of an in-place growth branch: the blocks `σ`, which tile `T`
    bytes from `A` and are not listed, become one allocated block at `A`,
    followed by a linked free block when at least 16 bytes remain after
    `adj` bytes. -/
theorem realloc_finish_spec {h : Heap} {pre σ post : List Blk} {bk : Nat → List Nat}
    (c : Core h (pre ++ σ ++ post) bk) (hne : σ ≠ []) {A T M K s : Nat}
    (hseg : Chain A σ (A + T)) (hT : K + s = T) (ha16 : 16 ≤ M) (ha8 : M % 8 = 0)
    (hle : M ≤ T)
    (hl : ∀ y, Listed bk y ↔ ∃ t, (y, t, 0) ∈ pre ++ post)
    (hno : NoAdjFree (((h.base + 8, 344, 1) :: pre) ++ [(A, T, 1)] ++ post))
    (hpost : ∀ v ∈ post.head?, v.2.2 ≠ 0)
    {μ : Mem} (frame : ∀ q, q % 4 = 0 → (q + 8 ≤ A ∨ A + T ≤ q + 4) → GET μ q = GET h.mem q)
    (hhdr : GET μ (A - 4) = (if T < M + 16 then T else M) + 1) :
    ∃ h1 bk1, Fueled (fun fuel => realloc_finish fuel (withMem h μ) A
          (if T < M + 16 then T else M) K s) (h.numFree.toNat + 1) (A, h1)
      ∧ SameArena h h1
      ∧ HeapInv h1 (pre ++ (if M + 16 ≤ T then [(A, M, 1), (A + M, T - M, 0)]
          else [(A, T, 1)]) ++ post) bk1 := by
  obtain ⟨h1, bk1, f1, sa1, inv1, _⟩ :=
    realloc_finish_full c hne hseg hT ha16 ha8 hle hl hno hpost frame hhdr
  exact ⟨h1, bk1, f1, sa1, inv1⟩

/-! ## `mm_realloc`: the words it reads, and the shrinking branches -/

theorem adjust_lt {size : Nat} (h0 : size ≠ 0) (hs : size + 15 < 4294967296) :
    adjust size < size + 16 := by
  by_cases h8 : size ≤ 8
  · rw [adjust_small h8]; omega
  · rw [adjust_large h8]; omega

/-- The neighbours of an allocated block `x`, as `mm_realloc` reads them: the
    block before it (`p`, size `ps`, allocated bit `pa`) and the header after it
    (size `ns`, allocated bit `na`; the epilogue header reads as `0`, `1`). -/
theorem realloc_reads {h : Heap} {pre post : List Blk} {bk : Nat → List Nat} {x s : Nat}
    (c : Core h (pre ++ (x, s, 1) :: post) bk) :
    ∃ p ps pa ns na, (PREV_BLKP h.mem x = p ∧ FTRP h.mem p = x - 8
        ∧ GET_ALLOC h.mem (x - 8) = pa ∧ HDRP p = p - 4 ∧ GET_SIZE h.mem (p - 4) = ps
        ∧ GET_SIZE h.mem (x - 8) = ps)
      ∧ (NEXT_BLKP h.mem x = x + s ∧ HDRP (x + s) = x + s - 4
        ∧ GET_ALLOC h.mem (x + s - 4) = na ∧ GET_SIZE h.mem (x + s - 4) = ns
        ∧ HDRP x = x - 4 ∧ GET_SIZE h.mem (x - 4) = s)
      ∧ (p + ps = x ∧ 16 ≤ ps ∧ ps % 8 = 0 ∧ p % 8 = 0 ∧ h.base + 8 ≤ p ∧ ns % 8 = 0
        ∧ x + s + ns ≤ h.base + h.brk)
      ∧ (pa = 0 → ∃ pre1, pre = pre1 ++ [(p, ps, 0)])
      ∧ (pa ≠ 0 → ∀ u ∈ ((h.base + 8, 344, 1) :: pre).getLast?, u.2.2 ≠ 0)
      ∧ (na = 0 → ∃ post0, post = (x + s, ns, 0) :: post0 ∧ 16 ≤ ns
          ∧ FTRP h.mem (x + s) = x + s + ns - 8 ∧ GET_SIZE h.mem (x + s + ns - 8) = ns)
      ∧ (na ≠ 0 → ∀ v ∈ post.head?, v.2.2 ≠ 0) := by
  obtain ⟨hpre, hpost, hge, hxle, hx8, hs16, hs8, _, hhdr, hftr, hlt⟩ := c.around
  obtain ⟨pre0, p, ps, pa, ep, hpx, hpnil, hpcons, pf, ph, hp8, hps16, hps8, hpa, hpge⟩ := c.pred
  have hrange := c.range
  have hbrkle := c.brk_le
  have ePrev : PREV_BLKP h.mem x = p := by
    have := PREV_BLKP_eq pf hps8 hpa (by omega) (by omega) (by omega)
    rw [this]; omega
  have eFtrPrev : FTRP h.mem p = x - 8 := by
    rw [FTRP_eq ph hps8 hpa (by omega) (by omega) (by omega)]; omega
  have hlastP : ((h.base + 8, 344, 1) :: pre).getLast? = some (p, ps, pa) := by
    rw [ep]; exact getLast?_concat_blk _ _
  have hprevfree : pa = 0 → ∃ pre1, pre = pre1 ++ [(p, ps, 0)] := by
    intro h0
    subst h0
    obtain ⟨pre1, h1, _⟩ := hpcons (fun hh => by have := hpnil hh; omega)
    exact ⟨pre1, h1⟩
  have hprevalloc : pa ≠ 0 → ∀ u ∈ ((h.base + 8, 344, 1) :: pre).getLast?, u.2.2 ≠ 0 := by
    intro h0 u hu
    rw [hlastP] at hu
    simp only [Option.mem_def, Option.some.injEq] at hu
    subst hu
    exact h0
  rcases c.succ with ⟨hp0, hep, hend⟩ | ⟨ns, na, post0, hp0, hnh, hns16, hns8, hna, hnf, hnle⟩
  · refine ⟨p, ps, pa, 0, 1, ⟨ePrev, eFtrPrev, GET_ALLOC_eq pf hps8 hpa, HDRP_eq (by omega)
      (by omega), GET_SIZE_eq ph hps8 hpa, GET_SIZE_eq pf hps8 hpa⟩,
      ⟨NEXT_BLKP_eq hhdr hs8 (by omega) (by omega) hlt, HDRP_eq (by omega) hlt,
        GET_ALLOC_eq hep (by omega) (by omega), GET_SIZE_eq hep (by omega) (by omega),
        HDRP_eq (by omega) (by omega), GET_SIZE_eq hhdr hs8 (by omega)⟩,
      ⟨hpx, hps16, hps8, hp8, hpge, by omega, by omega⟩, hprevfree, hprevalloc,
      fun hh => by omega, fun _ v hv => ?_⟩
    rw [hp0] at hv; simp at hv
  · refine ⟨p, ps, pa, ns, na, ⟨ePrev, eFtrPrev, GET_ALLOC_eq pf hps8 hpa, HDRP_eq (by omega)
      (by omega), GET_SIZE_eq ph hps8 hpa, GET_SIZE_eq pf hps8 hpa⟩,
      ⟨NEXT_BLKP_eq hhdr hs8 (by omega) (by omega) hlt, HDRP_eq (by omega) hlt,
        GET_ALLOC_eq hnh hns8 hna, GET_SIZE_eq hnh hns8 hna,
        HDRP_eq (by omega) (by omega), GET_SIZE_eq hhdr hs8 (by omega)⟩,
      ⟨hpx, hps16, hps8, hp8, hpge, hns8, hnle⟩, hprevfree, hprevalloc,
      fun hh => ⟨post0, hh ▸ hp0, hns16,
        FTRP_eq hnh hns8 hna (by omega) (by omega) (by omega), GET_SIZE_eq hnf hns8 hna⟩,
      fun hh v hv => ?_⟩
    rw [hp0] at hv
    simp only [List.head?_cons, Option.mem_def, Option.some.injEq] at hv
    subst hv
    exact hh

/-- The allocated blocks after the block `x` of the list has been replaced. -/
theorem alloc_replace {pre post : List Blk} {x s ζ : Nat} {h : Heap} {bk : Nat → List Nat}
    (c : Core h (pre ++ (x, s, 1) :: post) bk) (bs1 : List Blk)
    (h1 : ∀ d : Blk, d.2.2 = 1 → (d ∈ bs1 ↔ d ∈ pre ∨ d = (x, ζ, 1) ∨ d ∈ post)) :
    ∀ d : Blk, d.2.2 = 1 →
      (d ∈ bs1 ↔ d = (x, ζ, 1) ∨ (d ∈ pre ++ (x, s, 1) :: post ∧ d.1 ≠ x)) := by
  obtain ⟨hpre, hpost, _, _, _, hs16, _⟩ := c.around
  intro d hd
  rw [h1 d hd, mem_mid]
  constructor
  · rintro (e | e | e)
    · refine Or.inr ⟨Or.inl e, ?_⟩
      have := hpre _ e
      omega
    · exact Or.inl e
    · refine Or.inr ⟨Or.inr (Or.inr e), ?_⟩
      have := hpost _ e
      omega
  · rintro (e | ⟨e | e | e, hne⟩)
    · exact Or.inr (Or.inl e)
    · exact Or.inl e
    · subst e; exact absurd rfl hne
    · exact Or.inr (Or.inr e)

/-! ## `mm_realloc`: shrinking in place -/

theorem realloc_eval_carve (fuel : Nat) (h : Heap) {x s size : Nat}
    (hhdr : GET h.mem (x - 4) = s + 1) (hx : x % 8 = 0) (h4 : 8 ≤ x) (hs8 : s % 8 = 0)
    (hlt : x + s < 4294967296) (h0 : size ≠ 0) (hs : size + 15 < 4294967296)
    (hch : size + 8 ≤ s) (hc1 : s - size - 8 > 16) (hc2 : s - adjust size > 16) :
    mm_realloc fuel h x size
      = (coalesce fuel (withMem h (tag_mem (tag_mem h.mem x (adjust size) 1)
            (x + adjust size) (s - adjust size) 0)) (x + adjust size)).map
          fun r => (x, r.2) := by
  obtain ⟨ha16, ha8, hsz8, halt, _⟩ := adjust_facts hs
  have hal := adjust_lt h0 hs
  have e1 : HDRP x = x - 4 := HDRP_eq (by omega) (by omega)
  have e2 : GET_SIZE h.mem (x - 4) = s := GET_SIZE_eq hhdr hs8 (by omega)
  have e3 : add32 size DSIZE = size + 8 := add32_eq (by unfold DSIZE; omega)
  have e4a : sub32 s size = s - size := sub32_eq (by omega) (by omega)
  have e4 : sub32 (s - size) DSIZE = s - size - 8 := by
    unfold DSIZE
    exact sub32_eq (by omega) (by omega)
  have e5 : sub32 s (adjust size) = s - adjust size := sub32_eq (by omega) (by omega)
  have hx0 : x ≠ 0 := by omega
  have θ := tag_eval h.mem (x := x) (s := adjust size) (a := 1) (by omega) (by omega) ha8
    (by omega) (by omega) (by omega)
  rw [e1] at θ
  have φ : NEXT_BLKP (tag_mem h.mem x (adjust size) 1) x = x + adjust size :=
    tag_next (by omega) (by omega) ha8 (by omega) (by omega) (by omega)
  have t3 := tag_eval (tag_mem h.mem x (adjust size) 1) (x := x + adjust size)
    (s := s - adjust size) (a := 0) (by omega) (by omega) (by omega) (by omega) (by omega)
    (by omega)
  have k1 : (if s < size + 8 then 1 else 0) = 0 := if_neg (by omega)
  have k2 : (if s < size + 8 then 1 else 0) = 0 ∧ sub32 (sub32 s size) DSIZE > 2 * DSIZE
      ∧ sub32 s (adjust size) > 2 * DSIZE := by
    rw [e4a, e4, e5]
    exact ⟨k1, by unfold DSIZE; omega, by unfold DSIZE; omega⟩
  unfold mm_realloc
  simp only [e1, e2, e3, h0, hx0, if_false]
  rw [if_pos k2]
  simp only [θ, φ, e5, t3]
  rfl

theorem realloc_eval_keep (fuel : Nat) (h : Heap) {x s size : Nat}
    (hhdr : GET h.mem (x - 4) = s + 1) (hx : x % 8 = 0) (h4 : 8 ≤ x) (hs8 : s % 8 = 0)
    (hlt : x + s < 4294967296) (h0 : size ≠ 0) (hs : size + 15 < 4294967296)
    (hch : size + 8 ≤ s) (hc : ¬ (s - size - 8 > 16 ∧ s - adjust size > 16)) :
    mm_realloc fuel h x size = some (x, h) := by
  obtain ⟨ha16, ha8, hsz8, halt, _⟩ := adjust_facts hs
  have hal := adjust_lt h0 hs
  have e1 : HDRP x = x - 4 := HDRP_eq (by omega) (by omega)
  have e2 : GET_SIZE h.mem (x - 4) = s := GET_SIZE_eq hhdr hs8 (by omega)
  have e3 : add32 size DSIZE = size + 8 := add32_eq (by unfold DSIZE; omega)
  have e4a : sub32 s size = s - size := sub32_eq (by omega) (by omega)
  have e4 : sub32 (s - size) DSIZE = s - size - 8 := by
    unfold DSIZE
    exact sub32_eq (by omega) (by omega)
  have e5 : sub32 s (adjust size) = s - adjust size := sub32_eq (by omega) (by omega)
  have hx0 : x ≠ 0 := by omega
  have k1 : (if s < size + 8 then 1 else 0) = 0 := if_neg (by omega)
  have k2 : ¬ ((if s < size + 8 then 1 else 0) = 0 ∧ sub32 (sub32 s size) DSIZE > 2 * DSIZE
      ∧ sub32 s (adjust size) > 2 * DSIZE) := by
    rw [e4a, e4, e5]
    intro hh
    exact hc ⟨by have := hh.2.1; unfold DSIZE at this; omega,
      by have := hh.2.2; unfold DSIZE at this; omega⟩
  unfold mm_realloc
  simp only [e1, e2, e3, h0, hx0, if_false]
  rw [if_neg k2, if_pos k1]

/-- A request that fits the block at `x` with at least 8 bytes to spare: the
    block stays at `x`; when more than 16 bytes remain after the adjusted size
    they become a free block, which is merged with a free successor and linked;
    the first `size` payload bytes are unchanged. -/
theorem realloc_shrink_full {h : Heap} {pre post : List Blk} {bk : Nat → List Nat}
    {x s size : Nat} (inv : HeapInv h (pre ++ (x, s, 1) :: post) bk) (h0 : size ≠ 0)
    (hs : size + 15 < 4294967296) (hch : size + 8 ≤ s) :
    ∃ h1 bs1 bk1 ζ, Fueled (fun fuel => mm_realloc fuel h x size) (h.numFree.toNat + 90) (x, h1)
      ∧ SameArena h h1 ∧ HeapInv h1 bs1 bk1 ∧ (x, ζ, 1) ∈ bs1 ∧ adjust size ≤ ζ
      ∧ (∀ d : Blk, d.2.2 = 1 → (d ∈ bs1 ↔ d ∈ pre ∨ d = (x, ζ, 1) ∨ d ∈ post))
      ∧ (∀ i, i < size → h1.mem (x + i) = h.mem (x + i)) := by
  obtain ⟨ha16, ha8, hsz8, halt, _⟩ := adjust_facts hs
  have hal := adjust_lt h0 hs
  have c := inv.core
  obtain ⟨hpre, hpost, hge, hxle, hx8, hs16, hs8, _, hhdr, hftr, hlt⟩ := c.around
  have hrange := c.range
  have hbrkle := c.brk_le
  have hale : adjust size ≤ s := by omega
  by_cases hc : s - size - 8 > 16 ∧ s - adjust size > 16
  · -- the rest becomes a free block
    obtain ⟨hl, hout⟩ := inv.nodes_out
    obtain ⟨g1, g2, g3, g4, g5⟩ := tag2_facts h.mem (x := x) (s := adjust size) (a := 1)
      (r := s - adjust size) (b := 0) hx8 (by omega) ha8 ha16 (by omega) (by omega) (le_refl 1)
      (by omega) (by omega)
    rw [show x + adjust size + (s - adjust size) = x + s by omega] at g4 g5
    have c0 : Core h (pre ++ [(x, s, 1)] ++ post) bk := by simpa using c
    have hseg1 : Chain x [(x, adjust size, 1), (x + adjust size, s - adjust size, 0)]
        (x + s) := by
      have := Chain.pair (x := x) (t := 1) (θ := 0) ha16 ha8 (le_refl 1)
        (show 16 ≤ s - adjust size by omega) (show (s - adjust size) % 8 = 0 by omega)
        (by omega)
      rwa [show x + adjust size + (s - adjust size) = x + s by omega] at this
    have c1 : Core (withMem h (tag_mem (tag_mem h.mem x (adjust size) 1) (x + adjust size)
        (s - adjust size) 0))
        ((pre ++ [(x, adjust size, 1)]) ++ (x + adjust size, s - adjust size, 0) :: post)
        bk := by
      have := Core.retag (τ := [(x, adjust size, 1), (x + adjust size, s - adjust size, 0)])
        (μ := tag_mem (tag_mem h.mem x (adjust size) 1) (x + adjust size) (s - adjust size) 0)
        c0 (by simp) (Chain.single (x := x) hs16 hs8 (by omega)) hseg1
        (fun q hq hqr => g5 q hq (by omega) (by omega) (by omega) (by omega))
        (by
          intro b hb
          simp only [List.mem_cons, List.mem_singleton, List.not_mem_nil, or_false] at hb
          rcases hb with rfl | rfl
          · exact ⟨g1, g2⟩
          · dsimp only
            rw [show x + adjust size + (s - adjust size) = x + s by omega]
            exact ⟨g3, g4⟩)
        (fun i hi y hy => Or.inl (hout i hi y hy))
      simpa [withMem] using this
    obtain ⟨h1, bs1, bk1, r, rs, f1, sa1, inv1, hm1, hr1, hr2, hd1, hsh1, fr1, _⟩ :=
      coalesce_full c1
        (by
          have hno := inv.noadj
          unfold withPrologue at hno ⊢
          have := NoAdjFree.replace (γ := (h.base + 8, 344, 1) :: pre)
            (σ := [(x, s, 1)])
            (τ := [(x, adjust size, 1), (x + adjust size, s - adjust size, 1)]) (δ := post)
            (by simpa using hno)
            (by
              unfold NoAdjFree
              simp)
            (by simp)
            (fun u hu v hv hh => by
              simp only [List.head?_cons, Option.mem_def, Option.some.injEq] at hv
              subst hv
              exact absurd hh.2 (by simp))
            (fun u hu v hv hh => by
              simp only [List.getLast?_cons_cons, List.getLast?_singleton, Option.mem_def,
                Option.some.injEq] at hu
              subst hu
              exact absurd hh.1 (by simp))
          simpa using this)
        (by
          intro y
          rw [hl y]
          constructor
          · rintro ⟨t, ht⟩
            refine ⟨t, ?_⟩
            simp only [List.mem_append, List.mem_singleton, Prod.mk.injEq] at ht ⊢
            tauto
          · rintro ⟨t, ht⟩
            refine ⟨t, ?_⟩
            simp only [List.mem_append, List.mem_singleton, Prod.mk.injEq] at ht ⊢
            rcases ht with (e | e) | e
            · exact Or.inl e
            · exact absurd e.2.2 (by omega)
            · exact Or.inr e)
    have hmx : (x, adjust size, 1) ∈ bs1 := (hd1 (x, adjust size, 1) rfl).mpr (by simp)
    have hkeep : ∀ i, i < size → h1.mem (x + i) = h.mem (x + i) := by
      intro i hi
      have hap := inv1.apart hmx hm1
      have hla := c.off_links (y := x) (t := s) (u := 1) (by simp)
        (inv.not_listed (y := x) (t := s) (by simp)) (a := x + i) (by omega) (by omega)
      have k1 := fr1 (x + i) hla (by omega)
      have k2 : tag_mem (tag_mem h.mem x (adjust size) 1) (x + adjust size) (s - adjust size) 0
          (x + i) = h.mem (x + i) := by
        rw [tag_mem_byte _ _ _ _ (by omega) (by omega), tag_mem_byte _ _ _ _ (by omega) (by omega)]
      exact k1.trans k2
    refine ⟨h1, bs1, bk1, adjust size, ?_, sa1, inv1, ?_, le_refl _, ?_, hkeep⟩
    · rw [show (fun fuel => mm_realloc fuel h x size) = fun fuel =>
          (coalesce fuel (withMem h (tag_mem (tag_mem h.mem x (adjust size) 1)
            (x + adjust size) (s - adjust size) 0)) (x + adjust size)).map
          fun r => (x, r.2) from funext fun fuel =>
        realloc_eval_carve fuel h hhdr hx8 (by omega) hs8 hlt h0 hs hch hc.1 hc.2]
      exact f1.map
    · exact (hd1 (x, adjust size, 1) rfl).mpr (by simp)
    · intro d hd
      rw [hd1 d hd]
      simp only [List.mem_append, List.mem_singleton]
      tauto
  · -- nothing changes
    refine ⟨h, _, bk, s, ?_, ⟨rfl, rfl, rfl, rfl⟩, inv, by simp, hale, fun d _ => mem_mid,
      fun _ _ => rfl⟩
    rw [show (fun fuel => mm_realloc fuel h x size) = fun _ => some (x, h) from
      funext fun fuel => realloc_eval_keep fuel h hhdr hx8 (by omega) hs8 hlt h0 hs hch hc]
    exact Fueled.const _ _

/-- A request that fits the block at `x` with at least 8 bytes to spare: the
    block stays at `x`; when more than 16 bytes remain after the adjusted size
    they become a free block, which is merged with a free successor and linked. -/
theorem realloc_shrink_spec {h : Heap} {pre post : List Blk} {bk : Nat → List Nat}
    {x s size : Nat} (inv : HeapInv h (pre ++ (x, s, 1) :: post) bk) (h0 : size ≠ 0)
    (hs : size + 15 < 4294967296) (hch : size + 8 ≤ s) :
    ∃ h1 bs1 bk1 ζ, Fueled (fun fuel => mm_realloc fuel h x size) (h.numFree.toNat + 90) (x, h1)
      ∧ SameArena h h1 ∧ HeapInv h1 bs1 bk1 ∧ (x, ζ, 1) ∈ bs1 ∧ adjust size ≤ ζ
      ∧ (∀ d : Blk, d.2.2 = 1 → (d ∈ bs1 ↔ d ∈ pre ∨ d = (x, ζ, 1) ∨ d ∈ post)) := by
  obtain ⟨h1, bs1, bk1, ζ, f1, sa1, inv1, hm1, hsz, hd1, _⟩ := realloc_shrink_full inv h0 hs hch
  exact ⟨h1, bs1, bk1, ζ, f1, sa1, inv1, hm1, hsz, hd1⟩

/-! ## `mm_realloc`: growing into the successor -/

theorem realloc_size_eq {size tS s T : Nat} (hT : tS + s = T) (hlt : T < 2147483648)
    (hs : size + 15 < 4294967296) (hfit : size + 8 ≤ T) :
    realloc_size size tS s = if T < adjust size + 16 then T else adjust size := by
  obtain ⟨_, _, _, _, hle⟩ := adjust_facts hs
  unfold realloc_size
  rw [add32_eq (by omega), add32_eq (by unfold DSIZE; omega), hT]
  rfl

/-- The least multiple of 8 that holds the request fits every block of a
    multiple of 8 bytes that holds it. -/
theorem adjust_le_of_fit {size T : Nat} (h0 : size ≠ 0) (hs : size + 15 < 4294967296)
    (hT8 : T % 8 = 0) (hfit : size + 8 ≤ T) : adjust size ≤ T := by
  have := adjust_lt h0 hs
  have := (adjust_facts hs).2.1
  omega

/-- Growth into a free successor: the successor is unlinked, the block at `x`
    takes the adjusted size (or both blocks when the rest is too small), the
    rest becomes a linked free block, and the payload bytes are unchanged. -/
theorem grow_next_full {h : Heap} {pre post0 : List Blk} {bk : Nat → List Nat}
    {x s ns size : Nat} (inv : HeapInv h (pre ++ (x, s, 1) :: (x + s, ns, 0) :: post0) bk)
    (h0 : size ≠ 0) (hs : size + 15 < 4294967296) (hfit : size + 8 ≤ ns + s) :
    ∃ h2 bs1 bk1 ζ,
      Fueled (fun fuel => (remove_free_list fuel h (x + s)).bind fun h1 =>
        realloc_finish fuel (withMem h1 (PUT h1.mem (x - 4) (PACK (realloc_size size ns s) 1)))
          x (realloc_size size ns s) ns s) (h.numFree.toNat + 90) (x, h2)
      ∧ SameArena h h2 ∧ HeapInv h2 bs1 bk1 ∧ (x, ζ, 1) ∈ bs1 ∧ adjust size ≤ ζ
      ∧ (∀ d : Blk, d.2.2 = 1 → (d ∈ bs1 ↔ d ∈ pre ∨ d = (x, ζ, 1) ∨ d ∈ post0))
      ∧ (∀ i, i < s - 8 → i < size → h2.mem (x + i) = h.mem (x + i)) := by
  obtain ⟨ha16, ha8, hsz8, halt, _⟩ := adjust_facts hs
  have c := inv.core
  obtain ⟨hpre, hpost, hge, hxle, hx8, hs16, hs8, _, hhdr, hftr, hlt⟩ := c.around
  obtain ⟨_, hpost2, _, hnle, _, hns16, hns8, _, hnhdr, hnftr, hnlt⟩ :=
    (show Core h ((pre ++ [(x, s, 1)]) ++ (x + s, ns, 0) :: post0) bk by simpa using c).around
  have hrange := c.range
  have hbrkle := c.brk_le
  have hcap := c.cap_lt
  have hbrk := c.brk_ge
  have hT31 : ns + s < 2147483648 := by omega
  have hale : adjust size ≤ ns + s := adjust_le_of_fit h0 hs (by omega) hfit
  obtain ⟨hl, hout⟩ := inv.nodes_out
  obtain ⟨_, ub⟩ := NoAdjFree.beside
    (γ := ((h.base + 8, 344, 1) :: pre) ++ [(x, s, 1)]) (b := (x + s, ns, 0))
    (δ := post0) (by
      have := inv.noadj
      unfold withPrologue at this
      simpa using this) rfl
  have hln : Listed bk (x + s) := (inv.listed _).mpr ⟨ns, by simp⟩
  obtain ⟨h1, bk1, f1, sa1, c1, n1, γ⟩ := remove_node c hln
  have hl1 : ∀ y, Listed bk1 y ↔ ∃ t, (y, t, 0) ∈ pre ++ post0 := by
    intro y
    rw [γ y, hl y]
    constructor
    · rintro ⟨⟨t, ht⟩, hne⟩
      refine ⟨t, ?_⟩
      simp only [List.mem_append, List.mem_cons, Prod.mk.injEq] at ht ⊢
      rcases ht with e1 | e1 | e1
      · exact Or.inl e1
      · exact absurd e1.1 hne
      · exact Or.inr e1
    · rintro ⟨t, ht⟩
      rcases List.mem_append.mp ht with e1 | e1
      · refine ⟨⟨t, by simp [e1]⟩, ?_⟩
        have := hpre _ e1; dsimp only at this; omega
      · refine ⟨⟨t, by simp [e1]⟩, ?_⟩
        have := hpost2 _ e1; dsimp only at this; omega
  have c1a : Core h1 (pre ++ [(x, s, 1), (x + s, ns, 0)] ++ post0) bk1 := by
    simpa using c1
  have t1x := c1.tagged (x, s, 1) (Core.mem_with (by simp))
  dsimp only at t1x
  have hsz : realloc_size size ns s
      = if ns + s < adjust size + 16 then ns + s else adjust size :=
    realloc_size_eq rfl hT31 hs hfit
  have hsz8' : (if ns + s < adjust size + 16 then ns + s else adjust size) % 8 = 0 := by
    split <;> omega
  have hpk : PACK (if ns + s < adjust size + 16 then ns + s else adjust size) 1
      = (if ns + s < adjust size + 16 then ns + s else adjust size) + 1 :=
    PACK_eq _ 1 hsz8' (by omega)
  have hszlt : (if ns + s < adjust size + 16 then ns + s else adjust size) + 1
      < 4294967296 := by
    split <;> omega
  obtain ⟨h2, bk2, f2, sa2, inv2, hk2⟩ := realloc_finish_full (A := x) (T := ns + s)
    (M := adjust size) (K := ns) (s := s) c1a (by simp)
    (by
      have := Chain.pair (x := x) (t := 1) (θ := 0) hs16 hs8 (by omega) hns16 hns8 (by omega)
      rwa [show x + s + ns = x + (ns + s) by omega] at this)
    rfl ha16 ha8 hale hl1
    (by
      rw [sa1.1]
      have := NoAdjFree.replace (γ := (h.base + 8, 344, 1) :: pre)
        (σ := [(x, s, 1), (x + s, ns, 0)]) (τ := [(x, ns + s, 1)]) (δ := post0)
        (by
          have := inv.noadj
          unfold withPrologue at this
          simpa using this)
        (List.chain'_singleton _) (by simp)
        (fun u hu v hv hh => by
          simp only [List.head?_cons, Option.mem_def, Option.some.injEq] at hv
          subst hv
          exact absurd hh.2 (by simp))
        (fun u hu v hv hh => by
          simp only [List.getLast?_singleton, Option.mem_def, Option.some.injEq] at hu
          subst hu
          exact absurd hh.1 (by simp))
      exact this)
    ub
    (μ := PUT h1.mem (x - 4) ((if ns + s < adjust size + 16 then ns + s else adjust size) + 1))
    (fun q hq hqr => GET_PUT_ne _ _ _ _ (by omega) hq (by omega))
    (by rw [GET_PUT_same]; exact Nat.mod_eq_of_lt hszlt)
  have hkeep : ∀ i, i < s - 8 → i < size → h2.mem (x + i) = h.mem (x + i) := by
    intro i hi1 hi2
    have hZ : adjust size ≤ (if ns + s < adjust size + 16 then ns + s else adjust size) := by
      split <;> omega
    have k1 := hk2 (x + i) (by omega) (by omega)
    have k3 := remove_frame c hln (f1.enough 85 (le_refl _)) (x + i)
      (c.off_links (y := x) (t := s) (u := 1) (by simp)
        (inv.not_listed (y := x) (t := s) (by simp)) (by omega) (by omega))
      (Or.inr (Nat.zero_le _))
    exact k1.trans ((PUT_byte _ _ _ (by omega)).trans k3)
  refine ⟨h2, _, bk2, if adjust size + 16 ≤ ns + s then adjust size else ns + s, ?_, ?_, inv2,
    ?_, ?_, ?_, hkeep⟩
  · refine Fueled.bind (f1.mono (by omega)) ?_
    simp only [hsz, hpk]
    refine f2.mono ?_
    omega
  · obtain ⟨a1, a2, a3, a4⟩ := sa1
    obtain ⟨b1, b2, b3, b4⟩ := sa2
    exact ⟨b1.trans a1, b2.trans a2, b3.trans a3, b4.trans a4⟩
  · by_cases hsp : adjust size + 16 ≤ ns + s
    · simp only [hsp, if_true]; simp
    · simp only [hsp, if_false]; simp
  · split <;> omega
  · intro d hd
    obtain ⟨d1, d2, d3⟩ := d
    dsimp only at hd
    subst hd
    by_cases hsp : adjust size + 16 ≤ ns + s
    · simp only [hsp, if_true, List.mem_append, List.mem_cons, List.mem_singleton,
        Prod.mk.injEq, List.not_mem_nil, or_false]
      constructor
      · rintro ((e | e | e) | e)
        · exact Or.inl e
        · exact Or.inr (Or.inl e)
        · exact absurd e.2.2 (by omega)
        · exact Or.inr (Or.inr e)
      · rintro (e | e | e)
        · exact Or.inl (Or.inl e)
        · exact Or.inl (Or.inr (Or.inl e))
        · exact Or.inr e
    · simp only [hsp, if_false, List.mem_append, List.mem_cons, List.mem_singleton,
        Prod.mk.injEq, List.not_mem_nil, or_false]
      constructor
      · rintro ((e | e) | e)
        · exact Or.inl e
        · exact Or.inr (Or.inl e)
        · exact Or.inr (Or.inr e)
      · rintro (e | e | e)
        · exact Or.inl (Or.inl e)
        · exact Or.inl (Or.inr e)
        · exact Or.inr e

/-- Growth into a free successor: the successor is unlinked, the block at `x`
    takes the adjusted size (or both blocks when the rest is too small), and
    the rest becomes a linked free block. -/
theorem grow_next_spec {h : Heap} {pre post0 : List Blk} {bk : Nat → List Nat}
    {x s ns size : Nat} (inv : HeapInv h (pre ++ (x, s, 1) :: (x + s, ns, 0) :: post0) bk)
    (h0 : size ≠ 0) (hs : size + 15 < 4294967296) (hfit : size + 8 ≤ ns + s) :
    ∃ h2 bs1 bk1 ζ,
      Fueled (fun fuel => (remove_free_list fuel h (x + s)).bind fun h1 =>
        realloc_finish fuel (withMem h1 (PUT h1.mem (x - 4) (PACK (realloc_size size ns s) 1)))
          x (realloc_size size ns s) ns s) (h.numFree.toNat + 90) (x, h2)
      ∧ SameArena h h2 ∧ HeapInv h2 bs1 bk1 ∧ (x, ζ, 1) ∈ bs1 ∧ adjust size ≤ ζ
      ∧ (∀ d : Blk, d.2.2 = 1 → (d ∈ bs1 ↔ d ∈ pre ∨ d = (x, ζ, 1) ∨ d ∈ post0)) := by
  obtain ⟨h2, bs1, bk1, ζ, f1, sa1, inv1, hm1, hsz, hd1, _⟩ := grow_next_full inv h0 hs hfit
  exact ⟨h2, bs1, bk1, ζ, f1, sa1, inv1, hm1, hsz, hd1⟩

/-! ## `mm_realloc`: growing into the predecessor -/

/-- Two neighbours in the list of blocks are adjacent in the arena. -/
theorem Core.adjacent {h : Heap} {γ δ : List Blk} {bk : Nat → List Nat} {b c : Blk}
    (co : Core h (γ ++ b :: c :: δ) bk) : b.1 + b.2.1 = c.1 := by
  have hch := co.chain
  unfold withPrologue at hch
  rw [show (h.base + 8, 344, 1) :: (γ ++ b :: c :: δ)
      = ((h.base + 8, 344, 1) :: γ) ++ (b :: c :: δ) by simp] at hch
  obtain ⟨mid, _, hc2⟩ := Chain.append.mp hch
  obtain ⟨h1, _, _, _, h5⟩ := hc2
  obtain ⟨h6, _⟩ := h5
  omega

/-- The memory after the new header at `p` is written and the `n` bytes of the
    old block are copied to `p`: the header holds `v`, and words outside the
    stretch of `T` bytes from `p` are unchanged. -/
theorem memcpy_facts (m : Mem) {p x n v T : Nat} (hp : p % 4 = 0) (h4 : 4 ≤ p)
    (hv : v < 4294967296) (hn : n + 4 ≤ T) :
    GET (memcpy (PUT m (p - 4) v) p x n) (p - 4) = v
    ∧ ∀ q, q % 4 = 0 → (q + 8 ≤ p ∨ p + T ≤ q + 4) →
        GET (memcpy (PUT m (p - 4) v) p x n) q = GET m q := by
  constructor
  · rw [GET_memcpy_other _ _ _ _ _ (by omega), GET_PUT_same]
    exact Nat.mod_eq_of_lt hv
  · intro q hq hqr
    rw [GET_memcpy_other _ _ _ _ _ (by omega), GET_PUT_ne _ _ _ _ (by omega) hq (by omega)]

/-- Growth into a free predecessor whose successor is allocated: the
    predecessor is unlinked, the payload moves to it, and the rest becomes a
    linked free block when it is large enough; the new payload starts with the
    bytes of the old one. -/
theorem grow_prev_full {h : Heap} {pre1 post : List Blk} {bk : Nat → List Nat}
    {p ps x s size : Nat} (inv : HeapInv h (pre1 ++ (p, ps, 0) :: (x, s, 1) :: post) bk)
    (hpost : ∀ v ∈ post.head?, v.2.2 ≠ 0)
    (h0 : size ≠ 0) (hs : size + 15 < 4294967296) (hch : s < size + 8)
    (hfit : size + 8 ≤ ps + s) :
    ∃ h2 bs1 bk1 ζ,
      Fueled (fun fuel => (remove_free_list fuel h p).bind fun h1 =>
        realloc_finish fuel
          (withMem h1 (memcpy (PUT h1.mem (p - 4) (PACK (realloc_size size ps s) 1)) p x
            (GET_SIZE (PUT h1.mem (p - 4) (PACK (realloc_size size ps s) 1)) (x - 4))))
          p (realloc_size size ps s) ps s) (h.numFree.toNat + 90) (p, h2)
      ∧ SameArena h h2 ∧ HeapInv h2 bs1 bk1 ∧ (p, ζ, 1) ∈ bs1 ∧ adjust size ≤ ζ
      ∧ (∀ d : Blk, d.2.2 = 1 → (d ∈ bs1 ↔ d ∈ pre1 ∨ d = (p, ζ, 1) ∨ d ∈ post))
      ∧ (∀ i, i < s - 8 → h2.mem (p + i) = h.mem (x + i)) := by
  obtain ⟨ha16, ha8, hsz8, halt, _⟩ := adjust_facts hs
  have c := inv.core
  have hpx : p + ps = x := c.adjacent
  obtain ⟨hpre, _, hge, _, hp8, hps16, hps8, _, hphdr, hpftr, hplt⟩ := c.around
  obtain ⟨_, hpost2, _, hxle, hx8, hs16, hs8, _, hhdr, hftr, hlt⟩ :=
    (show Core h ((pre1 ++ [(p, ps, 0)]) ++ (x, s, 1) :: post) bk by simpa using c).around
  have hrange := c.range
  have hbrkle := c.brk_le
  have hcap := c.cap_lt
  have hbrk := c.brk_ge
  have hT31 : ps + s < 2147483648 := by omega
  have hale : adjust size ≤ ps + s := adjust_le_of_fit h0 hs (by omega) hfit
  have hnoF : NoAdjFree (((h.base + 8, 344, 1) :: pre1) ++ [(p, ps, 0), (x, s, 1)] ++ post) := by
    have := inv.noadj
    unfold withPrologue at this
    simpa using this
  have hlp : Listed bk p := (inv.listed _).mpr ⟨ps, by simp⟩
  obtain ⟨h1, bk1, f1, sa1, c1, n1, γ⟩ := remove_node c hlp
  have hl1 : ∀ y, Listed bk1 y ↔ ∃ t, (y, t, 0) ∈ pre1 ++ post := by
    intro y
    rw [γ y, inv.listed y]
    constructor
    · rintro ⟨⟨t, ht⟩, hne⟩
      refine ⟨t, ?_⟩
      simp only [List.mem_append, List.mem_cons, Prod.mk.injEq] at ht ⊢
      rcases ht with e1 | e1 | e1 | e1
      · exact Or.inl e1
      · exact absurd e1.1 hne
      · exact absurd e1.2.2 (by omega)
      · exact Or.inr e1
    · rintro ⟨t, ht⟩
      rcases List.mem_append.mp ht with e1 | e1
      · refine ⟨⟨t, by simp [e1]⟩, ?_⟩
        have := (hpre _ e1).1
        have := (hpre _ e1).2
        dsimp only at *
        omega
      · refine ⟨⟨t, by simp [e1]⟩, ?_⟩
        have := hpost2 _ e1; dsimp only at this; omega
  have c1a : Core h1 (pre1 ++ [(p, ps, 0), (x, s, 1)] ++ post) bk1 := by
    simpa using c1
  have t1x := c1.tagged (x, s, 1) (Core.mem_with (by simp))
  dsimp only at t1x
  have hsz : realloc_size size ps s
      = if ps + s < adjust size + 16 then ps + s else adjust size :=
    realloc_size_eq rfl hT31 hs hfit
  have hsz8' : (if ps + s < adjust size + 16 then ps + s else adjust size) % 8 = 0 := by
    split <;> omega
  have hpk : PACK (if ps + s < adjust size + 16 then ps + s else adjust size) 1
      = (if ps + s < adjust size + 16 then ps + s else adjust size) + 1 :=
    PACK_eq _ 1 hsz8' (by omega)
  have hszlt : (if ps + s < adjust size + 16 then ps + s else adjust size) + 1
      < 4294967296 := by
    split <;> omega
  have hcopy : GET_SIZE (PUT h1.mem (p - 4)
      ((if ps + s < adjust size + 16 then ps + s else adjust size) + 1)) (x - 4) = s := by
    refine GET_SIZE_eq (a := 1) ?_ hs8 (by omega)
    rw [GET_PUT_ne _ _ _ _ (by omega) (by omega) (by omega)]
    exact t1x.1
  obtain ⟨mf1, mf2⟩ := memcpy_facts h1.mem (p := p) (x := x) (n := s)
    (v := (if ps + s < adjust size + 16 then ps + s else adjust size) + 1) (T := ps + s)
    (by omega) (by omega) hszlt (by omega)
  obtain ⟨h2, bk2, f2, sa2, inv2, hk2⟩ := realloc_finish_full (A := p) (T := ps + s)
    (M := adjust size) (K := ps) (s := s) c1a (by simp)
    (by
      have := Chain.pair (x := p) (t := 0) (θ := 1) hps16 hps8 (by omega) hs16 hs8 (by omega)
      rw [hpx] at this
      rwa [show x + s = p + (ps + s) by omega] at this)
    rfl ha16 ha8 hale hl1
    (by
      rw [sa1.1]
      exact NoAdjFree.replace (γ := (h.base + 8, 344, 1) :: pre1)
        (σ := [(p, ps, 0), (x, s, 1)]) (τ := [(p, ps + s, 1)]) (δ := post)
        hnoF (List.chain'_singleton _) (by simp)
        (fun u hu v hv hh => by
          simp only [List.head?_cons, Option.mem_def, Option.some.injEq] at hv
          subst hv
          exact absurd hh.2 (by simp))
        (fun u hu v hv hh => by
          simp only [List.getLast?_singleton, Option.mem_def, Option.some.injEq] at hu
          subst hu
          exact absurd hh.1 (by simp)))
    hpost
    (μ := memcpy (PUT h1.mem (p - 4)
      ((if ps + s < adjust size + 16 then ps + s else adjust size) + 1)) p x s)
    mf2 mf1
  have hkeep : ∀ i, i < s - 8 → h2.mem (p + i) = h.mem (x + i) := by
    intro i hi1
    have hZ : adjust size ≤ (if ps + s < adjust size + 16 then ps + s else adjust size) := by
      split <;> omega
    have k1 := hk2 (p + i) (by omega) (by omega)
    have k2 : memcpy (PUT h1.mem (p - 4)
        ((if ps + s < adjust size + 16 then ps + s else adjust size) + 1)) p x s (p + i)
        = PUT h1.mem (p - 4)
          ((if ps + s < adjust size + 16 then ps + s else adjust size) + 1) (x + i) := by
      rw [memcpy_inside _ _ _ _ (by omega) (by omega), show p + i - p = i by omega]
    have k3 := remove_frame c hlp (f1.enough 85 (le_refl _)) (x + i)
      (c.off_links (y := x) (t := s) (u := 1) (by simp)
        (inv.not_listed (y := x) (t := s) (by simp)) (by omega) (by omega))
      (Or.inr (Nat.zero_le _))
    exact k1.trans (k2.trans ((PUT_byte _ _ _ (by omega)).trans k3))
  refine ⟨h2, _, bk2, if adjust size + 16 ≤ ps + s then adjust size else ps + s, ?_, ?_, inv2,
    ?_, ?_, ?_, hkeep⟩
  · refine Fueled.bind (f1.mono (by omega)) ?_
    simp only [hsz, hpk, hcopy]
    refine f2.mono ?_
    omega
  · obtain ⟨a1, a2, a3, a4⟩ := sa1
    obtain ⟨b1, b2, b3, b4⟩ := sa2
    exact ⟨b1.trans a1, b2.trans a2, b3.trans a3, b4.trans a4⟩
  · by_cases hsp : adjust size + 16 ≤ ps + s
    · simp only [hsp, if_true]; simp
    · simp only [hsp, if_false]; simp
  · split <;> omega
  · intro d hd
    obtain ⟨d1, d2, d3⟩ := d
    dsimp only at hd
    subst hd
    by_cases hsp : adjust size + 16 ≤ ps + s
    · simp only [hsp, if_true, List.mem_append, List.mem_cons, List.mem_singleton,
        Prod.mk.injEq, List.not_mem_nil, or_false]
      constructor
      · rintro ((e | e | e) | e)
        · exact Or.inl e
        · exact Or.inr (Or.inl e)
        · exact absurd e.2.2 (by omega)
        · exact Or.inr (Or.inr e)
      · rintro (e | e | e)
        · exact Or.inl (Or.inl e)
        · exact Or.inl (Or.inr (Or.inl e))
        · exact Or.inr e
    · simp only [hsp, if_false, List.mem_append, List.mem_cons, List.mem_singleton,
        Prod.mk.injEq, List.not_mem_nil, or_false]
      constructor
      · rintro ((e | e) | e)
        · exact Or.inl e
        · exact Or.inr (Or.inl e)
        · exact Or.inr (Or.inr e)
      · rintro (e | e | e)
        · exact Or.inl (Or.inl e)
        · exact Or.inl (Or.inr e)
        · exact Or.inr e

/-- Growth into a free predecessor whose successor is allocated: the
    predecessor is unlinked, the payload moves to it, and the rest becomes a
    linked free block when it is large enough. -/
theorem grow_prev_spec {h : Heap} {pre1 post : List Blk} {bk : Nat → List Nat}
    {p ps x s size : Nat} (inv : HeapInv h (pre1 ++ (p, ps, 0) :: (x, s, 1) :: post) bk)
    (hpost : ∀ v ∈ post.head?, v.2.2 ≠ 0)
    (h0 : size ≠ 0) (hs : size + 15 < 4294967296) (hch : s < size + 8)
    (hfit : size + 8 ≤ ps + s) :
    ∃ h2 bs1 bk1 ζ,
      Fueled (fun fuel => (remove_free_list fuel h p).bind fun h1 =>
        realloc_finish fuel
          (withMem h1 (memcpy (PUT h1.mem (p - 4) (PACK (realloc_size size ps s) 1)) p x
            (GET_SIZE (PUT h1.mem (p - 4) (PACK (realloc_size size ps s) 1)) (x - 4))))
          p (realloc_size size ps s) ps s) (h.numFree.toNat + 90) (p, h2)
      ∧ SameArena h h2 ∧ HeapInv h2 bs1 bk1 ∧ (p, ζ, 1) ∈ bs1 ∧ adjust size ≤ ζ
      ∧ (∀ d : Blk, d.2.2 = 1 → (d ∈ bs1 ↔ d ∈ pre1 ∨ d = (p, ζ, 1) ∨ d ∈ post)) := by
  obtain ⟨h2, bs1, bk1, ζ, f1, sa1, inv1, hm1, hsz, hd1, _⟩ :=
    grow_prev_full inv hpost h0 hs hch hfit
  exact ⟨h2, bs1, bk1, ζ, f1, sa1, inv1, hm1, hsz, hd1⟩

/-! ## `mm_realloc`: growing into both neighbours -/

/-- Growth into a free predecessor and a free successor: both are unlinked,
    the payload moves to the predecessor, and the rest becomes a linked free
    block when it is large enough; the new payload starts with the bytes of
    the old one. -/
theorem grow_both_full {h : Heap} {pre1 post0 : List Blk} {bk : Nat → List Nat}
    {p ps x s ns size : Nat}
    (inv : HeapInv h (pre1 ++ (p, ps, 0) :: (x, s, 1) :: (x + s, ns, 0) :: post0) bk)
    (h0 : size ≠ 0) (hs : size + 15 < 4294967296) (hch : s < size + 8)
    (hfit : size + 8 ≤ ps + ns + s) :
    ∃ h3 bs1 bk1 ζ,
      Fueled (fun fuel => (remove_free_list fuel h p).bind fun h1 =>
        (remove_free_list fuel h1 (NEXT_BLKP h1.mem x)).bind fun h2 =>
        realloc_finish fuel
          (withMem h2 (memcpy (PUT h2.mem (p - 4) (PACK (realloc_size size (ps + ns) s) 1)) p x
            (GET_SIZE (PUT h2.mem (p - 4) (PACK (realloc_size size (ps + ns) s) 1)) (x - 4))))
          p (realloc_size size (ps + ns) s) (ps + ns) s) (h.numFree.toNat + 90) (p, h3)
      ∧ SameArena h h3 ∧ HeapInv h3 bs1 bk1 ∧ (p, ζ, 1) ∈ bs1 ∧ adjust size ≤ ζ
      ∧ (∀ d : Blk, d.2.2 = 1 → (d ∈ bs1 ↔ d ∈ pre1 ∨ d = (p, ζ, 1) ∨ d ∈ post0))
      ∧ (∀ i, i < s - 8 → h3.mem (p + i) = h.mem (x + i)) := by
  obtain ⟨ha16, ha8, hsz8, halt, _⟩ := adjust_facts hs
  have c := inv.core
  have hpx : p + ps = x := c.adjacent
  obtain ⟨hpre, _, hge, _, hp8, hps16, hps8, _, hphdr, hpftr, hplt⟩ := c.around
  obtain ⟨_, _, _, hxle, hx8, hs16, hs8, _, hhdr, hftr, hlt⟩ :=
    (show Core h ((pre1 ++ [(p, ps, 0)]) ++ (x, s, 1) :: (x + s, ns, 0) :: post0) bk
      by simpa using c).around
  obtain ⟨_, hpost2, _, hnle, _, hns16, hns8, _, hnhdr, hnftr, hnlt⟩ :=
    (show Core h ((pre1 ++ [(p, ps, 0), (x, s, 1)]) ++ (x + s, ns, 0) :: post0) bk
      by simpa using c).around
  have hrange := c.range
  have hbrkle := c.brk_le
  have hcap := c.cap_lt
  have hbrk := c.brk_ge
  have hT31 : ps + ns + s < 2147483648 := by omega
  have hale : adjust size ≤ ps + ns + s := adjust_le_of_fit h0 hs (by omega) hfit
  have hnoF : NoAdjFree (((h.base + 8, 344, 1) :: pre1)
      ++ [(p, ps, 0), (x, s, 1), (x + s, ns, 0)] ++ post0) := by
    have := inv.noadj
    unfold withPrologue at this
    simpa using this
  obtain ⟨_, ub⟩ := NoAdjFree.beside
    (γ := ((h.base + 8, 344, 1) :: pre1) ++ [(p, ps, 0), (x, s, 1)]) (b := (x + s, ns, 0))
    (δ := post0) (by simpa using hnoF) rfl
  have hlp : Listed bk p := (inv.listed _).mpr ⟨ps, by simp⟩
  obtain ⟨h1, bk1, f1, sa1, c1, n1, γ⟩ := remove_node c hlp
  have hln : Listed bk1 (x + s) := (γ _).mpr ⟨(inv.listed _).mpr ⟨ns, by simp⟩, by omega⟩
  obtain ⟨h2, bk2, f2, sa2, c2, n2, δ⟩ := remove_node c1 hln
  have hl2 : ∀ y, Listed bk2 y ↔ ∃ t, (y, t, 0) ∈ pre1 ++ post0 := by
    intro y
    rw [δ y, γ y, inv.listed y]
    constructor
    · rintro ⟨⟨⟨t, ht⟩, hne⟩, hne2⟩
      refine ⟨t, ?_⟩
      simp only [List.mem_append, List.mem_cons, Prod.mk.injEq] at ht ⊢
      rcases ht with e1 | e1 | e1 | e1 | e1
      · exact Or.inl e1
      · exact absurd e1.1 hne
      · exact absurd e1.2.2 (by omega)
      · exact absurd e1.1 hne2
      · exact Or.inr e1
    · rintro ⟨t, ht⟩
      rcases List.mem_append.mp ht with e1 | e1
      · refine ⟨⟨⟨t, by simp [e1]⟩, ?_⟩, ?_⟩
        · have := (hpre _ e1).1
          have := (hpre _ e1).2
          dsimp only at *
          omega
        · have := (hpre _ e1).1
          have := (hpre _ e1).2
          dsimp only at *
          omega
      · have := hpost2 _ e1
        dsimp only at this
        exact ⟨⟨⟨t, by simp [e1]⟩, by omega⟩, by omega⟩
  have c2a : Core h2 (pre1 ++ [(p, ps, 0), (x, s, 1), (x + s, ns, 0)] ++ post0) bk2 := by
    simpa using c2
  have t1x := c1.tagged (x, s, 1) (Core.mem_with (by simp))
  have t2x := c2.tagged (x, s, 1) (Core.mem_with (by simp))
  dsimp only at t1x t2x
  have eN1 : NEXT_BLKP h1.mem x = x + s := NEXT_BLKP_eq t1x.1 hs8 (by omega) (by omega) hlt
  have hsz : realloc_size size (ps + ns) s
      = if ps + ns + s < adjust size + 16 then ps + ns + s else adjust size :=
    realloc_size_eq rfl hT31 hs hfit
  have hsz8' : (if ps + ns + s < adjust size + 16 then ps + ns + s else adjust size) % 8
      = 0 := by
    split <;> omega
  have hpk : PACK (if ps + ns + s < adjust size + 16 then ps + ns + s else adjust size) 1
      = (if ps + ns + s < adjust size + 16 then ps + ns + s else adjust size) + 1 :=
    PACK_eq _ 1 hsz8' (by omega)
  have hszlt : (if ps + ns + s < adjust size + 16 then ps + ns + s else adjust size) + 1
      < 4294967296 := by
    split <;> omega
  have hcopy : GET_SIZE (PUT h2.mem (p - 4)
      ((if ps + ns + s < adjust size + 16 then ps + ns + s else adjust size) + 1)) (x - 4)
      = s := by
    refine GET_SIZE_eq (a := 1) ?_ hs8 (by omega)
    rw [GET_PUT_ne _ _ _ _ (by omega) (by omega) (by omega)]
    exact t2x.1
  obtain ⟨mf1, mf2⟩ := memcpy_facts h2.mem (p := p) (x := x) (n := s)
    (v := (if ps + ns + s < adjust size + 16 then ps + ns + s else adjust size) + 1)
    (T := ps + ns + s) (by omega) (by omega) hszlt (by omega)
  obtain ⟨h3, bk3, f3, sa3, inv3, hk3⟩ := realloc_finish_full (A := p) (T := ps + ns + s)
    (M := adjust size) (K := ps + ns) (s := s) c2a (by simp)
    (by
      have := Chain.triple (x := p) (t := 0) (θ := 1) (φ := 0) hps16 hps8 (by omega)
        hs16 hs8 (by omega) hns16 hns8 (by omega)
      rw [hpx] at this
      rwa [show x + s + ns = p + (ps + ns + s) by omega] at this)
    rfl ha16 ha8 hale hl2
    (by
      rw [sa2.1, sa1.1]
      exact NoAdjFree.replace (γ := (h.base + 8, 344, 1) :: pre1)
        (σ := [(p, ps, 0), (x, s, 1), (x + s, ns, 0)]) (τ := [(p, ps + ns + s, 1)])
        (δ := post0)
        hnoF (List.chain'_singleton _) (by simp)
        (fun u hu v hv hh => by
          simp only [List.head?_cons, Option.mem_def, Option.some.injEq] at hv
          subst hv
          exact absurd hh.2 (by simp))
        (fun u hu v hv hh => by
          simp only [List.getLast?_singleton, Option.mem_def, Option.some.injEq] at hu
          subst hu
          exact absurd hh.1 (by simp)))
    ub
    (μ := memcpy (PUT h2.mem (p - 4)
      ((if ps + ns + s < adjust size + 16 then ps + ns + s else adjust size) + 1)) p x s)
    mf2 mf1
  have hkeep : ∀ i, i < s - 8 → h3.mem (p + i) = h.mem (x + i) := by
    intro i hi1
    have hZ : adjust size
        ≤ (if ps + ns + s < adjust size + 16 then ps + ns + s else adjust size) := by
      split <;> omega
    have k1 := hk3 (p + i) (by omega) (by omega)
    have k2 : memcpy (PUT h2.mem (p - 4)
        ((if ps + ns + s < adjust size + 16 then ps + ns + s else adjust size) + 1)) p x s
          (p + i)
        = PUT h2.mem (p - 4)
          ((if ps + ns + s < adjust size + 16 then ps + ns + s else adjust size) + 1)
            (x + i) := by
      rw [memcpy_inside _ _ _ _ (by omega) (by omega), show p + i - p = i by omega]
    have hla := c.off_links (y := x) (t := s) (u := 1) (by simp)
      (inv.not_listed (y := x) (t := s) (by simp)) (a := x + i) (by omega) (by omega)
    have k3 := remove_frame c hlp (f1.enough 85 (le_refl _)) (x + i) hla
      (Or.inr (Nat.zero_le _))
    have k4 := remove_frame c1 hln (f2.enough 85 (le_refl _)) (x + i)
      (fun hh => hla (LinkArea.of_sub sa1.1 (fun y hy => ((γ y).mp hy).1) hh))
      (Or.inr (Nat.zero_le _))
    exact k1.trans (k2.trans ((PUT_byte _ _ _ (by omega)).trans (k4.trans k3)))
  refine ⟨h3, _, bk3, if adjust size + 16 ≤ ps + ns + s then adjust size else ps + ns + s,
    ?_, ?_, inv3, ?_, ?_, ?_, hkeep⟩
  · refine Fueled.bind (f1.mono (by omega)) ?_
    simp only [eN1]
    refine Fueled.bind (f2.mono (by omega)) ?_
    simp only [hsz, hpk, hcopy]
    refine f3.mono ?_
    omega
  · obtain ⟨a1, a2, a3, a4⟩ := sa1
    obtain ⟨b1, b2, b3, b4⟩ := sa2
    obtain ⟨d1, d2, d3, d4⟩ := sa3
    exact ⟨d1.trans (b1.trans a1), d2.trans (b2.trans a2), d3.trans (b3.trans a3),
      d4.trans (b4.trans a4)⟩
  · by_cases hsp : adjust size + 16 ≤ ps + ns + s
    · simp only [hsp, if_true]; simp
    · simp only [hsp, if_false]; simp
  · split <;> omega
  · intro d hd
    obtain ⟨d1, d2, d3⟩ := d
    dsimp only at hd
    subst hd
    by_cases hsp : adjust size + 16 ≤ ps + ns + s
    · simp only [hsp, if_true, List.mem_append, List.mem_cons, List.mem_singleton,
        Prod.mk.injEq, List.not_mem_nil, or_false]
      constructor
      · rintro ((e | e | e) | e)
        · exact Or.inl e
        · exact Or.inr (Or.inl e)
        · exact absurd e.2.2 (by omega)
        · exact Or.inr (Or.inr e)
      · rintro (e | e | e)
        · exact Or.inl (Or.inl e)
        · exact Or.inl (Or.inr (Or.inl e))
        · exact Or.inr e
    · simp only [hsp, if_false, List.mem_append, List.mem_cons, List.mem_singleton,
        Prod.mk.injEq, List.not_mem_nil, or_false]
      constructor
      · rintro ((e | e) | e)
        · exact Or.inl e
        · exact Or.inr (Or.inl e)
        · exact Or.inr (Or.inr e)
      · rintro (e | e | e)
        · exact Or.inl (Or.inl e)
        · exact Or.inl (Or.inr e)
        · exact Or.inr e

/-- Growth into a free predecessor and a free successor: both are unlinked,
    the payload moves to the predecessor, and the rest becomes a linked free
    block when it is large enough. -/
theorem grow_both_spec {h : Heap} {pre1 post0 : List Blk} {bk : Nat → List Nat}
    {p ps x s ns size : Nat}
    (inv : HeapInv h (pre1 ++ (p, ps, 0) :: (x, s, 1) :: (x + s, ns, 0) :: post0) bk)
    (h0 : size ≠ 0) (hs : size + 15 < 4294967296) (hch : s < size + 8)
    (hfit : size + 8 ≤ ps + ns + s) :
    ∃ h3 bs1 bk1 ζ,
      Fueled (fun fuel => (remove_free_list fuel h p).bind fun h1 =>
        (remove_free_list fuel h1 (NEXT_BLKP h1.mem x)).bind fun h2 =>
        realloc_finish fuel
          (withMem h2 (memcpy (PUT h2.mem (p - 4) (PACK (realloc_size size (ps + ns) s) 1)) p x
            (GET_SIZE (PUT h2.mem (p - 4) (PACK (realloc_size size (ps + ns) s) 1)) (x - 4))))
          p (realloc_size size (ps + ns) s) (ps + ns) s) (h.numFree.toNat + 90) (p, h3)
      ∧ SameArena h h3 ∧ HeapInv h3 bs1 bk1 ∧ (p, ζ, 1) ∈ bs1 ∧ adjust size ≤ ζ
      ∧ (∀ d : Blk, d.2.2 = 1 → (d ∈ bs1 ↔ d ∈ pre1 ∨ d = (p, ζ, 1) ∨ d ∈ post0)) := by
  obtain ⟨h3, bs1, bk1, ζ, f1, sa1, inv1, hm1, hsz, hd1, _⟩ :=
    grow_both_full inv h0 hs hch hfit
  exact ⟨h3, bs1, bk1, ζ, f1, sa1, inv1, hm1, hsz, hd1⟩

/-! ## `mm_realloc`: allocate, copy, free -/

/-- Copying into the payload of an allocated block keeps the invariant. -/
theorem HeapInv.copy_into {h : Heap} {bs : List Blk} {bk : Nat → List Nat}
    (inv : HeapInv h bs bk) {q ζ N n : Nat} (hm : (q, ζ, 1) ∈ bs) (hn : n + 8 ≤ ζ) :
    HeapInv (withMem h (memcpy h.mem q N n)) bs bk := by
  obtain ⟨pre, post, e⟩ := List.append_of_mem hm
  subst e
  have c := inv.core
  obtain ⟨hpre, hpost, hge, hxle, hx8, hs16, hs8, _, hhdr, hftr, hlt⟩ := c.around
  obtain ⟨hl, hout⟩ := inv.nodes_out
  have c0 : Core h (pre ++ [(q, ζ, 1)] ++ post) bk := by simpa using c
  have c1 := Core.retag (τ := [(q, ζ, 1)]) (μ := memcpy h.mem q N n) c0 (by simp)
    (Chain.single (x := q) hs16 hs8 (by omega)) (Chain.single hs16 hs8 (by omega))
    (fun a ha har => GET_memcpy_other _ _ _ _ _ (by omega))
    (by
      intro b hb
      simp only [List.mem_singleton] at hb
      subst hb
      exact ⟨by
        show GET _ (q - 4) = _
        rw [GET_memcpy_other _ _ _ _ _ (by omega)]; exact hhdr, by
        show GET _ (q + ζ - 8) = _
        rw [GET_memcpy_other _ _ _ _ _ (by omega)]; exact hftr⟩)
    (fun i hi y hy => Or.inl (hout i hi y hy))
  exact ⟨by simpa [withMem] using c1, inv.noadj, inv.listed⟩

/-- The allocate-copy-free branch: when `mm_malloc` finds room the payload is
    copied to the new block and the old one is freed, and the new payload
    starts with the bytes of the old one; when it does not, every result of the
    branch is `NULL`. -/
theorem realloc_move_full {h : Heap} {bs : List Blk} {bk : Nat → List Nat} {x s size : Nat}
    (inv : HeapInv h bs bk) (hm : (x, s, 1) ∈ bs) (h0 : size ≠ 0)
    (hs : size + 15 < 4294967296) :
    (∃ n q h3 bs1 bk1 ζ, q ≠ 0
      ∧ Fueled (fun fuel => (mm_malloc fuel h size).bind fun r =>
          (mm_free fuel (withMem r.2 (memcpy r.2.mem r.1 x
            (if size < GET_SIZE r.2.mem (HDRP x) then size else GET_SIZE r.2.mem (HDRP x))))
            x).map fun h1 => (r.1, h1)) n (q, h3)
      ∧ HeapInv h3 bs1 bk1 ∧ (q, ζ, 1) ∈ bs1 ∧ adjust size ≤ ζ ∧ (∀ t, (q, t, 1) ∉ bs)
      ∧ (∀ d : Blk, d.2.2 = 1 → (d ∈ bs1 ↔ d = (q, ζ, 1) ∨ (d ∈ bs ∧ d.1 ≠ x)))
      ∧ h3.base = h.base ∧ h3.cap = h.cap
      ∧ (∀ i, i < s - 8 → i < size → h3.mem (q + i) = h.mem (x + i)))
    ∨ ((find_fit h (adjust size) = 0
          ∧ (mem_sbrk h (MAX (adjust size) CHUNKSIZE)).1 = 4294967295)
      ∧ ∀ fuel res, ((mm_malloc fuel h size).bind fun r =>
          (mm_free fuel (withMem r.2 (memcpy r.2.mem r.1 x
            (if size < GET_SIZE r.2.mem (HDRP x) then size else GET_SIZE r.2.mem (HDRP x))))
            x).map fun h1 => (r.1, h1)) = some res → res.1 = 0) := by
  obtain ⟨ha16, ha8, hsz8, halt, _⟩ := adjust_facts hs
  obtain ⟨n, q, h1, fm, hiff, _, hq⟩ := mm_malloc_full inv h0 hs
  by_cases hq0 : q = 0
  · right
    subst hq0
    refine ⟨hiff.mp rfl, ?_⟩
    intro fuel res hres
    rcases fm.only fuel with e | e
    · rw [e, Option.some_bind] at hres
      obtain ⟨h4, _, e4⟩ := Option.map_eq_some'.mp hres
      rw [← e4]
    · rw [e, Option.none_bind] at hres
      cases hres
  · left
    obtain ⟨bs1, bk1, ζ, inv1, hm1, hsz, hnew, hd1, eb, ec, _, hk1⟩ := hq hq0
    have hx1 : (x, s, 1) ∈ bs1 := (hd1 (x, s, 1) rfl).mpr (Or.inr hm)
    have hqx : q ≠ x := fun e => hnew s (e ▸ hm)
    obtain ⟨_, _, _, hxs8, _, hx8, hxhdr, _⟩ := inv1.core.blk (Core.mem_with hx1)
    have hxge := inv1.core.blk_ge hx1
    have hxlt := (inv1.core.size_lt (Core.mem_with hx1)).2
    dsimp only at hxs8 hx8 hxhdr hxge hxlt
    have eS : GET_SIZE h1.mem (HDRP x) = s := by
      rw [HDRP_eq (by omega) (by omega)]
      exact GET_SIZE_eq hxhdr hxs8 (by omega)
    have inv2 := inv1.copy_into (N := x) (n := if size < s then size else s) hm1
      (by split <;> omega)
    obtain ⟨h3, bs3, bk3, f3, sa3, inv3, hd3, hk3, _⟩ := mm_free_full inv2 hx1
    have hkeep : ∀ i, i < s - 8 → i < size → h3.mem (q + i) = h.mem (x + i) := by
      intro i hi1 hi2
      have k1 := hk3 q ζ hm1 hqx (q + i) (by omega) (by omega)
      have k2 : memcpy h1.mem q x (if size < s then size else s) (q + i) = h1.mem (x + i) := by
        rw [memcpy_inside _ _ _ _ (by omega) (by split <;> omega),
          show q + i - q = i by omega]
      have k3 := hk1 x s hm (x + i) (by omega) (by omega)
      exact k1.trans (k2.trans k3)
    refine ⟨max n ((withMem h1 (memcpy h1.mem q x (if size < s then size else s))).numFree.toNat
      + 90), q, h3, bs3, bk3, ζ, hq0, Fueled.bind_max fm ?_, inv3, ?_, hsz, hnew, ?_,
      sa3.1.trans eb, sa3.2.2.1.trans ec, hkeep⟩
    · simp only [eS]
      exact f3.map
    · exact (hd3 (q, ζ, 1) rfl).mpr ⟨hm1, hqx⟩
    · intro d hd
      rw [hd3 d hd, hd1 d hd]
      constructor
      · rintro ⟨e | e, hne⟩
        · exact Or.inl e
        · exact Or.inr ⟨e, hne⟩
      · rintro (e | ⟨e, hne⟩)
        · exact ⟨Or.inl e, by rw [e]; exact hqx⟩
        · exact ⟨Or.inr e, hne⟩

/-- The allocate-copy-free branch: when `mm_malloc` finds room the payload is
    copied to the new block and the old one is freed; when it does not, every
    result of the branch is `NULL`. -/
theorem realloc_move_spec {h : Heap} {bs : List Blk} {bk : Nat → List Nat} {x s size : Nat}
    (inv : HeapInv h bs bk) (hm : (x, s, 1) ∈ bs) (h0 : size ≠ 0)
    (hs : size + 15 < 4294967296) :
    (∃ n q h3 bs1 bk1 ζ, q ≠ 0
      ∧ Fueled (fun fuel => (mm_malloc fuel h size).bind fun r =>
          (mm_free fuel (withMem r.2 (memcpy r.2.mem r.1 x
            (if size < GET_SIZE r.2.mem (HDRP x) then size else GET_SIZE r.2.mem (HDRP x))))
            x).map fun h1 => (r.1, h1)) n (q, h3)
      ∧ HeapInv h3 bs1 bk1 ∧ (q, ζ, 1) ∈ bs1 ∧ adjust size ≤ ζ ∧ (∀ t, (q, t, 1) ∉ bs)
      ∧ (∀ d : Blk, d.2.2 = 1 → (d ∈ bs1 ↔ d = (q, ζ, 1) ∨ (d ∈ bs ∧ d.1 ≠ x)))
      ∧ h3.base = h.base ∧ h3.cap = h.cap)
    ∨ (∀ fuel res, ((mm_malloc fuel h size).bind fun r =>
          (mm_free fuel (withMem r.2 (memcpy r.2.mem r.1 x
            (if size < GET_SIZE r.2.mem (HDRP x) then size else GET_SIZE r.2.mem (HDRP x))))
            x).map fun h1 => (r.1, h1)) = some res → res.1 = 0) := by
  rcases realloc_move_full inv hm h0 hs with
    ⟨n, q, h3, bs1, bk1, ζ, hq, f1, inv1, hm1, hsz, hnew, hd1, eb, ec, _⟩ | hnull
  · exact Or.inl ⟨n, q, h3, bs1, bk1, ζ, hq, f1, inv1, hm1, hsz, hnew, hd1, eb, ec⟩
  · exact Or.inr hnull.2

/-! ## `mm_realloc` -/

/-- The allocated blocks after the block `x` and free neighbours of it have
    been replaced by an allocated block at `q`. -/
theorem alloc_merge {pre post A B : List Blk} {x s q ζ : Nat} {h : Heap} {bk : Nat → List Nat}
    (c : Core h (pre ++ (x, s, 1) :: post) bk)
    (hA : ∀ d : Blk, d.2.2 = 1 → (d ∈ A ↔ d ∈ pre))
    (hB : ∀ d : Blk, d.2.2 = 1 → (d ∈ B ↔ d ∈ post)) (bs1 : List Blk)
    (h1 : ∀ d : Blk, d.2.2 = 1 → (d ∈ bs1 ↔ d ∈ A ∨ d = (q, ζ, 1) ∨ d ∈ B)) :
    ∀ d : Blk, d.2.2 = 1 →
      (d ∈ bs1 ↔ d = (q, ζ, 1) ∨ (d ∈ pre ++ (x, s, 1) :: post ∧ d.1 ≠ x)) := by
  obtain ⟨hpre, hpost, _, _, _, hs16, _⟩ := c.around
  intro d hd
  rw [h1 d hd, mem_mid, hA d hd, hB d hd]
  constructor
  · rintro (e | e | e)
    · refine Or.inr ⟨Or.inl e, ?_⟩
      have := hpre _ e
      omega
    · exact Or.inl e
    · refine Or.inr ⟨Or.inr (Or.inr e), ?_⟩
      have := hpost _ e
      omega
  · rintro (e | ⟨e | e | e, hne⟩)
    · exact Or.inr (Or.inl e)
    · exact Or.inl e
    · subst e; exact absurd rfl hne
    · exact Or.inr (Or.inr e)

theorem alloc_mem_concat_free {l : List Blk} {p ps : Nat} (d : Blk) (hd : d.2.2 = 1) :
    d ∈ l ↔ d ∈ l ++ [(p, ps, 0)] := by
  obtain ⟨d1, d2, d3⟩ := d
  dsimp only at hd
  subst hd
  simp

theorem alloc_mem_cons_free {l : List Blk} {p ps : Nat} (d : Blk) (hd : d.2.2 = 1) :
    d ∈ l ↔ d ∈ (p, ps, 0) :: l := by
  obtain ⟨d1, d2, d3⟩ := d
  dsimp only at hd
  subst hd
  simp

/-- `mm_realloc(x, size)` on an allocated block with a request whose rounding
    does not wrap: either the call returns a block of at least the adjusted
    size, the other allocated blocks are untouched, the invariant holds and the
    new payload starts with the first `min(s - 8, size)` bytes of the old one,
    or (when the allocate-copy-free branch finds no room) every result is
    `NULL`. -/
theorem mm_realloc_full {h : Heap} {bs : List Blk} {bk : Nat → List Nat} {x s size : Nat}
    (inv : HeapInv h bs bk) (hm : (x, s, 1) ∈ bs) (h0 : size ≠ 0)
    (hs : size + 15 < 4294967296) :
    (∃ n q h1 bs1 bk1 ζ, q ≠ 0 ∧ Fueled (fun fuel => mm_realloc fuel h x size) n (q, h1)
        ∧ HeapInv h1 bs1 bk1 ∧ (q, ζ, 1) ∈ bs1 ∧ adjust size ≤ ζ
        ∧ (q ≠ x → ∀ t, (q, t, 1) ∉ bs)
        ∧ (∀ d : Blk, d.2.2 = 1 → (d ∈ bs1 ↔ d = (q, ζ, 1) ∨ (d ∈ bs ∧ d.1 ≠ x)))
        ∧ h1.base = h.base ∧ h1.cap = h.cap
        ∧ (∀ i, i < s - 8 → i < size → h1.mem (q + i) = h.mem (x + i)))
    ∨ ((find_fit h (adjust size) = 0
          ∧ (mem_sbrk h (MAX (adjust size) CHUNKSIZE)).1 = 4294967295)
      ∧ ∀ fuel res, mm_realloc fuel h x size = some res → res.1 = 0) := by
  obtain ⟨pre, post, e⟩ := List.append_of_mem hm
  subst e
  have c := inv.core
  obtain ⟨hpre, hpost, hge, hxle, hx8, hs16, hs8, _, hhdr, hftr, hlt⟩ := c.around
  have hrange := c.range
  have hbrkle := c.brk_le
  have hcap := c.cap_lt
  have hx0 : x ≠ 0 := by omega
  by_cases hch : size + 8 ≤ s
  · -- the request fits the block
    left
    obtain ⟨h1, bs1, bk1, ζ, f1, sa1, inv1, hm1, hsz, hd1, hk⟩ :=
      realloc_shrink_full inv h0 hs hch
    exact ⟨_, x, h1, bs1, bk1, ζ, hx0, f1, inv1, hm1, hsz, fun hh => absurd rfl hh,
      alloc_replace c bs1 hd1, sa1.1, sa1.2.2.1, fun i _ hi => hk i hi⟩
  · -- the block has to grow
    obtain ⟨p, ps, pa, ns, na, ⟨r1, r2, r3, r4, r5, r6⟩, ⟨r7, r8, r9, r10, r11, r12⟩,
      ⟨hpx, hps16, hps8, hp8, hpge, hns8, hnle⟩, hpf, hpa, hnf, hna⟩ := realloc_reads c
    have e3 : add32 size DSIZE = size + 8 := add32_eq (by unfold DSIZE; omega)
    have k1 : ¬ (if s < size + 8 then 1 else 0) = 0 := by
      rw [if_pos (by omega)]; omega
    have k2 : ¬ ((if s < size + 8 then 1 else 0) = 0 ∧ sub32 (sub32 s size) DSIZE > 2 * DSIZE
        ∧ sub32 s (adjust size) > 2 * DSIZE) := fun hh => k1 hh.1
    have a1 : add32 ps ns = ps + ns := add32_eq (by omega)
    have a2 : add32 (ps + ns) s = ps + ns + s := add32_eq (by omega)
    have a3 : add32 ps s = ps + s := add32_eq (by omega)
    have a4 : add32 ns s = ns + s := add32_eq (by omega)
    by_cases hb : na = 0 ∧ pa = 0 ∧ ps + ns + s ≥ size + 8
    · -- both neighbours
      left
      obtain ⟨pre1, hpre1⟩ := hpf hb.2.1
      obtain ⟨post0, hpost0, _, r13, r14⟩ := hnf hb.1
      subst hpre1
      subst hpost0
      obtain ⟨h3, bs1, bk1, ζ, f3, sa3, inv3, hm3, hsz, hd3, hk⟩ :=
        grow_both_full (by simpa using inv) h0 hs (by omega) hb.2.2
      refine ⟨h.numFree.toNat + 90, p, h3, bs1, bk1, ζ, by omega, ?_, inv3, hm3, hsz, ?_, ?_,
        sa3.1, sa3.2.2.1, fun i hi _ => hk i hi⟩
      · rw [show (fun fuel => mm_realloc fuel h x size) = _ from funext fun fuel => by
          unfold mm_realloc
          simp only [r1, r2, r3, r4, r5, r6, r7, r8, r9, r10, r11, r12, r13, r14, e3, h0, hx0,
            if_false, a1, a2]
          rw [if_neg k2, if_neg k1, if_pos hb]]
        exact f3
      · intro _ t ht
        have := Chain.unique c.chain (Core.mem_with (h := h) ht)
          (Core.mem_with (h := h) (b := (p, ps, 0)) (by simp))
        omega
      · exact alloc_merge c alloc_mem_concat_free alloc_mem_cons_free bs1 hd3
    · by_cases hp : pa = 0 ∧ ps + s ≥ size + 8
      · -- the predecessor
        left
        have hna0 : na ≠ 0 := fun hh => hb ⟨hh, hp.1, by omega⟩
        obtain ⟨pre1, hpre1⟩ := hpf hp.1
        subst hpre1
        obtain ⟨h3, bs1, bk1, ζ, f3, sa3, inv3, hm3, hsz, hd3, hk⟩ :=
          grow_prev_full (by simpa using inv) (hna hna0) h0 hs (by omega) hp.2
        refine ⟨h.numFree.toNat + 90, p, h3, bs1, bk1, ζ, by omega, ?_, inv3, hm3, hsz, ?_, ?_,
          sa3.1, sa3.2.2.1, fun i hi _ => hk i hi⟩
        · rw [show (fun fuel => mm_realloc fuel h x size) = _ from funext fun fuel => by
            unfold mm_realloc
            simp only [r1, r2, r3, r4, r5, r6, r7, r8, r9, r10, r11, r12, e3, h0, hx0,
              if_false, a1, a2, a3]
            rw [if_neg k2, if_neg k1, if_neg hb, if_pos hp]]
          exact f3
        · intro _ t ht
          have := Chain.unique c.chain (Core.mem_with (h := h) ht)
            (Core.mem_with (h := h) (b := (p, ps, 0)) (by simp))
          omega
        · exact alloc_merge c alloc_mem_concat_free (fun _ _ => Iff.rfl) bs1 hd3
      · by_cases hn : na = 0 ∧ ns + s ≥ size + 8
        · -- the successor
          left
          obtain ⟨post0, hpost0, _, r13, r14⟩ := hnf hn.1
          subst hpost0
          obtain ⟨h3, bs1, bk1, ζ, f3, sa3, inv3, hm3, hsz, hd3, hk⟩ :=
            grow_next_full inv h0 hs hn.2
          refine ⟨h.numFree.toNat + 90, x, h3, bs1, bk1, ζ, hx0, ?_, inv3, hm3, hsz,
            fun hh => absurd rfl hh, ?_, sa3.1, sa3.2.2.1, hk⟩
          · rw [show (fun fuel => mm_realloc fuel h x size) = _ from funext fun fuel => by
              unfold mm_realloc
              simp only [r1, r2, r3, r4, r5, r6, r7, r8, r9, r10, r11, r12, r13, r14, e3, h0,
                hx0, if_false, a1, a2, a3, a4]
              rw [if_neg k2, if_neg k1, if_neg hb, if_neg hp, if_pos hn]]
            exact f3
          · exact alloc_merge c (fun _ _ => Iff.rfl) alloc_mem_cons_free bs1 hd3
        · -- a new block
          have hev : ∀ fuel, mm_realloc fuel h x size = (mm_malloc fuel h size).bind fun r =>
              (mm_free fuel (withMem r.2 (memcpy r.2.mem r.1 x
                (if size < GET_SIZE r.2.mem (HDRP x) then size
                  else GET_SIZE r.2.mem (HDRP x)))) x).map fun h1 => (r.1, h1) := by
            intro fuel
            have r12a : GET_SIZE h.mem (HDRP x) = s := by rw [r11]; exact r12
            unfold mm_realloc
            simp only [r1, r2, r3, r4, r5, r6, r7, r8, r9, r10, r12a, e3, h0, hx0,
              if_false, a1, a2, a3, a4]
            rw [if_neg k2, if_neg k1, if_neg hb, if_neg hp, if_neg hn]
            rfl
          rcases realloc_move_full inv (List.mem_append_right _ (List.mem_cons_self _ _)) h0 hs
            with ⟨n, q, h3, bs1, bk1, ζ, hq0, f3, inv3, hm3, hsz, hnew, hd3, eb, ec, hk⟩
              | ⟨hoom, hnull⟩
          · left
            refine ⟨n, q, h3, bs1, bk1, ζ, hq0, ?_, inv3, hm3, hsz, fun _ => hnew, hd3, eb, ec,
              hk⟩
            rw [show (fun fuel => mm_realloc fuel h x size) = _ from funext hev]
            exact f3
          · right
            refine ⟨hoom, ?_⟩
            intro fuel res hres
            rw [hev fuel] at hres
            exact hnull fuel res hres

/-- `mm_realloc(x, size)` on an allocated block with a request whose rounding
    does not wrap: either the call returns a block of at least the adjusted
    size, the other allocated blocks are untouched and the invariant holds, or
    (when the allocate-copy-free branch finds no room) every result is `NULL`. -/
theorem mm_realloc_spec {h : Heap} {bs : List Blk} {bk : Nat → List Nat} {x s size : Nat}
    (inv : HeapInv h bs bk) (hm : (x, s, 1) ∈ bs) (h0 : size ≠ 0)
    (hs : size + 15 < 4294967296) :
    (∃ n q h1 bs1 bk1 ζ, q ≠ 0 ∧ Fueled (fun fuel => mm_realloc fuel h x size) n (q, h1)
        ∧ HeapInv h1 bs1 bk1 ∧ (q, ζ, 1) ∈ bs1 ∧ adjust size ≤ ζ
        ∧ (q ≠ x → ∀ t, (q, t, 1) ∉ bs)
        ∧ (∀ d : Blk, d.2.2 = 1 → (d ∈ bs1 ↔ d = (q, ζ, 1) ∨ (d ∈ bs ∧ d.1 ≠ x)))
        ∧ h1.base = h.base ∧ h1.cap = h.cap)
    ∨ (∀ fuel res, mm_realloc fuel h x size = some res → res.1 = 0) := by
  rcases mm_realloc_full inv hm h0 hs with
    ⟨n, q, h1, bs1, bk1, ζ, hq, f1, inv1, hm1, hsz, hnew, hd1, eb, ec, _⟩ | hnull
  · exact Or.inl ⟨n, q, h1, bs1, bk1, ζ, hq, f1, inv1, hm1, hsz, hnew, hd1, eb, ec⟩
  · exact Or.inr hnull.2

/-! ## The invariant holds along every run -/

theorem step_malloc (fuel : Nat) (r : Run) (size : Nat) :
    step fuel r (.malloc size) = (mm_malloc fuel r.heap size).map fun q =>
      { heap := q.2, live := if q.1 = 0 then r.live else q.1 :: r.live, ret := q.1 } := rfl

theorem step_free (fuel : Nat) (r : Run) (p : Nat) :
    step fuel r (.free p) = if p ∈ r.live then
      (mm_free fuel r.heap p).map fun h => { heap := h, live := r.live.erase p, ret := 0 }
    else none := rfl

theorem step_realloc (fuel : Nat) (r : Run) (p size : Nat) :
    step fuel r (.realloc p size) = if p ∈ r.live then
      (mm_realloc fuel r.heap p size).map fun q =>
        { heap := q.2,
          live := if size = 0 then r.live.erase p
                  else if q.1 = 0 then r.live else q.1 :: r.live.erase p,
          ret := q.1 }
    else none := rfl

theorem mm_malloc_zero (fuel : Nat) (h : Heap) : mm_malloc fuel h 0 = some (0, h) := by
  unfold mm_malloc
  rw [if_pos rfl]

theorem mm_realloc_zero (fuel : Nat) (h : Heap) (p : Nat) :
    mm_realloc fuel h p 0 = (mm_free fuel h p).map fun h1 => (0, h1) := by
  unfold mm_realloc
  simp only [if_true]

/-- A call of `mm_malloc` within the contract keeps the invariant of a run. -/
theorem RunInv.malloc {fuel : Nat} {r r1 : Run} {size : Nat} (hr : RunInv r)
    (hc : size + 15 < 4294967296) (hstep : step fuel r (.malloc size) = some r1) :
    RunInv r1 := by
  obtain ⟨bs, bk, inv, hnd, hlive⟩ := hr
  rw [step_malloc] at hstep
  obtain ⟨qq, hq, e1⟩ := Option.map_eq_some'.mp hstep
  subst e1
  by_cases h0 : size = 0
  · subst h0
    rw [mm_malloc_zero] at hq
    cases hq
    exact ⟨bs, bk, inv, hnd, hlive⟩
  · obtain ⟨n, q, h1, fm, _, hnull, hok⟩ := mm_malloc_spec inv h0 hc
    have := fm.eq_of_some hq
    subst this
    by_cases hq0 : q = 0
    · have := hnull hq0
      subst this
      subst hq0
      exact ⟨bs, bk, inv, hnd, hlive⟩
    · obtain ⟨bs1, bk1, ζ, inv1, hm1, _, hnew, hd1, _⟩ := hok hq0
      refine ⟨bs1, bk1, inv1, ?_, ?_⟩
      · show (if q = 0 then r.live else q :: r.live).Nodup
        rw [if_neg hq0]
        refine List.nodup_cons.mpr ⟨fun hin => ?_, hnd⟩
        obtain ⟨t, ht⟩ := hlive q hin
        exact hnew t ht
      · intro p hp
        have hp1 : p ∈ (if q = 0 then r.live else q :: r.live) := hp
        rw [if_neg hq0] at hp1
        rcases List.mem_cons.mp hp1 with e | e
        · subst e; exact ⟨ζ, hm1⟩
        · obtain ⟨t, ht⟩ := hlive p e
          exact ⟨t, (hd1 (p, t, 1) rfl).mpr (Or.inr ht)⟩

/-- A call of `mm_free` on a live pointer keeps the invariant of a run. -/
theorem RunInv.free {fuel : Nat} {r r1 : Run} {p : Nat} (hr : RunInv r)
    (hstep : step fuel r (.free p) = some r1) : RunInv r1 := by
  obtain ⟨bs, bk, inv, hnd, hlive⟩ := hr
  rw [step_free] at hstep
  by_cases hp : p ∈ r.live
  · rw [if_pos hp] at hstep
    obtain ⟨h2, hq, e1⟩ := Option.map_eq_some'.mp hstep
    subst e1
    obtain ⟨s, hm⟩ := hlive p hp
    obtain ⟨h1, bs1, bk1, f1, _, inv1, hd1⟩ := mm_free_spec inv hm
    have := f1.eq_of_some hq
    subst this
    refine ⟨bs1, bk1, inv1, hnd.erase p, ?_⟩
    intro p1 hp1
    have hp2 : p1 ∈ r.live.erase p := hp1
    obtain ⟨hne, hin⟩ := (List.Nodup.mem_erase_iff hnd).mp hp2
    obtain ⟨t, ht⟩ := hlive p1 hin
    exact ⟨t, (hd1 (p1, t, 1) rfl).mpr ⟨ht, hne⟩⟩
  · rw [if_neg hp] at hstep
    cases hstep

/-- A call of `mm_realloc` on a live pointer, within the contract and not
    ending in a copy to `NULL`, keeps the invariant of a run. -/
theorem RunInv.realloc {fuel : Nat} {r r1 : Run} {p size : Nat} (hr : RunInv r)
    (hc : size + 15 < 4294967296) (hstep : step fuel r (.realloc p size) = some r1)
    (hnn : ¬ (size ≠ 0 ∧ r1.ret = 0)) : RunInv r1 := by
  obtain ⟨bs, bk, inv, hnd, hlive⟩ := hr
  rw [step_realloc] at hstep
  by_cases hp : p ∈ r.live
  · rw [if_pos hp] at hstep
    obtain ⟨qq, hq, e1⟩ := Option.map_eq_some'.mp hstep
    subst e1
    obtain ⟨s, hm⟩ := hlive p hp
    by_cases h0 : size = 0
    · subst h0
      rw [mm_realloc_zero] at hq
      obtain ⟨h2, hq2, e2⟩ := Option.map_eq_some'.mp hq
      subst e2
      obtain ⟨h1, bs1, bk1, f1, _, inv1, hd1⟩ := mm_free_spec inv hm
      have := f1.eq_of_some hq2
      subst this
      refine ⟨bs1, bk1, inv1, ?_, ?_⟩
      · dsimp only
        rw [if_pos rfl]
        exact hnd.erase p
      · intro p1 hp1
        have hp2 := hp1
        dsimp only at hp2
        rw [if_pos rfl] at hp2
        obtain ⟨hne, hin⟩ := (List.Nodup.mem_erase_iff hnd).mp hp2
        obtain ⟨t, ht⟩ := hlive p1 hin
        exact ⟨t, (hd1 (p1, t, 1) rfl).mpr ⟨ht, hne⟩⟩
    · rcases mm_realloc_spec inv hm h0 hc with
        ⟨n, q, h1, bs1, bk1, ζ, hq0, f1, inv1, hm1, _, hnew, hd1, _⟩ | hnull
      · have := f1.eq_of_some hq
        subst this
        refine ⟨bs1, bk1, inv1, ?_, ?_⟩
        · show (if size = 0 then r.live.erase p
            else if q = 0 then r.live else q :: r.live.erase p).Nodup
          rw [if_neg h0, if_neg hq0]
          refine List.nodup_cons.mpr ⟨fun hin => ?_, hnd.erase p⟩
          obtain ⟨hne, hin1⟩ := (List.Nodup.mem_erase_iff hnd).mp hin
          obtain ⟨t, ht⟩ := hlive q hin1
          exact hnew hne t ht
        · intro p1 hp1
          have hp2 : p1 ∈ (if size = 0 then r.live.erase p
            else if q = 0 then r.live else q :: r.live.erase p) := hp1
          rw [if_neg h0, if_neg hq0] at hp2
          rcases List.mem_cons.mp hp2 with e | e
          · subst e; exact ⟨ζ, hm1⟩
          · obtain ⟨hne, hin⟩ := (List.Nodup.mem_erase_iff hnd).mp e
            obtain ⟨t, ht⟩ := hlive p1 hin
            exact ⟨t, (hd1 (p1, t, 1) rfl).mpr (Or.inr ⟨ht, hne⟩)⟩
      · exact absurd ⟨h0, hnull fuel qq hq⟩ hnn
  · rw [if_neg hp] at hstep
    cases hstep

/-- Every run satisfies the invariant. -/
theorem Reach.inv {r : Run} (hr : Reach r) : RunInv r := by
  induction hr with
  | init fuel m base cap h hb hrange hcap hinit =>
    obtain ⟨bs, bk, inv, _⟩ := mm_init_spec (M := boot m base cap) rfl hb hrange hcap hinit
    exact ⟨bs, bk, inv, List.nodup_nil, fun p hp => absurd hp (List.not_mem_nil p)⟩
  | call fuel r r1 c _ hc hstep hnn ih =>
    cases c with
    | malloc size => exact ih.malloc hc hstep
    | free p => exact ih.free hstep
    | realloc p size => exact ih.realloc hc hstep hnn

/-! ## The walks over the arena and over the bucket lists -/

/-- Walking by header sizes over blocks that tile the addresses up to an
    epilogue header meets exactly these blocks and then the epilogue. -/
theorem blocks_chain {m : Mem} : ∀ (l : List Blk) (p e : Nat), Chain p l e → Tagged m l →
    GET m (e - 4) = 0 + 1 → 4 ≤ p → e < 4294967296 →
    blocks m (l.length + 1) p = l ++ [(e, 0, 1)]
  | [], p, e, hc, _, hep, h4, hlt => by
    have hpe : p = e := hc
    subst hpe
    have e1 : HDRP p = p - 4 := HDRP_eq h4 hlt
    have e2 : GET_SIZE m (p - 4) = 0 := GET_SIZE_eq hep (by omega) (by omega)
    have e3 : GET_ALLOC m (p - 4) = 1 := GET_ALLOC_eq hep (by omega) (by omega)
    show blocks m 1 p = [(p, 0, 1)]
    unfold blocks
    rw [e1, e2, e3, if_pos rfl]
  | b :: l, p, e, hc, ht, hep, h4, hlt => by
    obtain ⟨h1, h2, h3, h4a, h5⟩ := hc
    have hle := Chain.le h5
    obtain ⟨b1, b2, b3⟩ := b
    dsimp only at h1 h2 h3 h4a h5 hle
    subst h1
    have htag := (ht (b1, b2, b3) (List.mem_cons_self _ _)).1
    dsimp only at htag
    have e1 : HDRP b1 = b1 - 4 := HDRP_eq h4 (by omega)
    have e2 : GET_SIZE m (b1 - 4) = b2 := GET_SIZE_eq htag h3 h4a
    have e3 : GET_ALLOC m (b1 - 4) = b3 := GET_ALLOC_eq htag h3 h4a
    have e4 : NEXT_BLKP m b1 = b1 + b2 := NEXT_BLKP_eq htag h3 h4a h4 (by omega)
    have ih := blocks_chain l (b1 + b2) e h5 (fun d hd => ht d (List.mem_cons_of_mem _ hd)) hep
      (by omega) hlt
    show blocks m (l.length + 1 + 1) b1 = (b1, b2, b3) :: (l ++ [(e, 0, 1)])
    unfold blocks
    rw [e1, e2, e3, e4, if_neg (by omega), ih]

/-- The walk from the first block of a heap that satisfies the structural
    invariant lists its blocks and then the epilogue header. -/
theorem Core.walk {h : Heap} {bs : List Blk} {bk : Nat → List Nat} (c : Core h bs bk) :
    first_block h = h.base + 352
    ∧ blocks h.mem (bs.length + 1) (first_block h) = bs ++ [(h.base + h.brk, 0, 1)] := by
  have hr := c.range
  have hb := c.brk_le
  have hch := c.chain
  have hp := (c.tagged (h.base + 8, 344, 1) (List.mem_cons_self _ _)).1
  dsimp only at hp
  have e1 : first_block h = h.base + 352 := by
    unfold first_block
    rw [c.listp, NEXT_BLKP_eq hp (by omega) (by omega) (by omega) (by have := c.brk_ge; omega)]
  obtain ⟨_, _, _, _, h5⟩ := hch
  dsimp only at h5
  refine ⟨e1, ?_⟩
  rw [e1]
  exact blocks_chain bs _ _ h5 (fun d hd => c.tagged d (List.mem_cons_of_mem _ hd))
    c.epilogue (by omega) (by omega)

/-- Reading a well-formed bucket list from its head gives its entries. -/
theorem entries_linked {m : Mem} : ∀ (l : List Nat) (q n : Nat),
    (∀ y ∈ l, y ≠ 0 ∧ y + 4 < 4294967296) → Linked m q l 0 → l.length < n →
    entries m n (firstD l 0) = l
  | [], q, n, _, _, hn => by
    obtain ⟨k, rfl⟩ : ∃ k, n = k + 1 := ⟨n - 1, by simp at hn; omega⟩
    rw [firstD_nil]
    unfold entries
    rw [if_pos rfl]
  | y :: l, q, n, hne, hl, hn => by
    obtain ⟨k, rfl⟩ : ∃ k, n = k + 1 := ⟨n - 1, by simp at hn; omega⟩
    obtain ⟨_, h2, h3⟩ := hl
    have hy := hne y (List.mem_cons_self _ _)
    have e1 : add32 y WSIZE = y + 4 := add32_eq (by unfold WSIZE; omega)
    rw [firstD_cons]
    unfold entries
    rw [if_neg hy.1, e1, h2,
      entries_linked l y k (fun z hz => hne z (List.mem_cons_of_mem _ hz)) h3
        (by simp at hn; omega)]

theorem length_flatMap_range (bk : Nat → List Nat) : ∀ k,
    ((List.range k).flatMap bk).length = total bk k
  | 0 => rfl
  | k + 1 => by
    rw [List.range_succ, List.flatMap_append, List.length_append, length_flatMap_range bk k]
    simp [total]

theorem mem_flatMap_range {bk : Nat → List Nat} {k y : Nat} :
    y ∈ (List.range k).flatMap bk ↔ ∃ i, i < k ∧ y ∈ bk i := by
  simp [List.mem_flatMap]

/-- The index read from the bucket table is the concatenation of the bucket lists. -/
theorem Core.index {h : Heap} {bs : List Blk} {bk : Nat → List Nat} (c : Core h bs bk)
    {n : Nat} (hn : h.numFree.toNat < n) :
    index_entries h n = (List.range 84).flatMap bk := by
  have hcount := c.count
  unfold index_entries
  refine List.flatMap_congr ?_
  intro i hi
  have hi84 : i < 84 := List.mem_range.mp hi
  rw [c.slot_eq (by omega), c.slots i hi84]
  refine entries_linked (bk i) 0 n (c.node_ne hi84) (c.linked i hi84) ?_
  have := total_ge bk hi84
  omega

/-- The bucket lists taken together have no repeated entry. -/
theorem Core.index_nodup {h : Heap} {bs : List Blk} {bk : Nat → List Nat} (c : Core h bs bk) :
    ((List.range 84).flatMap bk).Nodup := by
  rw [List.nodup_flatMap]
  refine ⟨fun i hi => c.nodup i (List.mem_range.mp hi), ?_⟩
  refine List.Pairwise.imp_of_mem ?_ (List.nodup_range 84)
  intro i j hi hj hne
  intro y hy1 hy2
  exact hne (c.node_bucket (List.mem_range.mp hi) (List.mem_range.mp hj) hy1 hy2)

/-! ## `mm_malloc` for requests whose rounding wraps -/

theorem Fueled.ite_lt {α : Type} (k : Nat) (r : α) {n : Nat} (h : k < n) :
    Fueled (fun fuel => if k < fuel then some r else none) n r := by
  refine ⟨fun fuel hf => ?_, fun fuel => ?_⟩
  · show (if k < fuel then some r else none) = _
    rw [if_pos (by omega)]
  · show (if k < fuel then some r else none) = _ ∨ (if k < fuel then some r else none) = _
    by_cases hlt : k < fuel
    · rw [if_pos hlt]; exact Or.inl rfl
    · rw [if_neg hlt]; exact Or.inr rfl

/-- `add_free_list` returns whenever the bucket of the block is a well-formed list. -/
theorem add_free_list_total (H : Heap) (y : Nat) {s : Nat} {l : List Nat}
    (hs : GET_SIZE H.mem (HDRP y) = s) (hslt : s < 2147483648)
    (hget : GET H.mem (slot H (bucket s : Nat)) = firstD l 0)
    (hnode : ∀ z ∈ l, z ≠ 0 ∧ z + 4 < 4294967296) (hlink : Linked H.mem 0 l 0) :
    ∃ r, Fueled (fun fuel => add_free_list fuel H y) (l.length + 1) r := by
  have hb : bucketOf s = (bucket s : Int) := bucketOf_eq hslt
  by_cases h0 : firstD l 0 = 0
  · apply Exists.intro
    rw [show (fun fuel => add_free_list fuel H y) = fun _ => some _ from funext fun fuel => by
      rw [add_free_list_eval, hs, hb, hget, if_pos h0]]
    exact Fueled.const _ _
  · obtain ⟨la, lb, _, hscan⟩ := add_scan_spec (m := H.mem) (N := s) l 0 (firstD l 0) hnode hlink
    apply Exists.intro
    rw [show (fun fuel => add_free_list fuel H y) = fun fuel =>
        (if la.length < fuel then some (lastD la (firstD l 0)) else none).map _ from
      funext fun fuel => by
        rw [add_free_list_eval, hs, hb, hget, if_neg h0, hscan fuel]]
    have hlen : la.length ≤ l.length := by
      have : l.length = la.length + lb.length := by
        rw [‹l = la ++ lb›, List.length_append]
      omega
    exact (Fueled.ite_lt la.length (lastD la (firstD l 0)) (by omega)).map

/-- The stores of `place(x, 0)`. -/
theorem place_eval_zero (fuel : Nat) (h : Heap) {x cur : Nat}
    (hdr : GET h.mem (x - 4) = cur + 0) (hx : x % 8 = 0) (h4 : 8 ≤ x) (hc8 : cur % 8 = 0)
    (hc : 16 ≤ cur) (hlt : x + cur < 4294967296) :
    place fuel h x 0 = (remove_free_list fuel h x).bind fun h1 =>
      add_free_list fuel (withMem h1 (tag_mem (tag_mem h1.mem x 0 1) (x + 0) (cur - 0) 0))
        (x + 0) := by
  unfold place
  have e1 : HDRP x = x - 4 := HDRP_eq (by omega) (by omega)
  have e2 : GET_SIZE h.mem (x - 4) = cur := GET_SIZE_eq hdr hc8 (by omega)
  have e3 : sub32 cur 0 = cur - 0 := sub32_eq (by omega) (by omega)
  have p1 : PACK 0 1 = 0 + 1 := PACK_eq 0 1 (by omega) (by omega)
  have p2 : PACK (cur - 0) 0 = cur - 0 + 0 := PACK_eq _ 0 (by omega) (by omega)
  simp only [e1, e2, e3, p1, p2]
  rw [if_pos (by unfold DSIZE; omega)]
  apply congrArg
  funext h1
  have g1 : GET (PUT h1.mem (x - 4) (0 + 1)) (x - 4) = 0 + 1 := by
    rw [GET_PUT_same]
  have t1 : FTRP (PUT h1.mem (x - 4) (0 + 1)) x = x + 0 - 8 :=
    FTRP_eq g1 (by omega) (by omega) (by omega) (by omega) (by omega)
  have g2 : GET (PUT (PUT h1.mem (x - 4) (0 + 1)) (x + 0 - 8) (0 + 1)) (x - 4) = 0 + 1 := by
    rw [GET_PUT_ne _ _ _ _ (by omega) (by omega) (by omega)]
    exact g1
  have t2 : NEXT_BLKP (PUT (PUT h1.mem (x - 4) (0 + 1)) (x + 0 - 8) (0 + 1)) x = x + 0 :=
    NEXT_BLKP_eq g2 (by omega) (by omega) (by omega) (by omega)
  have e4 : HDRP (x + 0) = x + 0 - 4 := HDRP_eq (by omega) (by omega)
  have g3 : GET (PUT (PUT (PUT h1.mem (x - 4) (0 + 1)) (x + 0 - 8) (0 + 1)) (x + 0 - 4)
      (cur - 0 + 0)) (x + 0 - 4) = cur - 0 + 0 := by
    rw [GET_PUT_same]
    exact Nat.mod_eq_of_lt (by omega)
  have t3 : FTRP (PUT (PUT (PUT h1.mem (x - 4) (0 + 1)) (x + 0 - 8) (0 + 1)) (x + 0 - 4)
      (cur - 0 + 0)) (x + 0) = x + 0 + (cur - 0) - 8 :=
    FTRP_eq g3 (by omega) (by omega) (by omega) (by omega) (by omega)
  simp only [t1, t2, e4, t3]
  rfl

/-- `place(x, adj)` returns for the sizes `0` and `8` that a wrapped rounding
    produces, on every free block of a heap that satisfies the invariant. -/
theorem place_small {h : Heap} {bs : List Blk} {bk : Nat → List Nat} (inv : HeapInv h bs bk)
    {x cur adj : Nat} (hm : (x, cur, 0) ∈ bs) (ha : adj = 0 ∨ adj = 8) :
    ∃ n h1, Fueled (fun fuel => place fuel h x adj) n h1 := by
  have c := inv.core
  obtain ⟨pre, post, e⟩ := List.append_of_mem hm
  subst e
  obtain ⟨hpre, hpost, hge, hxle, hx8, hc16, hc8, _, hhdr, hftr, hlt⟩ := c.around
  have hrange := c.range
  have hbrkle := c.brk_le
  have hcap := c.cap_lt
  have hbase := c.base_al
  by_cases hwhole : adj = 8 ∧ cur = 16
  · -- the block is used whole, as for a request of 16 bytes
    obtain ⟨h1, bs1, bk1, ζ, f1, _⟩ := @place_found h _ bk inv x cur 16 hm (by omega) (by omega)
      (by omega)
    refine ⟨h.numFree.toNat + 90, h1, ?_⟩
    rw [show (fun fuel => place fuel h x adj) = fun fuel => place fuel h x 16 from
      funext fun fuel => by
        rw [hwhole.1, place_eval_whole fuel h hhdr hx8 (by omega) hc8 (by omega) (by omega)
          (by omega) hlt, place_eval_whole fuel h hhdr hx8 (by omega) hc8 (by omega) (by omega)
          (by omega) hlt]]
    exact f1
  · -- the block is split
    have hev : ∀ fuel, place fuel h x adj = (remove_free_list fuel h x).bind fun h1 =>
        add_free_list fuel
          (withMem h1 (tag_mem (tag_mem h1.mem x adj 1) (x + adj) (cur - adj) 0))
          (x + adj) := by
      intro fuel
      rcases ha with e | e
      · subst e
        exact place_eval_zero fuel h hhdr hx8 (by omega) hc8 hc16 hlt
      · subst e
        exact place_eval_split fuel h hhdr hx8 (by omega) hc8 (by omega) (by omega) (by omega)
          hlt
    have hlx : Listed bk x := (inv.listed x).mpr ⟨cur, hm⟩
    obtain ⟨h1, bk1, f1, sa1, c1, n1, l1⟩ := remove_node c hlx
    have hadj : adj ≤ 8 ∧ adj % 8 = 0 ∧ adj + 16 ≤ cur := by omega
    -- the words of the memory that `add_free_list` is called on
    have frame : ∀ q, q % 4 = 0 → (q + 12 ≤ x ∨ x + cur ≤ q + 4) →
        GET (tag_mem (tag_mem h1.mem x adj 1) (x + adj) (cur - adj) 0) q = GET h1.mem q := by
      intro q hq hqr
      rw [tag_frame (by omega) (by omega) hq (by omega) (by omega),
        tag_frame (by omega) (by omega) hq (by omega) (by omega)]
    have hsize : GET_SIZE (tag_mem (tag_mem h1.mem x adj 1) (x + adj) (cur - adj) 0)
        (HDRP (x + adj)) = cur - adj := by
      rw [HDRP_eq (by omega) (by omega)]
      exact GET_SIZE_eq (a := 0) (tag_hdr (by omega) (by omega) (by omega) (by omega)
        (by omega)) (by omega) (by omega)
    have hi := bucket_lt (cur - adj)
    have hslot : slot (withMem h1 (tag_mem (tag_mem h1.mem x adj 1) (x + adj) (cur - adj) 0))
        (bucket (cur - adj) : Nat) = h.base + 8 + 4 * bucket (cur - adj) := by
      have := c1.slot_eq (i := bucket (cur - adj)) (by omega)
      rw [sa1.1] at this
      exact this
    have hnodes : ∀ z ∈ bk1 (bucket (cur - adj)), z ≠ x ∧ (z + 16 ≤ x ∨ x + cur ≤ z) := by
      intro z hz
      have hz1 := (l1 z).mp ⟨_, hi, hz⟩
      obtain ⟨t, ht⟩ := (inv.listed z).mp hz1.1
      refine ⟨hz1.2, ?_⟩
      rcases mem_mid.mp ht with e1 | e1 | e1
      · have := hpre _ e1
        dsimp only at this
        left; omega
      · simp only [Prod.mk.injEq] at e1
        exact absurd e1.1 hz1.2
      · have := hpost _ e1
        dsimp only at this
        right; omega
    obtain ⟨r, f2⟩ := add_free_list_total
      (withMem h1 (tag_mem (tag_mem h1.mem x adj 1) (x + adj) (cur - adj) 0)) (x + adj)
      (l := bk1 (bucket (cur - adj))) hsize (by omega)
      (by
        rw [hslot]
        show GET (tag_mem (tag_mem h1.mem x adj 1) (x + adj) (cur - adj) 0) _ = _
        rw [frame _ (by omega) (by omega)]
        have := c1.slots _ hi
        rw [sa1.1] at this
        exact this)
      (c1.node_ne hi)
      (Linked.frame (fun z hz => by
        obtain ⟨_, _, _, _, _, _, _, _, _, hz8, _⟩ := c1.node hi hz
        have := hnodes z hz
        exact ⟨frame z (by omega) (by omega), frame (z + 4) (by omega) (by omega)⟩)
        (c1.linked _ hi))
    refine ⟨max 85 ((bk1 (bucket (cur - adj))).length + 1), r, ?_⟩
    rw [show (fun fuel => place fuel h x adj) = _ from funext hev]
    exact Fueled.bind_max f1 f2

theorem adjust_wrapped {s : Nat} (hs : s < 4294967296) (hw : ¬ s + 15 < 4294967296) :
    adjust s = 0 ∨ adjust s = 8 := by
  rw [adjust_large (by omega)]
  omega

/-- `mm_malloc(s)` in a heap that satisfies the invariant, for every request:
    the call returns; the result is `NULL` exactly when `s` is `0`, or no free
    block fits and the arena cannot grow by `MAX(adjust s, CHUNKSIZE)` bytes,
    and then the state is unchanged. -/
theorem mm_malloc_total {h : Heap} {bs : List Blk} {bk : Nat → List Nat} (inv : HeapInv h bs bk)
    {s : Nat} (hs : s < 4294967296) :
    ∃ n q h1, Fueled (fun fuel => mm_malloc fuel h s) n (q, h1)
      ∧ (q = 0 ↔ s = 0 ∨ (find_fit h (adjust s) = 0
          ∧ (mem_sbrk h (MAX (adjust s) CHUNKSIZE)).1 = 4294967295))
      ∧ (q = 0 → h1 = h) := by
  by_cases h0 : s = 0
  · subst h0
    refine ⟨0, 0, h, ?_, ⟨fun _ => Or.inl rfl, fun _ => rfl⟩, fun _ => rfl⟩
    rw [show (fun fuel => mm_malloc fuel h 0) = fun _ => some (0, h) from
      funext fun fuel => mm_malloc_zero fuel h]
    exact Fueled.const _ _
  by_cases hc : s + 15 < 4294967296
  · obtain ⟨n, q, h1, f1, hiff, hnull, _⟩ := mm_malloc_spec inv h0 hc
    exact ⟨n, q, h1, f1, ⟨fun hq => Or.inr (hiff.mp hq), fun hh => hiff.mpr
      (hh.resolve_left h0)⟩, hnull⟩
  · -- the rounding wraps
    have hadj := adjust_wrapped hs hc
    have c := inv.core
    have hbrk := c.brk_ge
    have hmax : MAX (adjust s) CHUNKSIZE = 4096 := by
      unfold MAX CHUNKSIZE
      rcases hadj with e | e <;> rw [e] <;> rfl
    have hfun : (fun fuel => mm_malloc fuel h s) = fun fuel =>
        if find_fit h (adjust s) ≠ 0 then
          (place fuel h (find_fit h (adjust s)) (adjust s)).map fun h1 =>
            (find_fit h (adjust s), h1)
        else
          (extend_heap fuel h (MAX (adjust s) CHUNKSIZE / WSIZE)).bind fun r =>
            if r.1 = 0 then some (0, r.2)
            else (place fuel r.2 r.1 (adjust s)).map fun h1 => (r.1, h1) := by
      funext fuel
      unfold mm_malloc
      rw [if_neg h0]
    rw [hfun]
    by_cases hf : find_fit h (adjust s) = 0
    · simp only [hf, ne_eq, not_true_eq_false, if_false, true_and, h0, false_or]
      rw [hmax, show (4096 : Nat) / WSIZE = 1024 from rfl]
      obtain ⟨hfail, hok⟩ := extend_heap_spec (N := 1024) inv (by decide) (by decide)
        (by decide)
      by_cases hcap : h.brk + 1024 * 4 ≤ h.cap
      · obtain ⟨h1, bs1, bk1, r, rs, f1, e1, e2, e3, inv1, hm1, hrs, hd1⟩ := hok hcap
        have hr0 : r ≠ 0 := by
          have := inv1.core.blk_ge hm1
          dsimp only at this
          omega
        obtain ⟨n2, h2, f2⟩ := place_small inv1 hm1 hadj
        refine ⟨max (h.numFree.toNat + 90) n2, r, h2, Fueled.bind_max f1 ?_, ?_,
          fun hh => absurd hh hr0⟩
        · simp only [hr0, if_false]
          exact f2.map
        · constructor
          · intro hh; exact absurd hh hr0
          · intro hh
            unfold mem_sbrk at hh
            rw [if_pos (by omega)] at hh
            have hrange := c.range
            have hbase := c.base_al
            dsimp only at hh
            omega
      · have e := hfail (by omega)
        refine ⟨0, 0, h, ⟨fun fuel _ => ?_, fun fuel => Or.inl ?_⟩, ?_, fun _ => rfl⟩
        · show (extend_heap fuel h 1024).bind _ = _
          rw [e fuel]; rfl
        · show (extend_heap fuel h 1024).bind _ = _
          rw [e fuel]; rfl
        · refine ⟨fun _ => ?_, fun _ => rfl⟩
          unfold mem_sbrk
          rw [if_neg (by omega)]
    · rw [show (fun fuel => if find_fit h (adjust s) ≠ 0 then
          (place fuel h (find_fit h (adjust s)) (adjust s)).map fun h1 =>
            (find_fit h (adjust s), h1)
        else
          (extend_heap fuel h (MAX (adjust s) CHUNKSIZE / WSIZE)).bind fun r =>
            if r.1 = 0 then some (0, r.2)
            else (place fuel r.2 r.1 (adjust s)).map fun h1 => (r.1, h1))
        = fun fuel => (place fuel h (find_fit h (adjust s)) (adjust s)).map fun h1 =>
            (find_fit h (adjust s), h1) from funext fun fuel => if_pos hf]
      rcases @find_fit_spec h _ bk inv (adjust s) (by omega) with e | ⟨t, hm, hle⟩
      · exact absurd e hf
      obtain ⟨n2, h2, f2⟩ := place_small inv hm hadj
      exact ⟨n2, find_fit h (adjust s), h2, f2.map,
        ⟨fun hh => absurd hh hf, fun hh => absurd (hh.resolve_left h0).1 hf⟩,
        fun hh => absurd hh hf⟩

/-! ## Runs used as instances, and what the invariant says about the walks -/

theorem pair_of_fst {α β : Type} {o : Option (α × β)} {a : α} (d : β)
    (h : o.map (fun r => r.1) = some a) : o = some (a, (o.map fun r => r.2).getD d) := by
  cases o with
  | none => cases h
  | some v =>
    obtain ⟨v1, v2⟩ := v
    have e : v1 = a := Option.some.inj h
    subst e
    rfl

theorem step_getD {fuel : Nat} {r : Run} {c : Call} (h : (step fuel r c).isSome = true) :
    step fuel r c = some ((step fuel r c).getD r) := by
  cases e : step fuel r c with
  | none => rw [e] at h; cases h
  | some v => rfl

theorem reach_demo_run : Reach demo_run := by
  have e : mm_init 0 demo = some (0, ((mm_init 0 demo).map fun r => r.2).getD demo) :=
    pair_of_fst demo (by decide!)
  exact Reach.init 0 (fun _ => 0) 4096 1048576 _ (by decide) (by decide) (by decide) e

theorem reach_demo_run1 : Reach demo_run1 := by
  have e : step 100 demo_run (.malloc 24)
      = some ((step 100 demo_run (.malloc 24)).getD demo_run) := step_getD (by decide!)
  exact Reach.call 100 demo_run _ (.malloc 24) reach_demo_run
    (show 24 + 15 < W32 by decide) e (fun hh => hh)

theorem reach_demo_full_run : Reach demo_full_run := by
  have e : mm_init 0 demo_full
      = some (0, ((mm_init 0 demo_full).map fun r => r.2).getD demo_full) :=
    pair_of_fst demo_full (by decide!)
  exact Reach.init 0 (fun _ => 0) 4096 4448 _ (by decide) (by decide) (by decide) e

/-- A computation that is `Fueled` returns for every large enough fuel, and
    whatever it returns is the one result. -/
theorem Fueled.returns {α : Type} {f : Nat → Option α} {n : Nat} {r : α} (hf : Fueled f n r) :
    (∃ k, ∀ fuel, k ≤ fuel → (f fuel).isSome = true) ∧ ∀ fuel a, f fuel = some a → a = r := by
  refine ⟨⟨n, fun fuel hfu => ?_⟩, fun fuel a ha => hf.eq_of_some ha⟩
  rw [hf.enough fuel hfu]
  rfl

theorem Chain.nodup : ∀ {l : List Blk} {p e : Nat}, Chain p l e → l.Nodup
  | [], _, _, _ => List.nodup_nil
  | b :: l, p, e, h => by
    obtain ⟨h1, h2, _, _, h5⟩ := h
    refine List.nodup_cons.mpr ⟨fun hin => ?_, Chain.nodup h5⟩
    have := (Chain.mem h5 b hin).1
    omega

theorem Chain.sum : ∀ {l : List Blk} {p e : Nat}, Chain p l e →
    p + (l.map fun b => b.2.1).sum = e
  | [], p, e, h => by
    have : p = e := h
    simp [this]
  | b :: l, p, e, h => by
    obtain ⟨_, _, _, _, h5⟩ := h
    have := Chain.sum h5
    simp only [List.map_cons, List.sum_cons]
    omega

theorem sum_sizes_concat (l : List Blk) (b : Blk) :
    ((l ++ [b]).map fun d => d.2.1).sum = (l.map fun d => d.2.1).sum + b.2.1 := by
  simp

/-- In a heap that satisfies the invariant the walk over the arena meets no
    free block whose successor is free. -/
theorem HeapInv.walk_noadj {h : Heap} {bs : List Blk} {bk : Nat → List Nat}
    (inv : HeapInv h bs bk) : NoAdjFree (bs ++ [(h.base + h.brk, 0, 1)]) := by
  have h1 : List.Chain' (fun b c : Blk => ¬ (b.2.2 = 0 ∧ c.2.2 = 0)) bs :=
    List.Chain'.tail inv.noadj
  unfold NoAdjFree
  rw [List.chain'_append]
  refine ⟨h1, List.chain'_singleton _, ?_⟩
  intro x _ y hy
  simp only [List.head?_cons, Option.mem_def, Option.some.injEq] at hy
  subst hy
  intro hh
  exact Nat.one_ne_zero hh.2

/-- The free blocks of the arena are as many as the entries of the buckets. -/
theorem HeapInv.count_free {h : Heap} {bs : List Blk} {bk : Nat → List Nat}
    (inv : HeapInv h bs bk) :
    (bs.filter fun b => b.2.2 = 0).length = total bk 84 := by
  have c := inv.core
  rw [← length_flatMap_range bk 84, ← List.length_map (bs.filter fun b => b.2.2 = 0)
    (fun b : Blk => b.1)]
  refine List.Perm.length_eq ?_
  have hch : Chain (h.base + 8 + 344) bs (h.base + h.brk) := by
    have := c.chain
    obtain ⟨_, _, _, _, h5⟩ := this
    exact h5
  have nd1 : ((bs.filter fun b => b.2.2 = 0).map fun b : Blk => b.1).Nodup := by
    refine (List.nodup_map_iff_inj_on ?_).mpr ?_
    · refine List.Nodup.filter _ ?_
      exact Chain.nodup hch
    · intro b hb d hd hbd
      have hb1 := (List.mem_filter.mp hb).1
      have hd1 := (List.mem_filter.mp hd).1
      obtain ⟨b1, b2, b3⟩ := b
      obtain ⟨d1, d2, d3⟩ := d
      dsimp only at hbd
      subst hbd
      have := Chain.unique hch hb1 hd1
      rw [this.1, this.2]
  refine (List.perm_ext_iff_of_nodup nd1 c.index_nodup).mpr ?_
  intro y
  rw [mem_flatMap_range]
  constructor
  · intro hy
    obtain ⟨b, hb, e⟩ := List.mem_map.mp hy
    obtain ⟨b1, b2, b3⟩ := b
    obtain ⟨hb1, hb2⟩ := List.mem_filter.mp hb
    dsimp only at e
    subst e
    have hb3 : b3 = 0 := by simpa using hb2
    subst hb3
    exact (inv.listed b1).mpr ⟨b2, hb1⟩
  · intro hy
    obtain ⟨t, ht⟩ := (inv.listed y).mp hy
    exact List.mem_map.mpr ⟨(y, t, 0), List.mem_filter.mpr ⟨ht, by simp⟩, rfl⟩

theorem filter_free_concat (l : List Blk) (e : Nat) :
    ((l ++ [(e, 0, 1)]).filter fun b => b.2.2 = 0) = l.filter fun b => b.2.2 = 0 := by
  rw [List.filter_append]
  simp

/-! ## What the macros read on the blocks of a heap that satisfies the invariant -/

theorem Core.reads {h : Heap} {bs : List Blk} {bk : Nat → List Nat} (c : Core h bs bk)
    {x s a : Nat} (hm : (x, s, a) ∈ bs) :
    HDRP x = x - 4 ∧ FTRP h.mem x = x + s - 8
      ∧ GET h.mem (HDRP x) = s + a ∧ GET h.mem (FTRP h.mem x) = s + a
      ∧ GET_SIZE h.mem (HDRP x) = s ∧ GET_ALLOC h.mem (HDRP x) = a
      ∧ GET_SIZE h.mem (FTRP h.mem x) = s ∧ GET_ALLOC h.mem (FTRP h.mem x) = a
      ∧ x % 8 = 0 ∧ 16 ≤ s ∧ h.base + 352 ≤ x ∧ x + s ≤ h.base + h.brk := by
  obtain ⟨_, h2, h3, h4, h5, h6, h7, h8⟩ := c.blk (Core.mem_with hm)
  have hge := c.blk_ge hm
  have hr := c.range
  have hb := c.brk_le
  dsimp only at h2 h3 h4 h5 h6 h7 h8 hge
  have e1 : HDRP x = x - 4 := HDRP_eq (by omega) (by omega)
  have e2 : FTRP h.mem x = x + s - 8 := FTRP_eq h7 h4 h5 (by omega) (by omega) (by omega)
  rw [e1, e2]
  exact ⟨rfl, rfl, h7, h8, GET_SIZE_eq h7 h4 h5, GET_ALLOC_eq h7 h4 h5, GET_SIZE_eq h8 h4 h5,
    GET_ALLOC_eq h8 h4 h5, h6, h3, hge, h2⟩

/-- The walk over the arena of a heap that satisfies the invariant, with a
    bound on its length. -/
theorem HeapInv.blocks_eq {h : Heap} {bs : List Blk} {bk : Nat → List Nat} (inv : HeapInv h bs bk) :
    blocks h.mem (bs.length + 1) (first_block h) = bs ++ [(h.base + h.brk, 0, 1)] :=
  inv.core.walk.2

theorem minList_le {h : Heap} {bs : List Blk} {bk : Nat → List Nat} (c : Core h bs bk)
    {i : Nat} (hi : i < 84) (hne : GET h.mem (slot h (i : Int)) ≠ 0) :
    0 ≤ h.minList ∧ h.minList ≤ (i : Int) := by
  refine ⟨c.minl.1, ?_⟩
  by_contra hlt
  have hnil := c.minl.2 i hi (by omega)
  rw [c.slot_eq (by omega), c.slots i hi, hnil] at hne
  exact hne rfl

theorem adjust_least {s k : Nat} (hs : s + 15 < 4294967296) (hk8 : k % 8 = 0) (hk16 : 16 ≤ k)
    (hks : s + 8 ≤ k) : adjust s ≤ k := by
  by_cases h8 : s ≤ 8
  · rw [adjust_small h8]; exact hk16
  · rw [adjust_large h8]; omega

/-! ## Completeness of `find_fit` -/

/-- Reading a well-formed bucket list from its head gives its first `n` entries. -/
theorem entries_take {m : Mem} : ∀ (l : List Nat) (q n : Nat),
    (∀ y ∈ l, y ≠ 0 ∧ y + 4 < 4294967296) → Linked m q l 0 →
    entries m n (firstD l 0) = l.take n
  | _, _, 0, _, _ => by
    rw [List.take_zero]
    rfl
  | [], _, n + 1, _, _ => by
    rw [firstD_nil]
    unfold entries
    rw [if_pos rfl]
    rfl
  | y :: l, _, n + 1, hne, hl => by
    obtain ⟨_, h2, h3⟩ := hl
    have hy := hne y (List.mem_cons_self _ _)
    have e1 : add32 y WSIZE = y + 4 := add32_eq (by unfold WSIZE; omega)
    rw [firstD_cons]
    unfold entries
    rw [if_neg hy.1, e1, h2,
      entries_take l y n (fun z hz => hne z (List.mem_cons_of_mem _ hz)) h3]
    rfl

/-- The scan of one bucket list finds a block when one of its first `n`
    entries is free and large enough. -/
theorem fit_scan_complete {m : Mem} {N : Nat} : ∀ (n : Nat) (l : List Nat) (q k y : Nat),
    (∀ z ∈ l, z ≠ 0 ∧ z + 4 < 4294967296) → (∀ z ∈ l, 0 < GET_SIZE m (HDRP z)) →
    Linked m q l 0 → l[k]? = some y → k < n → GET_ALLOC m (HDRP y) = 0 →
    N ≤ GET_SIZE m (HDRP y) → fit_scan m N n (firstD l 0) ≠ 0
  | 0, _, _, _, _, _, _, _, _, hk, _, _ => by omega
  | n + 1, [], _, k, y, _, _, _, hg, _, _, _ => by simp at hg
  | n + 1, z :: l, _, k, y, hne, hpos, hl, hg, hk, ha, hsz => by
    obtain ⟨_, h2, h3⟩ := hl
    have hz := hne z (List.mem_cons_self _ _)
    have hzp := hpos z (List.mem_cons_self _ _)
    have e1 : add32 z WSIZE = z + 4 := add32_eq (by unfold WSIZE; omega)
    rw [firstD_cons]
    unfold fit_scan
    rw [if_pos ⟨hz.1, hzp⟩]
    by_cases hfit : GET_ALLOC m (HDRP z) = 0 ∧ N ≤ GET_SIZE m (HDRP z)
    · rw [if_pos hfit]; exact hz.1
    · rw [if_neg hfit, e1, h2]
      cases k with
      | zero =>
        simp only [List.getElem?_cons_zero, Option.some.injEq] at hg
        subst hg
        exact absurd ⟨ha, hsz⟩ hfit
      | succ k =>
        simp only [List.getElem?_cons_succ] at hg
        exact fit_scan_complete n l z k y (fun w hw => hne w (List.mem_cons_of_mem _ hw))
          (fun w hw => hpos w (List.mem_cons_of_mem _ hw)) h3 hg (by omega) ha hsz

/-- The search over the buckets `i, ..., i + n - 1` finds a block when the scan
    of one of these buckets does. -/
theorem fit_buckets_complete {h : Heap} {bs : List Blk} {bk : Nat → List Nat} (c : Core h bs bk)
    (size : Nat) : ∀ (n i j : Nat), i + n ≤ 84 → i ≤ j → j < i + n →
    fit_scan h.mem size 250 (firstD (bk j) 0) ≠ 0 → fit_buckets h size n (i : Int) ≠ 0
  | 0, _, _, _, _, _, _ => by omega
  | n + 1, i, j, hin, hij, hjn, hf => by
    have hi : i < 84 := by omega
    unfold fit_buckets
    rw [c.slot_eq (by omega), c.slots i hi]
    simp only
    by_cases c1 : fit_scan h.mem size 250 (firstD (bk i) 0) ≠ 0
    · rw [if_pos c1]; exact c1
    · rw [if_neg c1]
      have hne : i ≠ j := fun e => c1 (e ▸ hf)
      have := fit_buckets_complete c size n (i + 1) j (by omega) (by omega) (by omega) hf
      rw [show ((i : Int) + 1) = ((i + 1 : Nat) : Int) by push_cast; rfl]
      exact this

/-- The entries of the buckets are blocks with a header of positive size. -/
theorem Core.node_pos {h : Heap} {bs : List Blk} {bk : Nat → List Nat} (c : Core h bs bk)
    {i : Nat} (hi : i < 84) : ∀ z ∈ bk i, 0 < GET_SIZE h.mem (HDRP z) := by
  intro z hz
  obtain ⟨s, a, _, _, h1, h2, h3, h4, h5, h6, h7⟩ := c.node hi hz
  have hr := c.range
  have hb := c.brk_le
  rw [HDRP_eq (by omega) (by omega), GET_SIZE_eq h7 h4 h5]
  omega

/-- `find_fit(size)` finds a block when a free block of at least `size` bytes
    is among the first 250 entries of its bucket. -/
theorem find_fit_complete {h : Heap} {bs : List Blk} {bk : Nat → List Nat}
    (inv : HeapInv h bs bk) {size : Nat} (hs : size < 4294967296) {j k y t : Nat}
    (hj : j < 84) (hg : (bk j)[k]? = some y) (hk : k < 250) (hm : (y, t, 0) ∈ bs)
    (hsz : size ≤ t) : find_fit h size ≠ 0 := by
  have c := inv.core
  have hyin : y ∈ bk j := List.getElem?_mem hg
  obtain ⟨s, a, hmem, hbk, h1, h2, h3, h4, h5, h6, h7⟩ := c.node hj hyin
  have hu := Chain.unique c.chain (Core.mem_with (h := h) hmem) (Core.mem_with (h := h) hm)
  obtain ⟨hu1, hu2⟩ := hu
  subst hu1
  subst hu2
  have hr := c.range
  have hb := c.brk_le
  have hcap := c.cap_lt
  have eh : HDRP y = y - 4 := HDRP_eq (by omega) (by omega)
  have hscan : fit_scan h.mem size 250 (firstD (bk j) 0) ≠ 0 :=
    fit_scan_complete 250 (bk j) 0 k y (c.node_ne hj) (c.node_pos hj) (c.linked j hj) hg hk
      (by rw [eh]; exact GET_ALLOC_eq h7 h4 h5) (by rw [eh, GET_SIZE_eq h7 h4 h5]; exact hsz)
  have hcount := c.count
  have hlen := total_ge bk (i := j) (n := 84) hj
  have hpos : 0 < (bk j).length := List.length_pos_of_mem hyin
  unfold find_fit
  rw [if_neg (by omega)]
  have e1 : toInt32 (size / 50) = ((size / 50 : Nat) : Int) := toInt32_eq (by omega)
  simp only [e1]
  have hml := c.minl.1
  have hmin : h.minList ≤ (j : Int) := by
    by_contra hlt
    have hnil := c.minl.2 j hj (by omega)
    rw [hnil] at hpos
    exact absurd hpos (by simp)
  have hbj : min (s / 50) 83 = j := hbk
  obtain ⟨st, hst, hle⟩ : ∃ st : Nat, (if ((size / 50 : Nat) : Int) < h.minList then h.minList
      else if ((size / 50 : Nat) : Int) > 83 then 83 else ((size / 50 : Nat) : Int))
        = (st : Int) ∧ st ≤ j := by
    have hdiv : size / 50 ≤ s / 50 := Nat.div_le_div_right hsz
    refine ⟨(if ((size / 50 : Nat) : Int) < h.minList then h.minList
      else if ((size / 50 : Nat) : Int) > 83 then 83 else ((size / 50 : Nat) : Int)).toNat, ?_, ?_⟩
    · rw [Int.toNat_of_nonneg]
      split
      · exact hml
      · split <;> omega
    · split
      · omega
      · split <;> omega
  rw [hst]
  exact fit_buckets_complete c size _ st j (by omega) hle (by omega) hscan

/-! ## The state after `mm_init` -/

/-- `coalesce(x)` when the blocks before and after `x` are allocated. -/
theorem coalesce_eval_alloc (fuel : Nat) (h : Heap) {x s a p n : Nat}
    (hhdr : GET h.mem (x - 4) = s + a) (hpf : GET h.mem (x - 8) = p + 1)
    (hph : GET h.mem (x - p - 4) = p + 1) (hnh : GET h.mem (x + s - 4) = n + 1)
    (hs8 : s % 8 = 0) (ha : a ≤ 1) (hp8 : p % 8 = 0) (hn8 : n % 8 = 0) (hp16 : 8 ≤ p)
    (hpx : p + 4 ≤ x) (hlt : x + s < 4294967296) :
    coalesce fuel h x = (add_free_list fuel h x).map fun h1 => (x, h1) := by
  have ePrev : PREV_BLKP h.mem x = x - p :=
    PREV_BLKP_eq hpf hp8 (by omega) (by omega) (by omega) (by omega)
  have eFtrPrev : FTRP h.mem (x - p) = x - 8 := by
    rw [FTRP_eq hph hp8 (by omega) (by omega) (by omega) (by omega)]; omega
  have ePA : GET_ALLOC h.mem (x - 8) = 1 := GET_ALLOC_eq hpf hp8 (by omega)
  have eNext : NEXT_BLKP h.mem x = x + s := NEXT_BLKP_eq hhdr hs8 ha (by omega) hlt
  have eHdrNext : HDRP (x + s) = x + s - 4 := HDRP_eq (by omega) hlt
  have eNA : GET_ALLOC h.mem (x + s - 4) = 1 := GET_ALLOC_eq hnh hn8 (by omega)
  unfold coalesce
  simp only [ePrev, eFtrPrev, ePA, eNext, eHdrNext, eNA, one_ne_zero, and_self, and_false,
    false_and, if_false]

theorem singleton_of_nodup {l : List Nat} {x : Nat} (hn : l.Nodup) (hx : x ∈ l)
    (hall : ∀ y ∈ l, y = x) : l = [x] := by
  cases l with
  | nil => cases hx
  | cons a t =>
    have ea := hall a (List.mem_cons_self _ _)
    subst ea
    have : t = [] := by
      cases t with
      | nil => rfl
      | cons b u =>
        have eb := hall b (List.mem_cons_of_mem _ (List.mem_cons_self _ _))
        subst eb
        exact absurd (List.mem_cons_self _ _) (List.nodup_cons.mp hn).1
    rw [this]

/-- A tiling by blocks of at least 16 bytes that holds a block as long as the
    whole stretch consists of that block. -/
theorem Chain.whole {l : List Blk} {p e : Nat} (hc : Chain p l e) {b : Blk} (hb : b ∈ l)
    (hsz : e ≤ p + b.2.1) : l = [b] ∧ b.1 = p := by
  obtain ⟨pre, post, hl, h1, h2⟩ := Chain.split hc hb
  have k1 := Chain.le h1
  have k2 := Chain.le h2
  have e1 : pre = [] := by
    cases pre with
    | nil => rfl
    | cons d t =>
      obtain ⟨_, d2, _, _, d5⟩ := h1
      have := Chain.le d5
      omega
  have e2 : post = [] := by
    cases post with
    | nil => rfl
    | cons d t =>
      obtain ⟨_, d2, _, _, d5⟩ := h2
      have := Chain.le d5
      omega
  subst e1
  subst e2
  exact ⟨hl, by omega⟩

/-- The state after a successful `mm_init` on an empty arena that can hold
    4448 bytes: one free block of 4096 bytes, linked as the only entry of
    bucket 81. -/
theorem mm_init_state (fuel : Nat) (m : Mem) {base cap : Nat} (hb : base % 8 = 0)
    (hr : base + cap < 4294967296) (hc : cap < 2147483648) (hcap : 4448 ≤ cap) :
    ∃ h bk, mm_init fuel (boot m base cap) = some (0, h)
      ∧ HeapInv h [(base + 352, 4096, 0)] bk
      ∧ h.base = base ∧ h.brk = 4448 ∧ h.cap = cap ∧ h.numFree = 1 ∧ h.minList = 81
      ∧ (∀ i, i < 84 → bk i = if i = 81 then [base + 352] else []) := by
  have inv0 := init_state_inv m hb hr hc (show 352 ≤ cap by omega)
  obtain ⟨_, hok⟩ := extend_heap_spec (N := CHUNKSIZE / WSIZE) inv0 (by decide) (by decide)
    (by decide)
  obtain ⟨h1, bs1, bk1, r, rs, f1, e1, e2, e3, inv1, hm1, hrs, hd1⟩ :=
    hok (show 352 + CHUNKSIZE / WSIZE * 4 ≤ cap by
      rw [show CHUNKSIZE / WSIZE * 4 = 4096 from rfl]; omega)
  rw [show CHUNKSIZE / WSIZE * 4 = 4096 from rfl] at e2 hrs
  dsimp only at e1 e2 e3
  have hev := mm_init_eval fuel (boot m base cap) rfl hb hr (show 352 ≤ cap by omega)
  unfold boot at hev
  dsimp only at hev
  -- the state on which `coalesce` runs
  have hex := @extend_heap_eval fuel
    (⟨PUT (PUT (init_slots (PUT (PUT m base 0) (base + 4) 345) base 84 2) (base + 348) 1)
      (base + 344) 345, base, 352, cap, base + 8, 100, 0⟩ : Heap)
    (CHUNKSIZE / WSIZE) (by decide)
    (show 352 + CHUNKSIZE / WSIZE * 4 ≤ cap by
      rw [show CHUNKSIZE / WSIZE * 4 = 4096 from rfl]; omega)
    (show (base + 352) % 8 = 0 by omega) (show 8 ≤ base + 352 by omega) hr (by decide)
  have c0 := inv0.core
  obtain ⟨g1, g2, g3⟩ := tag1_facts
    (PUT (PUT (init_slots (PUT (PUT m base 0) (base + 4) 345) base 84 2) (base + 348) 1)
      (base + 344) 345) (x := base + 352) (s := 4096) (a := 0) (by omega) (by omega)
    (by decide) (by decide) (by decide) (by omega)
  have k1 : ∀ q, q % 4 = 0 → q + 8 ≤ base + 352 →
      GET (PUT (tag_mem (PUT (PUT (init_slots (PUT (PUT m base 0) (base + 4) 345) base 84 2)
        (base + 348) 1) (base + 344) 345) (base + 352) 4096 0) (base + 352 + 4096 - 4) 1) q
      = GET (PUT (PUT (init_slots (PUT (PUT m base 0) (base + 4) 345) base 84 2)
        (base + 348) 1) (base + 344) 345) q := by
    intro q hq hqe
    rw [GET_PUT_ne _ _ _ _ (by omega) hq (by omega)]
    exact g3 q hq (by omega) (by omega)
  have k2 : GET (PUT (tag_mem (PUT (PUT (init_slots (PUT (PUT m base 0) (base + 4) 345) base
        84 2) (base + 348) 1) (base + 344) 345) (base + 352) 4096 0) (base + 352 + 4096 - 4) 1)
      (base + 352 - 4) = 4096 + 0 := by
    rw [GET_PUT_ne _ _ _ _ (by omega) (by omega) (by omega)]; exact g1
  have k3 : GET (PUT (tag_mem (PUT (PUT (init_slots (PUT (PUT m base 0) (base + 4) 345) base
        84 2) (base + 348) 1) (base + 344) 345) (base + 352) 4096 0) (base + 352 + 4096 - 4) 1)
      (base + 352 + 4096 - 8) = 4096 + 0 := by
    rw [GET_PUT_ne _ _ _ _ (by omega) (by omega) (by omega)]; exact g2
  have k4 : GET (PUT (tag_mem (PUT (PUT (init_slots (PUT (PUT m base 0) (base + 4) 345) base
        84 2) (base + 348) 1) (base + 344) 345) (base + 352) 4096 0) (base + 352 + 4096 - 4) 1)
      (base + 352 + 4096 - 4) = 1 := by
    rw [GET_PUT_same]
  have c1 := c0.grow (ζ := 4096)
    (μ := PUT (tag_mem (PUT (PUT (init_slots (PUT (PUT m base 0) (base + 4) 345) base 84 2)
      (base + 348) 1) (base + 344) 345) (base + 352) 4096 0) (base + 352 + 4096 - 4) 1)
    (by decide) (by decide) (show 352 + 4096 ≤ cap by omega) k1 k2 k3 k4
  rw [show CHUNKSIZE / WSIZE * 4 = 4096 from rfl] at hex
  -- the words `coalesce` and `add_free_list` read
  have hp := c1.tagged (base + 8, 344, 1) (List.mem_cons_self _ _)
  have hx := c1.tagged (base + 352, 4096, 0) (List.mem_cons_of_mem _ (List.mem_cons_self _ _))
  have hep := c1.epilogue
  dsimp only at hp hx hep
  have hco := coalesce_eval_alloc fuel
    (⟨PUT (tag_mem (PUT (PUT (init_slots (PUT (PUT m base 0) (base + 4) 345) base 84 2)
      (base + 348) 1) (base + 344) 345) (base + 352) 4096 0) (base + 352 + 4096 - 4) 1,
      base, 352 + 4096, cap, base + 8, 100, 0⟩ : Heap)
    (x := base + 352) (s := 4096) (a := 0) (p := 344) (n := 0)
    hx.1
    (by
      have := hp.2
      rw [show base + 8 + 344 - 8 = base + 352 - 8 by omega] at this
      exact this)
    (by
      have := hp.1
      rw [show base + 8 - 4 = base + 352 - 344 - 4 by omega] at this
      exact this)
    (by
      rw [show base + 352 + 4096 - 4 = base + (352 + 4096) - 4 by omega]
      exact hep)
    (by decide) (by decide) (by decide) (by decide) (by decide) (by omega) (by omega)
  have hsz : GET_SIZE (PUT (tag_mem (PUT (PUT (init_slots (PUT (PUT m base 0) (base + 4) 345)
      base 84 2) (base + 348) 1) (base + 344) 345) (base + 352) 4096 0)
      (base + 352 + 4096 - 4) 1) (HDRP (base + 352)) = 4096 := by
    rw [HDRP_eq (by omega) (by omega)]
    exact GET_SIZE_eq hx.1 (by decide) (by decide)
  have hb81 : bucketOf 4096 = 81 := by decide
  have hslot := c1.slots 81 (by decide)
  have hse := c1.slot_eq (i := 81) (by decide)
  have hadd := add_free_list_eval fuel
    (⟨PUT (tag_mem (PUT (PUT (init_slots (PUT (PUT m base 0) (base + 4) 345) base 84 2)
      (base + 348) 1) (base + 344) 345) (base + 352) 4096 0) (base + 352 + 4096 - 4) 1,
      base, 352 + 4096, cap, base + 8, 100, 0⟩ : Heap) (base + 352)
  rw [hsz, hb81] at hadd
  rw [show ((81 : Nat) : Int) = 81 from rfl] at hse
  rw [hse, hslot] at hadd
  rw [if_pos (show firstD ((fun _ => []) 81) 0 = 0 from rfl)] at hadd
  -- the result of `mm_init`
  rw [hex, hco, hadd] at hev
  simp only [Option.map_some'] at hev
  rw [if_neg (show ¬ base + 352 = 0 by omega)] at hev
  -- it is the state the specification of `extend_heap` describes
  have hext := hex.trans (hco.trans (congrArg (Option.map fun h1 => (base + 352, h1)) hadd))
  have hu := @Fueled.eq_of_some _ _ _ _ _ f1 fuel hext
  simp only [Option.map_some', Prod.mk.injEq] at hu
  obtain ⟨hu1, hu2⟩ := hu
  subst hu1
  have hch := inv1.core.chain
  obtain ⟨_, _, _, _, h5⟩ := hch
  dsimp only at h5
  rw [e1, e2] at h5
  obtain ⟨w1, w2⟩ := Chain.whole h5 hm1 (by dsimp only; omega)
  dsimp only at w2
  have hle := (Chain.mem h5 _ hm1).2.1
  dsimp only at hle
  have ers : rs = 4096 := by omega
  subst ers
  have er : base + 352 = base + 8 + 344 := by omega
  rw [← er] at w1
  rw [w1] at inv1
  refine ⟨_, bk1, hev, hu2 ▸ inv1, rfl, rfl, rfl, ?_, ?_, ?_⟩
  · show (0 : Int) + 1 = 1
    rfl
  · show (if (100 : Int) > 81 ∨ (100 : Int) = 100 then (81 : Int) else 100) = 81
    rw [if_pos (Or.inr rfl)]
  · intro i hi
    have c2 := inv1.core
    have hall : ∀ j, j < 84 → ∀ y ∈ bk1 j, y = base + 352 ∧ j = 81 := by
      intro j hj y hy
      obtain ⟨s, a, hm, hbk⟩ := c2.nodes j hj y hy
      simp only [List.mem_singleton, Prod.mk.injEq] at hm
      obtain ⟨m1, m2, _⟩ := hm
      subst m2
      exact ⟨m1, hbk.symm.trans (by decide)⟩
    by_cases e : i = 81
    · subst e
      rw [if_pos rfl]
      obtain ⟨j, hj, hy⟩ := (inv1.listed (base + 352)).mpr ⟨4096, List.mem_singleton.mpr rfl⟩
      have := (hall j hj _ hy).2
      subst this
      exact singleton_of_nodup (c2.nodup 81 hi) hy (fun y hy1 => (hall 81 hi y hy1).1)
    · rw [if_neg e]
      cases hbi : bk1 i with
      | nil => rfl
      | cons y t =>
        have := (hall i hi y (hbi ▸ List.mem_cons_self _ _)).2
        exact absurd this e

/-- `mm_init` on an empty arena that cannot hold 4448 bytes returns -1. -/
theorem mm_init_fails (fuel : Nat) (m : Mem) {base cap : Nat} (hb : base % 8 = 0)
    (hr : base + cap < 4294967296) (hc : cap < 2147483648) (hcap : cap < 4448) :
    ∃ h, mm_init fuel (boot m base cap) = some (-1, h) := by
  by_cases h352 : 352 ≤ cap
  · have inv0 := init_state_inv m hb hr hc h352
    obtain ⟨hfail, _⟩ := extend_heap_spec (N := CHUNKSIZE / WSIZE) inv0 (by decide) (by decide)
      (by decide)
    have hev := mm_init_eval fuel (boot m base cap) rfl hb hr h352
    unfold boot at hev
    dsimp only at hev
    rw [hfail (show cap < 352 + CHUNKSIZE / WSIZE * 4 by
      rw [show CHUNKSIZE / WSIZE * 4 = 4096 from rfl]; omega) fuel] at hev
    exact ⟨_, hev⟩
  · have e2 : mem_sbrk (boot m base cap) (88 * WSIZE) = (4294967295, boot m base cap) := by
      unfold mem_sbrk WSIZE boot
      rw [if_neg (by dsimp only; omega)]
    have e3 : mm_init fuel (boot m base cap)
        = some (-1, { boot m base cap with heap_listp := 4294967295 }) := by
      unfold mm_init
      simp only [e2, if_true]
    exact ⟨_, e3⟩

theorem flatMap_range_single (x k : Nat) : ∀ n,
    (List.range n).flatMap (fun i => if i = k then [x] else []) = if k < n then [x] else []
  | 0 => rfl
  | n + 1 => by
    rw [List.range_succ, List.flatMap_append, flatMap_range_single x k n]
    by_cases h1 : k < n
    · rw [if_pos h1, if_pos (by omega)]
      simp only [List.flatMap_cons, List.flatMap_nil, List.append_nil]
      rw [if_neg (by omega)]
      rfl
    · rw [if_neg h1]
      by_cases h2 : n = k
      · rw [if_pos (by omega)]
        simp only [List.flatMap_cons, List.flatMap_nil, List.append_nil]
        rw [if_pos h2]
        rfl
      · rw [if_neg (by omega)]
        simp only [List.flatMap_cons, List.flatMap_nil, List.append_nil]
        rw [if_neg h2]
        rfl

/-! ## A call of `mm_malloc` that does not return -/

/-- The insertion scan does not end on a node that is its own successor and is
    smaller than the block to insert. -/
theorem add_scan_cycle {m : Mem} {size c : Nat} (hc : c ≠ 0)
    (hs : GET_SIZE m (HDRP c) < size) (hn : GET m (add32 c WSIZE) = c) :
    ∀ fuel p, add_scan m size fuel c p = none
  | 0, _ => rfl
  | fuel + 1, p => by
    unfold add_scan
    rw [if_pos ⟨hc, hs⟩, hn]
    exact add_scan_cycle hc hs hn fuel c

theorem add_scan_into_cycle {m : Mem} {size t c : Nat} (ht : t ≠ 0)
    (hst : GET_SIZE m (HDRP t) < size) (hnt : GET m (add32 t WSIZE) = c) (hc : c ≠ 0)
    (hs : GET_SIZE m (HDRP c) < size) (hn : GET m (add32 c WSIZE) = c) :
    ∀ fuel p, add_scan m size fuel t p = none
  | 0, _ => rfl
  | fuel + 1, p => by
    unfold add_scan
    rw [if_pos ⟨ht, hst⟩, hnt]
    exact add_scan_cycle hc hs hn fuel t

/-- `add_free_list(y)` does not return when the list of the bucket of `y`
    leads from its head `t` to a node `c` that is its own successor, both
    smaller than `y`. -/
theorem add_free_list_stuck (fuel : Nat) (H : Heap) (y : Nat) {t c : Nat}
    (ht : GET H.mem (slot H (bucketOf (GET_SIZE H.mem (HDRP y)))) = t) (ht0 : t ≠ 0)
    (hst : GET_SIZE H.mem (HDRP t) < GET_SIZE H.mem (HDRP y))
    (hnt : GET H.mem (add32 t WSIZE) = c) (hc : c ≠ 0)
    (hs : GET_SIZE H.mem (HDRP c) < GET_SIZE H.mem (HDRP y))
    (hn : GET H.mem (add32 c WSIZE) = c) :
    add_free_list fuel H y = none := by
  rw [add_free_list_eval, ht, if_neg ht0, add_scan_into_cycle ht0 hst hnt hc hs hn fuel t]
  rfl

/-- `mm_malloc(s)` when `find_fit` returns a block. -/
theorem mm_malloc_found (fuel : Nat) (h : Heap) {s x : Nat} (hs : s ≠ 0)
    (hf : find_fit h (adjust s) = x) (hx : x ≠ 0) :
    mm_malloc fuel h s = (place fuel h x (adjust s)).map fun h1 => (x, h1) := by
  unfold mm_malloc
  rw [if_neg hs]
  simp only [hf, ne_eq, hx, not_false_eq_true, if_true]

/-- `mm_malloc(s)` does not return when `find_fit` returns a block `x` that
    `place` splits, `x` is not the head of its bucket, and the list of the
    bucket of the rest leads into a node that is its own successor. -/
theorem mm_malloc_stuck (fuel : Nat) (h : Heap) {s x k t c : Nat} (hs : s ≠ 0)
    (hf : find_fit h (adjust s) = x) (hx0 : x ≠ 0) (hdr : GET h.mem (x - 4) = k + 0)
    (hx : x % 8 = 0) (h4 : 4 ≤ x) (hc8 : k % 8 = 0) (ha8 : adjust s % 8 = 0)
    (ha : 8 ≤ adjust s) (hsp : adjust s + 16 ≤ k) (hlt : x + k < 4294967296)
    (hprev : GET h.mem x ≠ 0)
    (ht : GET (split_state h x (adjust s) k).mem (slot (split_state h x (adjust s) k)
      (bucketOf (GET_SIZE (split_state h x (adjust s) k).mem (HDRP (x + adjust s))))) = t)
    (ht0 : t ≠ 0)
    (hst : GET_SIZE (split_state h x (adjust s) k).mem (HDRP t)
      < GET_SIZE (split_state h x (adjust s) k).mem (HDRP (x + adjust s)))
    (hnt : GET (split_state h x (adjust s) k).mem (add32 t WSIZE) = c) (hc : c ≠ 0)
    (hsc : GET_SIZE (split_state h x (adjust s) k).mem (HDRP c)
      < GET_SIZE (split_state h x (adjust s) k).mem (HDRP (x + adjust s)))
    (hn : GET (split_state h x (adjust s) k).mem (add32 c WSIZE) = c) :
    mm_malloc fuel h s = none := by
  rw [mm_malloc_found fuel h hs hf hx0, place_eval_split fuel h hdr hx h4 hc8 ha8 ha hsp hlt,
    remove_free_list_eval, if_neg (fun hh => hprev hh.1), Option.some_bind]
  have e := add_free_list_stuck fuel (split_state h x (adjust s) k) (x + adjust s) ht ht0 hst
    hnt hc hsc hn
  show Option.map _ (add_free_list fuel (split_state h x (adjust s) k) (x + adjust s)) = none
  rw [e]
  rfl

theorem exec_getD {fuel : Nat} {h : Heap} {cs : List Call} {d : Run}
    (hh : (exec fuel h cs).isSome = true) : exec fuel h cs = some ((exec fuel h cs).getD d) := by
  cases e : exec fuel h cs with
  | none => rw [e] at hh; cases hh
  | some v => rfl

/-- After `mm_init`, `mm_malloc(4294967289)`, `mm_malloc(4294967289)` and
    `mm_realloc(4448, 4294967281)`, the call `mm_malloc(1)` does not return. -/
theorem demo_loop_stuck (fuel : Nat) : mm_malloc fuel demo_loop_run.heap 1 = none :=
  mm_malloc_stuck fuel demo_loop_run.heap (s := 1) (x := 4464) (k := 4080) (t := 4464) (c := 9)
    (by decide) (by decide!) (by decide) (by decide!) (by decide) (by decide) (by decide)
    (by decide) (by decide) (by decide) (by decide) (by decide!) (by decide!) (by decide)
    (by decide!) (by decide!) (by decide) (by decide!) (by decide!)

/-! ## `mm_malloc` when the arena cannot grow, in any state -/

theorem adjust_aligned (s : Nat) : adjust s % 8 = 0 ∧ adjust s < 4294967296 := by
  by_cases h8 : s ≤ 8
  · rw [adjust_small h8]; omega
  · rw [adjust_large h8]; omega

theorem extend_size_aligned (s : Nat) :
    MAX (adjust s) CHUNKSIZE % 8 = 0 ∧ MAX (adjust s) CHUNKSIZE < 4294967296 := by
  obtain ⟨a1, a2⟩ := adjust_aligned s
  unfold MAX CHUNKSIZE
  split <;> omega

/-- `extend_heap` returns `NULL` and leaves the state as it is when `mem_sbrk`
    fails. -/
theorem extend_heap_fails (fuel : Nat) (h : Heap) {M : Nat} (h8 : M % 8 = 0)
    (hlt : M < 4294967296) (hf : mem_sbrk h M = (4294967295, h)) :
    extend_heap fuel h (M / WSIZE) = some (0, h) := by
  have hw : M / WSIZE % 2 = 0 := by unfold WSIZE; omega
  have e1 : mul32 (M / WSIZE) WSIZE = M := by
    unfold mul32 WSIZE W32
    omega
  unfold extend_heap
  simp only [hw, ne_eq, not_true_eq_false, if_false, e1, hf, if_true]

/-- In any state: `mm_malloc(s)` returns `NULL` and leaves the state as it is
    when `s` is 0, or `find_fit` finds no block and `mem_sbrk` fails. -/
theorem mm_malloc_null_of_cause (fuel : Nat) (h : Heap) (s : Nat)
    (hc : s = 0 ∨ (find_fit h (adjust s) = 0
      ∧ mem_sbrk h (MAX (adjust s) CHUNKSIZE) = (4294967295, h))) :
    mm_malloc fuel h s = some (0, h) := by
  by_cases h0 : s = 0
  · subst h0
    exact mm_malloc_zero fuel h
  · obtain ⟨hf, hm⟩ := hc.resolve_left h0
    obtain ⟨a1, a2⟩ := extend_size_aligned s
    unfold mm_malloc
    rw [if_neg h0]
    simp only [hf, ne_eq, not_true_eq_false, if_false, extend_heap_fails fuel h a1 a2 hm,
      Option.some_bind, if_true]

/-- In any state: when `mm_malloc(s)` returns `NULL` and `s` is 0 or `mem_sbrk`
    fails, the state is as before the call. -/
theorem mm_malloc_null_unchanged (fuel : Nat) (h : Heap) (s : Nat) {p : Nat} {h1 : Heap}
    (hres : mm_malloc fuel h s = some (p, h1)) (hp : p = 0)
    (hc : s = 0 ∨ mem_sbrk h (MAX (adjust s) CHUNKSIZE) = (4294967295, h)) : h1 = h := by
  by_cases h0 : s = 0
  · subst h0
    rw [mm_malloc_zero] at hres
    exact ((Prod.mk.injEq _ _ _ _).mp (Option.some.inj hres)).2.symm
  · have hm := hc.resolve_left h0
    by_cases hf : find_fit h (adjust s) = 0
    · rw [mm_malloc_null_of_cause fuel h s (Or.inr ⟨hf, hm⟩)] at hres
      exact ((Prod.mk.injEq _ _ _ _).mp (Option.some.inj hres)).2.symm
    · rw [mm_malloc_found fuel h h0 rfl hf] at hres
      obtain ⟨h2, _, e⟩ := Option.map_eq_some'.mp hres
      exact absurd (((Prod.mk.injEq _ _ _ _).mp e).1.trans hp) hf

/-! ## Allocate, free, allocate again -/

/-- C3, counterexample.  From a fresh heap, `p = mm_malloc(24)`, `q = mm_malloc(24)`
    give two allocated 32-byte blocks followed by one free block; the call
    `mm_realloc(p, 4294967288)` (the size rounding wraps to 0) then returns `p`
    and leaves a free block of size 64 at `p` whose physical successor, the
    block at 4512, is free as well. -/
theorem adjacent_free_after_wrapped_realloc :
    (exec 100 demo [.malloc 24, .malloc 24]).map
        (fun r => (r.live, blocks r.heap.mem 5 (first_block r.heap)))
      = some ([4480, 4448], [(4448, 32, 1), (4480, 32, 1), (4512, 4032, 0), (8544, 0, 1)])
    ∧ (exec 100 demo [.malloc 24, .malloc 24, .realloc 4448 4294967288]).map
        (fun r => (r.ret, blocks r.heap.mem 5 (first_block r.heap)))
      = some (4448, [(4448, 64, 0), (4512, 4032, 0), (8544, 0, 1)]) := by
  decide!

/-- C4, counterexample.  From a fresh heap (arena of 4448 bytes),
    `a = mm_malloc(4294967292)` (the size rounding wraps to 8), `mm_malloc(4080)`
    and `mm_free(a)`: the walk by header sizes meets an 8-byte free block at 4448
    and stops at 4456 on a header that is zero, which is neither allocated nor
    the last word of the arena; the sizes met add up to 8, not to 4448 - 352. -/
theorem walk_broken_after_wrapped_malloc :
    (exec 100 demo [.malloc 4294967292, .malloc 4080, .free 4448]).map
        (fun r => (r.heap.brk, blocks r.heap.mem 5 (first_block r.heap)))
      = some (4448, [(4448, 8, 0), (4456, 0, 0)]) := by
  decide!

/-- C5, counterexample.  `p = mm_malloc(24)` returns a 32-byte block whose first
    payload byte is 0; `mm_realloc(p, 4294967292)` (the size rounding wraps to 8)
    returns `p` itself, and the first payload byte is now 9: the footer of an
    8-byte block was written over it. -/
theorem realloc_wrapped_size_overwrites_payload :
    (exec 100 demo [.malloc 24]).map (fun r => (r.ret, r.heap.mem 4448)) = some (4448, 0)
    ∧ (exec 100 demo [.malloc 24, .realloc 4448 4294967292]).map
        (fun r => (r.ret, r.heap.mem 4448)) = some (4448, 9) := by
  decide!

/-- C7, failing input.  Blocks of sizes 48, 16, 16, 16 are allocated at 4448,
    4496, 4512, 4528; the first and the third are freed (neither merges).  Bucket
    0 then lists 4448 (size 48) before 4512 (size 16), and `mm_malloc(8)`, which
    needs 16 bytes, returns 4448 and not the freed 16-byte block 4512. -/
theorem malloc_takes_larger_block_first :
    (exec 100 demo [.malloc 40, .malloc 8, .malloc 8, .malloc 8, .free 4448, .free 4512]).map
        (fun r => (blocks r.heap.mem 7 (first_block r.heap),
                   entries r.heap.mem 5 (GET r.heap.mem (slot r.heap 0))))
      = some ([(4448, 48, 0), (4496, 16, 1), (4512, 16, 0), (4528, 16, 1), (4544, 4000, 0),
               (8544, 0, 1)], [4448, 4512])
    ∧ (exec 100 demo [.malloc 40, .malloc 8, .malloc 8, .malloc 8, .free 4448, .free 4512,
          .malloc 8]).map (fun r => r.ret) = some 4448 := by
  decide!

/-- C8, failing input.  `p = mm_malloc(24)` returns a 32-byte block; for
    `mm_realloc(p, 8)` the adjusted size is 16 and the remainder is exactly 16,
    yet the call returns `p` with the block still 32 bytes long and the blocks
    of the arena unchanged. -/
theorem realloc_keeps_block_when_remainder_is_16 :
    adjust 8 = 16
    ∧ (exec 100 demo [.malloc 24]).map (fun r => blocks r.heap.mem 4 (first_block r.heap))
      = some [(4448, 32, 1), (4480, 4064, 0), (8544, 0, 1)]
    ∧ (exec 100 demo [.malloc 24, .realloc 4448 8]).map
        (fun r => (r.ret, blocks r.heap.mem 4 (first_block r.heap)))
      = some (4448, [(4448, 32, 1), (4480, 4064, 0), (8544, 0, 1)]) := by
  decide!

/-- C9.  Shrink without slack: for a block at `ptr` (not `NULL`) of size
    `oldSize >= 16` and a request `size > 0` with `adjust size <= oldSize` and
    `oldSize - adjust size < 16`, `mm_realloc(ptr, size)` returns `ptr` and the
    allocator state (memory, bucket table, `numFree`, `minList`) is unchanged. -/
theorem realloc_shrink_without_slack (fuel : Nat) (h : Heap) (ptr size : Nat)
    (hptr : ptr ≠ 0) (hpos : 0 < size) (hsz : size < W32)
    (hmin : 16 ≤ GET_SIZE h.mem (HDRP ptr))
    (hle : adjust size ≤ GET_SIZE h.mem (HDRP ptr))
    (hslack : GET_SIZE h.mem (HDRP ptr) - adjust size < 16) :
    mm_realloc fuel h ptr size = some (ptr, h) := by
  have ho := GET_SIZE_lt h.mem (HDRP ptr)
  have hchange : ¬ (GET_SIZE h.mem (HDRP ptr) < add32 size DSIZE) := by
    generalize GET_SIZE h.mem (HDRP ptr) = o at *
    by_cases h8 : size ≤ 8
    · rw [adjust_small h8] at hle hslack; unfold add32 DSIZE W32 at *; omega
    · rw [adjust_large h8] at hle hslack; unfold add32 DSIZE W32 at *; omega
  have hcarve : ¬ (sub32 (GET_SIZE h.mem (HDRP ptr)) (adjust size) > 2 * DSIZE) := by
    generalize GET_SIZE h.mem (HDRP ptr) = o at *
    generalize adjust size = a at *
    unfold sub32 DSIZE W32 at *; omega
  unfold mm_realloc
  simp only [Nat.pos_iff_ne_zero.mp hpos, hptr, if_false, hchange, hcarve, and_false, if_true]

/-- C10.  `mm_realloc(ptr, 0)` returns `NULL` and its final state is the one
    `mm_free(ptr)` produces from the same starting state. -/
theorem realloc_zero_is_free (fuel : Nat) (h : Heap) (ptr : Nat) :
    mm_realloc fuel h ptr 0 = (mm_free fuel h ptr).map fun h1 => (0, h1) := by
  simp [mm_realloc]

theorem realloc_shrink_without_slack_witness :
    GET_SIZE demo_small.mem (HDRP 4448) = 16 ∧ adjust 1 = 16
    ∧ mm_realloc 100 demo_small 4448 1 = some (4448, demo_small) :=
  ⟨by decide!, by decide!,
   realloc_shrink_without_slack 100 demo_small 4448 1 (by decide) (by decide) (by decide!)
     (by decide!) (by decide!) (by decide!)⟩

/-- C1, counterexample.  All calls are on live pointers.  After `mm_init`,
    `p = mm_malloc(4294967281)` (the size rounding wraps to 0), `mm_realloc(p, 9)`,
    `mm_malloc(8)`, `mm_realloc(p, 30)` and `mm_free(4488)`, the call
    `mm_malloc(40)` returns 4448; the header of that block is 49 (size 48,
    allocated), its footer is the word at 4488, and the allocated bit of that
    word is clear. -/
theorem malloc_footer_free_after_wrapped_calls :
    (exec 100 demo [.malloc 4294967281, .realloc 4448 9, .malloc 8, .realloc 4448 30,
        .free 4488, .malloc 40]).map
        (fun r => (r.ret, GET r.heap.mem (HDRP r.ret), FTRP r.heap.mem r.ret,
                   GET_ALLOC r.heap.mem (FTRP r.heap.mem r.ret)))
      = some (4448, 49, 4488, 0) := by
  decide!

/-- C1, amended.  In every state reached from a successful `mm_init` by calls
    on live pointers whose request sizes `s` all satisfy `s + 15 < 2^32` and of
    which no `mm_realloc` with a size `> 0` returned `NULL` (this is `Reach`),
    for every request `0 < s` with `s + 15 < 2^32`: `mm_malloc(s)` returns, and
    when the pointer `p` it returns is not `NULL`, `p` is a multiple of 8, header
    and footer of the block at `p` carry the allocated bit, and the block size
    is at least `s + 8`. -/
theorem malloc_result_aligned_allocated (r : Run) (s : Nat) (hr : Reach r) (h0 : 0 < s)
    (hs : s + 15 < W32) :
    (∃ n, ∀ fuel, n ≤ fuel → (mm_malloc fuel r.heap s).isSome = true)
    ∧ ∀ fuel p h1, mm_malloc fuel r.heap s = some (p, h1) → p ≠ 0 →
        p % 8 = 0 ∧ GET_ALLOC h1.mem (HDRP p) = 1 ∧ GET_ALLOC h1.mem (FTRP h1.mem p) = 1
          ∧ s + 8 ≤ GET_SIZE h1.mem (HDRP p) := by
  obtain ⟨bs, bk, inv, _, _⟩ := hr.inv
  obtain ⟨n, q, h1, fm, _, _, hok⟩ := mm_malloc_spec inv (by omega) hs
  obtain ⟨ht, hu⟩ := fm.returns
  refine ⟨ht, fun fuel p h2 hres hp => ?_⟩
  have e := hu fuel _ hres
  simp only [Prod.mk.injEq] at e
  obtain ⟨e1, e2⟩ := e
  subst e1
  subst e2
  obtain ⟨bs1, bk1, ζ, inv1, hm1, hz, _⟩ := hok hp
  obtain ⟨_, _, _, _, r5, r6, _, r8, r9, _⟩ := inv1.core.reads hm1
  have := (adjust_facts hs).2.2.1
  rw [r5, r6, r8]
  exact ⟨r9, rfl, rfl, by omega⟩

theorem malloc_result_aligned_allocated_witness :
    (∃ n, ∀ fuel, n ≤ fuel → (mm_malloc fuel demo_run.heap 24).isSome = true)
    ∧ ∀ fuel p h1, mm_malloc fuel demo_run.heap 24 = some (p, h1) → p ≠ 0 →
        p % 8 = 0 ∧ GET_ALLOC h1.mem (HDRP p) = 1 ∧ GET_ALLOC h1.mem (FTRP h1.mem p) = 1
          ∧ 24 + 8 ≤ GET_SIZE h1.mem (HDRP p) :=
  malloc_result_aligned_allocated demo_run 24 reach_demo_run (by decide) (by decide)

/-- C2, counterexample.  All calls are on live pointers.  After `mm_init`,
    `mm_malloc(4294967289)` twice (the size rounding wraps to 8) and
    `mm_realloc(4448, 4294967281)` (it wraps to 0), which returns 4464, the call
    `mm_malloc(1)` is not one that returns `NULL` by the claim (`1` is not 0 and
    `find_fit` finds the block 4464), and it returns no pointer either: for no
    amount of fuel does it return.  (`place` splits the block and `add_free_list`
    follows the list of bucket 81 into the address 9, which is its own
    successor.) -/
theorem malloc_does_not_return_after_wrapped_calls :
    (exec 100 demo [.malloc 4294967289, .malloc 4294967289, .realloc 4448 4294967281]).map
        (fun r => (r.ret, r.live, find_fit r.heap (adjust 1))) = some (4464, [4464, 4456], 4464)
    ∧ ∀ fuel, (exec 100 demo [.malloc 4294967289, .malloc 4294967289,
        .realloc 4448 4294967281]).bind (fun r => mm_malloc fuel r.heap 1) = none := by
  refine ⟨by decide!, fun fuel => ?_⟩
  rw [exec_getD (d := demo_run) (by decide!), Option.some_bind]
  exact demo_loop_stuck fuel

/-- C2, amended.  In every state reached from a successful `mm_init` by calls
    on live pointers whose request sizes `s` all satisfy `s + 15 < 2^32` and of
    which no `mm_realloc` with a size `> 0` returned `NULL` (this is `Reach`),
    for every request size `s` of the 32-bit size type: `mm_malloc(s)` returns,
    and the pointer it returns is `NULL` if and only if `s` is 0, or `find_fit`
    finds no block for the adjusted size and `mem_sbrk` fails for
    `MAX(adjusted size, CHUNKSIZE)` bytes. -/
theorem malloc_null_iff (r : Run) (s : Nat) (hr : Reach r) (hs : s < W32) :
    (∃ n, ∀ fuel, n ≤ fuel → (mm_malloc fuel r.heap s).isSome = true)
    ∧ ∀ fuel p h1, mm_malloc fuel r.heap s = some (p, h1) →
        (p = 0 ↔ s = 0 ∨ (find_fit r.heap (adjust s) = 0
          ∧ (mem_sbrk r.heap (MAX (adjust s) CHUNKSIZE)).1 = 4294967295)) := by
  obtain ⟨bs, bk, inv, _, _⟩ := hr.inv
  obtain ⟨n, q, h1, fm, hiff, _⟩ := mm_malloc_total inv hs
  obtain ⟨ht, hu⟩ := fm.returns
  refine ⟨ht, fun fuel p h2 hres => ?_⟩
  have e := hu fuel _ hres
  simp only [Prod.mk.injEq] at e
  rw [e.1]
  exact hiff

theorem malloc_null_iff_witness :
    (∃ n, ∀ fuel, n ≤ fuel → (mm_malloc fuel demo_run.heap 4294967295).isSome = true)
    ∧ ∀ fuel p h1, mm_malloc fuel demo_run.heap 4294967295 = some (p, h1) →
        (p = 0 ↔ 4294967295 = 0 ∨ (find_fit demo_run.heap (adjust 4294967295) = 0
          ∧ (mem_sbrk demo_run.heap (MAX (adjust 4294967295) CHUNKSIZE)).1 = 4294967295)) :=
  malloc_null_iff demo_run 4294967295 reach_demo_run (by decide)

/-- C13.  In every allocator state `h`, reached in whatever way, and for every
    request size `s`: when `s` is 0, or `find_fit` finds no block and the
    `mem_sbrk` request for `MAX(adjusted size, CHUNKSIZE)` bytes fails (it
    returns `(void *)-1` and leaves the arena as it is), `mm_malloc(s)` returns
    `NULL`, for every fuel, and the state after the call (the memory, the arena
    bounds, the bucket table pointer, `numFree`, `minList`) is the state before
    it; and whenever `mm_malloc(s)` returns `NULL` while `s` is 0 or that
    `mem_sbrk` request fails, the state after the call is the state before it.
    In the states of `Reach` (all earlier request sizes satisfy
    `s + 15 < 2^32`, no `mm_realloc` with a size `> 0` returned `NULL`) these are
    the only ways for `mm_malloc` to return `NULL`: there the call returns for
    every request size of the 32-bit size type, and the state is unchanged
    whenever it returns `NULL`. -/
theorem malloc_null_keeps_state (fuel : Nat) (h : Heap) (s : Nat) :
    ((s = 0 ∨ (find_fit h (adjust s) = 0
          ∧ mem_sbrk h (MAX (adjust s) CHUNKSIZE) = (4294967295, h))) →
        mm_malloc fuel h s = some (0, h))
    ∧ (∀ p h1, mm_malloc fuel h s = some (p, h1) → p = 0 →
        (s = 0 ∨ mem_sbrk h (MAX (adjust s) CHUNKSIZE) = (4294967295, h)) → h1 = h)
    ∧ (∀ r : Run, Reach r → s < W32 →
        (∃ n, ∀ k, n ≤ k → (mm_malloc k r.heap s).isSome = true)
        ∧ ∀ k p h1, mm_malloc k r.heap s = some (p, h1) → p = 0 → h1 = r.heap) := by
  refine ⟨mm_malloc_null_of_cause fuel h s,
    fun p h1 hres hp hc => mm_malloc_null_unchanged fuel h s hres hp hc, fun r hr hs => ?_⟩
  obtain ⟨bs, bk, inv, _, _⟩ := hr.inv
  obtain ⟨n, q, h1, fm, _, hnull⟩ := mm_malloc_total inv hs
  obtain ⟨ht, hu⟩ := fm.returns
  refine ⟨ht, fun k p h2 hres hp => ?_⟩
  have e := hu k _ hres
  simp only [Prod.mk.injEq] at e
  rw [e.2]
  exact hnull (e.1 ▸ hp)

/-- C3, amended.  In every state reached from a successful `mm_init` by calls
    on live pointers whose request sizes `s` satisfy `s + 15 < 2^32`, the walk by
    header sizes from the first block reaches the epilogue header and meets no
    free block whose physical successor is free. -/
theorem no_adjacent_free_in_contract (r : Run) (hr : Reach r) :
    ∃ n, (blocks r.heap.mem n (first_block r.heap)).getLast?
          = some (r.heap.base + r.heap.brk, 0, 1)
      ∧ NoAdjFree (blocks r.heap.mem n (first_block r.heap)) := by
  obtain ⟨bs, bk, inv, _, _⟩ := hr.inv
  refine ⟨bs.length + 1, ?_, ?_⟩
  · rw [inv.blocks_eq]; exact getLast?_concat_blk _ _
  · rw [inv.blocks_eq]; exact inv.walk_noadj

theorem no_adjacent_free_in_contract_witness :
    ∃ n, (blocks demo_run1.heap.mem n (first_block demo_run1.heap)).getLast?
          = some (demo_run1.heap.base + demo_run1.heap.brk, 0, 1)
      ∧ NoAdjFree (blocks demo_run1.heap.mem n (first_block demo_run1.heap)) :=
  no_adjacent_free_in_contract demo_run1 reach_demo_run1

/-- C4, amended.  In every state reached from a successful `mm_init` by calls
    on live pointers whose request sizes `s` satisfy `s + 15 < 2^32`, the walk by
    header sizes from the first block ends at the zero-size allocated epilogue
    header, which is the last word of the arena, and the sizes of the blocks
    met plus 352 is the number of bytes obtained from `mem_sbrk`. -/
theorem conservation_in_contract (r : Run) (hr : Reach r) :
    ∃ n, (blocks r.heap.mem n (first_block r.heap)).getLast?
          = some (r.heap.base + r.heap.brk, 0, 1)
      ∧ HDRP (r.heap.base + r.heap.brk) + 4 = r.heap.base + r.heap.brk
      ∧ ((blocks r.heap.mem n (first_block r.heap)).map fun b => b.2.1).sum + 352
          = r.heap.brk := by
  obtain ⟨bs, bk, inv, _, _⟩ := hr.inv
  have c := inv.core
  have hr1 := c.range
  have hb1 := c.brk_le
  have hg1 := c.brk_ge
  refine ⟨bs.length + 1, ?_, ?_, ?_⟩
  · rw [inv.blocks_eq]; exact getLast?_concat_blk _ _
  · rw [HDRP_eq (by omega) (by omega)]; omega
  · rw [inv.blocks_eq, sum_sizes_concat]
    have hch := c.chain
    obtain ⟨_, _, _, _, h5⟩ := hch
    have := Chain.sum h5
    dsimp only at this ⊢
    omega

theorem conservation_in_contract_witness :
    ∃ n, (blocks demo_run1.heap.mem n (first_block demo_run1.heap)).getLast?
          = some (demo_run1.heap.base + demo_run1.heap.brk, 0, 1)
      ∧ HDRP (demo_run1.heap.base + demo_run1.heap.brk) + 4
          = demo_run1.heap.base + demo_run1.heap.brk
      ∧ ((blocks demo_run1.heap.mem n (first_block demo_run1.heap)).map fun b => b.2.1).sum + 352
          = demo_run1.heap.brk :=
  conservation_in_contract demo_run1 reach_demo_run1

/-- C14, failing input.  In an arena that cannot grow beyond the 4448 bytes of
    `mm_init`, whose byte at 4456 is 7, `p = mm_malloc(24)` returns the block at
    4448 (32 bytes, allocated, followed by a free block of 4064 bytes).
    `mm_realloc(p, 5000)` finds no room, its inner `mm_malloc` returns `NULL`,
    and the call returns `NULL` after it has copied the payload to address 0
    (the word at address 8, outside the arena, is now 7) and freed the block at
    `p`: the arena is one free block of 4096 bytes. -/
theorem realloc_out_of_memory_frees_block :
    (exec 100 demo_marked [.malloc 24]).map
        (fun r => (r.ret, GET r.heap.mem 8, blocks r.heap.mem 4 (first_block r.heap)))
      = some (4448, 0, [(4448, 32, 1), (4480, 4064, 0), (8544, 0, 1)])
    ∧ (exec 100 demo_marked [.malloc 24]).map
        (fun r => (find_fit r.heap (adjust 5000),
                   (mem_sbrk r.heap (MAX (adjust 5000) CHUNKSIZE)).1)) = some (0, 4294967295)
    ∧ (exec 100 demo_marked [.malloc 24, .realloc 4448 5000]).map
        (fun r => (r.ret, GET r.heap.mem 8, blocks r.heap.mem 4 (first_block r.heap)))
      = some (0, 7, [(4448, 4096, 0), (8544, 0, 1)]) :=
  ⟨by decide!, by decide!, by decide!⟩

/-- C15, counterexample.  After `mm_init`, `mm_malloc(24)` and
    `mm_malloc(4294967288)` (the size rounding wraps to 0), the block at 4448
    has the header word 33 (size 32, allocated) and, at payload + size - 8, the
    footer word 1. -/
theorem tags_disagree_after_wrapped_malloc :
    (exec 100 demo [.malloc 24, .malloc 4294967288]).map
        (fun r => (blocks r.heap.mem 4 (first_block r.heap),
                   GET r.heap.mem (HDRP 4448), GET r.heap.mem (4448 + 32 - 8)))
      = some ([(4448, 32, 1), (4480, 4064, 0), (8544, 0, 1)], 33, 1) := by
  decide!

/-- C15, amended.  In every state reached from a successful `mm_init` by calls
    on live pointers whose request sizes `s` satisfy `s + 15 < 2^32`, the walk by
    header sizes reaches the epilogue header, and every block before it has a
    footer at payload + size - 8 whose word is the header word: the same size
    and the same allocated bit. -/
theorem boundary_tags_agree_in_contract (r : Run) (hr : Reach r) :
    ∃ n, (blocks r.heap.mem n (first_block r.heap)).getLast?
          = some (r.heap.base + r.heap.brk, 0, 1)
      ∧ ∀ b ∈ blocks r.heap.mem n (first_block r.heap), b.2.1 ≠ 0 →
          FTRP r.heap.mem b.1 = b.1 + b.2.1 - 8
          ∧ GET r.heap.mem (FTRP r.heap.mem b.1) = GET r.heap.mem (HDRP b.1)
          ∧ GET_SIZE r.heap.mem (HDRP b.1) = b.2.1 ∧ GET_ALLOC r.heap.mem (HDRP b.1) = b.2.2
          ∧ GET_SIZE r.heap.mem (FTRP r.heap.mem b.1) = b.2.1
          ∧ GET_ALLOC r.heap.mem (FTRP r.heap.mem b.1) = b.2.2 := by
  obtain ⟨bs, bk, inv, _, _⟩ := hr.inv
  refine ⟨bs.length + 1, ?_, ?_⟩
  · rw [inv.blocks_eq]; exact getLast?_concat_blk _ _
  · rw [inv.blocks_eq]
    intro b hb hne
    rcases List.mem_append.mp hb with hb1 | hb1
    · obtain ⟨b1, b2, b3⟩ := b
      obtain ⟨_, r2, r3, r4, r5, r6, r7, r8, _⟩ := inv.core.reads hb1
      dsimp only
      rw [r4, r3]
      exact ⟨r2, rfl, r5, r6, r7, r8⟩
    · simp only [List.mem_singleton] at hb1
      subst hb1
      exact absurd rfl hne

theorem boundary_tags_agree_in_contract_witness :
    ∃ n, (blocks demo_run1.heap.mem n (first_block demo_run1.heap)).getLast?
          = some (demo_run1.heap.base + demo_run1.heap.brk, 0, 1)
      ∧ ∀ b ∈ blocks demo_run1.heap.mem n (first_block demo_run1.heap), b.2.1 ≠ 0 →
          FTRP demo_run1.heap.mem b.1 = b.1 + b.2.1 - 8
          ∧ GET demo_run1.heap.mem (FTRP demo_run1.heap.mem b.1)
              = GET demo_run1.heap.mem (HDRP b.1)
          ∧ GET_SIZE demo_run1.heap.mem (HDRP b.1) = b.2.1
          ∧ GET_ALLOC demo_run1.heap.mem (HDRP b.1) = b.2.2
          ∧ GET_SIZE demo_run1.heap.mem (FTRP demo_run1.heap.mem b.1) = b.2.1
          ∧ GET_ALLOC demo_run1.heap.mem (FTRP demo_run1.heap.mem b.1) = b.2.2 :=
  boundary_tags_agree_in_contract demo_run1 reach_demo_run1

/-- C16, failing input.  Blocks of sizes 48, 16, 16, 16 are allocated at 4448,
    4496, 4512, 4528; the first and the third are freed (neither merges, each
    `mm_free` ends in `add_free_list`).  Bucket 0, read from its head along the
    next links, is then the block of size 48 followed by the block of size 16:
    the head of the bucket is not its smallest block. -/
theorem bucket_not_ascending_after_free :
    (exec 100 demo [.malloc 40, .malloc 8, .malloc 8, .malloc 8, .free 4448, .free 4512]).map
        (fun r => (entries r.heap.mem 5 (GET r.heap.mem (slot r.heap 0))).map
          fun p => (p, GET_SIZE r.heap.mem (HDRP p)))
      = some [(4448, 48), (4512, 16)] := by
  decide!

/-- C21, counterexample.  For the request size `2^32 - 1` the adjusted size is
    8: the sum `size + 8 + 7` wraps.  It is less than 16. -/
theorem adjust_wraps_below_minimum : adjust 4294967295 = 8 := by
  decide

/-- C21, amended.  For every request size `s` with `s + 15 < 2^32`, the
    adjusted size is a multiple of 8, at least 16, at least `s + 8`, and the
    least number with these three properties. -/
theorem adjust_is_least_fitting_size (s : Nat) (hs : s + 15 < W32) :
    adjust s % 8 = 0 ∧ 16 ≤ adjust s ∧ s + 8 ≤ adjust s
      ∧ ∀ k, k % 8 = 0 → 16 ≤ k → s + 8 ≤ k → adjust s ≤ k := by
  obtain ⟨a1, a2, a3, _⟩ := adjust_facts hs
  exact ⟨a2, a1, a3, fun k k1 k2 k3 => adjust_least hs k1 k2 k3⟩

theorem adjust_is_least_fitting_size_witness :
    adjust 9 % 8 = 0 ∧ 16 ≤ adjust 9 ∧ 9 + 8 ≤ adjust 9
      ∧ ∀ k, k % 8 = 0 → 16 ≤ k → 9 + 8 ≤ k → adjust 9 ≤ k :=
  adjust_is_least_fitting_size 9 (by decide)

/-- C17, counterexample.  After `mm_init`, `mm_malloc(4294967289)` (the size
    rounding wraps to 8) and `mm_malloc(8)`, the blocks at 4448 (8 bytes) and 4456
    (16 bytes) are live.  After `mm_free(4448)` the header of 4448 holds the size
    8, but the word at its footer position is 0, and the header of the live
    block 4456 is 0: the link words of the freed block were written over
    them. -/
theorem free_breaks_tags_after_wrapped_malloc :
    (exec 100 demo [.malloc 4294967289, .malloc 8]).map
        (fun r => (r.live, blocks r.heap.mem 5 (first_block r.heap)))
      = some ([4456, 4448], [(4448, 8, 1), (4456, 16, 1), (4472, 4072, 0), (8544, 0, 1)])
    ∧ (exec 100 demo [.malloc 4294967289, .malloc 8, .free 4448]).map
        (fun r => (r.live, GET r.heap.mem (HDRP 4448), GET r.heap.mem (FTRP r.heap.mem 4448),
                   GET r.heap.mem (HDRP 4456)))
      = some ([4456], 8, 0, 0) :=
  ⟨by decide!, by decide!⟩

/-- C17, amended.  For every live block `bp` of a state reached from a
    successful `mm_init` by calls on live pointers whose request sizes `s` all
    satisfy `s + 15 < 2^32` and of which no `mm_realloc` with a size `> 0`
    returned `NULL` (this is `Reach`), `mm_free(bp)` returns, and for the
    address `q` and the size `t` that `mergedAt` computes from the boundary tags
    around `bp` before the call (the size of `bp`, plus the size of the
    predecessor if it is free, plus the size of the successor if it is free; the
    address of the predecessor if it is free, of `bp` otherwise): the bytes of
    `bp` lie in the block `[q, q + t)`, header and footer of `q` hold `t` with
    the allocated bit clear, `q` occurs exactly once in the index, and no other
    entry of the index lies in that block. -/
theorem free_coalesces_with_free_neighbours (r : Run) (bp : Nat) (hr : Reach r)
    (hlive : bp ∈ r.live) :
    ∃ n h1, (∀ fuel, n ≤ fuel → mm_free fuel r.heap bp = some h1)
      ∧ (∀ fuel h2, mm_free fuel r.heap bp = some h2 → h2 = h1)
      ∧ (mergedAt r.heap.mem bp (GET_SIZE r.heap.mem (HDRP bp))).1 ≤ bp
      ∧ bp + GET_SIZE r.heap.mem (HDRP bp)
          ≤ (mergedAt r.heap.mem bp (GET_SIZE r.heap.mem (HDRP bp))).1
            + (mergedAt r.heap.mem bp (GET_SIZE r.heap.mem (HDRP bp))).2
      ∧ GET h1.mem (HDRP (mergedAt r.heap.mem bp (GET_SIZE r.heap.mem (HDRP bp))).1)
          = (mergedAt r.heap.mem bp (GET_SIZE r.heap.mem (HDRP bp))).2
      ∧ GET h1.mem (FTRP h1.mem (mergedAt r.heap.mem bp (GET_SIZE r.heap.mem (HDRP bp))).1)
          = (mergedAt r.heap.mem bp (GET_SIZE r.heap.mem (HDRP bp))).2
      ∧ (mergedAt r.heap.mem bp (GET_SIZE r.heap.mem (HDRP bp))).2 % 8 = 0
      ∧ ∀ k, h1.numFree.toNat < k →
          (index_entries h1 k).count (mergedAt r.heap.mem bp (GET_SIZE r.heap.mem (HDRP bp))).1
            = 1
          ∧ ∀ y ∈ index_entries h1 k,
              y = (mergedAt r.heap.mem bp (GET_SIZE r.heap.mem (HDRP bp))).1
              ∨ y < (mergedAt r.heap.mem bp (GET_SIZE r.heap.mem (HDRP bp))).1
              ∨ (mergedAt r.heap.mem bp (GET_SIZE r.heap.mem (HDRP bp))).1
                  + (mergedAt r.heap.mem bp (GET_SIZE r.heap.mem (HDRP bp))).2 ≤ y := by
  obtain ⟨bs, bk, inv, _, hl⟩ := hr.inv
  obtain ⟨s, hm⟩ := hl bp hlive
  obtain ⟨_, _, _, _, r5, _⟩ := inv.core.reads hm
  rw [r5]
  obtain ⟨h1, bs1, bk1, f1, _, inv1, _, q, t, hq, hq1, hq2, hsh⟩ := mm_free_shape inv hm
  rw [← hsh]
  dsimp only
  have c1 := inv1.core
  obtain ⟨_, _, k3, k4, _, _, _, _, _, _⟩ := c1.reads hq
  obtain ⟨_, _, b3, b4, _⟩ := c1.blk (Core.mem_with hq)
  dsimp only at b3 b4
  refine ⟨_, h1, f1.enough, fun fuel h2 e => f1.eq_of_some e, hq1, hq2, k3, k4, b4, ?_⟩
  intro k hk
  rw [c1.index hk]
  have hin : q ∈ (List.range 84).flatMap bk1 :=
    mem_flatMap_range.mpr ((inv1.listed q).mpr ⟨t, hq⟩)
  refine ⟨List.count_eq_one_of_mem c1.index_nodup hin, fun y hy => ?_⟩
  obtain ⟨ty, hty⟩ := (inv1.listed y).mp (mem_flatMap_range.mp hy)
  have hch : Chain (h1.base + 8) (withPrologue h1 bs1) (h1.base + h1.brk) := c1.chain
  rcases Chain.sep hch _ (Core.mem_with (h := h1) hty) _ (Core.mem_with (h := h1) hq)
    with e | e | e
  · left
    simp only [Prod.mk.injEq] at e
    exact e.1
  · right; left
    have := (c1.blk (Core.mem_with hty)).2.2.1
    dsimp only at e this
    omega
  · right; right
    exact e

theorem free_coalesces_with_free_neighbours_witness :
    ∃ n h1, (∀ fuel, n ≤ fuel → mm_free fuel demo_run1.heap 4448 = some h1)
      ∧ (∀ fuel h2, mm_free fuel demo_run1.heap 4448 = some h2 → h2 = h1)
      ∧ (mergedAt demo_run1.heap.mem 4448 (GET_SIZE demo_run1.heap.mem (HDRP 4448))).1 ≤ 4448
      ∧ 4448 + GET_SIZE demo_run1.heap.mem (HDRP 4448)
          ≤ (mergedAt demo_run1.heap.mem 4448 (GET_SIZE demo_run1.heap.mem (HDRP 4448))).1
            + (mergedAt demo_run1.heap.mem 4448 (GET_SIZE demo_run1.heap.mem (HDRP 4448))).2
      ∧ GET h1.mem
            (HDRP (mergedAt demo_run1.heap.mem 4448 (GET_SIZE demo_run1.heap.mem (HDRP 4448))).1)
          = (mergedAt demo_run1.heap.mem 4448 (GET_SIZE demo_run1.heap.mem (HDRP 4448))).2
      ∧ GET h1.mem (FTRP h1.mem
            (mergedAt demo_run1.heap.mem 4448 (GET_SIZE demo_run1.heap.mem (HDRP 4448))).1)
          = (mergedAt demo_run1.heap.mem 4448 (GET_SIZE demo_run1.heap.mem (HDRP 4448))).2
      ∧ (mergedAt demo_run1.heap.mem 4448 (GET_SIZE demo_run1.heap.mem (HDRP 4448))).2 % 8 = 0
      ∧ ∀ k, h1.numFree.toNat < k →
          (index_entries h1 k).count
              (mergedAt demo_run1.heap.mem 4448 (GET_SIZE demo_run1.heap.mem (HDRP 4448))).1
            = 1
          ∧ ∀ y ∈ index_entries h1 k,
              y = (mergedAt demo_run1.heap.mem 4448
                    (GET_SIZE demo_run1.heap.mem (HDRP 4448))).1
              ∨ y < (mergedAt demo_run1.heap.mem 4448
                    (GET_SIZE demo_run1.heap.mem (HDRP 4448))).1
              ∨ (mergedAt demo_run1.heap.mem 4448
                    (GET_SIZE demo_run1.heap.mem (HDRP 4448))).1
                  + (mergedAt demo_run1.heap.mem 4448
                    (GET_SIZE demo_run1.heap.mem (HDRP 4448))).2 ≤ y :=
  free_coalesces_with_free_neighbours demo_run1 4448 reach_demo_run1 (by decide!)

/-- C18, counterexample.  All calls are on live pointers.  After `mm_init`,
    `p = mm_malloc(24)`, `mm_malloc(24)`, `mm_realloc(p, 4294967288)` (the size
    rounding wraps to 0) and `mm_malloc(56)`, bucket 80 lists the block 4512,
    whose header has a clear allocated bit and the size 4032, and `find_fit(100)`
    returns `NULL`. -/
theorem find_fit_misses_listed_block_after_wrapped_realloc :
    (exec 100 demo [.malloc 24, .malloc 24, .realloc 4448 4294967288, .malloc 56]).map
        (fun r => (entries r.heap.mem 250 (GET r.heap.mem (slot r.heap 80)),
                   GET_SIZE r.heap.mem (HDRP 4512), GET_ALLOC r.heap.mem (HDRP 4512),
                   find_fit r.heap 100))
      = some ([4512], 4032, 0, 0) := by
  decide!

/-- C18, amended.  In every state reached from a successful `mm_init` by calls
    on live pointers whose request sizes `s` all satisfy `s + 15 < 2^32` and of
    which no `mm_realloc` with a size `> 0` returned `NULL` (this is `Reach`):
    when a block whose header size is at least `n` is among the first 250
    entries of one of the 84 bucket lists, `find_fit(n)` returns a block (not
    `NULL`) whose header carries a clear allocated bit and a size of at least
    `n`. -/
theorem find_fit_finds_listed_block (r : Run) (n i k y : Nat) (hr : Reach r) (hn : n < W32)
    (hi : i < 84)
    (hg : (entries r.heap.mem 250 (GET r.heap.mem (slot r.heap (i : Int))))[k]? = some y)
    (hsz : n ≤ GET_SIZE r.heap.mem (HDRP y)) :
    find_fit r.heap n ≠ 0 ∧ GET_ALLOC r.heap.mem (HDRP (find_fit r.heap n)) = 0
      ∧ n ≤ GET_SIZE r.heap.mem (HDRP (find_fit r.heap n)) := by
  obtain ⟨bs, bk, inv, _, _⟩ := hr.inv
  have c := inv.core
  rw [c.slot_eq (by omega), c.slots i hi,
    entries_take (bk i) 0 250 (c.node_ne hi) (c.linked i hi)] at hg
  obtain ⟨hk, hg1⟩ : k < 250 ∧ (bk i)[k]? = some y := by
    by_cases hk : k < 250
    · rw [List.getElem?_take_of_lt hk] at hg
      exact ⟨hk, hg⟩
    · rw [List.getElem?_take_eq_none (by omega)] at hg
      cases hg
  have hyin : y ∈ bk i := List.getElem?_mem hg1
  obtain ⟨t, ht⟩ := (inv.listed y).mp ⟨i, hi, hyin⟩
  obtain ⟨_, _, _, _, r5, _⟩ := c.reads ht
  rw [r5] at hsz
  have hne := find_fit_complete inv hn hi hg1 hk ht hsz
  refine ⟨hne, ?_⟩
  rcases find_fit_spec inv hn with e | ⟨s, hs, hle⟩
  · exact absurd e hne
  · obtain ⟨_, _, _, _, q5, q6, _⟩ := c.reads hs
    rw [q5, q6]
    exact ⟨rfl, hle⟩

theorem find_fit_finds_listed_block_witness :
    find_fit demo_run.heap 100 ≠ 0 ∧ GET_ALLOC demo_run.heap.mem (HDRP (find_fit demo_run.heap 100)) = 0
      ∧ 100 ≤ GET_SIZE demo_run.heap.mem (HDRP (find_fit demo_run.heap 100)) :=
  find_fit_finds_listed_block demo_run 100 81 0 4448 reach_demo_run (by decide) (by decide)
    (by decide!) (by decide!)

/-- C19, counterexample.  All calls are on live pointers.  After `mm_init`,
    `p = mm_malloc(24)`, `mm_malloc(24)`, `mm_realloc(p, 4294967288)` (the size
    rounding wraps to 0) and `mm_malloc(56)`, the slot of bucket 80 holds the
    block 4512 and `minList` is 100. -/
theorem minList_above_listed_bucket_after_wrapped_realloc :
    (exec 100 demo [.malloc 24, .malloc 24, .realloc 4448 4294967288, .malloc 56]).map
        (fun r => (r.heap.minList, GET r.heap.mem (slot r.heap 80))) = some (100, 4512) := by
  decide!

/-- C19, amended.  In every state reached from a successful `mm_init` by calls
    on live pointers whose request sizes `s` all satisfy `s + 15 < 2^32` and of
    which no `mm_realloc` with a size `> 0` returned `NULL` (this is `Reach`),
    `minList` is at most the index of every bucket that is not empty (hence at
    most 83), and not negative.  This is preserved by `add_free_list(y)` for
    every block `y` of the arena that is not an entry of the index, and by
    `remove_free_list(x)` for every entry `x` of the index (the call runs the
    forward re-scan when `x` was the only entry of bucket `minList`); after
    such a removal it is preserved again by `add_free_list(y)` for `x` and for
    every block `y` of the arena that was not an entry. -/
theorem minList_is_lower_bound (r : Run) (hr : Reach r) :
    MinListSound r.heap
    ∧ ∃ N, (blocks r.heap.mem N (first_block r.heap)).getLast?
          = some (r.heap.base + r.heap.brk, 0, 1)
      ∧ (∀ n y s a, r.heap.numFree.toNat < n →
          (y, s, a) ∈ blocks r.heap.mem N (first_block r.heap) → s ≠ 0 →
          y ∉ index_entries r.heap n →
          ∃ h2, (∀ fuel, r.heap.numFree.toNat + 1 ≤ fuel → add_free_list fuel r.heap y = some h2)
            ∧ MinListSound h2)
      ∧ (∀ n x, r.heap.numFree.toNat < n → x ∈ index_entries r.heap n →
          ∃ h1, (∀ fuel, 85 ≤ fuel → remove_free_list fuel r.heap x = some h1)
            ∧ MinListSound h1
            ∧ ∀ y s a, (y, s, a) ∈ blocks r.heap.mem N (first_block r.heap) → s ≠ 0 →
                (y = x ∨ y ∉ index_entries r.heap n) →
                ∃ h2, (∀ fuel, r.heap.numFree.toNat ≤ fuel → add_free_list fuel h1 y = some h2)
                  ∧ MinListSound h2) := by
  obtain ⟨bs, bk, inv, _, _⟩ := hr.inv
  have c := inv.core
  have hblk : ∀ y s a, (y, s, a) ∈ blocks r.heap.mem (bs.length + 1) (first_block r.heap) →
      s ≠ 0 → (y, s, a) ∈ bs := by
    intro y s a hm hs
    rw [inv.blocks_eq] at hm
    rcases List.mem_append.mp hm with e | e
    · exact e
    · simp only [List.mem_singleton, Prod.mk.injEq] at e
      exact absurd e.2.1 hs
  refine ⟨fun i hi hne => minList_le c hi hne, bs.length + 1, ?_, ?_, ?_⟩
  · rw [inv.blocks_eq]; exact getLast?_concat_blk _ _
  · intro n y s a hn hm hs hy
    rw [c.index hn] at hy
    obtain ⟨h2, bk2, f2, _, c2, _⟩ := add_node c (hblk y s a hm hs)
      (fun hh => hy (mem_flatMap_range.mpr hh))
    exact ⟨h2, f2.enough, fun i hi hne => minList_le c2 hi hne⟩
  · intro n x hn hx
    rw [c.index hn] at hx
    have hlx : Listed bk x := mem_flatMap_range.mp hx
    obtain ⟨h1, bk1, f1, _, c1, n1, l1⟩ := remove_node c hlx
    have hcount := c.count
    have hpos : 0 < total bk 84 := by
      obtain ⟨i, hi, hm⟩ := hlx
      have := total_ge bk (i := i) (n := 84) hi
      have := List.length_pos_of_mem hm
      omega
    refine ⟨h1, f1.enough, fun i hi hne => minList_le c1 hi hne, fun y s a hm hs hy => ?_⟩
    have hnl : ¬ Listed bk1 y := by
      intro hh
      have h2 := (l1 y).mp hh
      rcases hy with e | e
      · exact h2.2 e
      · rw [c.index hn] at e
        exact e (mem_flatMap_range.mpr h2.1)
    obtain ⟨h2, bk2, f2, _, c2, _⟩ := add_node c1 (hblk y s a hm hs) hnl
    exact ⟨h2, fun fuel hfu => f2.enough fuel (by omega),
      fun i hi hne => minList_le c2 hi hne⟩

theorem minList_is_lower_bound_witness :
    MinListSound demo_run1.heap
    ∧ ∃ N, (blocks demo_run1.heap.mem N (first_block demo_run1.heap)).getLast?
          = some (demo_run1.heap.base + demo_run1.heap.brk, 0, 1)
      ∧ (∀ n y s a, demo_run1.heap.numFree.toNat < n →
          (y, s, a) ∈ blocks demo_run1.heap.mem N (first_block demo_run1.heap) → s ≠ 0 →
          y ∉ index_entries demo_run1.heap n →
          ∃ h2, (∀ fuel, demo_run1.heap.numFree.toNat + 1 ≤ fuel →
              add_free_list fuel demo_run1.heap y = some h2)
            ∧ MinListSound h2)
      ∧ (∀ n x, demo_run1.heap.numFree.toNat < n → x ∈ index_entries demo_run1.heap n →
          ∃ h1, (∀ fuel, 85 ≤ fuel → remove_free_list fuel demo_run1.heap x = some h1)
            ∧ MinListSound h1
            ∧ ∀ y s a, (y, s, a) ∈ blocks demo_run1.heap.mem N (first_block demo_run1.heap) →
                s ≠ 0 → (y = x ∨ y ∉ index_entries demo_run1.heap n) →
                ∃ h2, (∀ fuel, demo_run1.heap.numFree.toNat ≤ fuel →
                    add_free_list fuel h1 y = some h2)
                  ∧ MinListSound h2) :=
  minList_is_lower_bound demo_run1 reach_demo_run1

/-- C20, counterexample.  After `mm_init`, `p = mm_malloc(24)`, `mm_malloc(24)`
    and `mm_realloc(p, 4294967288)` (the size rounding wraps to 0), the arena
    holds two free blocks, both in the index, and `numFree` is 1. -/
theorem numFree_miscounts_after_wrapped_realloc :
    (exec 100 demo [.malloc 24, .malloc 24, .realloc 4448 4294967288]).map
        (fun r => (r.heap.numFree, index_entries r.heap 5,
                   blocks r.heap.mem 5 (first_block r.heap)))
      = some (1, [4448, 4512], [(4448, 64, 0), (4512, 4032, 0), (8544, 0, 1)]) := by
  decide!

/-- C20, amended.  In every state reached from a successful `mm_init` by calls
    on live pointers whose request sizes `s` satisfy `s + 15 < 2^32`: the walk
    over the arena reaches the epilogue header; the 84 bucket lists, read to
    their ends, have no repeated entry and hold exactly the payload addresses
    of the blocks of the walk whose allocated bit is clear; every entry of
    bucket `i` has a header size `s` with `min(s / 50, 83) = i`; in each list
    the prev link of the head is empty, the next link of the last entry is
    empty, and each entry is the next of its prev and the prev of its next;
    and `numFree` is the number of blocks of the walk whose allocated bit is
    clear. -/
theorem index_consistent_in_contract (r : Run) (hr : Reach r) :
    ∃ n k, (blocks r.heap.mem n (first_block r.heap)).getLast?
          = some (r.heap.base + r.heap.brk, 0, 1)
      ∧ (∀ i : Nat, i < 84 →
          (entries r.heap.mem k (GET r.heap.mem (slot r.heap (i : Int)))).length < k)
      ∧ (index_entries r.heap k).Nodup
      ∧ (∀ y, y ∈ index_entries r.heap k
          ↔ ∃ s, (y, s, 0) ∈ blocks r.heap.mem n (first_block r.heap))
      ∧ (∀ i : Nat, i < 84 →
          ∀ y ∈ entries r.heap.mem k (GET r.heap.mem (slot r.heap (i : Int))),
            bucket (GET_SIZE r.heap.mem (HDRP y)) = i)
      ∧ (∀ i : Nat, i < 84 →
          Linked r.heap.mem 0 (entries r.heap.mem k (GET r.heap.mem (slot r.heap (i : Int)))) 0)
      ∧ r.heap.numFree
          = (((blocks r.heap.mem n (first_block r.heap)).filter fun b => b.2.2 = 0).length
              : Nat) := by
  obtain ⟨bs, bk, inv, _, _⟩ := hr.inv
  have c := inv.core
  have hcount := c.count
  have hent : ∀ i : Nat, i < 84 →
      entries r.heap.mem (r.heap.numFree.toNat + 1) (GET r.heap.mem (slot r.heap (i : Int)))
        = bk i := by
    intro i hi
    rw [c.slot_eq (by omega), c.slots i hi]
    refine entries_linked (bk i) 0 _ (c.node_ne hi) (c.linked i hi) ?_
    have := total_ge bk (i := i) (n := 84) hi
    omega
  refine ⟨bs.length + 1, r.heap.numFree.toNat + 1, ?_, ?_, ?_, ?_, ?_, ?_, ?_⟩
  · rw [inv.blocks_eq]; exact getLast?_concat_blk _ _
  · intro i hi
    rw [hent i hi]
    have := total_ge bk (i := i) (n := 84) hi
    omega
  · rw [c.index (by omega)]; exact c.index_nodup
  · intro y
    rw [c.index (by omega), inv.blocks_eq, mem_flatMap_range]
    constructor
    · intro hy
      obtain ⟨s, hs⟩ := (inv.listed y).mp hy
      exact ⟨s, List.mem_append_left _ hs⟩
    · rintro ⟨s, hs⟩
      rcases List.mem_append.mp hs with e | e
      · exact (inv.listed y).mpr ⟨s, e⟩
      · simp only [List.mem_singleton, Prod.mk.injEq] at e
        exact absurd e.2.2 (by decide)
  · intro i hi y hy
    rw [hent i hi] at hy
    obtain ⟨s, a, hm, hb⟩ := c.nodes i hi y hy
    obtain ⟨_, _, _, _, r5, _⟩ := c.reads hm
    rw [r5]
    exact hb
  · intro i hi
    rw [hent i hi]
    exact c.linked i hi
  · rw [inv.blocks_eq, filter_free_concat, inv.count_free]
    exact hcount

theorem index_consistent_in_contract_witness :
    ∃ n k, (blocks demo_run1.heap.mem n (first_block demo_run1.heap)).getLast?
          = some (demo_run1.heap.base + demo_run1.heap.brk, 0, 1)
      ∧ (∀ i : Nat, i < 84 →
          (entries demo_run1.heap.mem k
            (GET demo_run1.heap.mem (slot demo_run1.heap (i : Int)))).length < k)
      ∧ (index_entries demo_run1.heap k).Nodup
      ∧ (∀ y, y ∈ index_entries demo_run1.heap k
          ↔ ∃ s, (y, s, 0) ∈ blocks demo_run1.heap.mem n (first_block demo_run1.heap))
      ∧ (∀ i : Nat, i < 84 →
          ∀ y ∈ entries demo_run1.heap.mem k
              (GET demo_run1.heap.mem (slot demo_run1.heap (i : Int))),
            bucket (GET_SIZE demo_run1.heap.mem (HDRP y)) = i)
      ∧ (∀ i : Nat, i < 84 →
          Linked demo_run1.heap.mem 0
            (entries demo_run1.heap.mem k
              (GET demo_run1.heap.mem (slot demo_run1.heap (i : Int)))) 0)
      ∧ demo_run1.heap.numFree
          = (((blocks demo_run1.heap.mem n (first_block demo_run1.heap)).filter
              fun b => b.2.2 = 0).length : Nat) :=
  index_consistent_in_contract demo_run1 reach_demo_run1

/-- C12.  For an empty arena at an 8-byte aligned `base` that can grow to `cap`
    bytes (inside the 32-bit address space, `cap < 2^31`): both growth requests
    of `mm_init` (352 bytes, then 4096 bytes) succeed exactly when `cap >= 4448`;
    otherwise `mm_init` returns -1; when they succeed it returns 0 and leaves an
    arena of 4448 bytes: the prologue of 344 bytes (allocated, header and footer
    345) with the bucket table, one free block of 4096 bytes at `base + 352`,
    and the epilogue header; bucket slot 81 holds that block and every other
    slot is empty, both links of the block are empty, the index read from the
    table is that one block, `numFree` is 1 and `minList` is 81. -/
theorem mm_init_result (fuel : Nat) (m : Mem) (base cap : Nat) (hb : base % 8 = 0)
    (hr : base + cap < W32) (hc : cap < 2147483648) :
    (((mem_sbrk (boot m base cap) 352).1 ≠ 4294967295
        ∧ (mem_sbrk (mem_sbrk (boot m base cap) 352).2 4096).1 ≠ 4294967295) ↔ 4448 ≤ cap)
    ∧ (cap < 4448 → ∃ h, mm_init fuel (boot m base cap) = some (-1, h))
    ∧ (4448 ≤ cap → ∃ h, mm_init fuel (boot m base cap) = some (0, h)
        ∧ h.base = base ∧ h.brk = 4448 ∧ h.heap_listp = base + 8
        ∧ GET h.mem (base + 4) = 345 ∧ GET h.mem (base + 344) = 345
        ∧ blocks h.mem 2 (first_block h) = [(base + 352, 4096, 0), (base + 4448, 0, 1)]
        ∧ GET h.mem (FTRP h.mem (base + 352)) = 4096
        ∧ (∀ i : Nat, i < 84 →
            GET h.mem (slot h (i : Int)) = if i = 81 then base + 352 else 0)
        ∧ GET h.mem (base + 352) = 0 ∧ GET h.mem (base + 352 + 4) = 0
        ∧ index_entries h 2 = [base + 352]
        ∧ h.numFree = 1 ∧ h.minList = 81) := by
  refine ⟨?_, fun hcap => mm_init_fails fuel m hb hr hc hcap, fun hcap => ?_⟩
  · unfold mem_sbrk boot
    dsimp only
    by_cases h1 : 0 + 352 ≤ cap
    · rw [if_pos h1]
      dsimp only
      by_cases h2 : 0 + 352 + 4096 ≤ cap
      · rw [if_pos h2]
        dsimp only
        unfold W32 at hr
        constructor
        · intro _; omega
        · intro _; constructor <;> omega
      · rw [if_neg h2]
        dsimp only
        constructor
        · intro hh; exact absurd rfl hh.2
        · intro _; omega
    · rw [if_neg h1]
      dsimp only
      constructor
      · intro hh; exact absurd rfl hh.1
      · intro _; omega
  · obtain ⟨h, bk, hev, inv, e1, e2, e3, e4, e5, hbk⟩ := mm_init_state fuel m hb hr hc hcap
    have c := inv.core
    have hp := c.tagged (h.base + 8, 344, 1) (List.mem_cons_self _ _)
    have hw := inv.blocks_eq
    have hm : (base + 352, 4096, 0) ∈ [((base + 352, 4096, 0) : Blk)] :=
      List.mem_singleton.mpr rfl
    obtain ⟨_, _, _, r4, _⟩ := c.reads hm
    have hl := c.linked 81 (by decide)
    rw [hbk 81 (by decide), if_pos rfl] at hl
    obtain ⟨l1, l2, _⟩ := hl
    dsimp only at hp
    rw [e1] at hp
    rw [e1, e2] at hw
    refine ⟨h, hev, e1, e2, ?_, ?_, ?_, hw, r4, ?_, l1, l2, ?_, e4, e5⟩
    · rw [c.listp, e1]
    · exact hp.1
    · exact hp.2
    · intro i hi
      rw [c.slot_eq (by omega), c.slots i hi, hbk i hi]
      by_cases e : i = 81
      · rw [if_pos e, if_pos e]; rfl
      · rw [if_neg e, if_neg e]; rfl
    · rw [c.index (by rw [e4]; decide)]
      rw [List.flatMap_congr (g := fun i => if i = 81 then [base + 352] else [])
        (fun i hi => hbk i (List.mem_range.mp hi)), flatMap_range_single]
      rfl

theorem mm_init_result_witness :
    (((mem_sbrk (boot (fun _ => 0) 4096 1048576) 352).1 ≠ 4294967295
        ∧ (mem_sbrk (mem_sbrk (boot (fun _ => 0) 4096 1048576) 352).2 4096).1 ≠ 4294967295)
      ↔ 4448 ≤ 1048576)
    ∧ (1048576 < 4448 → ∃ h, mm_init 0 (boot (fun _ => 0) 4096 1048576) = some (-1, h))
    ∧ (4448 ≤ 1048576 → ∃ h, mm_init 0 (boot (fun _ => 0) 4096 1048576) = some (0, h)
        ∧ h.base = 4096 ∧ h.brk = 4448 ∧ h.heap_listp = 4096 + 8
        ∧ GET h.mem (4096 + 4) = 345 ∧ GET h.mem (4096 + 344) = 345
        ∧ blocks h.mem 2 (first_block h) = [(4096 + 352, 4096, 0), (4096 + 4448, 0, 1)]
        ∧ GET h.mem (FTRP h.mem (4096 + 352)) = 4096
        ∧ (∀ i : Nat, i < 84 →
            GET h.mem (slot h (i : Int)) = if i = 81 then 4096 + 352 else 0)
        ∧ GET h.mem (4096 + 352) = 0 ∧ GET h.mem (4096 + 352 + 4) = 0
        ∧ index_entries h 2 = [4096 + 352]
        ∧ h.numFree = 1 ∧ h.minList = 81) :=
  mm_init_result 0 (fun _ => 0) 4096 1048576 (by decide) (by decide) (by decide)

/-- C5, amended.  In every state reached from a successful `mm_init` by calls
    on live pointers whose request sizes `s` all satisfy `s + 15 < 2^32` and of
    which no `mm_realloc` with a size `> 0` returned `NULL` (this is `Reach`),
    for every live pointer `p` and every request `0 < size` with
    `size + 15 < 2^32`: whenever `mm_realloc(p, size)` returns a pointer `q`
    that is not `NULL`, the first `min(c, size)` bytes at `q` after the call are
    the first `min(c, size)` bytes at `p` before the call, where `c` is the
    block size `GET_SIZE(HDRP(p))` minus 8.  The call does return such a pointer
    (the same for every sufficient amount of fuel) unless `find_fit` finds no
    block for the adjusted size and `mem_sbrk` fails for
    `MAX(adjusted size, CHUNKSIZE)` bytes. -/
theorem realloc_keeps_content (r : Run) (p size : Nat) (hr : Reach r) (hp : p ∈ r.live)
    (h0 : 0 < size) (hs : size + 15 < W32) :
    (∀ fuel q h1, mm_realloc fuel r.heap p size = some (q, h1) → q ≠ 0 →
        ∀ i, i < min (GET_SIZE r.heap.mem (HDRP p) - 8) size →
          h1.mem (q + i) = r.heap.mem (p + i))
    ∧ ((∃ n q h1, q ≠ 0 ∧ ∀ fuel, n ≤ fuel → mm_realloc fuel r.heap p size = some (q, h1))
        ∨ (find_fit r.heap (adjust size) = 0
            ∧ (mem_sbrk r.heap (MAX (adjust size) CHUNKSIZE)).1 = 4294967295)) := by
  obtain ⟨bs, bk, inv, _, hl⟩ := hr.inv
  obtain ⟨s, hm⟩ := hl p hp
  obtain ⟨_, _, _, _, r5, _⟩ := inv.core.reads hm
  rw [r5]
  rcases mm_realloc_full inv hm (by omega) hs with
    ⟨n, q, h1, bs1, bk1, ζ, hq, f1, _, _, _, _, _, _, _, hk⟩ | ⟨hoom, hnull⟩
  · refine ⟨fun fuel q2 h2 hres hq2 i hi => ?_, Or.inl ⟨n, q, h1, hq, f1.enough⟩⟩
    have e := f1.eq_of_some hres
    simp only [Prod.mk.injEq] at e
    obtain ⟨e1, e2⟩ := e
    subst e1
    subst e2
    exact hk i (lt_min_iff.mp hi).1 (lt_min_iff.mp hi).2
  · exact ⟨fun fuel q2 h2 hres hq2 => absurd (hnull fuel _ hres) hq2, Or.inr hoom⟩

theorem realloc_keeps_content_witness :
    (∀ fuel q h1, mm_realloc fuel demo_run1.heap 4448 100 = some (q, h1) → q ≠ 0 →
        ∀ i, i < min (GET_SIZE demo_run1.heap.mem (HDRP 4448) - 8) 100 →
          h1.mem (q + i) = demo_run1.heap.mem (4448 + i))
    ∧ ((∃ n q h1, q ≠ 0
          ∧ ∀ fuel, n ≤ fuel → mm_realloc fuel demo_run1.heap 4448 100 = some (q, h1))
        ∨ (find_fit demo_run1.heap (adjust 100) = 0
            ∧ (mem_sbrk demo_run1.heap (MAX (adjust 100) CHUNKSIZE)).1 = 4294967295)) :=
  realloc_keeps_content demo_run1 4448 100 reach_demo_run1 (by decide!) (by decide)
    (by decide)

/-! ## Allocate, free, allocate again: the round trip -/

